import Mathlib

/-!
# wf-tools: ELF object model and region allocator

A shallow embedding of the Go packages `relocation` (region allocator) and
`elf` (reader, writer, section garbage collector), followed by theorems
about them.

Conventions of the embedding:

* Go's `uint64`/`uint32`/`uint16`/`uint8` values are natural numbers; every
  arithmetic operation that can wrap is followed by an explicit reduction
  modulo `2 ^ w`.  Go's `int64`/`int` values are integers.
* A byte is a natural number (below 256 in every byte the writer emits).
* A Go `string` is the list of its bytes.
* A pointer is an address (a natural number) into a memory of records; `nil`
  is `none`.
* A Go panic, and a loop that is still running when the fuel is used up, are
  explicit outcomes (`Halt`).
-/

set_option autoImplicit false
set_option maxRecDepth 100000

/-- Why a run produced no result: a Go panic, or the loop was still running
when the fuel ran out. -/
inductive Halt where
  | panic
  | fuel
deriving DecidableEq

/-- The modulus of 64-bit unsigned arithmetic. -/
abbrev M64 : Nat := 18446744073709551616

/-- The first value that is negative as an `int64`. -/
abbrev H64 : Nat := 9223372036854775808

/-- Go `a + b` on `uint64`. -/
def add64 (a b : Nat) : Nat := (a + b) % M64

/-- Go `a - b` on `uint64`. -/
def sub64 (a b : Nat) : Nat := (a % M64 + (M64 - b % M64)) % M64

/-- Go `int64(x)` for a `uint64` value `x`. -/
def toInt64 (x : Nat) : Int :=
  if x % M64 < H64 then ((x % M64 : Nat) : Int) else ((x % M64 : Nat) : Int) - (M64 : Int)

/-- Go `uint64(z)` for an `int64` value `z`. -/
def ofInt64 (z : Int) : Nat := (z % (M64 : Int)).toNat

namespace Relocation

/-- The state of an object implementing `RegionPlaceable` (as
`MockRegionEntry` does): `Offset()`, `Size()`, `Alignment()`, with `SetOffset`
a field update.  In Go a region stores pointers to such objects; `Region`
below stores their values, which is what the region reads, and is exact as
long as no object is stored twice.  `PtrRegion` stores the pointers. -/
structure Entry where
  offset : Nat
  size : Nat
  align : Nat
deriving DecidableEq

/-- Go `Region[T]`. -/
structure Region where
  offset : Nat
  size : Nat
  entries : List Entry
  descending : Bool
deriving DecidableEq

/-- Go `NewRegion`. -/
def NewRegion (offset size : Nat) (descending : Bool) : Region :=
  { offset := offset, size := size, entries := [], descending := descending }

/-- Go `Region.Empty`. -/
def Region.Empty (r : Region) : Bool := r.entries.length == 0

/-- Go `Region.UsedStart`. -/
def Region.UsedStart (r : Region) : Nat :=
  match r.entries with
  | first :: _ => first.offset
  | [] => r.offset

/-- Go `Region.UsedEnd`. -/
def Region.UsedEnd (r : Region) : Nat :=
  match r.entries.getLast? with
  | some last => sub64 (add64 last.offset last.size) 1
  | none => r.UsedStart

/-- Go `Region.Full`. -/
def Region.Full (r : Region) : Bool :=
  if r.descending then r.UsedStart == r.offset
  else r.UsedEnd == sub64 (add64 r.offset r.size) 1

/-- Go `calcEntryOffset(start, end, len, descending, align)`. -/
def calcEntryOffset (start stop len : Nat) (descending : Bool) (align : Nat) : Bool × Nat :=
  if descending then
    let offset := sub64 stop len
    let offset := if align > 1 then sub64 offset (offset % align) else offset
    if offset ≥ start then (true, offset) else (false, 0)
  else
    let offset := start
    let offset :=
      if align > 1 then
        let o := add64 offset (align - 1)
        sub64 o (o % align)
      else offset
    if add64 offset len ≤ stop then (true, offset) else (false, 0)

/-- Go `RegionFindGapModeSmallest` (iota 0). -/
abbrev RegionFindGapModeSmallest : Nat := 0
/-- Go `RegionFindGapModeLargest` (iota 1). -/
abbrev RegionFindGapModeLargest : Nat := 1
/-- Go `RegionFindGapModeFirst` (iota 2). -/
abbrev RegionFindGapModeFirst : Nat := 2

/-- The closure `newBestGap` of `findGap`; `gapSize` is the captured variable
at the time of the call. -/
def newBestGap (mode : Nat) (minimumSize gapSize newGapSize : Int) : Bool :=
  if newGapSize < minimumSize then false
  else if mode = RegionFindGapModeFirst then true
  else if mode = RegionFindGapModeLargest then decide (newGapSize > gapSize)
  else decide (newGapSize < gapSize)

/-- The statements after the `for` loop of `findGap`. -/
def findGapEnd (minimumSize : Int) (gapStart : Nat) (gapSize : Int) (gapIndex : Nat) :
    Bool × Nat × Nat × Nat :=
  if gapSize < minimumSize then (false, 0, 0, 0)
  else (true, gapStart, add64 gapStart (ofInt64 gapSize), gapIndex)

/-- The `for i := 1; i <= len(r.entries); i++` loop of `findGap`, at
iteration `i`, where `rest` is `r.entries[i:]`. -/
def findGapLoop (r : Region) (offsetMin offsetMax mode : Nat) (minimumSize : Int)
    (startIndex : Nat) :
    List Entry → Nat → Entry → Nat → Int → Nat → Bool × Nat × Nat × Nat
  | [], i, previous, gapStart, gapSize, gapIndex =>
    let currentGapStart := max offsetMin (add64 previous.offset previous.size)
    let currentGapEnd := min offsetMax (add64 r.offset r.size)
    let currentGap := toInt64 (sub64 currentGapEnd currentGapStart)
    if newBestGap mode minimumSize gapSize currentGap then
      if mode = RegionFindGapModeFirst ∧ i ≥ startIndex then
        (true, currentGapStart, add64 currentGapStart (ofInt64 currentGap), i)
      else findGapEnd minimumSize currentGapStart currentGap i
    else findGapEnd minimumSize gapStart gapSize gapIndex
  | current :: rest, i, previous, gapStart, gapSize, gapIndex =>
    let currentGapStart := max offsetMin (add64 previous.offset previous.size)
    let currentGapEnd := min (min offsetMax (add64 r.offset r.size)) current.offset
    let currentGap := toInt64 (sub64 currentGapEnd currentGapStart)
    if newBestGap mode minimumSize gapSize currentGap then
      if mode = RegionFindGapModeFirst ∧ i ≥ startIndex then
        (true, currentGapStart, add64 currentGapStart (ofInt64 currentGap), i)
      else
        findGapLoop r offsetMin offsetMax mode minimumSize startIndex rest (i + 1) current
          currentGapStart currentGap i
    else
      findGapLoop r offsetMin offsetMax mode minimumSize startIndex rest (i + 1) current
        gapStart gapSize gapIndex

/-- Go `Region.findGap`. -/
def Region.findGap (r : Region) (offsetMin offsetMax mode : Nat) (minimumSize : Int)
    (startIndex : Nat) : Except Halt (Bool × Nat × Nat × Nat) :=
  match r.entries with
  | [] =>
    if toInt64 (sub64 offsetMax offsetMin) ≥ minimumSize then .ok (true, offsetMin, offsetMax, 0)
    else .ok (false, 0, 0, 0)
  | first :: rest =>
    if startIndex > 0 ∧ mode ≠ RegionFindGapModeFirst then .error Halt.panic
    else
      let gapStart := max offsetMin r.offset
      let gapSize := toInt64 (sub64 first.offset offsetMin)
      if mode = RegionFindGapModeFirst ∧ gapSize ≥ minimumSize ∧ 0 ≥ startIndex then
        .ok (true, gapStart, add64 gapStart (ofInt64 gapSize), 0)
      else
        .ok (findGapLoop r offsetMin offsetMax mode minimumSize startIndex rest 1 first
          gapStart gapSize 0)

/-- Go `Region.FindGap`. -/
def Region.FindGap (r : Region) (offsetMin offsetMax mode : Nat) (minimumSize : Int) :
    Except Halt (Bool × Nat × Nat) :=
  match r.findGap offsetMin offsetMax mode minimumSize 0 with
  | .ok (ok, gapStart, gapEnd, _) => .ok (ok, gapStart, gapEnd)
  | .error h => .error h

/-- Go `Region.FindAnyGap`. -/
def Region.FindAnyGap (r : Region) (mode : Nat) (minimumSize : Int) :
    Except Halt (Bool × Nat × Nat) :=
  r.FindGap r.offset (add64 r.offset r.size) mode minimumSize

/-- Go `slices.Insert(s, i, v)` for `i ≤ len(s)`. -/
def slicesInsert {α : Type} (s : List α) (i : Nat) (v : α) : List α :=
  s.take i ++ v :: s.drop i

/-- What `Place` gives back: the two returned values, and the region and the
entry as the call leaves them. -/
structure PlaceResult where
  ok : Bool
  ret : Nat
  region : Region
  entry : Entry
deriving DecidableEq

/-- The `for ok` loop of `Region.Place` on the values of the entries;
`startIndex` is `gapIndex+1`.  The entry placed is a new object: its value
with the new offset is inserted.  `ptrPlaceLoop` is the same loop for a
region of pointers, where `SetOffset` moves every stored copy of the pointer. -/
def placeLoop (r : Region) (entry : Entry) (offsetMin offsetMax : Nat) (simulate : Bool) :
    Nat → Nat → Except Halt PlaceResult
  | 0, _ => .error Halt.fuel
  | fuel + 1, startIndex =>
    match r.findGap offsetMin offsetMax RegionFindGapModeFirst (toInt64 entry.size) startIndex with
    | .error h => .error h
    | .ok (false, _, _, _) => .ok { ok := false, ret := 0, region := r, entry := entry }
    | .ok (true, gapStart, gapEnd, gapIndex) =>
      match calcEntryOffset gapStart gapEnd entry.size r.descending entry.align with
      | (true, offset) =>
        if simulate then .ok { ok := true, ret := r.offset, region := r, entry := entry }
        else
          let placed : Entry := { entry with offset := offset }
          .ok { ok := true, ret := r.offset,
                region := { r with entries := slicesInsert r.entries gapIndex placed },
                entry := placed }
      | (false, _) => placeLoop r entry offsetMin offsetMax simulate fuel (gapIndex + 1)

/-- Go `Region.Place(entry, offsetRange, simulate)`; `offsetRange = none` is
the nil slice.  `fuel` bounds the iterations of the retry loop. -/
def Region.Place (fuel : Nat) (r : Region) (entry : Entry) (offsetRange : Option (List Nat))
    (simulate : Bool) : Except Halt PlaceResult :=
  let offsetMin := r.offset
  let offsetMax := add64 r.offset r.size
  let bounds : Except Halt (Nat × Nat) :=
    match offsetRange with
    | none => .ok (offsetMin, offsetMax)
    | some [lo, hi] => .ok (max offsetMin lo, min offsetMax (add64 hi 1))
    | some [x] => .ok (max offsetMin x, min offsetMax (add64 x entry.size))
    | some _ => .error Halt.panic
  match bounds with
  | .error h => .error h
  | .ok (offsetMin, offsetMax) =>
    if r.size ≥ sub64 offsetMax offsetMin then
      placeLoop r entry offsetMin offsetMax simulate fuel 0
    else .ok { ok := false, ret := 0, region := r, entry := entry }

/-- Places the entries one after the other with no offset range and
`simulate = false`, as the tests do; gives the final region and the placed
entries, or nothing as soon as one placement does not succeed. -/
def placeAll (fuel : Nat) : Region → List Entry → Option (Region × List Entry)
  | r, [] => some (r, [])
  | r, e :: es =>
    match r.Place fuel e none false with
    | .ok res =>
      if res.ok then
        match placeAll fuel res.region es with
        | some (r2, placed) => some (r2, res.entry :: placed)
        | none => none
      else none
    | .error _ => none

/-- The gaps of an entry list laid out in `[lo, hi)`: before the first entry,
between consecutive entries, after the last entry. -/
def gaps (lo hi : Nat) : List Entry → List (Nat × Nat)
  | [] => [(lo, hi)]
  | a :: rest => (lo, a.offset) :: gaps (a.offset + a.size) hi rest

/-- The entries lie in `[lo, hi)` one after the other without overlap, each of
size at least 1. -/
def Packed (lo hi : Nat) : List Entry → Prop
  | [] => lo ≤ hi
  | a :: rest => lo ≤ a.offset ∧ 1 ≤ a.size ∧ Packed (a.offset + a.size) hi rest

/-- Offset `x` is admissible for an entry of the given size and alignment:
aligned, inside `[lo, hi)`, overlapping none of the entries. -/
def Fits (lo hi : Nat) (es : List Entry) (size align x : Nat) : Prop :=
  (align ≤ 1 ∨ x % align = 0) ∧ lo ≤ x ∧ x + size ≤ hi ∧
    ∀ a ∈ es, x + size ≤ a.offset ∨ a.offset + a.size ≤ x

/-- Offset `x` is admissible inside the gap `g`. -/
def FitsGap (g : Nat × Nat) (size align x : Nat) : Prop :=
  (align ≤ 1 ∨ x % align = 0) ∧ g.1 ≤ x ∧ x + size ≤ g.2

/-- The region's entries are sorted by offset, pairwise disjoint and inside
the region. -/
def Region.WellFormed (r : Region) : Prop :=
  r.entries.Pairwise (fun a b => a.offset ≤ b.offset) ∧
  r.entries.Pairwise
    (fun a b => a.offset + a.size ≤ b.offset ∨ b.offset + b.size ≤ a.offset) ∧
  ∀ a ∈ r.entries, r.offset ≤ a.offset ∧ a.offset + a.size ≤ r.offset + r.size

instance (r : Region) : Decidable r.WellFormed := by
  unfold Region.WellFormed; infer_instance

/-- The entries laid out one after the other upwards from offset `o`. -/
def packAt (o : Nat) : List Entry → List Entry
  | [] => []
  | e :: es => { e with offset := o } :: packAt (o + e.size) es

/-- The entries laid out one below the other downwards from offset `top`. -/
def packDown (top : Nat) : List Entry → List Entry
  | [] => []
  | e :: es => { e with offset := top - e.size } :: packDown (top - e.size) es

/-- The sum of the sizes of the entries. -/
def totalSize (es : List Entry) : Nat := (es.map Entry.size).sum

/-- The lowest used offset of an entry list below `hi`: the offset of the
first entry, or `hi` when there is none. -/
def topOf (hi : Nat) : List Entry → Nat
  | [] => hi
  | first :: _ => first.offset

end Relocation

/-! ## The ELF object model (Go package `elf`) -/

namespace elf

/-! ### Bytes and byte order -/

/-- The `w` little-endian bytes of `v` (of `v mod 2^(8w)`). -/
def leBytes : Nat → Nat → List Nat
  | 0, _ => []
  | w + 1, v => v % 256 :: leBytes w (v / 256)

/-- The value of a little-endian byte sequence. -/
def leValue : List Nat → Nat
  | [] => 0
  | b :: bs => b + 256 * leValue bs

/-- Go `binary.Write` of one unsigned integer of `w` bytes; `be` selects
`binary.BigEndian`. -/
def putUint (be : Bool) (w v : Nat) : List Nat :=
  if be then (leBytes w v).reverse else leBytes w v

/-- Go `binary.Read` of one unsigned integer from its bytes. -/
def getUint (be : Bool) (bs : List Nat) : Nat :=
  if be then leValue bs.reverse else leValue bs

/-- Go `uint64(z)`, `uint32(z)`, ... for a signed `z`: reduction modulo `2^bits`. -/
def wrapU (bits : Nat) (z : Int) : Nat := (z % ((2 ^ bits : Nat) : Int)).toNat

/-- Go `int64(x)`, `int32(x)` for an unsigned `x`: two's complement reading. -/
def wrapS (bits : Nat) (x : Nat) : Int :=
  if x % 2 ^ bits < 2 ^ (bits - 1) then ((x % 2 ^ bits : Nat) : Int)
  else ((x % 2 ^ bits : Nat) : Int) - ((2 ^ bits : Nat) : Int)

/-! ### Constants (`constants.go`) -/

abbrev ELFCLASS32 : Nat := 1
abbrev ELFCLASS64 : Nat := 2
abbrev ELFDATA2LSB : Nat := 1
abbrev ELFDATA2MSB : Nat := 2
abbrev SHN_UNDEF : Nat := 0
abbrev SHN_LORESERVE : Nat := 0xFF00
abbrev SHN_ABS : Nat := 0xFFF1
abbrev SHN_COMMON : Nat := 0xFFF2
abbrev SHN_XINDEX : Nat := 0xFFFF
abbrev SHT_NULL : Nat := 0
abbrev SHT_PROGBITS : Nat := 1
abbrev SHT_SYMTAB : Nat := 2
abbrev SHT_STRTAB : Nat := 3
abbrev SHT_RELA : Nat := 4
abbrev SHT_NOBITS : Nat := 8
abbrev SHT_REL : Nat := 9
abbrev SHT_SYMTAB_SHNDX : Nat := 18
abbrev SHF_GNU_RETAIN : Nat := 0x00200000
abbrev STB_LOCAL : Int := 0
abbrev STB_GLOBAL : Int := 1
abbrev STB_WEAK : Int := 2

/-- Go `SectionHeaderType.HasSectionInInfo`. -/
def HasSectionInInfo (s : Nat) : Bool := s == SHT_REL || s == SHT_RELA

/-- Go `SectionHeaderType.HasDataInFile`. -/
def HasDataInFile (s : Nat) : Bool := s != SHT_NOBITS

/-! ### Data model (`types.go`) -/

/-- Go `ProgramHeader`. -/
structure ProgramHeader where
  Type_ : Nat
  Flags : Nat
  offset : Nat
  VAddr : Nat
  PAddr : Nat
  fileSize : Nat
  MemSize : Nat
  Align : Nat
  Data : List Nat
deriving Inhabited

/-- Go `SectionHeader`. -/
structure SectionHeader where
  Name : List Nat
  nameOffset : Nat
  Type_ : Nat
  Flags : Nat
  Address : Nat
  offset : Nat
  Size : Nat
  Link : Nat
  LinkSection : Option Nat
  Info : Nat
  InfoSection : Option Nat
  AddrAlign : Nat
  EntrySize : Nat
  Data : List Nat
deriving Inhabited

/-- Go `Symbol`; `Type` and `Binding` are Go `int`s. -/
structure Symbol where
  Name : List Nat
  nameOffset : Nat
  Type_ : Int
  Binding : Int
  Other : Nat
  Section : Option Nat
  SectionIndex : Nat
  Value : Nat
  Size : Nat
deriving Inhabited

/-- Go `Relocation`. -/
structure Relocation where
  Section : Option Nat
  Symbol : Option Nat
  symbolIndex : Int
  Offset : Nat
  Type_ : Nat
  Addend : Int
deriving Inhabited

/-- Go `Elf` with its embedded `ElfHeader`.  `Sections` and `Symbols` are
slices of non-nil pointers; program headers and relocations are held by value
(no program header or relocation object is shared); `Relocations` lists the
entries of the Go map in the order in which `range` visits them. -/
structure Elf where
  Class : Nat
  Endian : Nat
  HeaderVersion : Nat
  ABI : Nat
  ABIVersion : Nat
  Type_ : Nat
  Machine : Nat
  Version : Nat
  Entry : Nat
  progHdrOffset : Nat
  secHdrOffset : Nat
  Flags : Nat
  headerSize : Nat
  progHdrEntrySize : Nat
  progHdrCount : Nat
  secHdrEntrySize : Nat
  secHdrCount : Nat
  secHdrStrIdx : Nat
  ProgramHeaders : List ProgramHeader
  Sections : List Nat
  Symbols : List Nat
  Relocations : List (Nat × List Relocation)
  symtabIdx : Int
  symtabShndxIdx : Int
deriving Inhabited

/-- The memory the pointers of an image refer to: the section header at
address `p` is `secs[p]`, the symbol at address `q` is `syms[q]`; a new record
is allocated at the end. -/
structure Mem where
  secs : List SectionHeader
  syms : List Symbol
deriving Inhabited

/-- The section header a pointer refers to. -/
def Mem.sec (m : Mem) (p : Nat) : SectionHeader := m.secs.getD p default

/-- The symbol a pointer refers to. -/
def Mem.sym (m : Mem) (p : Nat) : Symbol := m.syms.getD p default

/-- Assignment through a section pointer. -/
def Mem.setSec (m : Mem) (p : Nat) (f : SectionHeader → SectionHeader) : Mem :=
  { m with secs := m.secs.set p (f (m.sec p)) }

/-- Assignment through a symbol pointer. -/
def Mem.setSym (m : Mem) (p : Nat) (f : Symbol → Symbol) : Mem :=
  { m with syms := m.syms.set p (f (m.sym p)) }

/-- Go `slices.Index(s, v)`: the first index of `v`, or `-1`. -/
def slicesIndex (s : List Nat) (v : Nat) : Int :=
  if v ∈ s then (s.indexOf v : Int) else -1

/-- Go `Elf.GetByteOrder`: `true` is `binary.BigEndian`. -/
def Elf.bigEndian (e : Elf) : Bool := e.Endian == ELFDATA2MSB


/-! ### Streams -/

/-- What went wrong: a Go panic or one of the errors `ReadELF` returns. -/
inductive Fault where
  | panic
  | invalidMagic
  | invalidClass
  | unknownType
  | io
deriving DecidableEq

/-- An `io.ReadSeeker` over a finite byte sequence (a `bytes.Reader` or a
file): the bytes and the current position. -/
structure Stream where
  data : List Nat
  pos : Nat
deriving DecidableEq

/-- Go `r.Seek(off, io.SeekStart)`: fails on a negative offset and then leaves
the position unchanged. -/
def Stream.seek (s : Stream) (off : Int) : Except Fault Stream :=
  if off < 0 then .error Fault.io else .ok { s with pos := off.toNat }

/-- Go `r.Seek(off, io.SeekStart)` with the returned error ignored. -/
def Stream.seekIgnore (s : Stream) (off : Int) : Stream :=
  if off < 0 then s else { s with pos := off.toNat }

/-- Go `r.Read(buf)` with `len(buf) = n`: end-of-file is an error; otherwise
the bytes available are copied and the rest of the buffer stays zero. -/
def Stream.read (s : Stream) (n : Nat) : Except Fault (List Nat × Stream) :=
  if s.pos ≥ s.data.length then .error Fault.io
  else
    let got := (s.data.drop s.pos).take n
    .ok (got ++ List.replicate (n - got.length) 0, { s with pos := s.pos + got.length })

/-- Go `binary.Read` of a fixed-size value of `n` bytes (`io.ReadFull`): all
`n` bytes or an error. -/
def Stream.readFull (s : Stream) (n : Nat) : Except Fault (List Nat × Stream) :=
  if s.pos + n ≤ s.data.length then
    .ok ((s.data.drop s.pos).take n, { s with pos := s.pos + n })
  else .error Fault.io

/-- The loop of Go `readString` over the bytes from the current position: the
string up to the first zero byte and the number of bytes consumed. -/
def scanString : List Nat → Option (List Nat × Nat)
  | [] => none
  | b :: rest =>
    if b = 0 then some ([], 1)
    else
      match scanString rest with
      | some (str, n) => some (b :: str, n + 1)
      | none => none

/-- Go `readString(r)` (`serialization_util.go`). -/
def readString (s : Stream) : Except Fault (List Nat × Stream) :=
  match scanString (s.data.drop s.pos) with
  | some (str, n) => .ok (str, { s with pos := s.pos + n })
  | none => .error Fault.io

/-- Go `binary.Write` of a struct: its fields one after the other, each given
as (width in bytes, value). -/
def putFields (be : Bool) : List (Nat × Nat) → List Nat
  | [] => []
  | (w, v) :: fs => putUint be w v ++ putFields be fs

/-- Go `binary.Read` of a struct from its bytes: the values of the fields of
the given widths. -/
def getFields (be : Bool) : List Nat → List Nat → List Nat
  | [], _ => []
  | w :: ws, bs => getUint be (bs.take w) :: getFields be ws (bs.drop w)

/-! ### ELF header (`serialization_header.go`) -/

/-- Go `Elf.sizeElfHeader`. -/
def Elf.sizeElfHeader (e : Elf) : Nat :=
  if e.Class = ELFCLASS64 then 48 + 16 else 36 + 16

/-- Go `Elf.readElfHeader`. -/
def Elf.readElfHeader (e : Elf) (s : Stream) : Except Fault (Elf × Stream) :=
  match s.read 16 with
  | .error f => .error f
  | .ok (ident, s) =>
    if ident.getD 0 0 ≠ 0x7F ∨ ident.getD 1 0 ≠ 0x45 ∨ ident.getD 2 0 ≠ 0x4C
        ∨ ident.getD 3 0 ≠ 0x46 then .error Fault.invalidMagic
    else
      let e := { e with Class := ident.getD 4 0, Endian := ident.getD 5 0,
                        HeaderVersion := ident.getD 6 0 }
      let parsed : Except Fault (Elf × Stream) :=
        if e.Class = ELFCLASS64 then
          let e := { e with ABI := ident.getD 7 0, ABIVersion := ident.getD 8 0 }
          match s.readFull 48 with
          | .error f => .error f
          | .ok (bs, s) =>
            match getFields e.bigEndian [2, 2, 4, 8, 8, 8, 4, 2, 2, 2, 2, 2, 2] bs with
            | [ty, ma, ve, en, po, so, fl, hs, pe, pc, se, sc, si] =>
              .ok ({ e with Type_ := ty, Machine := ma, Version := ve, Entry := en,
                            progHdrOffset := po, secHdrOffset := so, Flags := fl,
                            headerSize := hs, progHdrEntrySize := pe, progHdrCount := pc,
                            secHdrEntrySize := se, secHdrCount := sc, secHdrStrIdx := si }, s)
            | _ => .error Fault.panic
        else if e.Class = ELFCLASS32 then
          let e := { e with ABI := 0, ABIVersion := 0 }
          match s.readFull 36 with
          | .error f => .error f
          | .ok (bs, s) =>
            match getFields e.bigEndian [2, 2, 4, 4, 4, 4, 4, 2, 2, 2, 2, 2, 2] bs with
            | [ty, ma, ve, en, po, so, fl, hs, pe, pc, se, sc, si] =>
              .ok ({ e with Type_ := ty, Machine := ma, Version := ve, Entry := en,
                            progHdrOffset := po, secHdrOffset := so, Flags := fl,
                            headerSize := hs, progHdrEntrySize := pe, progHdrCount := pc,
                            secHdrEntrySize := se, secHdrCount := sc, secHdrStrIdx := si }, s)
            | _ => .error Fault.panic
        else .error Fault.invalidClass
      match parsed with
      | .error f => .error f
      | .ok (e, s) =>
        if e.secHdrStrIdx = SHN_XINDEX then .error Fault.panic else .ok (e, s)

/-- Go `Elf.writeElfHeader`, as the bytes written. -/
def Elf.writeElfHeader (e : Elf) : List Nat :=
  let ident := [0x7F, 0x45, 0x4C, 0x46, e.Class % 256, e.Endian % 256, e.HeaderVersion % 256,
    e.ABI % 256, e.ABIVersion % 256, 0, 0, 0, 0, 0, 0, 0]
  if e.Class = ELFCLASS64 then
    ident ++ putFields e.bigEndian
      [(2, e.Type_), (2, e.Machine), (4, e.Version), (8, e.Entry), (8, e.progHdrOffset),
       (8, e.secHdrOffset), (4, e.Flags), (2, e.headerSize), (2, e.progHdrEntrySize),
       (2, e.progHdrCount), (2, e.secHdrEntrySize), (2, e.secHdrCount), (2, e.secHdrStrIdx)]
  else if e.Class = ELFCLASS32 then
    ident ++ putFields e.bigEndian
      [(2, e.Type_), (2, e.Machine), (4, e.Version), (4, e.Entry), (4, e.progHdrOffset),
       (4, e.secHdrOffset), (4, e.Flags), (2, e.headerSize), (2, e.progHdrEntrySize),
       (2, e.progHdrCount), (2, e.secHdrEntrySize), (2, e.secHdrCount), (2, e.secHdrStrIdx)]
  else ident

/-! ### Program headers (`serialization_phdr.go`) -/

/-- Go `Elf.sizeProgramHeader`. -/
def Elf.sizeProgramHeader (e : Elf) : Nat :=
  if e.Class = ELFCLASS64 then 56 else 32

/-- The part of `readProgramHeader` and `readSectionHeader` that fetches the
payload: remember the position, seek to `offset`, read `size` bytes, seek
back. -/
def readPayload (s : Stream) (offset size : Nat) : Except Fault (List Nat × Stream) :=
  let pos := s.pos
  match s.seek (wrapS 64 offset) with
  | .error f => .error f
  | .ok s =>
    match s.read size with
    | .error f => .error f
    | .ok (data, s) =>
      match s.seek (pos : Int) with
      | .error f => .error f
      | .ok s => .ok (data, s)

/-- Go `Elf.readProgramHeader`. -/
def Elf.readProgramHeader (e : Elf) (s : Stream) : Except Fault (ProgramHeader × Stream) :=
  let header : Except Fault (ProgramHeader × Stream) :=
    if e.Class = ELFCLASS64 then
      match s.readFull 56 with
      | .error f => .error f
      | .ok (bs, s) =>
        match getFields e.bigEndian [4, 4, 8, 8, 8, 8, 8, 8] bs with
        | [ty, fl, off, va, pa, fs, ms, al] =>
          .ok ({ Type_ := ty, Flags := fl, offset := off, VAddr := va, PAddr := pa,
                 fileSize := fs, MemSize := ms, Align := al, Data := [] }, s)
        | _ => .error Fault.panic
    else
      match s.readFull 32 with
      | .error f => .error f
      | .ok (bs, s) =>
        match getFields e.bigEndian [4, 4, 4, 4, 4, 4, 4, 4] bs with
        | [ty, off, va, pa, fs, ms, fl, al] =>
          .ok ({ Type_ := ty, Flags := fl, offset := off, VAddr := va, PAddr := pa,
                 fileSize := fs, MemSize := ms, Align := al, Data := [] }, s)
        | _ => .error Fault.panic
  match header with
  | .error f => .error f
  | .ok (result, s) =>
    if result.fileSize > 0 then
      match readPayload s result.offset result.fileSize with
      | .error f => .error f
      | .ok (data, s) => .ok ({ result with Data := data }, s)
    else .ok (result, s)

/-- Go `Elf.writeProgramHeader`, as the bytes written. -/
def Elf.writeProgramHeader (e : Elf) (input : ProgramHeader) : List Nat :=
  if e.Class = ELFCLASS64 then
    putFields e.bigEndian
      [(4, input.Type_), (4, input.Flags), (8, input.offset), (8, input.VAddr),
       (8, input.PAddr), (8, input.fileSize), (8, input.MemSize), (8, input.Align)]
  else
    putFields e.bigEndian
      [(4, input.Type_), (4, input.offset), (4, input.VAddr), (4, input.PAddr),
       (4, input.fileSize), (4, input.MemSize), (4, input.Flags), (4, input.Align)]

/-! ### Section headers (`serialization_shdr.go`) -/

/-- Go `Elf.sizeSectionHeader`. -/
def Elf.sizeSectionHeader (e : Elf) : Nat :=
  if e.Class = ELFCLASS64 then 48 else 40

/-- Go `Elf.readSectionHeader`. -/
def Elf.readSectionHeader (e : Elf) (s : Stream) : Except Fault (SectionHeader × Stream) :=
  let header : Except Fault (SectionHeader × Stream) :=
    match s.readFull e.sizeSectionHeader with
    | .error f => .error f
    | .ok (bs, s) =>
      match getFields e.bigEndian
          (if e.Class = ELFCLASS64 then [4, 4, 4, 8, 8, 4, 4, 4, 4, 4]
           else [4, 4, 4, 4, 4, 4, 4, 4, 4, 4]) bs with
      | [nm, ty, fl, ad, off, sz, li, inf, aa, es] =>
        .ok ({ Name := [], nameOffset := nm, Type_ := ty, Flags := fl, Address := ad,
               offset := off, Size := sz, Link := li, LinkSection := none, Info := inf,
               InfoSection := none, AddrAlign := aa, EntrySize := es, Data := [] }, s)
      | _ => .error Fault.panic
  match header with
  | .error f => .error f
  | .ok (result, s) =>
    if result.Size > 0 ∧ HasDataInFile result.Type_ then
      match readPayload s result.offset result.Size with
      | .error f => .error f
      | .ok (data, s) => .ok ({ result with Data := data }, s)
    else .ok (result, s)

/-- Go `Elf.writeSectionHeader`, as the bytes written. -/
def Elf.writeSectionHeader (e : Elf) (input : SectionHeader) : List Nat :=
  if e.Class = ELFCLASS64 then
    putFields e.bigEndian
      [(4, input.nameOffset), (4, input.Type_), (4, input.Flags), (8, input.Address),
       (8, input.offset), (4, input.Size), (4, input.Link), (4, input.Info),
       (4, input.AddrAlign), (4, input.EntrySize)]
  else
    putFields e.bigEndian
      [(4, input.nameOffset), (4, input.Type_), (4, input.Flags), (4, input.Address),
       (4, input.offset), (4, input.Size), (4, input.Link), (4, input.Info),
       (4, input.AddrAlign), (4, input.EntrySize)]


/-! ### Symbols (`serialization_sym.go`) -/

/-- Go `Elf.sizeSymbol`. -/
def Elf.sizeSymbol (e : Elf) : Nat :=
  if e.Class = ELFCLASS64 then 24 else 16

/-- Go `Elf.readString(r, idx, offset)` (`file_reader.go`): seek into section
`idx` of the sections read so far and read a null-terminated string. -/
def Elf.readStringAt (e : Elf) (m : Mem) (s : Stream) (idx : Nat) (offset : Nat) :
    Except Fault (List Nat × Stream) :=
  match e.Sections[idx]? with
  | none => .error Fault.panic
  | some p =>
    match s.seek (wrapS 64 (((m.sec p).offset + offset) % 2 ^ 64)) with
    | .error f => .error f
    | .ok s => readString s

/-- Go `Elf.readSymbol(r, parent)`. -/
def Elf.readSymbol (e : Elf) (m : Mem) (s : Stream) (parent : SectionHeader) :
    Except Fault (Symbol × Stream) :=
  let record : Except Fault (Symbol × Stream) :=
    if e.Class = ELFCLASS64 then
      match s.readFull 24 with
      | .error f => .error f
      | .ok (bs, s) =>
        match getFields e.bigEndian [4, 1, 1, 2, 8, 8] bs with
        | [nm, info, other, shndx, value, size] =>
          .ok ({ Name := [], nameOffset := nm, Type_ := ((info &&& 0xF : Nat) : Int),
                 Binding := ((info >>> 4 : Nat) : Int), Other := other, Section := none,
                 SectionIndex := shndx, Value := value, Size := size }, s)
        | _ => .error Fault.panic
    else
      match s.readFull 16 with
      | .error f => .error f
      | .ok (bs, s) =>
        match getFields e.bigEndian [4, 4, 4, 1, 1, 2] bs with
        | [nm, value, size, info, other, shndx] =>
          .ok ({ Name := [], nameOffset := nm, Type_ := ((info &&& 0xF : Nat) : Int),
                 Binding := ((info >>> 4 : Nat) : Int), Other := other, Section := none,
                 SectionIndex := shndx, Value := value, Size := size }, s)
        | _ => .error Fault.panic
  match record with
  | .error f => .error f
  | .ok (result, s) =>
    let ofs := s.pos
    match e.readStringAt m s parent.Link result.nameOffset with
    | .error f => .error f
    | .ok (name, s) =>
      let result := { result with Name := name }
      if result.SectionIndex = SHN_XINDEX then .error Fault.panic
      else
        let resolved : Except Fault Symbol :=
          if result.SectionIndex < SHN_LORESERVE ∧ result.SectionIndex > 0 then
            match e.Sections[result.SectionIndex]? with
            | none => .error Fault.panic
            | some p => .ok { result with Section := some p, SectionIndex := 0 }
          else .ok result
        match resolved with
        | .error f => .error f
        | .ok result =>
          match s.seek (ofs : Int) with
          | .error f => .error f
          | .ok s => .ok (result, s)

/-- Go `Elf.writeSymbol`, as the bytes written. -/
def Elf.writeSymbol (e : Elf) (input : Symbol) : List Nat :=
  let info := (wrapU 8 input.Type_ ||| (wrapU 8 input.Binding <<< 4) % 256)
  if e.Class = ELFCLASS64 then
    putFields e.bigEndian
      [(4, input.nameOffset), (1, info), (1, input.Other), (2, input.SectionIndex),
       (8, input.Value), (8, input.Size)]
  else
    putFields e.bigEndian
      [(4, input.nameOffset), (4, input.Value), (4, input.Size), (1, info),
       (1, input.Other), (2, input.SectionIndex)]

/-! ### Relocations (`serialization_rel.go`) -/

/-- Go `Elf.sizeRelocation`. -/
def Elf.sizeRelocation (e : Elf) (t : Nat) : Nat :=
  if e.Class = ELFCLASS64 then
    if t = SHT_RELA then 24 else 16
  else
    if t = SHT_RELA then 12 else 8

/-- Go `Elf.readRelocation(r, s, t)`; `sec` is the pointer `s`. -/
def Elf.readRelocation (e : Elf) (s : Stream) (sec : Nat) (t : Nat) :
    Except Fault (Relocation × Stream) :=
  let record : Except Fault (Relocation × Stream) :=
    if e.Class = ELFCLASS64 then
      if t = SHT_RELA then
        match s.readFull 24 with
        | .error f => .error f
        | .ok (bs, s) =>
          match getFields e.bigEndian [8, 8, 8] bs with
          | [off, info, addend] =>
            .ok ({ Section := some sec, Symbol := none, symbolIndex := ((info >>> 32 : Nat) : Int),
                   Offset := off, Type_ := info % 2 ^ 32, Addend := wrapS 64 addend }, s)
          | _ => .error Fault.panic
      else if t = SHT_REL then
        match s.readFull 16 with
        | .error f => .error f
        | .ok (bs, s) =>
          match getFields e.bigEndian [8, 8] bs with
          | [off, info] =>
            .ok ({ Section := some sec, Symbol := none, symbolIndex := ((info >>> 32 : Nat) : Int),
                   Offset := off, Type_ := info % 2 ^ 32, Addend := 0 }, s)
          | _ => .error Fault.panic
      else .error Fault.unknownType
    else
      if t = SHT_RELA then
        match s.readFull 12 with
        | .error f => .error f
        | .ok (bs, s) =>
          match getFields e.bigEndian [4, 4, 4] bs with
          | [off, info, addend] =>
            .ok ({ Section := some sec, Symbol := none, symbolIndex := ((info >>> 8 : Nat) : Int),
                   Offset := off, Type_ := info &&& 0xFF, Addend := wrapS 32 addend }, s)
          | _ => .error Fault.panic
      else if t = SHT_REL then
        match s.readFull 8 with
        | .error f => .error f
        | .ok (bs, s) =>
          match getFields e.bigEndian [4, 4] bs with
          | [off, info] =>
            .ok ({ Section := some sec, Symbol := none, symbolIndex := ((info >>> 8 : Nat) : Int),
                   Offset := off, Type_ := info &&& 0xFF, Addend := 0 }, s)
          | _ => .error Fault.panic
      else .error Fault.unknownType
  match record with
  | .error f => .error f
  | .ok (result, s) =>
    match e.Symbols[result.symbolIndex.toNat]? with
    | none => .error Fault.panic
    | some q => .ok ({ result with Symbol := some q }, s)

/-- Go `Elf.writeRelocation(w, s, t, input)`, as the bytes written. -/
def Elf.writeRelocation (e : Elf) (t : Nat) (input : Relocation) : List Nat :=
  if e.Class = ELFCLASS64 then
    let info := ((wrapU 64 input.symbolIndex <<< 32) % 2 ^ 64) ||| input.Type_
    if t = SHT_RELA then
      putFields e.bigEndian [(8, input.Offset), (8, info), (8, wrapU 64 input.Addend)]
    else
      putFields e.bigEndian [(8, input.Offset), (8, info)]
  else
    let info := ((wrapU 32 input.symbolIndex <<< 8) % 2 ^ 32) ||| input.Type_
    if t = SHT_RELA then
      putFields e.bigEndian [(4, input.Offset), (4, info), (4, wrapU 32 input.Addend)]
    else
      putFields e.bigEndian [(4, input.Offset), (4, info)]

/-! ### String tables (`file_writer.go`) -/

/-- Go `stringTable`: the map from strings to offsets (its entries in
insertion order) and the next free offset. -/
structure StringTable where
  strings : List (List Nat × Nat)
  pos : Nat
deriving DecidableEq

/-- Go `newStringTable`. -/
def newStringTable : StringTable := { strings := [], pos := 0 }

/-- Go `stringTable.Add`: the offset returned and the table afterwards. -/
def StringTable.Add (t : StringTable) (s : List Nat) : Nat × StringTable :=
  match t.strings.lookup s with
  | some val => (val, t)
  | none =>
    let sPos := t.pos
    (sPos, { strings := t.strings ++ [(s, sPos)],
             pos := (t.pos + (s.length % 2 ^ 32 + 1) % 2 ^ 32) % 2 ^ 32 })

/-- Go `slices.Replace(s, i, j, v...)`; panics unless `i ≤ j ≤ len(s)`. -/
def slicesReplace (s : List Nat) (i j : Nat) (v : List Nat) : Except Fault (List Nat) :=
  if i ≤ j ∧ j ≤ s.length then .ok (s.take i ++ v ++ s.drop j) else .error Fault.panic

/-- The loop of `stringTable.ToData`. -/
def toDataLoop : List (List Nat × Nat) → List Nat → Except Fault (List Nat)
  | [], data => .ok data
  | (s, i) :: rest, data =>
    match slicesReplace data i (i + s.length) s with
    | .error f => .error f
    | .ok data => toDataLoop rest data

/-- Go `stringTable.ToData`. -/
def StringTable.ToData (t : StringTable) : Except Fault (List Nat) :=
  toDataLoop t.strings (List.replicate t.pos 0)


/-! ### Writer (`file_writer.go`) -/

/-- Go `strings.Compare`: byte-wise lexicographic comparison. -/
def stringsCompare : List Nat → List Nat → Int
  | [], [] => 0
  | [], _ :: _ => -1
  | _ :: _, [] => 1
  | a :: as, b :: bs => if a < b then -1 else if b < a then 1 else stringsCompare as bs

/-- The comparison function `Write` passes to `slices.SortFunc`. -/
def symbolCompare (a b : Symbol) : Int :=
  if a.Binding ≠ b.Binding then wrapS 64 (wrapU 64 (a.Binding - b.Binding))
  else stringsCompare a.Name b.Name

/-- Go `slices.SortFunc(e.Symbols, cmp)`: library code, modelled by an
insertion sort of the pointers with `cmp(a, b) <= 0` as the order.  The Go
sort is not stable: symbols that compare equal may come out in any order, and
this definition gives one of the admissible outcomes. -/
def sortSymbols (m : Mem) (syms : List Nat) : List Nat :=
  syms.insertionSort (fun p q => symbolCompare (m.sym p) (m.sym q) ≤ 0)

/-- The bytes of `".shstrtab"`. -/
def nameShstrtab : List Nat := [46, 115, 104, 115, 116, 114, 116, 97, 98]
/-- The bytes of `".strtab"`. -/
def nameStrtab : List Nat := [46, 115, 116, 114, 116, 97, 98]
/-- The bytes of `".symtab"`. -/
def nameSymtab : List Nat := [46, 115, 121, 109, 116, 97, 98]
/-- The bytes of `".rel"`. -/
def nameRel : List Nat := [46, 114, 101, 108]
/-- The bytes of `".rela"`. -/
def nameRela : List Nat := [46, 114, 101, 108, 97]

/-- The first inner loop of the relocation-section loop of `Write`: the
section type and the name prefix chosen for a relocation list. -/
def relKind (relocations : List Relocation) : Nat × List Nat :=
  if relocations.any (fun rel => rel.Addend ≠ 0) then (SHT_RELA, nameRela)
  else (SHT_REL, nameRel)

/-- The second inner loop of the relocation-section loop of `Write`: refresh
`symbolIndex` of each relocation. -/
def refreshRelocations (symbols : List Nat) (relocations : List Relocation) : List Relocation :=
  relocations.map fun rel =>
    match rel.Symbol with
    | some q => { rel with symbolIndex := slicesIndex symbols q }
    | none => rel

/-- The state of the relocation-section loop of `Write`: the local slice
`sections`, the memory, and the relocation map written back so far. -/
structure RelLoopState where
  sections : List Nat
  mem : Mem
  relocations : List (Nat × List Relocation)

/-- The section header `relSection` that one iteration of the
relocation-section loop of `Write` builds, payload included. -/
def Elf.relSection (e : Elf) (symTabIdx : Nat) (sections : List Nat) (m : Mem)
    (entry : Nat × List Relocation) : SectionHeader :=
  let parentSection := entry.1
  let kind := relKind entry.2
  { (default : SectionHeader) with
    Name := kind.2 ++ (m.sec parentSection).Name
    Type_ := kind.1
    EntrySize := e.sizeRelocation kind.1 % 2 ^ 32
    Info := wrapU 32 (slicesIndex sections parentSection)
    Link := symTabIdx % 2 ^ 32
    Data := (refreshRelocations e.Symbols entry.2).flatMap (e.writeRelocation kind.1) }

/-- One iteration of `for parentSection, relocations := range e.Relocations`. -/
def Elf.relSectionStep (e : Elf) (symTabIdx : Nat) (st : RelLoopState)
    (entry : Nat × List Relocation) : RelLoopState :=
  { sections := st.sections ++ [st.mem.secs.length]
    mem := { st.mem with secs := st.mem.secs ++ [e.relSection symTabIdx st.sections st.mem entry] }
    relocations := st.relocations ++ [(entry.1, refreshRelocations e.Symbols entry.2)] }

/-- The loop `for _, sh := range sections { sh.nameOffset = ... }`. -/
def fillSectionNames : List Nat → StringTable → Mem → StringTable × Mem
  | [], t, m => (t, m)
  | sh :: rest, t, m =>
    let r := t.Add (m.sec sh).Name
    fillSectionNames rest r.2 (m.setSec sh fun h => { h with nameOffset := r.1 })

/-- The state of the symbol-table loop of `Write`. -/
structure SymLoopState where
  table : StringTable
  mem : Mem
  globalBindingSet : Bool
  buffer : List Nat

/-- The loop `for i, sym := range e.Symbols` of `Write`, from index `i`. -/
def Elf.fillSymbols (e : Elf) (sections : List Nat) (symbolTableSection : Nat) :
    List Nat → Nat → SymLoopState → SymLoopState
  | [], _, st => st
  | sym :: rest, i, st =>
    let r := st.table.Add (st.mem.sym sym).Name
    let m := st.mem.setSym sym fun y => { y with nameOffset := r.1 }
    let m :=
      match (m.sym sym).Section with
      | some p => m.setSym sym fun y => { y with SectionIndex := wrapU 16 (slicesIndex sections p) }
      | none => m
    let setInfo := !st.globalBindingSet && decide ((m.sym sym).Binding ≠ STB_LOCAL)
    let m := if setInfo then m.setSec symbolTableSection fun h => { h with Info := i % 2 ^ 32 }
             else m
    e.fillSymbols sections symbolTableSection rest (i + 1)
      { table := r.2, mem := m, globalBindingSet := st.globalBindingSet || setInfo,
        buffer := st.buffer ++ e.writeSymbol (m.sym sym) }

/-- The loop `for _, ph := range e.ProgramHeaders` that lays out the program
data, from write offset `writeOffset`. -/
def layoutProgramData : List ProgramHeader → Nat → List ProgramHeader × Nat
  | [], writeOffset => ([], writeOffset)
  | ph :: rest, writeOffset =>
    let ph := { ph with fileSize := ph.Data.length, offset := writeOffset }
    let r := layoutProgramData rest (writeOffset + ph.fileSize)
    (ph :: r.1, r.2)

/-- The loop `for _, sh := range sections` that lays out the section data. -/
def layoutSectionData : List Nat → Mem → Nat → Mem × Nat
  | [], m, writeOffset => (m, writeOffset)
  | sh :: rest, m, writeOffset =>
    if HasDataInFile (m.sec sh).Type_ then
      let size := (m.sec sh).Data.length % 2 ^ 32
      layoutSectionData rest
        (m.setSec sh fun h => { h with Size := size, offset := writeOffset })
        (writeOffset + size)
    else layoutSectionData rest m writeOffset

/-- The state of `Write` between its phases: the image, the memory, the local
slice `sections`, the pointers to the three synthesized sections and the two
string tables. -/
structure WriteState where
  elf : Elf
  mem : Mem
  sections : List Nat
  sectionStringTableSection : Nat
  stringTableSection : Nat
  symbolTableSection : Nat
  sectionStringTable : StringTable
  stringTable : StringTable

/-- The statements of `Write` from the symbol sort to the creation of
`.shstrtab`, `.strtab` and `.symtab`: the image, the memory and the local
slice `sections` after them. -/
def Elf.writeTables (e : Elf) (m : Mem) : Elf × Mem × List Nat :=
  let sections := e.Sections
  -- Sort symbol table to put STB_LOCAL symbols first
  let e := { e with Symbols := sortSymbols m e.Symbols }
  -- Create new symbol table, string table sections
  let sectionStringTableSection := m.secs.length
  let stringTableSection := m.secs.length + 1
  let symbolTableSection := m.secs.length + 2
  let strTabIdx := sections.length + 1
  let m := { m with secs := m.secs ++
    [{ (default : SectionHeader) with Name := nameShstrtab, Type_ := SHT_STRTAB },
     { (default : SectionHeader) with Name := nameStrtab, Type_ := SHT_STRTAB },
     { (default : SectionHeader) with Name := nameSymtab, Type_ := SHT_SYMTAB,
                                      EntrySize := e.sizeSymbol % 2 ^ 32 }] }
  let e := { e with secHdrStrIdx := sections.length % 2 ^ 16 }
  let sections := sections ++ [sectionStringTableSection, stringTableSection, symbolTableSection]
  let m := m.setSec symbolTableSection fun h => { h with Link := strTabIdx % 2 ^ 32 }
  (e, m, sections)

/-- The state of `Write` after the relocation-section loop (`m0` is the
memory at the start of `Write`). -/
def Elf.writeRels (e0 : Elf) (m0 : Mem) : RelLoopState :=
  let t := e0.writeTables m0
  let symTabIdx := e0.Sections.length + 2
  -- Create relocation table sections
  t.1.Relocations.foldl (t.1.relSectionStep symTabIdx)
    { sections := t.2.2, mem := t.2.1, relocations := [] }

/-- The section string table and the memory of `Write` after the loop that
populates the section string table. -/
def Elf.writeNames (e0 : Elf) (m0 : Mem) : StringTable × Mem :=
  let rl := e0.writeRels m0
  -- Populate section string table
  fillSectionNames rl.sections newStringTable rl.mem

/-- The state of `Write` after the loop that populates the symbol table. -/
def Elf.writeSyms (e0 : Elf) (m0 : Mem) : SymLoopState :=
  let symbolTableSection := m0.secs.length + 2
  let e := (e0.writeTables m0).1
  -- Populate symbol table
  e.fillSymbols (e0.writeRels m0).sections symbolTableSection e.Symbols 0
    { table := newStringTable, mem := (e0.writeNames m0).2, globalBindingSet := false,
      buffer := [] }

/-- The first part of `Write` (after the section-count check): sort the
symbols, create `.shstrtab`, `.strtab`, `.symtab` and the relocation sections,
populate the section string table and the symbol table. -/
def Elf.writeSynthesize (e0 : Elf) (m0 : Mem) : WriteState :=
  let symbolTableSection := m0.secs.length + 2
  let sy := e0.writeSyms m0
  { elf := { (e0.writeTables m0).1 with Relocations := (e0.writeRels m0).relocations }
    mem := sy.mem.setSec symbolTableSection fun h => { h with Data := sy.buffer }
    sections := (e0.writeRels m0).sections
    sectionStringTableSection := m0.secs.length
    stringTableSection := m0.secs.length + 1
    symbolTableSection := symbolTableSection
    sectionStringTable := (e0.writeNames m0).1
    stringTable := sy.table }

/-- The layout part of `Write`: header, program headers, program data,
section headers, section data.  `writeOffset` is kept as a natural number: the
lengths added up are lengths of slices in memory. -/
def Elf.writeLayout (e : Elf) (m : Mem) (sections : List Nat) : Elf × Mem :=
  -- Layout file header
  let headerSize := e.sizeElfHeader % 2 ^ 16
  let writeOffset := headerSize
  -- Layout program headers
  let progHdrEntrySize := e.sizeProgramHeader % 2 ^ 16
  let progHdrCount := e.ProgramHeaders.length % 2 ^ 16
  let progHdrOffset := if progHdrCount > 0 then writeOffset else 0
  let writeOffset :=
    if progHdrCount > 0 then writeOffset + progHdrCount * progHdrEntrySize else writeOffset
  -- Layout program data
  let pd := layoutProgramData e.ProgramHeaders writeOffset
  let writeOffset := pd.2
  -- Layout section headers
  let secHdrEntrySize := e.sizeSectionHeader % 2 ^ 16
  let secHdrCount := sections.length % 2 ^ 16
  let secHdrOffset := if secHdrCount > 0 then writeOffset else 0
  let writeOffset :=
    if secHdrCount > 0 then writeOffset + secHdrCount * secHdrEntrySize else writeOffset
  -- Layout section data
  ({ e with headerSize := headerSize, progHdrEntrySize := progHdrEntrySize,
            progHdrCount := progHdrCount, progHdrOffset := progHdrOffset,
            ProgramHeaders := pd.1, secHdrEntrySize := secHdrEntrySize,
            secHdrCount := secHdrCount, secHdrOffset := secHdrOffset },
   (layoutSectionData sections m writeOffset).1)

/-- The last part of `Write`: file header, program headers, program data,
section headers, section data, as the bytes written. -/
def Elf.writeEmit (e : Elf) (m : Mem) (sections : List Nat) : List Nat :=
  e.writeElfHeader
  ++ e.ProgramHeaders.flatMap e.writeProgramHeader
  ++ e.ProgramHeaders.flatMap (fun ph => ph.Data)
  ++ sections.flatMap (fun sh => e.writeSectionHeader (m.sec sh))
  ++ (sections.filter fun sh => HasDataInFile (m.sec sh).Type_).flatMap
       (fun sh => (m.sec sh).Data)

/-- What `Write` leaves behind: the bytes written to `w`, the image and the
memory after the call, and the local slice `sections`. -/
structure WriteResult where
  bytes : List Nat
  elf : Elf
  mem : Mem
  sections : List Nat

/-- Go `Elf.Write(w)` for a writer that never fails. -/
def Elf.Write (e : Elf) (m : Mem) : Except Fault WriteResult :=
  if e.Sections.length > 65500 then .error Fault.panic
  else
    let st := e.writeSynthesize m
    -- Write string tables
    match st.sectionStringTable.ToData, st.stringTable.ToData with
    | .error f, _ => .error f
    | .ok _, .error f => .error f
    | .ok shstrData, .ok strData =>
      let m := st.mem.setSec st.sectionStringTableSection fun h => { h with Data := shstrData }
      let m := m.setSec st.stringTableSection fun h => { h with Data := strData }
      let laid := st.elf.writeLayout m st.sections
      .ok { bytes := laid.1.writeEmit laid.2 st.sections,
            elf := laid.1, mem := laid.2, sections := st.sections }

/-! ### Reader (`file_reader.go`) -/

/-- The first program-header loop of `ReadELF`: `n` calls of
`readProgramHeader`. -/
def Elf.readProgramHeaders (e : Elf) : Nat → Stream → Except Fault (List ProgramHeader × Stream)
  | 0, s => .ok ([], s)
  | n + 1, s =>
    match e.readProgramHeader s with
    | .error f => .error f
    | .ok (hdr, s) =>
      match e.readProgramHeaders n s with
      | .error f => .error f
      | .ok (hdrs, s) => .ok (hdr :: hdrs, s)

/-- The second program-header loop of `ReadELF`: fetch the payload of every
program header with a nonzero file size. -/
def readProgramData : List ProgramHeader → Stream → Except Fault (List ProgramHeader × Stream)
  | [], s => .ok ([], s)
  | hdr :: rest, s =>
    if hdr.fileSize > 0 then
      match (s.seekIgnore (wrapS 64 hdr.offset)).read hdr.fileSize with
      | .error f => .error f
      | .ok (data, s) =>
        match readProgramData rest s with
        | .error f => .error f
        | .ok (hdrs, s) => .ok ({ hdr with Data := data } :: hdrs, s)
    else
      match readProgramData rest s with
      | .error f => .error f
      | .ok (hdrs, s) => .ok (hdr :: hdrs, s)

/-- The section-header loop of `ReadELF`, from index `i`, with `n` headers
left to read; the headers read are appended to the memory. -/
def Elf.readSectionHeaders (e : Elf) : Nat → Nat → Elf → Mem → Stream →
    Except Fault (Elf × Mem × Stream)
  | 0, _, acc, m, s => .ok (acc, m, s)
  | n + 1, i, acc, m, s =>
    match e.readSectionHeader s with
    | .error f => .error f
    | .ok (hdr, s) =>
      let acc := { acc with Sections := acc.Sections ++ [m.secs.length] }
      let m := { m with secs := m.secs ++ [hdr] }
      let acc :=
        if hdr.Type_ = SHT_SYMTAB then { acc with symtabIdx := (i : Int) }
        else if hdr.Type_ = SHT_SYMTAB_SHNDX then { acc with symtabShndxIdx := (i : Int) }
        else acc
      e.readSectionHeaders n (i + 1) acc m s

/-- The loop of `ReadELF` that resolves `LinkSection` and `InfoSection`, over
the section pointers `todo`. -/
def Elf.resolveLinks (e : Elf) : List Nat → Mem → Except Fault Mem
  | [], m => .ok m
  | p :: todo, m =>
    let hdr := m.sec p
    let linked : Except Fault Mem :=
      if hdr.Link < SHN_LORESERVE then
        match e.Sections[hdr.Link]? with
        | none => .error Fault.panic
        | some q => .ok (m.setSec p fun h => { h with LinkSection := some q })
      else .ok m
    match linked with
    | .error f => .error f
    | .ok m =>
      let informed : Except Fault Mem :=
        if hdr.Info < SHN_LORESERVE ∧ HasSectionInInfo hdr.Type_ then
          match e.Sections[hdr.Info]? with
          | none => .error Fault.panic
          | some q => .ok (m.setSec p fun h => { h with InfoSection := some q })
        else .ok m
      match informed with
      | .error f => .error f
      | .ok m => e.resolveLinks todo m

/-- The loop of `ReadELF` that reads the section names. -/
def Elf.readSectionNames (e : Elf) : List Nat → Mem → Stream → Except Fault (Mem × Stream)
  | [], m, s => .ok (m, s)
  | p :: todo, m, s =>
    match e.readStringAt m s e.secHdrStrIdx (m.sec p).nameOffset with
    | .error f => .error f
    | .ok (name, s) => e.readSectionNames todo (m.setSec p fun h => { h with Name := name }) s

/-- The symbol loop of `ReadELF`: `n` calls of `readSymbol`; the symbols read
are appended to the memory and to `e.Symbols`. -/
def Elf.readSymbols (e : Elf) (symtab : SectionHeader) : Nat → Elf → Mem → Stream →
    Except Fault (Elf × Mem × Stream)
  | 0, acc, m, s => .ok (acc, m, s)
  | n + 1, acc, m, s =>
    match e.readSymbol m s symtab with
    | .error f => .error f
    | .ok (sym, s) =>
      e.readSymbols symtab n { acc with Symbols := acc.Symbols ++ [m.syms.length] }
        { m with syms := m.syms ++ [sym] } s

/-- Go `e.Relocations[sec] = append(e.Relocations[sec], rel)`. -/
def appendRelocation : List (Nat × List Relocation) → Nat → Relocation →
    List (Nat × List Relocation)
  | [], sec, rel => [(sec, [rel])]
  | (k, rels) :: rest, sec, rel =>
    if k = sec then (k, rels ++ [rel]) :: rest else (k, rels) :: appendRelocation rest sec rel

/-- The inner relocation loop of `ReadELF`: `n` calls of `readRelocation`. -/
def Elf.readRelocations (e : Elf) (sec : Nat) (t : Nat) : Nat → List (Nat × List Relocation) →
    Stream → Except Fault (List (Nat × List Relocation) × Stream)
  | 0, rels, s => .ok (rels, s)
  | n + 1, rels, s =>
    match e.readRelocation s sec t with
    | .error f => .error f
    | .ok (rel, s) => e.readRelocations sec t n (appendRelocation rels sec rel) s

/-- The outer relocation loop of `ReadELF`, over the section pointers `todo`. -/
def Elf.readRelocationSections (e : Elf) (m : Mem) : List Nat → List (Nat × List Relocation) →
    Stream → Except Fault (List (Nat × List Relocation) × Stream)
  | [], rels, s => .ok (rels, s)
  | p :: todo, rels, s =>
    let hdr := m.sec p
    if hdr.Type_ = SHT_REL ∨ hdr.Type_ = SHT_RELA then
      match e.Sections[hdr.Info]? with
      | none => .error Fault.panic
      | some sec =>
        if hdr.EntrySize = 0 then .error Fault.panic
        else
          let relCount := hdr.Size / hdr.EntrySize
          match e.readRelocations sec hdr.Type_ relCount rels
              (s.seekIgnore (wrapS 64 hdr.offset)) with
          | .error f => .error f
          | .ok (rels, s) => e.readRelocationSections m todo rels s
    else e.readRelocationSections m todo rels s

/-- The last part of `ReadELF`: the relocation loop and the removal of the
sections already parsed. -/
def Elf.readRelocationPart (e : Elf) (m : Mem) (r : Stream) : Except Fault (Elf × Mem) :=
  -- Read relocations
  match e.readRelocationSections m e.Sections [] r with
  | .error f => .error f
  | .ok (rels, _) =>
    -- Drop already parsed sections. Do this last!
    let sections := e.Sections.filter fun p =>
      let t := (m.sec p).Type_
      !(t == SHT_REL || t == SHT_RELA || t == SHT_SYMTAB || t == SHT_STRTAB
        || t == SHT_SYMTAB_SHNDX)
    .ok ({ e with Relocations := rels, Sections := sections }, m)

/-- The part of `ReadELF` that reads the symbols, and what follows it. -/
def Elf.readSymbolPart (e : Elf) (m : Mem) (r : Stream) : Except Fault (Elf × Mem) :=
  -- Read symbols
  let symbols : Except Fault (Elf × Mem × Stream) :=
    if e.symtabIdx > 0 then
      match e.Sections[e.symtabIdx.toNat]? with
      | none => .error Fault.panic
      | some p =>
        let symtab := m.sec p
        if symtab.EntrySize = 0 then .error Fault.panic
        else
          e.readSymbols symtab (symtab.Size / symtab.EntrySize) e m
            (r.seekIgnore (wrapS 64 symtab.offset))
    else .ok (e, m, r)
  match symbols with
  | .error f => .error f
  | .ok (e, m, r) => e.readRelocationPart m r

/-- The part of `ReadELF` that resolves the links between the sections and
reads the section names, and what follows it. -/
def Elf.readLinkPart (e : Elf) (m : Mem) (r : Stream) : Except Fault (Elf × Mem) :=
  match e.resolveLinks e.Sections m with
  | .error f => .error f
  | .ok m =>
    -- Read shstrtab
    let named : Except Fault (Mem × Stream) :=
      if e.secHdrStrIdx ≠ SHN_UNDEF then e.readSectionNames e.Sections m r
      else .ok (m, r)
    match named with
    | .error f => .error f
    | .ok (m, r) => e.readSymbolPart m r

/-- The part of `ReadELF` that reads the section headers, and what follows
it. -/
def Elf.readSectionPart (e : Elf) (m : Mem) (r : Stream) : Except Fault (Elf × Mem) :=
  -- Read section headers
  match e.readSectionHeaders e.secHdrCount 0 e m (r.seekIgnore (wrapS 64 e.secHdrOffset)) with
  | .error f => .error f
  | .ok (e, m, r) => e.readLinkPart m r

/-- Go `ReadELF(r)`: the image and the memory holding the records it points
to, or the error (or panic). -/
def ReadELF (r : Stream) : Except Fault (Elf × Mem) :=
  let e : Elf := default
  let m : Mem := { secs := [], syms := [] }
  -- Read main header
  match e.readElfHeader r with
  | .error f => .error f
  | .ok (e, r) =>
    -- Read program headers
    match e.readProgramHeaders e.progHdrCount (r.seekIgnore (wrapS 64 e.progHdrOffset)) with
    | .error f => .error f
    | .ok (phs, r) =>
      match readProgramData phs r with
      | .error f => .error f
      | .ok (phs, r) => ({ e with ProgramHeaders := phs } : Elf).readSectionPart m r

/-! ### Section garbage collector (`gc_sections.go`) -/

/-- The relocation loop of `GarbageCollectSections`: the children recorded in
`sectionChildren[parent]`. -/
def Elf.sectionChildren (e : Elf) (m : Mem) (parent : Nat) : List Nat :=
  (e.Relocations.filter fun entry => entry.1 = parent).flatMap fun entry =>
    entry.2.filterMap fun relocation =>
      match relocation.Symbol with
      | some q => (m.sym q).Section
      | none => none


/-- Insertion of a key into a Go map used as a set (`m[k] = true`), the keys
kept in a list. -/
def setInsert (keys : List Nat) (k : Nat) : List Nat :=
  if k ∈ keys then keys else keys ++ [k]

/-- The loop `for childOfRetainedSection := range sectionChildren[retainedSection]`. -/
def gcVisitChildren (retained : List Nat) : List Nat → List Nat → List Nat
  | [], next => next
  | child :: rest, next =>
    if child ∈ retained then gcVisitChildren retained rest next
    else gcVisitChildren retained rest (setInsert next child)

/-- The loop `for retainedSection := range newlyRetainedSections`, visiting
the keys in the order given. -/
def Elf.gcRound (e : Elf) (m : Mem) : List Nat → List Nat → List Nat → List Nat × List Nat
  | [], retained, next => (retained, next)
  | retainedSection :: rest, retained, next =>
    let retained := setInsert retained retainedSection
    e.gcRound m rest retained (gcVisitChildren retained (e.sectionChildren m retainedSection) next)

/-- The loop `for len(newlyRetainedSections) > 0`.  `ord` is the order in
which `range` visits the keys of a map in a given round (Go leaves it
unspecified); `fuel` bounds the number of rounds. -/
def Elf.gcLoop (e : Elf) (m : Mem) (ord : Nat → List Nat → List Nat) :
    Nat → List Nat → List Nat → Option (List Nat)
  | 0, _, _ => none
  | fuel + 1, newlyRetained, retained =>
    if newlyRetained.length > 0 then
      let r := e.gcRound m (ord fuel newlyRetained) retained []
      e.gcLoop m ord fuel r.2 r.1
    else some retained

/-- The first loop of `GarbageCollectSections`, over the sections of the
image: `retainedSections[section] = true` for every section flagged
`SHF_GNU_RETAIN`.  The map of the caller is given by its keys, `none` being
the nil map; an assignment to an entry of the nil map panics. -/
def gcFlag (m : Mem) : List Nat → Option (List Nat) → Except Halt (Option (List Nat))
  | [], retainedSections => .ok retainedSections
  | section_ :: rest, retainedSections =>
    if (m.sec section_).Flags &&& SHF_GNU_RETAIN ≠ 0 then
      match retainedSections with
      | none => .error Halt.panic
      | some keys => gcFlag m rest (some (setInsert keys section_))
    else gcFlag m rest retainedSections

/-- Go `Elf.GarbageCollectSections(retainedSections)`; the map argument is
given by its keys, `none` being the nil map.  The result is the image
afterwards together with the map of the caller as the call leaves it (the
flagged sections are written into it), a panic, or `Halt.fuel` when the
traversal is still running after `fuel` rounds. -/
def Elf.GarbageCollectSections (e : Elf) (m : Mem) (ord : Nat → List Nat → List Nat)
    (fuel : Nat) (retainedSections : Option (List Nat)) :
    Except Halt (Elf × Option (List Nat)) :=
  match gcFlag m e.Sections retainedSections with
  | .error h => .error h
  | .ok callerMap =>
    -- Traverse the tree of parent<->child relations
    let newlyRetainedSections := callerMap.getD []
    match e.gcLoop m ord fuel newlyRetainedSections [] with
    | none => .error Halt.fuel
    | some retained =>
      .ok ({ e with Sections := e.Sections.filter fun s => s ∈ retained }, callerMap)

end elf

namespace elf

/-- The edge of the section graph used by the garbage collector: `parent` is
a key of the relocation map and one of its relocations references a symbol
whose section is `child`. -/
def Elf.gcEdge (e : Elf) (m : Mem) (parent child : Nat) : Prop :=
  ∃ entry ∈ e.Relocations, entry.1 = parent ∧
    ∃ rel ∈ entry.2, ∃ q, rel.Symbol = some q ∧ (m.sym q).Section = some child

/-- A root of the garbage collection: a key of the map passed in, or a
section of the image whose flags contain `SHF_GNU_RETAIN`. -/
def Elf.gcRoot (e : Elf) (m : Mem) (roots : List Nat) (s : Nat) : Prop :=
  s ∈ roots ∨ (s ∈ e.Sections ∧ (m.sec s).Flags &&& SHF_GNU_RETAIN ≠ 0)

/-- Section `s` is reachable from a root in zero or more steps. -/
def Elf.gcReachable (e : Elf) (m : Mem) (roots : List Nat) (s : Nat) : Prop :=
  ∃ r, e.gcRoot m roots r ∧ Relation.ReflTransGen (e.gcEdge m) r s

end elf

namespace elf

/-- The fields of a symbol that `Write` does not assign to. -/
def Symbol.core (s : Symbol) : List Nat × Int × Int × Nat × Option Nat × Nat × Nat :=
  (s.Name, s.Type_, s.Binding, s.Other, s.Section, s.Value, s.Size)

/-- The result of a `Write` that succeeds (and an empty result otherwise). -/
def Elf.written (e : Elf) (m : Mem) : WriteResult :=
  match e.Write m with
  | .ok r => r
  | .error _ => { bytes := [], elf := e, mem := m, sections := [] }

/-- An image with the two symbols of scenario S3: global `a`, local `b`. -/
def exampleTwoSymbols : Elf × Mem :=
  ({ (default : Elf) with Class := ELFCLASS64, Endian := ELFDATA2LSB, Symbols := [0, 1] },
   { secs := [],
     syms := [{ (default : Symbol) with Name := [97], Binding := STB_GLOBAL },
              { (default : Symbol) with Name := [98], Binding := STB_LOCAL }] })

/-- An image with a local symbol `a` and a symbol `b` of binding `-1`. -/
def exampleNegativeBinding : Elf × Mem :=
  ({ (default : Elf) with Class := ELFCLASS64, Endian := ELFDATA2LSB, Symbols := [0, 1] },
   { secs := [],
     syms := [{ (default : Symbol) with Name := [97], Binding := STB_LOCAL },
              { (default : Symbol) with Name := [98], Binding := -1 }] })

/-- The fields of a section header that the layout passes of `Write` do not
assign to (they assign `nameOffset`, `Size` and `offset`). -/
def SectionHeader.core (h : SectionHeader) :
    List Nat × Nat × Nat × Nat × Nat × Option Nat × Nat × Option Nat × Nat × Nat × List Nat :=
  (h.Name, h.Type_, h.Flags, h.Address, h.Link, h.LinkSection, h.Info, h.InfoSection,
   h.AddrAlign, h.EntrySize, h.Data)

end elf

namespace elf

/-- An image with a null section, a `.text` section of 8 bytes, the null symbol,
a global function symbol `main` in `.text`, and two relocations in `.text`
against `main`, one with addend 0 and one with addend 4 (scenarios S1, S2). -/
def exampleText : Elf × Mem :=
  ({ (default : Elf) with
     Class := ELFCLASS64, Endian := ELFDATA2LSB, HeaderVersion := 1, Type_ := 1, Machine := 3,
     Version := 1, Sections := [0, 1], Symbols := [0, 1],
     Relocations :=
       [(1, [{ (default : Relocation) with Symbol := some 0, Offset := 4, Type_ := 1 },
             { (default : Relocation) with Symbol := some 0, Offset := 0, Type_ := 2,
                                           Addend := 4 }])] },
   { secs := [default,
              { (default : SectionHeader) with
                Name := [46, 116, 101, 120, 116], Type_ := SHT_PROGBITS, Flags := 6,
                AddrAlign := 4, Data := [1, 2, 3, 4, 5, 6, 7, 8] }],
     syms := [{ (default : Symbol) with
                Name := [109, 97, 105, 110], Binding := STB_GLOBAL, Type_ := 2,
                Section := some 1, Size := 8 },
              default] })

/-- An image without sections whose only symbol is the (local) null symbol. -/
def exampleLocalOnly : Elf × Mem :=
  ({ (default : Elf) with Class := ELFCLASS64, Endian := ELFDATA2LSB, Symbols := [0] },
   { secs := [], syms := [default] })

end elf

namespace elf

/-! ### Round trip: decoded records, file layout and limits -/

/-- The bytes `x` stand in `b` from offset `off` on. -/
def Holds (b : List Nat) (off : Nat) (x : List Nat) : Prop := x <+: b.drop off

/-- The string a C reader sees in `s`: the bytes before the first zero byte. -/
def cstr (s : List Nat) : List Nat := s.takeWhile (fun b => b != 0)

/-- The width in bits of an address or file offset in the class of `e`. -/
def Elf.addrBits (e : Elf) : Nat := if e.Class = ELFCLASS64 then 64 else 32

/-- The section header `readSectionHeader` builds from the record that
`writeSectionHeader` writes for `h`, before the payload is fetched. -/
def Elf.decodeSectionHeader (e : Elf) (h : SectionHeader) : SectionHeader :=
  { Name := [], nameOffset := h.nameOffset % 2 ^ 32, Type_ := h.Type_ % 2 ^ 32,
    Flags := h.Flags % 2 ^ 32, Address := h.Address % 2 ^ e.addrBits,
    offset := h.offset % 2 ^ e.addrBits, Size := h.Size % 2 ^ 32, Link := h.Link % 2 ^ 32,
    LinkSection := none, Info := h.Info % 2 ^ 32, InfoSection := none,
    AddrAlign := h.AddrAlign % 2 ^ 32, EntrySize := h.EntrySize % 2 ^ 32, Data := [] }

/-- The section header `readSectionHeader` returns for the record written for
`h` when the payload of `h` stands at its offset. -/
def Elf.readBack (e : Elf) (h : SectionHeader) : SectionHeader :=
  { e.decodeSectionHeader h with
    Data := if 0 < (e.decodeSectionHeader h).Size ∧ HasDataInFile (e.decodeSectionHeader h).Type_
            then h.Data else [] }

/-- The payload of `h` can be fetched from the bytes `b` with the offset and
size its written record carries. -/
def Elf.PayloadAt (e : Elf) (b : List Nat) (h : SectionHeader) : Prop :=
  0 < (e.decodeSectionHeader h).Size → HasDataInFile (e.decodeSectionHeader h).Type_ →
    Holds b (e.decodeSectionHeader h).offset h.Data ∧
    h.Data.length = (e.decodeSectionHeader h).Size ∧ (e.decodeSectionHeader h).offset < 2 ^ 63

/-- The index the section-header loop of `ReadELF` leaves in `symtabIdx` (for
`t = SHT_SYMTAB`) or `symtabShndxIdx` (for `t = SHT_SYMTAB_SHNDX`): that of the
last header of type `t`, counting from `i`, or `cur` when there is none. -/
def scanIdx (t : Nat) : List SectionHeader → Nat → Int → Int
  | [], _, cur => cur
  | h :: hs, i, cur => scanIdx t hs (i + 1) (if h.Type_ % 2 ^ 32 = t then (i : Int) else cur)

/-- A section header without its name and its resolved `LinkSection` and `InfoSection`. -/
def SectionHeader.raw (h : SectionHeader) : SectionHeader :=
  { h with Name := [], LinkSection := none, InfoSection := none }

/-- The `st_info` byte `writeSymbol` computes for a symbol. -/
def Symbol.info (y : Symbol) : Nat := (wrapU 8 y.Type_ ||| (wrapU 8 y.Binding <<< 4) % 256)

/-- The symbol `readSymbol` builds from the record that `writeSymbol` writes
for `y`, before the name is read and the section index is resolved. -/
def Elf.decodeSymbol (e : Elf) (y : Symbol) : Symbol :=
  { Name := [], nameOffset := y.nameOffset % 2 ^ 32,
    Type_ := ((y.info % 2 ^ 8 &&& 0xF : Nat) : Int),
    Binding := (((y.info % 2 ^ 8) >>> 4 : Nat) : Int), Other := y.Other % 2 ^ 8, Section := none,
    SectionIndex := y.SectionIndex % 2 ^ 16, Value := y.Value % 2 ^ e.addrBits,
    Size := y.Size % 2 ^ e.addrBits }

/-- The symbol `readSymbol` returns for the record written for `y` when the
name read is `name`. -/
def Elf.readBackSymbol (e : Elf) (y : Symbol) (name : List Nat) : Symbol :=
  if (e.decodeSymbol y).SectionIndex < SHN_LORESERVE ∧ (e.decodeSymbol y).SectionIndex > 0 then
    { e.decodeSymbol y with
      Name := name, Section := e.Sections[(e.decodeSymbol y).SectionIndex]?, SectionIndex := 0 }
  else { e.decodeSymbol y with Name := name }

/-- The record written for `y` can be read back from the bytes `b` by
`readSymbol` when the string table stands at `strOff`. -/
def Elf.SymbolAt (e : Elf) (b : List Nat) (strOff : Nat) (y : Symbol) : Prop :=
  Holds b (strOff + (e.decodeSymbol y).nameOffset) (y.Name ++ [0]) ∧
  strOff + (e.decodeSymbol y).nameOffset < 2 ^ 63 ∧
  (e.decodeSymbol y).SectionIndex ≠ SHN_XINDEX ∧
  ((e.decodeSymbol y).SectionIndex < SHN_LORESERVE → 0 < (e.decodeSymbol y).SectionIndex →
    ∃ q, e.Sections[(e.decodeSymbol y).SectionIndex]? = some q)

/-- The `r_info` word `writeRelocation` computes for a relocation. -/
def Elf.relInfo (e : Elf) (rel : Relocation) : Nat :=
  if e.Class = ELFCLASS64 then ((wrapU 64 rel.symbolIndex <<< 32) % 2 ^ 64) ||| rel.Type_
  else ((wrapU 32 rel.symbolIndex <<< 8) % 2 ^ 32) ||| rel.Type_

/-- The relocation `readRelocation` builds from the record that
`writeRelocation` writes for `rel` in a section of type `t`, before the symbol
is resolved; `sec` is the section the relocations apply to. -/
def Elf.decodeRelocation (e : Elf) (t : Nat) (sec : Nat) (rel : Relocation) : Relocation :=
  if e.Class = ELFCLASS64 then
    { Section := some sec, Symbol := none,
      symbolIndex := (((e.relInfo rel % 2 ^ 64) >>> 32 : Nat) : Int),
      Offset := rel.Offset % 2 ^ 64, Type_ := (e.relInfo rel % 2 ^ 64) % 2 ^ 32,
      Addend := if t = SHT_RELA then wrapS 64 (wrapU 64 rel.Addend % 2 ^ 64) else 0 }
  else
    { Section := some sec, Symbol := none,
      symbolIndex := (((e.relInfo rel % 2 ^ 32) >>> 8 : Nat) : Int),
      Offset := rel.Offset % 2 ^ 32, Type_ := (e.relInfo rel % 2 ^ 32) &&& 0xFF,
      Addend := if t = SHT_RELA then wrapS 32 (wrapU 32 rel.Addend % 2 ^ 32) else 0 }

/-- The relocation `readRelocation` returns for the record written for `rel`. -/
def Elf.readBackRelocation (e : Elf) (t : Nat) (sec : Nat) (rel : Relocation) : Relocation :=
  { e.decodeRelocation t sec rel with
    Symbol := e.Symbols[(e.decodeRelocation t sec rel).symbolIndex.toNat]? }

/-- The relocation section with header `h` holds the records of the
relocations `L`, and `readRelocation` can resolve their symbols. -/
def Elf.RelSectionAt (e : Elf) (b : List Nat) (h : SectionHeader) (L : List Relocation) : Prop :=
  (∃ sec, e.Sections[h.Info]? = some sec) ∧ h.EntrySize ≠ 0 ∧ h.Size / h.EntrySize = L.length ∧
  h.offset < 2 ^ 63 ∧ Holds b h.offset (L.flatMap (e.writeRelocation h.Type_)) ∧
  ∀ rel ∈ L, ∀ sec, ∃ q, e.Symbols[(e.decodeRelocation h.Type_ sec rel).symbolIndex.toNat]? = some q

/-- The relocation map the relocation loop of `ReadELF` builds from the
sections `todo` when the relocation section at `p` holds the relocations
`L p`. -/
def Elf.relocationsRead (e : Elf) (m : Mem) (L : Nat → List Relocation) :
    List Nat → List (Nat × List Relocation) → List (Nat × List Relocation)
  | [], rels => rels
  | p :: todo, rels =>
    if (m.sec p).Type_ = SHT_REL ∨ (m.sec p).Type_ = SHT_RELA then
      e.relocationsRead m L todo
        ((L p).foldl
          (fun acc rel => appendRelocation acc (e.Sections.getD (m.sec p).Info 0)
            (e.readBackRelocation (m.sec p).Type_ (e.Sections.getD (m.sec p).Info 0) rel))
          rels)
    else e.relocationsRead m L todo rels

/-- The offset and file size `readProgramHeader` decodes from the record that
`writeProgramHeader` writes for `ph`. -/
def Elf.decodeProgramSpan (e : Elf) (ph : ProgramHeader) : Nat × Nat :=
  (ph.offset % 2 ^ e.addrBits, ph.fileSize % 2 ^ e.addrBits)

/-- The payload of a program header with decoded span `sp` starts inside a
file of `len` bytes. -/
def SpanInside (len : Nat) (sp : Nat × Nat) : Prop :=
  0 < sp.2 → sp.1 < 2 ^ 63 ∧ sp.1 < len

/-- The image as `ReadELF` holds it while it reads the symbols and the
relocations of a file with `N` section headers and `K` symbols: the class and
byte order of `E`, the sections and symbols read in file order (the reader
allocates them in that order, starting from an empty memory). -/
def Elf.reading (E : Elf) (N K : Nat) : Elf :=
  { E with Sections := List.range N, Symbols := List.range K }

/-- The bytes `b` are laid out as a file that `E.writeElfHeader`,
`writeProgramHeader`, `writeSectionHeader`, `writeSymbol` and
`writeRelocation` produce from the section headers `hs`, the symbols `ys` and
the relocations `L j` of the relocation section at index `j`, with every
record and payload at the offset the headers give. -/
structure Elf.Layout (E : Elf) (b : List Nat) (hs : List SectionHeader) (ys : List Symbol)
    (L : Nat → List Relocation) : Prop where
  class_ok : E.Class = ELFCLASS32 ∨ E.Class = ELFCLASS64
  endian_ok : E.Endian < 256
  header : Holds b 0 E.writeElfHeader
  ph_count : E.progHdrCount % 2 ^ 16 = E.ProgramHeaders.length
  ph_off : E.progHdrOffset % 2 ^ E.addrBits < 2 ^ 63
  ph_recs : Holds b (E.progHdrOffset % 2 ^ E.addrBits)
    (E.ProgramHeaders.flatMap E.writeProgramHeader)
  ph_spans : ∀ ph ∈ E.ProgramHeaders, SpanInside b.length (E.decodeProgramSpan ph)
  sh_count : E.secHdrCount % 2 ^ 16 = hs.length
  sh_off : E.secHdrOffset % 2 ^ E.addrBits < 2 ^ 63
  sh_recs : Holds b (E.secHdrOffset % 2 ^ E.addrBits) (hs.flatMap E.writeSectionHeader)
  sh_payload : ∀ h ∈ hs, E.PayloadAt b h
  links : ∀ h ∈ hs,
    ((E.readBack h).Link < SHN_LORESERVE → (E.readBack h).Link < hs.length) ∧
    ((E.readBack h).Info < SHN_LORESERVE → HasSectionInInfo (E.readBack h).Type_ →
      (E.readBack h).Info < hs.length)
  str_idx : E.secHdrStrIdx % 2 ^ 16 ≠ SHN_XINDEX
  names : E.secHdrStrIdx % 2 ^ 16 ≠ SHN_UNDEF →
    ∃ t, hs[E.secHdrStrIdx % 2 ^ 16]? = some t ∧
      ∀ h ∈ hs, Holds b ((E.readBack t).offset + (E.readBack h).nameOffset) (h.Name ++ [0]) ∧
        (E.readBack t).offset + (E.readBack h).nameOffset < 2 ^ 63
  symtab : ∃ (ix : Nat) (st strh : SectionHeader), scanIdx SHT_SYMTAB hs 0 0 = (ix : Int) ∧ 0 < ix ∧ hs[ix]? = some st ∧
    (E.readBack st).EntrySize ≠ 0 ∧
    (E.readBack st).Size / (E.readBack st).EntrySize = ys.length ∧
    (E.readBack st).offset < 2 ^ 63 ∧
    Holds b (E.readBack st).offset (ys.flatMap E.writeSymbol) ∧
    hs[(E.readBack st).Link]? = some strh ∧
    ∀ y ∈ ys, (E.reading hs.length ys.length).SymbolAt b (E.readBack strh).offset y
  rels : ∀ j h, hs[j]? = some h →
    ((E.readBack h).Type_ = SHT_REL ∨ (E.readBack h).Type_ = SHT_RELA) →
    (E.reading hs.length ys.length).RelSectionAt b (E.readBack h) (L j)

/-- The offset recorded for `s` in a string table (0 when `s` is absent). -/
def StringTable.offsetOf (t : StringTable) (s : List Nat) : Nat := (t.strings.lookup s).getD 0

/-- The strings of a table one after the other, each with its terminator. -/
def tableBytes (strs : List (List Nat × Nat)) : List Nat := strs.flatMap fun en => en.1 ++ [0]

/-- The entries of a string table stand one after the other from offset `o`. -/
def contig : Nat → List (List Nat × Nat) → Prop
  | _, [] => True
  | o, en :: rest => en.2 = o ∧ contig (o + en.1.length + 1) rest

/-- A string table whose offsets never wrapped around: the entries are
contiguous and `pos` is the total size. -/
def StringTable.WF (t : StringTable) : Prop :=
  contig 0 t.strings ∧ t.pos = (tableBytes t.strings).length

/-- Every entry of the table, with its terminator, ends below `2^32`. -/
def StringTable.Fits (t : StringTable) : Prop :=
  ∀ en ∈ t.strings, en.2 + en.1.length + 1 < 2 ^ 32

/-- What one iteration of the symbol-table loop of `Write` makes of a symbol:
the name offset `o` and, for a symbol with a section, the index of that
section in `sections`. -/
def symStep (sections : List Nat) (o : Nat) (y : Symbol) : Symbol :=
  { y with
    nameOffset := o
    SectionIndex := match y.Section with
      | some p => wrapU 16 (slicesIndex sections p)
      | none => y.SectionIndex }

/-- The symbol record `Write` emits for `y` when the string table ends up as `t`. -/
def emitSymbol (t : StringTable) (sections : List Nat) (y : Symbol) : Symbol :=
  symStep sections (t.offsetOf y.Name) y

/-- The section data `Write` emits: the payloads of the sections that have
data in the file, in order. -/
def sectionData (m : Mem) (secs : List Nat) : List Nat :=
  (secs.filter fun sh => HasDataInFile (m.sec sh).Type_).flatMap fun sh => (m.sec sh).Data

/-- The memory of `Write` just before the layout: the string-table payloads
are in place. -/
def Elf.writeFilled (e : Elf) (m : Mem) (shstrData strData : List Nat) : Mem :=
  ((e.writeSynthesize m).mem.setSec m.secs.length fun h => { h with Data := shstrData }).setSec
    (m.secs.length + 1) fun h => { h with Data := strData }

/-- The image `e` (in memory `m`) and its written form `r` stay within what
the file format can express and `ReadELF` can take back, none of which `Write`
checks: the class is 32 or 64 bit; the pointers of the image refer to records
of the memory; the keys of the relocation map are distinct sections of the
image and every relocation names a symbol of the image; no section of the
image is itself a relocation table; the fields are within the range of their
Go types; `Link` and `SectionIndex` values that `ReadELF` resolves are in
range; and the counts and sizes fit their fields in the file. -/
structure Elf.Portable (e : Elf) (m : Mem) (r : WriteResult) : Prop where
  class_ok : e.Class = ELFCLASS32 ∨ e.Class = ELFCLASS64
  endian_ok : e.Endian < 256
  live_sections : ∀ p ∈ e.Sections, p < m.secs.length
  live_symbols : ∀ q ∈ e.Symbols, q < m.syms.length
  keys : ∀ en ∈ e.Relocations, en.1 ∈ e.Sections
  keys_nodup : (e.Relocations.map Prod.fst).Nodup
  typed_sections : ∀ p ∈ e.Sections,
    (m.sec p).Type_ < 2 ^ 32 ∧ (m.sec p).Link < 2 ^ 32 ∧ (m.sec p).Info < 2 ^ 32
  no_rel_sections : ∀ p ∈ e.Sections, (m.sec p).Type_ ≠ SHT_REL ∧ (m.sec p).Type_ ≠ SHT_RELA
  links : ∀ p ∈ e.Sections, (m.sec p).Link < SHN_LORESERVE → (m.sec p).Link < r.sections.length
  sym_sections : ∀ q ∈ e.Symbols,
    ((m.sym q).Section = none →
      (m.sym q).SectionIndex < SHN_XINDEX ∧
      ((m.sym q).SectionIndex < SHN_LORESERVE → (m.sym q).SectionIndex < r.sections.length)) ∧
    (∀ p ∈ (m.sym q).Section, p ∈ e.Sections)
  rel_symbols : ∀ en ∈ e.Relocations, ∀ rel ∈ en.2, ∃ q ∈ e.Symbols, rel.Symbol = some q
  rel_types : ∀ en ∈ e.Relocations, ∀ rel ∈ en.2,
    rel.Type_ < (if e.Class = ELFCLASS64 then 2 ^ 32 else 2 ^ 8)
  sym_count : e.Class = ELFCLASS32 → e.Symbols.length < 2 ^ 24
  ph_count : e.ProgramHeaders.length < 2 ^ 16
  sec_count : r.sections.length < 2 ^ 16
  payloads : ∀ p ∈ r.sections, (r.mem.sec p).Data.length < 2 ^ 32 - 1
  file_size : r.bytes.length < (if e.Class = ELFCLASS64 then 2 ^ 63 else 2 ^ 32)

/-- The symbol records `Write` emits, in the order of the sorted symbol table. -/
def Elf.emittedSymbols (e : Elf) (m : Mem) : List Symbol :=
  (sortSymbols m e.Symbols).map fun q =>
    emitSymbol (e.writeSyms m).table (e.writeRels m).sections (m.sym q)

/-- The relocations `Write` emits in the section at index `j` of the emitted
section list (none unless `j` is the index of a relocation section). -/
def Elf.emittedRelocations (e : Elf) (m : Mem) (j : Nat) : List Relocation :=
  if j < e.Sections.length + 3 then []
  else
    match e.Relocations[j - (e.Sections.length + 3)]? with
    | some en => refreshRelocations (sortSymbols m e.Symbols) en.2
    | none => []

/-- The offset at which `Write` puts the first section payload. -/
def Elf.dataBase (e : Elf) (m : Mem) : Nat :=
  e.sizeElfHeader + e.ProgramHeaders.length % 2 ^ 16 * e.sizeProgramHeader
    + (e.ProgramHeaders.flatMap fun ph => ph.Data).length
    + (e.writeRels m).sections.length % 2 ^ 16 * e.sizeSectionHeader

/-- The contents of the image `e` are of a kind the file keeps: no section of
the image is a symbol table, a string table or a table of extended section
indices (`Write` makes its own and `ReadELF` hides them); names hold no zero
byte; a section without data in the file (`SHT_NOBITS`) has no payload;
flags and alignments are within `uint32`; symbol types and bindings are
within the four bits each has in `st_info`; symbol values and sizes are
within the address width of the class. -/
structure Elf.Storable (e : Elf) (m : Mem) : Prop where
  sec_types : ∀ p ∈ e.Sections, (m.sec p).Type_ ≠ SHT_SYMTAB ∧ (m.sec p).Type_ ≠ SHT_STRTAB ∧
    (m.sec p).Type_ ≠ SHT_SYMTAB_SHNDX
  sec_names : ∀ p ∈ e.Sections, 0 ∉ (m.sec p).Name
  sec_data : ∀ p ∈ e.Sections, HasDataInFile (m.sec p).Type_ = false → (m.sec p).Data = []
  sec_fields : ∀ p ∈ e.Sections, (m.sec p).Flags < 2 ^ 32 ∧ (m.sec p).AddrAlign < 2 ^ 32
  sym_names : ∀ q ∈ e.Symbols, 0 ∉ (m.sym q).Name
  sym_kinds : ∀ q ∈ e.Symbols, 0 ≤ (m.sym q).Type_ ∧ (m.sym q).Type_ < 16 ∧
    0 ≤ (m.sym q).Binding ∧ (m.sym q).Binding < 16
  sym_values : ∀ q ∈ e.Symbols, (m.sym q).Value < 2 ^ e.addrBits ∧ (m.sym q).Size < 2 ^ e.addrBits

/-- Go `e.Relocations[sec]`: the list held for the key, or the empty list. -/
def relocationsOf (rels : List (Nat × List Relocation)) (sec : Nat) : List Relocation :=
  (rels.lookup sec).getD []

/-- The image a `ReadELF` that succeeds returns for the bytes `b` (and an empty
image otherwise). -/
def reread (b : List Nat) : Elf × Mem :=
  match ReadELF ⟨b, 0⟩ with
  | .ok x => x
  | .error _ => (default, default)

/-- An image with a null section and a `.bss` section of type `SHT_NOBITS` that
holds four bytes in memory, and the null symbol. -/
def exampleBss : Elf × Mem :=
  ({ (default : Elf) with
     Class := ELFCLASS64, Endian := ELFDATA2LSB, HeaderVersion := 1, Type_ := 1, Machine := 3,
     Version := 1, Sections := [0, 1], Symbols := [0] },
   { secs := [default,
              { (default : SectionHeader) with
                Name := [46, 98, 115, 115], Type_ := SHT_NOBITS, Flags := 3,
                AddrAlign := 4, Data := [0, 0, 0, 0] }],
     syms := [default] })

/-- An image without a null section: its first section is `.text`, and its
global function symbol `main` points at it. -/
def exampleFirstSection : Elf × Mem :=
  ({ (default : Elf) with
     Class := ELFCLASS64, Endian := ELFDATA2LSB, HeaderVersion := 1, Type_ := 1, Machine := 3,
     Version := 1, Sections := [0], Symbols := [0, 1] },
   { secs := [{ (default : SectionHeader) with
                Name := [46, 116, 101, 120, 116], Type_ := SHT_PROGBITS, Flags := 6,
                AddrAlign := 4, Data := [1, 2, 3, 4, 5, 6, 7, 8] }],
     syms := [{ (default : Symbol) with
                Name := [109, 97, 105, 110], Binding := STB_GLOBAL, Type_ := 2,
                Section := some 0, Size := 8 },
              default] })

/-- A 32-bit image with a null section, a `.text` section, the symbol `main`
and one relocation in `.text` against `main` whose addend is `2^32`. -/
def exampleAddend32 : Elf × Mem :=
  ({ (default : Elf) with
     Class := ELFCLASS32, Endian := ELFDATA2LSB, HeaderVersion := 1, Type_ := 1, Machine := 3,
     Version := 1, Sections := [0, 1], Symbols := [0, 1],
     Relocations :=
       [(1, [{ (default : Relocation) with Symbol := some 0, Offset := 4, Type_ := 1,
                                           Addend := 4294967296 }])] },
   { secs := [default,
              { (default : SectionHeader) with
                Name := [46, 116, 101, 120, 116], Type_ := SHT_PROGBITS, Flags := 6,
                AddrAlign := 4, Data := [1, 2, 3, 4, 5, 6, 7, 8] }],
     syms := [{ (default : Symbol) with
                Name := [109, 97, 105, 110], Binding := STB_GLOBAL, Type_ := 2,
                Section := some 1, Size := 8 },
              default] })

end elf

namespace elf

/-- A sequence of `Add` calls on a string table: the offsets returned, in
order, and the table afterwards. -/
def StringTable.addAll (t : StringTable) : List (List Nat) → List Nat × StringTable
  | [] => ([], t)
  | s :: ss => ((t.Add s).1 :: ((t.Add s).2.addAll ss).1, ((t.Add s).2.addAll ss).2)

/-- The sum of `len(s) + 1` over the distinct strings of a list. -/
def stringsSize (ss : List (List Nat)) : Nat := (ss.dedup.map fun s => s.length + 1).sum

/-- Go `stringTable.ToData` when `range e.strings` visits the map in the order
`order`. -/
def StringTable.ToDataIn (t : StringTable) (order : List (List Nat × Nat)) :
    Except Fault (List Nat) :=
  toDataLoop order (List.replicate t.pos 0)

/-- The table holds exactly the strings `seen`, one entry each, laid out one
after the other. -/
def StringTable.Holding (t : StringTable) (seen : List (List Nat)) : Prop :=
  t.WF ∧ (t.strings.map Prod.fst).Nodup ∧ ∀ a, a ∈ t.strings.map Prod.fst ↔ a ∈ seen

/-- Two entries of a string table, with their terminators, do not overlap. -/
def Apart (a b : List Nat × Nat) : Prop :=
  a.2 + a.1.length + 1 ≤ b.2 ∨ b.2 + b.1.length + 1 ≤ a.2

end elf

namespace Relocation

/-- Go `RegionList[T]`. -/
structure RegionList where
  Regions : List Region

/-- The `for i := 0; i < len(r.Regions); i++` loop of `RegionList.Place` with
`n` iterations left; `call` is the outcome of the call `r.Place(entry,
offsetRange, simulate)` in its body, whose receiver `r` is the region list
itself. -/
def regionListLoop (call : Except Halt (Bool × Nat)) : Nat → Except Halt (Bool × Nat)
  | 0 => .ok (false, 0)
  | n + 1 =>
    match call with
    | .error h => .error h
    | .ok (ok, offset) => if ok then .ok (ok, offset) else regionListLoop call n

/-- Go `RegionList.Place(entry, offsetRange, simulate)`.  The body calls
`r.Place` on the receiver, that is, itself, with the same arguments; `fuel`
bounds the depth of these calls. -/
def RegionList.Place : Nat → RegionList → Entry → Option (List Nat) → Bool →
    Except Halt (Bool × Nat)
  | 0, _, _, _, _ => .error Halt.fuel
  | fuel + 1, r, entry, offsetRange, simulate =>
    regionListLoop (RegionList.Place fuel r entry offsetRange simulate) r.Regions.length

/-- The outcome of a `Place` with `simulate = true`, given the outcome `res`
of the same call with `simulate = false`: the same returned values, the
region and the entry as they were. -/
def simulated (r : Region) (entry : Entry) : Except Halt PlaceResult → Except Halt PlaceResult
  | .ok res => .ok { ok := res.ok, ret := res.ret, region := r, entry := entry }
  | .error h => .error h

end Relocation

namespace elf

/-- The four bytes every ELF file starts with. -/
def elfMagic : List Nat := [0x7F, 0x45, 0x4C, 0x46]

end elf

namespace elf

/-- An image of `n` unnamed null sections, without symbols, relocations or
program headers. -/
def manySections (n : Nat) : Elf × Mem :=
  ({ (default : Elf) with
     Class := ELFCLASS64, Endian := ELFDATA2LSB, HeaderVersion := 1, Sections := List.range n },
   { secs := List.replicate n default, syms := [] })

end elf

namespace elf

/-- The test of the loop of `ReadELF` that drops the sections already parsed:
`true` for the section types that stay. -/
def keptType (t : Nat) : Bool :=
  decide (t ∉ [SHT_REL, SHT_RELA, SHT_SYMTAB, SHT_STRTAB, SHT_SYMTAB_SHNDX])

end elf

namespace Relocation

/-- The interval `[gs, ge)` is free at index `j` of the entry list `es`: it
lies inside `[lo, hi)`, at or after the end of every entry before index `j`,
and at or before the start of every entry from index `j` on. -/
def FreeAt (lo hi : Nat) (es : List Entry) (j gs ge : Nat) : Prop :=
  j ≤ es.length ∧ lo ≤ gs ∧ ge ≤ hi ∧
  (∀ a ∈ es.take j, a.offset + a.size ≤ gs) ∧ (∀ a ∈ es.drop j, ge ≤ a.offset)

/-- The offset range handed to `Place` for an entry of the given size stays
below the 64-bit limit: `[x]` with `x + size < 2^64`, or `[min, max]` with
`min ≤ max` and `max + 1 < 2^64`. -/
def RangeOk (size : Nat) : Option (List Nat) → Prop
  | some [x] => x + size < M64
  | some [lo, hi] => lo ≤ hi ∧ hi + 1 < M64
  | _ => True

end Relocation

namespace elf

/-- An image with the sections `.text` and `.data`, the null symbol and a
global symbol `main` in `.text`, and one relocation in `.data` against `main`:
`.data` depends on `.text`, and nothing depends on `.data`. -/
def exampleGcData : Elf × Mem :=
  ({ (default : Elf) with
     Class := ELFCLASS64, Endian := ELFDATA2LSB, HeaderVersion := 1, Type_ := 1, Machine := 3,
     Version := 1, Sections := [0, 1], Symbols := [0, 1],
     Relocations := [(1, [{ (default : Relocation) with Symbol := some 1, Type_ := 1 }])] },
   { secs := [{ (default : SectionHeader) with
                Name := [46, 116, 101, 120, 116], Type_ := SHT_PROGBITS, Flags := 6,
                Data := [1, 2, 3, 4] },
              { (default : SectionHeader) with
                Name := [46, 100, 97, 116, 97], Type_ := SHT_PROGBITS, Flags := 3,
                Data := [0, 0, 0, 0, 0, 0, 0, 0] }],
     syms := [default,
              { (default : Symbol) with
                Name := [109, 97, 105, 110], Binding := STB_GLOBAL, Type_ := 2,
                Section := some 0, Size := 4 }] })

/-- The image of scenario S4: section `A` (index 0) flagged `SHF_GNU_RETAIN`,
section `B` (index 1), and section `C` (index 2), referenced from `A` through
the section of the symbol of a relocation. -/
def exampleRetain : Elf × Mem :=
  ({ (default : Elf) with
     Sections := [0, 1, 2]
     Relocations := [(0, [{ (default : Relocation) with Symbol := some 0 }])] },
   { secs := [{ (default : SectionHeader) with Flags := SHF_GNU_RETAIN }, default, default],
     syms := [{ (default : Symbol) with Section := some 2 }] })

/-- The image `exampleGcData` after `GarbageCollectSections` with the root
`.text`. -/
def exampleGcDataCollected : Elf :=
  { exampleGcData.1 with Sections := [0] }

end elf

namespace elf

/-- The `r_info` word of class 32 as the specification gives it:
`(symbol_index << 8) | (type & 0xFF)` as a 32-bit value; the symbol index, a Go
`int`, is taken by its 64 bits. -/
def packInfo32 (symbolIndex : Int) (type : Nat) : Nat :=
  ((wrapU 64 symbolIndex <<< 8) ||| (type &&& 0xFF)) % 2 ^ 32

/-- The `r_info` word of class 64 as the specification gives it:
`(symbol_index << 32) | (type & 0xFFFFFFFF)` as a 64-bit value. -/
def packInfo64 (symbolIndex : Int) (type : Nat) : Nat :=
  ((wrapU 64 symbolIndex <<< 32) ||| (type &&& 0xFFFFFFFF)) % 2 ^ 64

/-- A little-endian image of class 32 without contents. -/
def exampleClass32 : Elf :=
  { (default : Elf) with Class := ELFCLASS32, Endian := ELFDATA2LSB, HeaderVersion := 1 }

/-- A relocation at offset 16 of type 2 against symbol 5. -/
def exampleRelocation : Relocation :=
  { (default : Relocation) with symbolIndex := 5, Type_ := 2, Offset := 16 }

end elf

namespace elf

/-- The `st_info` byte as the specification gives it:
`(binding << 4) | (type & 0x0F)` reduced to 8 bits; binding and type, Go `int`
values, are taken by their 64 bits. -/
def packSymbolInfo (binding type : Int) : Nat :=
  ((wrapU 64 binding <<< 4) ||| (wrapU 64 type &&& 0x0F)) % 2 ^ 8

/-- The function symbol `main` of `exampleText`, by value. -/
def exampleSymbol : Symbol := exampleText.2.sym 0

/-- An unsigned integer field of `w` bytes in a file: byte `i` of the field is
digit `i` of `v` in base 256 in little-endian order, digit `w - 1 - i` in
big-endian order (so the field holds `v` modulo `2^(8w)`). -/
def fieldBytes (be : Bool) (w v : Nat) : List Nat :=
  (List.range w).map fun i => v / 256 ^ (if be then w - 1 - i else i) % 256

end elf

namespace elf

/-- The header `readElfHeader` builds from the bytes `writeElfHeader` writes
for `E`, with `e0` the image before the call. -/
def Elf.decodeHeader (e0 E : Elf) : Elf :=
  { e0 with
    Class := E.Class % 256, Endian := E.Endian % 256, HeaderVersion := E.HeaderVersion % 256,
    ABI := if E.Class = ELFCLASS64 then E.ABI % 256 else 0,
    ABIVersion := if E.Class = ELFCLASS64 then E.ABIVersion % 256 else 0,
    Type_ := E.Type_ % 2 ^ 16, Machine := E.Machine % 2 ^ 16, Version := E.Version % 2 ^ 32,
    Entry := E.Entry % 2 ^ E.addrBits, progHdrOffset := E.progHdrOffset % 2 ^ E.addrBits,
    secHdrOffset := E.secHdrOffset % 2 ^ E.addrBits, Flags := E.Flags % 2 ^ 32,
    headerSize := E.headerSize % 2 ^ 16, progHdrEntrySize := E.progHdrEntrySize % 2 ^ 16,
    progHdrCount := E.progHdrCount % 2 ^ 16, secHdrEntrySize := E.secHdrEntrySize % 2 ^ 16,
    secHdrCount := E.secHdrCount % 2 ^ 16, secHdrStrIdx := E.secHdrStrIdx % 2 ^ 16 }

/-- Every field of the ELF header of the image is within its Go type
(`uint8`, `uint16`, `uint32` or `uint64`). -/
def Elf.headerInRange (E : Elf) : Prop :=
  E.Class < 2 ^ 8 ∧ E.Endian < 2 ^ 8 ∧ E.HeaderVersion < 2 ^ 8 ∧ E.ABI < 2 ^ 8 ∧
  E.ABIVersion < 2 ^ 8 ∧ E.Type_ < 2 ^ 16 ∧ E.Machine < 2 ^ 16 ∧ E.Version < 2 ^ 32 ∧
  E.Entry < 2 ^ 64 ∧ E.progHdrOffset < 2 ^ 64 ∧ E.secHdrOffset < 2 ^ 64 ∧ E.Flags < 2 ^ 32 ∧
  E.headerSize < 2 ^ 16 ∧ E.progHdrEntrySize < 2 ^ 16 ∧ E.progHdrCount < 2 ^ 16 ∧
  E.secHdrEntrySize < 2 ^ 16 ∧ E.secHdrCount < 2 ^ 16 ∧ E.secHdrStrIdx < 2 ^ 16

instance (E : Elf) : Decidable E.headerInRange := by
  unfold Elf.headerInRange; infer_instance

/-- The image `e0` with the ELF header of `E`. -/
def Elf.withHeaderOf (e0 E : Elf) : Elf :=
  { E with
    ProgramHeaders := e0.ProgramHeaders, Sections := e0.Sections, Symbols := e0.Symbols,
    Relocations := e0.Relocations, symtabIdx := e0.symtabIdx,
    symtabShndxIdx := e0.symtabShndxIdx }

/-- A big-endian image of class 64 without contents, with every header field
set; its entry point and section header offset do not fit 32 bits. -/
def exampleHeader : Elf :=
  { (default : Elf) with
    Class := ELFCLASS64, Endian := ELFDATA2MSB, HeaderVersion := 1, ABI := 3, ABIVersion := 1,
    Type_ := 1, Machine := 3, Version := 1, Entry := 0x100000010, progHdrOffset := 64,
    secHdrOffset := 0x123456789, Flags := 5, headerSize := 64, progHdrEntrySize := 56,
    progHdrCount := 1, secHdrEntrySize := 48, secHdrCount := 6, secHdrStrIdx := 2 }

end elf

namespace elf

/-- A null symbol: no name, value 0, size 0, local binding, no type, no
section and section index 0. -/
def Symbol.isNull (y : Symbol) : Prop :=
  y.Name = [] ∧ y.Value = 0 ∧ y.Size = 0 ∧ y.Binding = STB_LOCAL ∧ y.Type_ = 0 ∧
  y.Section = none ∧ y.SectionIndex = 0

instance (y : Symbol) : Decidable y.isNull := by
  unfold Symbol.isNull; infer_instance

/-- An image without sections whose only symbol is the global function symbol
`main` of value 16 and size 8: it has no null symbol. -/
def exampleNoNullSymbol : Elf × Mem :=
  ({ (default : Elf) with Class := ELFCLASS64, Endian := ELFDATA2LSB, Symbols := [0] },
   { secs := [],
     syms := [{ (default : Symbol) with
                Name := [109, 97, 105, 110], Binding := STB_GLOBAL, Type_ := 2,
                SectionIndex := SHN_ABS, Value := 16, Size := 8 }] })

/-- An image with one section `.text` whose symbol list holds the section
symbol of `.text` (local, without name, of type `STT_SECTION`) and then the
null symbol. -/
def exampleSectionSymbol : Elf × Mem :=
  ({ (default : Elf) with
     Class := ELFCLASS64, Endian := ELFDATA2LSB, Sections := [0, 1], Symbols := [0, 1] },
   { secs := [default,
              { (default : SectionHeader) with
                Name := [46, 116, 101, 120, 116], Type_ := SHT_PROGBITS, Flags := 6,
                Data := [1, 2, 3, 4] }],
     syms := [{ (default : Symbol) with Binding := STB_LOCAL, Type_ := 3, Section := some 1 },
              default] })

end elf

namespace elf

end elf

namespace elf

/-- The 52 bytes of a little-endian ELF header of class 32 that announces
`shnum` section headers of 40 bytes at offset 52, no program headers, and the
section-header string-table index 0. -/
def headerBytes32 (shnum : Nat) : List Nat :=
  [0x7F, 0x45, 0x4C, 0x46, 1, 1, 1, 0, 0, 0, 0, 0, 0, 0, 0, 0] -- identification
  ++ [1, 0] ++ [3, 0] ++ [1, 0, 0, 0]      -- type, machine, version
  ++ [0, 0, 0, 0] ++ [0, 0, 0, 0]          -- entry, program-header offset
  ++ [52, 0, 0, 0] ++ [0, 0, 0, 0]         -- section-header offset, flags
  ++ [52, 0] ++ [32, 0] ++ [0, 0]          -- header size, program-header size and count
  ++ [40, 0] ++ [shnum, 0] ++ [0, 0]       -- section-header size, count, string-table index

/-- The 40 bytes of a little-endian section header of class 32 with the given
type, offset, size, link, info and entry size (each below 256), and name
offset, flags, address and alignment 0. -/
def sectionBytes32 (type offset size link info entrySize : Nat) : List Nat :=
  [0, 0, 0, 0] ++ [type, 0, 0, 0] ++ [0, 0, 0, 0] ++ [0, 0, 0, 0]
  ++ [offset, 0, 0, 0] ++ [size, 0, 0, 0] ++ [link, 0, 0, 0] ++ [info, 0, 0, 0]
  ++ [0, 0, 0, 0] ++ [entrySize, 0, 0, 0]

/-- A file with one section header, of type `SHT_NULL`, whose `Link` is 1. -/
def exampleBadLink : List Nat :=
  headerBytes32 1 ++ sectionBytes32 SHT_NULL 0 0 1 0 0

/-- A file with two section headers: a null section and a symbol table of 16
bytes whose entry size is 0. -/
def exampleZeroEntrySize : List Nat :=
  headerBytes32 2 ++ sectionBytes32 SHT_NULL 0 0 0 0 0 ++ sectionBytes32 SHT_SYMTAB 0 16 0 0 0

/-- A file with two section headers, a null section and a `SHT_REL` section for
section 0 with one record of 8 bytes at offset 132, and that record: offset 0,
info `0x0501` (symbol 5, type 1).  The file has no symbol table. -/
def exampleBadSymbolIndex : List Nat :=
  headerBytes32 2 ++ sectionBytes32 SHT_NULL 0 0 0 0 0 ++ sectionBytes32 SHT_REL 132 8 0 0 8
  ++ [0, 0, 0, 0] ++ [1, 5, 0, 0]

end elf

namespace elf

/-- The record of a relocation in a file, as the ELF format lays it out: the
offset word, the info word and, in a RELA section only, the addend word, each
of `w` bytes (4 in class 32, 8 in class 64) in the byte order of the file. -/
def relocationRecord (be : Bool) (w : Nat) (rela : Bool) (offset info addend : Nat) :
    List Nat :=
  fieldBytes be w offset ++ fieldBytes be w info ++ (if rela then fieldBytes be w addend else [])

/-- The symbol index `Write` stores in a relocation before it writes it: the
index of the symbol in the symbol list, or the index the relocation had when
it has no symbol. -/
def symbolIndexOf (symbols : List Nat) (rel : Relocation) : Int :=
  match rel.Symbol with
  | some q => slicesIndex symbols q
  | none => rel.symbolIndex

/-- An image like `exampleGcData` whose relocation map has the key `.data`
while its section list holds `.text` only. -/
def exampleAbsentTarget : Elf × Mem :=
  ({ exampleGcData.1 with Sections := [0] }, exampleGcData.2)

end elf

namespace Relocation

/-- The objects behind the pointers that implement `RegionPlaceable` (as
`*MockRegionEntry` does in the tests): the object at address `p` is `objs[p]`. -/
structure Heap where
  objs : List Entry
deriving DecidableEq

/-- The object a pointer refers to. -/
def Heap.get (h : Heap) (p : Nat) : Entry := h.objs.getD p ⟨0, 0, 0⟩

/-- Go `entry.SetOffset(offset)` through the pointer `p`: the object changes
for every holder of the pointer. -/
def Heap.setOffset (h : Heap) (p : Nat) (offset : Nat) : Heap :=
  { objs := h.objs.set p { h.get p with offset := offset } }

/-- Go `Region[T]` for a pointer type `T`: the entries are pointers. -/
structure PtrRegion where
  offset : Nat
  size : Nat
  entries : List Nat
  descending : Bool
deriving DecidableEq

/-- Go `NewRegion[T]` for a pointer type `T`. -/
def NewPtrRegion (offset size : Nat) (descending : Bool) : PtrRegion :=
  { offset := offset, size := size, entries := [], descending := descending }

/-- The region as the methods that only read it see it: every entry read
through its pointer (`Offset()`, `Size()`, `Alignment()`). -/
def PtrRegion.view (r : PtrRegion) (h : Heap) : Region :=
  { offset := r.offset, size := r.size, entries := r.entries.map h.get,
    descending := r.descending }

/-- What `Place` gives back for a region of pointers: the two returned values,
and the region and the objects as the call leaves them. -/
structure PtrPlaceResult where
  ok : Bool
  ret : Nat
  region : PtrRegion
  heap : Heap
deriving DecidableEq

/-- The `for ok` loop of `Region.Place` for a region of pointers; `findGap`
reads the entries through their pointers, `SetOffset` writes through the
pointer `entry`, and the pointer itself is inserted. -/
def ptrPlaceLoop (h : Heap) (r : PtrRegion) (entry : Nat) (offsetMin offsetMax : Nat)
    (simulate : Bool) : Nat → Nat → Except Halt PtrPlaceResult
  | 0, _ => .error Halt.fuel
  | fuel + 1, startIndex =>
    match (r.view h).findGap offsetMin offsetMax RegionFindGapModeFirst
        (toInt64 (h.get entry).size) startIndex with
    | .error e => .error e
    | .ok (false, _, _, _) => .ok { ok := false, ret := 0, region := r, heap := h }
    | .ok (true, gapStart, gapEnd, gapIndex) =>
      match calcEntryOffset gapStart gapEnd (h.get entry).size r.descending
          (h.get entry).align with
      | (true, offset) =>
        if simulate then .ok { ok := true, ret := r.offset, region := r, heap := h }
        else
          .ok { ok := true, ret := r.offset,
                region := { r with entries := slicesInsert r.entries gapIndex entry },
                heap := h.setOffset entry offset }
      | (false, _) => ptrPlaceLoop h r entry offsetMin offsetMax simulate fuel (gapIndex + 1)

/-- Go `Region.Place(entry, offsetRange, simulate)` for a region of pointers;
`offsetRange = none` is the nil slice.  `fuel` bounds the iterations of the
retry loop. -/
def PtrRegion.Place (fuel : Nat) (h : Heap) (r : PtrRegion) (entry : Nat)
    (offsetRange : Option (List Nat)) (simulate : Bool) : Except Halt PtrPlaceResult :=
  let offsetMin := r.offset
  let offsetMax := add64 r.offset r.size
  let bounds : Except Halt (Nat × Nat) :=
    match offsetRange with
    | none => .ok (offsetMin, offsetMax)
    | some [lo, hi] => .ok (max offsetMin lo, min offsetMax (add64 hi 1))
    | some [x] => .ok (max offsetMin x, min offsetMax (add64 x (h.get entry).size))
    | some _ => .error Halt.panic
  match bounds with
  | .error e => .error e
  | .ok (offsetMin, offsetMax) =>
    if r.size ≥ sub64 offsetMax offsetMin then
      ptrPlaceLoop h r entry offsetMin offsetMax simulate fuel 0
    else .ok { ok := false, ret := 0, region := r, heap := h }

/-- Places the objects behind the pointers one after the other with no offset
range and `simulate = false`, as the tests do; gives the final region and the
final objects, or nothing as soon as one placement does not succeed. -/
def ptrPlaceAll (fuel : Nat) : Heap → PtrRegion → List Nat → Option (PtrRegion × Heap)
  | h, r, [] => some (r, h)
  | h, r, p :: ps =>
    match r.Place fuel h p none false with
    | .ok res => if res.ok then ptrPlaceAll fuel res.heap res.region ps else none
    | .error _ => none

/-- Heap of the witness: the objects `[10, 15)`, `[50, 60)` and a third one of
size 8 and alignment 4 that is not yet placed. -/
def exampleHeap : Heap := ⟨[⟨10, 5, 1⟩, ⟨50, 10, 1⟩, ⟨0, 8, 4⟩]⟩

/-- Ascending region `[0, 100)` that holds the first two objects of
`exampleHeap`. -/
def examplePtrRegion : PtrRegion := ⟨0, 100, [0, 1], false⟩

/-- The two objects of the placement tests: sizes 64 and 32, alignment 1. -/
def examplePair : Heap := ⟨[⟨0, 64, 1⟩, ⟨0, 32, 1⟩]⟩

/-- Two objects of sizes 10 and 5, alignment 1, not yet placed. -/
def exampleAliasHeap : Heap := ⟨[⟨0, 10, 1⟩, ⟨0, 5, 1⟩]⟩

/-- The objects `[5, 8)`, an object of size 0 at offset 5, and an object of
size 10 that is not yet placed. -/
def exampleZeroSizeHeap : Heap := ⟨[⟨5, 3, 1⟩, ⟨5, 0, 1⟩, ⟨0, 10, 1⟩]⟩

end Relocation

/-! ## Theorems -/

/-! ### 64-bit arithmetic -/

theorem add64_eq {a b : Nat} (h : a + b < M64) : add64 a b = a + b := by
  unfold add64; exact Nat.mod_eq_of_lt h

theorem sub64_eq {a b : Nat} (hb : b ≤ a) (ha : a < M64) : sub64 a b = a - b := by
  unfold sub64; simp only [M64] at *; omega

theorem toInt64_eq {x : Nat} (h : x < H64) : toInt64 x = (x : Int) := by
  unfold toInt64; simp only [M64, H64] at *
  have : x % 18446744073709551616 = x := Nat.mod_eq_of_lt (by omega)
  rw [this]; simp [h]

theorem ofInt64_natCast {n : Nat} (h : n < M64) : ofInt64 (n : Int) = n := by
  unfold ofInt64; simp only [M64] at *; omega

/-! ### Region allocator -/

namespace Relocation

theorem Packed.le {lo hi : Nat} : ∀ {es : List Entry}, Packed lo hi es → lo ≤ hi
  | [], h => h
  | a :: rest, h => by
    have := Packed.le h.2.2
    have := h.1
    omega

theorem Packed.mem {lo hi : Nat} : ∀ {es : List Entry}, Packed lo hi es →
    ∀ a ∈ es, lo ≤ a.offset ∧ 1 ≤ a.size ∧ a.offset + a.size ≤ hi
  | [], _, a, ha => by simp at ha
  | b :: rest, h, a, ha => by
    rcases List.mem_cons.1 ha with rfl | ha
    · exact ⟨h.1, h.2.1, Packed.le h.2.2⟩
    · have := Packed.mem h.2.2 a ha
      have := h.1
      omega

theorem gaps_bounds {hi : Nat} : ∀ {es : List Entry} {lo : Nat}, Packed lo hi es →
    ∀ g ∈ gaps lo hi es, lo ≤ g.1 ∧ g.1 ≤ g.2 ∧ g.2 ≤ hi
  | [], lo, h, g, hg => by
    simp [gaps] at hg; subst hg; exact ⟨le_refl _, h, le_refl _⟩
  | a :: rest, lo, h, g, hg => by
    simp only [gaps, List.mem_cons] at hg
    have hle := Packed.le h.2.2
    rcases hg with rfl | hg
    · exact ⟨le_refl _, h.1, by simp; omega⟩
    · have := gaps_bounds h.2.2 g hg
      have := h.1
      omega

theorem fits_iff_gap {hi size align x : Nat} (hs : 1 ≤ size) :
    ∀ {es : List Entry} {lo : Nat}, Packed lo hi es →
      (Fits lo hi es size align x ↔ ∃ g ∈ gaps lo hi es, FitsGap g size align x)
  | [], lo, _ => by
    simp [Fits, gaps, FitsGap]
  | a :: rest, lo, h => by
    have ih := @fits_iff_gap hi size align x hs rest (a.offset + a.size) h.2.2
    have hle := Packed.le h.2.2
    have hmem := Packed.mem h.2.2
    simp only [gaps, List.exists_mem_cons_iff]  
    rw [← ih]
    simp only [Fits, FitsGap, List.forall_mem_cons]
    constructor
    · rintro ⟨hal, hlo, hhi, ha, hr⟩
      rcases ha with ha | ha
      · exact Or.inl ⟨hal, hlo, ha⟩
      · exact Or.inr ⟨hal, ha, hhi, hr⟩
    · rintro (⟨hal, hlo, ha⟩ | ⟨hal, hlo, hhi, hr⟩)
      · refine ⟨hal, hlo, by omega, Or.inl ha, fun b hb => Or.inl ?_⟩
        have := hmem b hb
        omega
      · exact ⟨hal, by have := h.1; omega, hhi, Or.inr hlo, hr⟩


theorem gaps_ordered {hi : Nat} : ∀ {es : List Entry} {lo : Nat}, Packed lo hi es →
    ∀ (k j : Nat) (gk gj : Nat × Nat), k < j → (gaps lo hi es)[k]? = some gk → (gaps lo hi es)[j]? = some gj →
      gk.2 ≤ gj.1
  | [], lo, _, k, j, gk, gj, hkj, _, hj => by
    cases j with
    | zero => omega
    | succ j => simp [gaps] at hj
  | a :: rest, lo, h, k, j, gk, gj, hkj, hk, hj => by
    cases j with
    | zero => omega
    | succ j =>
      simp only [gaps, List.getElem?_cons_succ] at hj
      have hb := gaps_bounds h.2.2 gj ((List.mem_iff_getElem?.2 ⟨_, hj⟩))
      cases k with
      | zero =>
        simp only [gaps, List.getElem?_cons_zero, Option.some.injEq] at hk
        subst hk
        simp only
        omega
      | succ k =>
        simp only [gaps, List.getElem?_cons_succ] at hk
        exact gaps_ordered h.2.2 k j gk gj (by omega) hk hj

theorem gap_arith {a b : Nat} (hab : a ≤ b) (hb : b < M64) (hd : b - a < H64) :
    toInt64 (sub64 b a) = ((b - a : Nat) : Int) ∧
      add64 a (ofInt64 ((b - a : Nat) : Int)) = b := by
  have h1 : sub64 b a = b - a := sub64_eq hab hb
  have h2 : toInt64 (b - a) = ((b - a : Nat) : Int) := toInt64_eq hd
  have h3 : ofInt64 ((b - a : Nat) : Int) = b - a := ofInt64_natCast (by simp only [M64] at *; omega)
  refine ⟨by rw [h1, h2], ?_⟩
  rw [h3, add64_eq (by omega)]
  omega

theorem newBestGap_first (m gZ cg : Int) :
    newBestGap RegionFindGapModeFirst m gZ cg = decide (m ≤ cg) := by
  unfold newBestGap
  by_cases h : cg < m
  · simp [h]
  · simp [h, not_lt.1 h]

theorem findGapLoop_first {r : Region} {size s : Nat} (hhi : r.offset + r.size < M64)
    (hn : r.size < H64) (gs ge j : Nat) :
    ∀ (rest : List Entry) (i : Nat) (prev : Entry) (gS : Nat) (gZ : Int) (gI : Nat),
      r.offset ≤ prev.offset →
      Packed (prev.offset + prev.size) (r.offset + r.size) rest →
      findGapLoop r r.offset (add64 r.offset r.size) RegionFindGapModeFirst (size : Int) s
        rest i prev gS gZ gI = (true, gs, ge, j) →
      (i ≤ j ∧ (gaps (prev.offset + prev.size) (r.offset + r.size) rest)[j - i]? = some (gs, ge) ∧
        gs + size ≤ ge ∧
        ∀ k, s ≤ k → i ≤ k → k < j → ∀ g,
          (gaps (prev.offset + prev.size) (r.offset + r.size) rest)[k - i]? = some g →
            g.2 < g.1 + size) ∨
      (j = gI ∧ gs = gS ∧ ge = add64 gS (ofInt64 gZ) ∧ (size : Int) ≤ gZ) := by
  intro rest
  induction rest with
  | nil =>
    intro i prev gS gZ gI hlo hp h
    have hp : prev.offset + prev.size ≤ r.offset + r.size := hp
    have hmax : max r.offset (add64 prev.offset prev.size) = prev.offset + prev.size := by
      rw [add64_eq (by omega)]; omega
    have hmin : min (add64 r.offset r.size) (add64 r.offset r.size) = r.offset + r.size := by
      rw [add64_eq hhi]; simp
    obtain ⟨ha1, ha2⟩ := gap_arith hp hhi (by omega)
    simp only [findGapLoop, hmax, hmin, ha1, ha2, newBestGap_first, findGapEnd,
      decide_eq_true_eq] at h
    by_cases hq : (size : Int) ≤ ((r.offset + r.size - (prev.offset + prev.size) : Nat) : Int)
    · rw [if_pos hq, if_neg (not_lt.2 hq)] at h
      simp only [ite_self, Prod.mk.injEq, true_and] at h
      obtain ⟨rfl, rfl, rfl⟩ := h
      left
      refine ⟨le_refl _, by simp [gaps], by omega, ?_⟩
      intro k _ h1 h2; omega
    · rw [if_neg hq] at h
      by_cases hz : gZ < (size : Int)
      · rw [if_pos hz] at h; simp at h
      · rw [if_neg hz] at h
        simp only [Prod.mk.injEq, true_and] at h
        obtain ⟨rfl, rfl, rfl⟩ := h
        right
        exact ⟨rfl, rfl, rfl, not_lt.1 hz⟩
  | cons c rest ih =>
    intro i prev gS gZ gI hlo hp h
    obtain ⟨hp1, hp2, hp3⟩ := hp
    have hcle := Packed.le hp3
    have hmax : max r.offset (add64 prev.offset prev.size) = prev.offset + prev.size := by
      rw [add64_eq (by omega)]; omega
    have hmin : min (min (add64 r.offset r.size) (add64 r.offset r.size)) c.offset = c.offset := by
      rw [add64_eq hhi]; simp; omega
    obtain ⟨ha1, ha2⟩ := gap_arith hp1 (by omega : c.offset < M64) (by omega)
    simp only [findGapLoop, hmax, hmin, ha1, ha2, newBestGap_first, decide_eq_true_eq] at h
    have shift : ∀ k, i < k → k - i = (k - (i + 1)) + 1 := by intro k hk; omega
    by_cases hq : (size : Int) ≤ ((c.offset - (prev.offset + prev.size) : Nat) : Int)
    · rw [if_pos hq] at h
      by_cases hs : s ≤ i
      · rw [if_pos ⟨trivial, hs⟩] at h
        simp only [Prod.mk.injEq, true_and] at h
        obtain ⟨rfl, rfl, rfl⟩ := h
        left
        refine ⟨le_refl _, by simp [gaps], by omega, ?_⟩
        intro k _ h1 h2; omega
      · rw [if_neg (fun hh => hs hh.2)] at h
        rcases ih (i + 1) c _ _ i (by omega) hp3 h with ⟨hj, hg, hfit, hall⟩ | hacc
        · left
          refine ⟨by omega, ?_, hfit, ?_⟩
          · rw [shift j (by omega)]; simpa [gaps] using hg
          · intro k hsk hik hkj g hgk
            rcases Nat.eq_or_lt_of_le hik with rfl | hik
            · exact absurd hsk hs
            · rw [shift k hik] at hgk
              simp only [gaps, List.getElem?_cons_succ] at hgk
              exact hall k hsk (by omega) hkj g hgk
        · obtain ⟨rfl, rfl, rfl, _⟩ := hacc
          left
          refine ⟨le_refl _, by simp [gaps, ha2], by omega, ?_⟩
          intro k _ h1 h2; omega
    · rw [if_neg hq] at h
      rcases ih (i + 1) c gS gZ gI (by omega) hp3 h with ⟨hj, hg, hfit, hall⟩ | hacc
      · left
        refine ⟨by omega, ?_, hfit, ?_⟩
        · rw [shift j (by omega)]; simpa [gaps] using hg
        · intro k hsk hik hkj g hgk
          rcases Nat.eq_or_lt_of_le hik with rfl | hik
          · simp [gaps] at hgk; subst hgk; simp only; omega
          · rw [shift k hik] at hgk
            simp only [gaps, List.getElem?_cons_succ] at hgk
            exact hall k hsk (by omega) hkj g hgk
      · right; exact hacc

theorem gaps_length (hi : Nat) : ∀ (es : List Entry) (lo : Nat),
    (gaps lo hi es).length = es.length + 1
  | [], _ => rfl
  | a :: rest, _ => by simp [gaps, gaps_length hi rest]

theorem findGap_first_sound {r : Region} {size s gs ge j : Nat}
    (hp : Packed r.offset (r.offset + r.size) r.entries)
    (hhi : r.offset + r.size < M64) (hn : r.size < H64)
    (h : r.findGap r.offset (add64 r.offset r.size) RegionFindGapModeFirst (size : Int) s
      = .ok (true, gs, ge, j)) :
    (gaps r.offset (r.offset + r.size) r.entries)[j]? = some (gs, ge) ∧ gs + size ≤ ge ∧
      ∀ k, s ≤ k → k < j → ∀ g,
        (gaps r.offset (r.offset + r.size) r.entries)[k]? = some g → g.2 < g.1 + size := by
  unfold Region.findGap at h
  cases hes : r.entries with
  | nil =>
    rw [hes] at h
    obtain ⟨ha1, ha2⟩ := gap_arith (Nat.le_add_right r.offset r.size) hhi (by omega)
    simp only [add64_eq hhi, ha1] at h
    split_ifs at h with hq
    · simp only [Except.ok.injEq, Prod.mk.injEq, true_and] at h
      obtain ⟨rfl, rfl, rfl⟩ := h
      refine ⟨by simp [gaps], by omega, ?_⟩
      intro k _ hk; omega
    · simp at h
  | cons first rest =>
    rw [hes] at h hp
    obtain ⟨hp1, hp2, hp3⟩ := hp
    have hfle := Packed.le hp3
    obtain ⟨ha1, ha2⟩ := gap_arith hp1 (by omega : first.offset < M64) (by omega)
    simp only [ha1, max_self, ha2] at h
    rw [if_neg (by simp)] at h
    by_cases h2 : True ∧ ((first.offset - r.offset : Nat) : Int) ≥ (size : Int) ∧ 0 ≥ s
    · rw [if_pos h2] at h
      simp only [Except.ok.injEq, Prod.mk.injEq, true_and] at h
      obtain ⟨rfl, rfl, rfl⟩ := h
      refine ⟨by simp [gaps], by omega, ?_⟩
      intro k _ hk; omega
    · rw [if_neg h2] at h
      simp only [Except.ok.injEq] at h
      rcases findGapLoop_first hhi hn gs ge j rest 1 first _ _ 0 hp1 hp3 h
        with ⟨hj, hg, hfit, hall⟩ | ⟨rfl, rfl, rfl, hz⟩
      · refine ⟨?_, hfit, ?_⟩
        · have : j = (j - 1) + 1 := by omega
          rw [this]; simpa [gaps] using hg
        · intro k hsk hkj g hgk
          cases k with
          | zero =>
            simp [gaps] at hgk; subst hgk; simp only
            have : ¬ ((size : Int) ≤ ((first.offset - r.offset : Nat) : Int)) := by
              intro hh; exact h2 ⟨trivial, hh, by omega⟩
            omega
          | succ k =>
            simp only [gaps, List.getElem?_cons_succ] at hgk
            exact hall (k + 1) hsk (by omega) hkj g (by simpa using hgk)
      · refine ⟨by simp [gaps, ha2], by rw [ha2]; omega, ?_⟩
        intro k _ hk; omega

theorem align_up_le {start align x : Nat} (ha : 1 < align) (hx : start ≤ x)
    (hm : x % align = 0) :
    start + (align - 1) - (start + (align - 1)) % align ≤ x := by
  obtain ⟨q, rfl⟩ := Nat.dvd_of_mod_eq_zero hm
  have h1 := Nat.div_add_mod (start + (align - 1)) align
  have h2 : (start + (align - 1)) % align < align := Nat.mod_lt _ (by omega)
  by_contra hlt
  have h3 : align * q < align * ((start + (align - 1)) / align) := by omega
  have h4 : q < (start + (align - 1)) / align := Nat.lt_of_mul_lt_mul_left h3
  have h5 : align * (q + 1) ≤ align * ((start + (align - 1)) / align) :=
    Nat.mul_le_mul_left _ h4
  rw [Nat.mul_add] at h5
  omega

theorem align_up_mod {start align : Nat} (_ha : 1 < align) :
    (start + (align - 1) - (start + (align - 1)) % align) % align = 0 := by
  have h1 := Nat.div_add_mod (start + (align - 1)) align
  have : start + (align - 1) - (start + (align - 1)) % align
      = align * ((start + (align - 1)) / align) := by omega
  rw [this]; exact Nat.mul_mod_right _ _

theorem calc_ascending {start stop len align : Nat} (hq : start + len ≤ stop)
    (hs : stop < M64) (hal : stop + align ≤ M64) :
    (∀ off, calcEntryOffset start stop len false align = (true, off) →
      FitsGap (start, stop) len align off ∧
        ∀ x, FitsGap (start, stop) len align x → off ≤ x) ∧
    (∀ v, calcEntryOffset start stop len false align = (false, v) →
      ∀ x, ¬ FitsGap (start, stop) len align x) := by
  unfold calcEntryOffset
  simp only [Bool.false_eq_true, if_false]
  by_cases ha : align > 1
  · have hmod : (start + (align - 1)) % align < align := Nat.mod_lt _ (by omega)
    have e1 : add64 start (align - 1) = start + (align - 1) := add64_eq (by omega)
    have e2 : sub64 (start + (align - 1)) ((start + (align - 1)) % align)
        = start + (align - 1) - (start + (align - 1)) % align :=
      sub64_eq (by omega) (by omega)
    have e3 : add64 (start + (align - 1) - (start + (align - 1)) % align) len
        = start + (align - 1) - (start + (align - 1)) % align + len :=
      add64_eq (by omega)
    simp only [if_pos ha, e1, e2, e3]
    constructor
    · intro off h
      split_ifs at h with hfit
      · simp only [Prod.mk.injEq, true_and] at h
        subst h
        refine ⟨⟨Or.inr (align_up_mod ha), by simp only; omega, hfit⟩, ?_⟩
        rintro x ⟨hxa, hx1, hx2⟩
        rcases hxa with hxa | hxa
        · omega
        · exact align_up_le ha hx1 hxa
      · simp at h
    · intro v h x
      split_ifs at h with hfit
      · simp at h
      · rintro ⟨hxa, hx1, hx2⟩
        rcases hxa with hxa | hxa
        · omega
        · simp only at hx1 hx2
          have := align_up_le ha hx1 hxa
          omega
  · have e3 : add64 start len = start + len := add64_eq (by omega)
    simp only [if_neg ha, e3, if_pos hq]
    constructor
    · intro off h
      simp only [Prod.mk.injEq, true_and] at h
      subst h
      refine ⟨⟨Or.inl (by omega), le_refl _, hq⟩, ?_⟩
      rintro x ⟨_, hx1, _⟩
      exact hx1
    · intro v h; simp at h

theorem packed_of_sorted {hi : Nat} : ∀ (es : List Entry) (lo : Nat), lo ≤ hi →
    es.Pairwise (fun a b => a.offset ≤ b.offset) →
    es.Pairwise (fun a b => a.offset + a.size ≤ b.offset ∨ b.offset + b.size ≤ a.offset) →
    (∀ a ∈ es, lo ≤ a.offset ∧ a.offset + a.size ≤ hi) →
    (∀ a ∈ es, 1 ≤ a.size) → Packed lo hi es
  | [], _, hle, _, _, _, _ => hle
  | a :: rest, lo, _, hs, hd, hin, hsz => by
    rw [List.pairwise_cons] at hs hd
    have ha := hin a (List.mem_cons_self _ _)
    refine ⟨ha.1, hsz a (List.mem_cons_self _ _), ?_⟩
    apply packed_of_sorted rest _ ha.2 hs.2 hd.2
    · intro b hb
      have h1 := hs.1 b hb
      have h2 := hd.1 b hb
      have h3 := hsz b (List.mem_cons_of_mem _ hb)
      have h4 := hin b (List.mem_cons_of_mem _ hb)
      omega
    · intro b hb; exact hsz b (List.mem_cons_of_mem _ hb)

theorem Region.WellFormed.packed {r : Region} (h : r.WellFormed)
    (hsz : ∀ a ∈ r.entries, 1 ≤ a.size) :
    Packed r.offset (r.offset + r.size) r.entries :=
  packed_of_sorted r.entries r.offset (Nat.le_add_right _ _) h.1 h.2.1 h.2.2 hsz

theorem placeLoop_ascending {r : Region} {e : Entry}
    (hp : Packed r.offset (r.offset + r.size) r.entries)
    (hhi : r.offset + r.size < M64) (hn : r.size < H64)
    (hs1 : 1 ≤ e.size) (hs2 : e.size < H64) (hal : r.offset + r.size + e.align ≤ M64)
    (hasc : r.descending = false) :
    ∀ (fuel s : Nat) (res : PlaceResult),
      (∀ k, k < s → ∀ g, (gaps r.offset (r.offset + r.size) r.entries)[k]? = some g →
        ∀ x, ¬ FitsGap g e.size e.align x) →
      placeLoop r e r.offset (add64 r.offset r.size) false fuel s = .ok res →
      res.ok = true →
      ∃ j, j ≤ r.entries.length ∧
        res.entry = { e with offset := res.entry.offset } ∧
        res.region = { r with entries := slicesInsert r.entries j res.entry } ∧
        Fits r.offset (r.offset + r.size) r.entries e.size e.align res.entry.offset ∧
        ∀ x, Fits r.offset (r.offset + r.size) r.entries e.size e.align x →
          res.entry.offset ≤ x := by
  intro fuel
  induction fuel with
  | zero => intro s res _ h; simp [placeLoop] at h
  | succ fuel ih =>
    intro s res hinv h hok
    rw [placeLoop, toInt64_eq hs2] at h
    cases hfg : r.findGap r.offset (add64 r.offset r.size) RegionFindGapModeFirst
        (e.size : Int) s with
    | error err => rw [hfg] at h; simp at h
    | ok v =>
      obtain ⟨b, gs, ge, j⟩ := v
      rw [hfg] at h
      cases b with
      | false =>
        simp only [Except.ok.injEq] at h
        subst h; simp at hok
      | true =>
        obtain ⟨hg, hq, hnq⟩ := findGap_first_sound hp hhi hn hfg
        have hgm := List.getElem?_mem hg
        have hgb := gaps_bounds hp _ hgm
        simp only at hgb
        obtain ⟨hc1, hc2⟩ := @calc_ascending gs ge e.size e.align hq
          (by omega : ge < M64) (by omega)
        have hbelow : ∀ k, k < j → ∀ g,
            (gaps r.offset (r.offset + r.size) r.entries)[k]? = some g →
            ∀ x, ¬ FitsGap g e.size e.align x := by
          intro k hk g hgk x hx
          by_cases hks : k < s
          · exact hinv k hks g hgk x hx
          · have := hnq k (by omega) hk g hgk
            obtain ⟨_, h1, h2⟩ := hx
            omega
        simp only [hasc] at h
        cases hcalc : calcEntryOffset gs ge e.size false e.align with
        | mk cok off =>
          rw [hcalc] at h
          cases cok with
          | true =>
            simp only [Bool.false_eq_true, if_false, Except.ok.injEq] at h
            subst h
            obtain ⟨hfit, hmin⟩ := hc1 off hcalc
            refine ⟨j, ?_, rfl, by simp [hasc], ?_, ?_⟩
            · have := (List.getElem?_eq_some.1 hg).1
              have hl : (gaps r.offset (r.offset + r.size) r.entries).length
                  = r.entries.length + 1 := gaps_length _ _ _
              omega
            · exact (fits_iff_gap hs1 hp).2 ⟨_, hgm, hfit⟩
            · intro x hx
              obtain ⟨g, hgx, hfx⟩ := (fits_iff_gap hs1 hp).1 hx
              obtain ⟨k, hk⟩ := List.mem_iff_getElem?.1 hgx
              rcases Nat.lt_trichotomy k j with hkj | rfl | hkj
              · exact absurd hfx (hbelow k hkj g hk x)
              · rw [hg] at hk; cases hk; exact hmin x hfx
              · have := gaps_ordered hp j k _ _ hkj hg hk
                obtain ⟨_, h1, h2⟩ := hfit
                obtain ⟨_, h3, h4⟩ := hfx
                simp only at this h1 h2 h3 h4 ⊢
                omega
          | false =>
            simp only at h
            apply ih (j + 1) res _ h hok
            intro k hk g hgk x hx
            rcases Nat.lt_or_eq_of_le (Nat.lt_succ_iff.1 hk) with hkj | rfl
            · exact hbelow k hkj g hgk x hx
            · rw [hg] at hgk; cases hgk
              exact hc2 off hcalc x hx

theorem place_none_eq (fuel : Nat) (r : Region) (e : Entry) (simulate : Bool)
    (hhi : r.offset + r.size < M64) :
    r.Place fuel e none simulate = placeLoop r e r.offset (add64 r.offset r.size) simulate fuel 0 := by
  unfold Region.Place
  have h1 : add64 r.offset r.size = r.offset + r.size := add64_eq hhi
  have h2 : sub64 (r.offset + r.size) r.offset = r.size := by
    rw [sub64_eq (Nat.le_add_right _ _) hhi]; omega
  simp only [h1, h2, ge_iff_le, le_refl, if_true]

/-- C3 (amended): in an ascending region whose entries are sorted by offset,
pairwise disjoint, inside the region and of size at least 1, with no 64-bit
wrap-around (region size and entry size below `2^63`, region end below `2^64`,
region end plus alignment at most `2^64`), a successful
`Place(e, nil, false)` of an entry of size at least 1 gives `e` the least
offset that is aligned, inside the region and overlaps no entry. -/
theorem place_ascending_least_fit (fuel : Nat) (r : Region) (e : Entry) (res : PlaceResult)
    (hasc : r.descending = false) (hwf : r.WellFormed)
    (hsz : ∀ a ∈ r.entries, 1 ≤ a.size) (he : 1 ≤ e.size)
    (hn : r.size < H64) (hes : e.size < H64) (hhi : r.offset + r.size < M64)
    (hal : r.offset + r.size + e.align ≤ M64)
    (h : r.Place fuel e none false = .ok res) (hok : res.ok = true) :
    Fits r.offset (r.offset + r.size) r.entries e.size e.align res.entry.offset ∧
      ∀ x, Fits r.offset (r.offset + r.size) r.entries e.size e.align x →
        res.entry.offset ≤ x := by
  rw [place_none_eq fuel r e false hhi] at h
  obtain ⟨j, _, _, _, hfit, hmin⟩ :=
    placeLoop_ascending (hwf.packed hsz) hhi hn he hes hal hasc fuel 0 res
      (fun k hk => absurd hk (Nat.not_lt_zero k)) h hok
  exact ⟨hfit, hmin⟩

theorem place_ascending_least_fit_witness :
    Fits 0 1000 [⟨0, 61, 4⟩] 30 4 64 ∧ ∀ x, Fits 0 1000 [⟨0, 61, 4⟩] 30 4 x → 64 ≤ x :=
  place_ascending_least_fit 2 ⟨0, 1000, [⟨0, 61, 4⟩], false⟩ ⟨0, 30, 4⟩
    ⟨true, 0, ⟨0, 1000, [⟨0, 61, 4⟩, ⟨64, 30, 4⟩], false⟩, ⟨64, 30, 4⟩⟩
    rfl (by decide) (by decide) (by decide) (by decide) (by decide) (by decide) (by decide)
    rfl rfl

/-- C3 as stated fails: in the region `[0, 2^63 + 100)` holding one entry at
`[2^63 + 10, 2^63 + 20)`, an entry of size 5 and alignment 1 is placed at
`2^63 + 20`, although offset 0 is free, aligned and inside the region: the gap
`[0, 2^63 + 10)` has a size that is negative as an `int64`. -/
theorem place_ascending_not_least :
    (⟨0, 9223372036854775908, [⟨9223372036854775818, 10, 1⟩], false⟩ : Region).WellFormed ∧
    (⟨0, 9223372036854775908, [⟨9223372036854775818, 10, 1⟩], false⟩ : Region).Place 2
        ⟨0, 5, 1⟩ none false
      = .ok ⟨true, 0,
          ⟨0, 9223372036854775908,
            [⟨9223372036854775818, 10, 1⟩, ⟨9223372036854775828, 5, 1⟩], false⟩,
          ⟨9223372036854775828, 5, 1⟩⟩ ∧
    Fits 0 9223372036854775908 [⟨9223372036854775818, 10, 1⟩] 5 1 0 ∧
    ¬ (9223372036854775828 ≤ 0) := by
  refine ⟨by decide, rfl, ?_, by decide⟩
  unfold Fits; simp

theorem packAt_length : ∀ (es : List Entry) (o : Nat), (packAt o es).length = es.length
  | [], _ => rfl
  | e :: es, o => by simp [packAt, packAt_length es]

theorem packAt_append : ∀ (ds es : List Entry) (o : Nat),
    packAt o (ds ++ es) = packAt o ds ++ packAt (o + totalSize ds) es
  | [], es, o => by simp [packAt, totalSize]
  | d :: ds, es, o => by
    show packAt o (d :: (ds ++ es)) = packAt o (d :: ds) ++ packAt (o + totalSize (d :: ds)) es
    simp only [packAt, packAt_append ds es (o + d.size), totalSize, List.map_cons,
      List.sum_cons, Nat.add_assoc, List.cons_append]

theorem packAt_getElem? : ∀ (es : List Entry) (o k : Nat) (e : Entry), es[k]? = some e →
    (packAt o es)[k]? = some { e with offset := o + totalSize (es.take k) }
  | [], _, _, _, h => by simp at h
  | d :: es, o, 0, e, h => by
    simp only [List.getElem?_cons_zero, Option.some.injEq] at h
    subst h; simp [packAt, totalSize]
  | d :: es, o, k + 1, e, h => by
    simp only [List.getElem?_cons_succ] at h
    simp only [packAt, List.getElem?_cons_succ, packAt_getElem? es _ k e h, List.take_succ_cons,
      totalSize, List.map_cons, List.sum_cons, Nat.add_assoc]

theorem findGapLoop_packed {r : Region} {m : Nat} (hm : 1 ≤ m)
    (hhi : r.offset + r.size < M64) (hn : r.size < H64) :
    ∀ (ds : List Entry) (i : Nat) (prev : Entry) (gS : Nat) (gZ : Int) (gI : Nat),
      r.offset ≤ prev.offset →
      prev.offset + prev.size + totalSize ds + m ≤ r.offset + r.size →
      findGapLoop r r.offset (add64 r.offset r.size) RegionFindGapModeFirst (m : Int) 0
          (packAt (prev.offset + prev.size) ds) i prev gS gZ gI
        = (true, prev.offset + prev.size + totalSize ds, r.offset + r.size, i + ds.length) := by
  intro ds
  induction ds with
  | nil =>
    intro i prev gS gZ gI hlo hfit
    simp only [totalSize, List.map_nil, List.sum_nil, Nat.add_zero] at hfit
    have hmax : max r.offset (add64 prev.offset prev.size) = prev.offset + prev.size := by
      rw [add64_eq (by omega)]; omega
    have hmin : min (add64 r.offset r.size) (add64 r.offset r.size) = r.offset + r.size := by
      rw [add64_eq hhi]; simp
    obtain ⟨ha1, ha2⟩ := gap_arith (by omega : prev.offset + prev.size ≤ r.offset + r.size)
      hhi (by omega)
    simp only [packAt, findGapLoop, hmax, hmin, ha1, ha2, newBestGap_first, decide_eq_true_eq,
      totalSize, List.map_nil, List.sum_nil, Nat.add_zero, List.length_nil]
    rw [if_pos (by omega), if_pos ⟨trivial, Nat.zero_le _⟩]
  | cons d ds ih =>
    intro i prev gS gZ gI hlo hfit
    simp only [totalSize, List.map_cons, List.sum_cons] at hfit
    have hmax : max r.offset (add64 prev.offset prev.size) = prev.offset + prev.size := by
      rw [add64_eq (by omega)]; omega
    have hmin : min (min (add64 r.offset r.size) (add64 r.offset r.size))
        (prev.offset + prev.size) = prev.offset + prev.size := by
      rw [add64_eq hhi]; simp; omega
    obtain ⟨ha1, ha2⟩ := gap_arith (le_refl (prev.offset + prev.size)) (by omega) (by omega)
    simp only [packAt, findGapLoop, hmax, hmin, ha1, ha2, newBestGap_first, decide_eq_true_eq]
    rw [if_neg (by omega)]
    have := ih (i + 1) { d with offset := prev.offset + prev.size } gS gZ gI
      (by simp only; omega) (by simp only [totalSize]; omega)
    simp only at this
    rw [this]
    simp only [totalSize, List.map_cons, List.sum_cons, List.length_cons, Prod.mk.injEq,
      true_and]
    omega

theorem place_packed_ascending (f o n : Nat) (ds : List Entry) (e : Entry)
    (hn : n < H64) (hhi : o + n < M64) (hal : e.align ≤ 1) (hsz : 1 ≤ e.size)
    (hsum : totalSize ds + e.size ≤ n) :
    Region.Place (f + 1) ⟨o, n, packAt o ds, false⟩ e none false
      = .ok ⟨true, o, ⟨o, n, packAt o (ds ++ [e]), false⟩,
          { e with offset := o + totalSize ds }⟩ := by
  have hes : e.size < H64 := by omega
  have hfg : Region.findGap ⟨o, n, packAt o ds, false⟩ o (add64 o n) RegionFindGapModeFirst
      (e.size : Int) 0 = .ok (true, o + totalSize ds, o + n, ds.length) := by
    cases ds with
    | nil =>
      obtain ⟨ha1, _⟩ := gap_arith (Nat.le_add_right o n) hhi (by omega)
      simp only [Region.findGap, packAt, add64_eq hhi, ha1, totalSize, List.map_nil,
        List.sum_nil, Nat.add_zero, List.length_nil]
      rw [if_pos (by simp only [totalSize, List.map_nil, List.sum_nil] at hsum; omega)]
    | cons d ds =>
      simp only [totalSize, List.map_cons, List.sum_cons] at hsum
      obtain ⟨ha1, _⟩ := gap_arith (le_refl o) (by omega) (by omega)
      simp only [Region.findGap, packAt, ha1]
      rw [if_neg (by simp), if_neg (by omega)]
      have := findGapLoop_packed (r := ⟨o, n, packAt o (d :: ds), false⟩) (m := e.size) hsz hhi hn
        ds 1 { d with offset := o } (max o o) (((o - o : Nat) : Int)) 0 (le_refl _)
        (by simp only [totalSize]; omega)
      simp only [packAt] at this
      rw [this]
      simp only [totalSize, List.map_cons, List.sum_cons, List.length_cons, Except.ok.injEq,
        Prod.mk.injEq, true_and]
      omega
  have hcalc : calcEntryOffset (o + totalSize ds) (o + n) e.size false e.align
      = (true, o + totalSize ds) := by
    unfold calcEntryOffset
    simp only [Bool.false_eq_true, if_false]
    rw [if_neg (show ¬ e.align > 1 by omega), add64_eq (by omega), if_pos (by omega)]
  rw [place_none_eq _ _ _ _ hhi, placeLoop, toInt64_eq hes]
  simp only [hfg, hcalc, Bool.false_eq_true, if_false]
  have hins : slicesInsert (packAt o ds) ds.length { e with offset := o + totalSize ds }
      = packAt o (ds ++ [e]) := by
    unfold slicesInsert
    rw [packAt_append, ← packAt_length ds o, List.take_length, List.drop_length]
    rfl
  simp only [hins]

theorem placeAll_packed_ascending (f o n : Nat) (hn : n < H64) (hhi : o + n < M64) :
    ∀ (es ds : List Entry), (∀ e ∈ es, e.align ≤ 1) → (∀ e ∈ es, 1 ≤ e.size) →
      totalSize ds + totalSize es ≤ n →
      placeAll (f + 1) ⟨o, n, packAt o ds, false⟩ es
        = some (⟨o, n, packAt o (ds ++ es), false⟩, packAt (o + totalSize ds) es)
  | [], ds, _, _, _ => by simp [placeAll, packAt]
  | e :: es, ds, hal, hsz, hsum => by
    simp only [totalSize, List.map_cons, List.sum_cons] at hsum
    have hstep := place_packed_ascending f o n ds e hn hhi
      (hal e (List.mem_cons_self _ _)) (hsz e (List.mem_cons_self _ _))
      (by simp only [totalSize]; omega)
    have ih := placeAll_packed_ascending f o n hn hhi es (ds ++ [e])
      (fun a ha => hal a (List.mem_cons_of_mem _ ha))
      (fun a ha => hsz a (List.mem_cons_of_mem _ ha))
      (by simp only [totalSize, List.map_append, List.sum_append, List.map_cons, List.map_nil,
            List.sum_cons, List.sum_nil]; omega)
    rw [placeAll, hstep]
    simp only [if_true, ih, List.append_assoc, List.singleton_append, packAt, totalSize,
      List.map_append, List.sum_append, List.map_cons, List.map_nil, List.sum_cons,
      List.sum_nil, Nat.add_zero, Nat.add_assoc]

/-- Ascending placement on the values of the entries: in an empty ascending
region `[o, o+n)` with `n < 2^63` and `o + n < 2^64`, placing in order entries
of alignment at most 1 and size at least 1 whose sizes sum to at most `n`
succeeds every time, and the `k`-th placement gives the offset `o` plus the
sizes of the entries placed before it. -/
theorem placeAll_ascending_offsets (fuel o n : Nat) (es : List Entry) (hf : 1 ≤ fuel)
    (hn : n < H64) (hhi : o + n < M64) (hal : ∀ e ∈ es, e.align ≤ 1)
    (hsz : ∀ e ∈ es, 1 ≤ e.size) (hsum : totalSize es ≤ n) :
    ∃ r2 placed, placeAll fuel (NewRegion o n false) es = some (r2, placed) ∧
      placed.length = es.length ∧
      ∀ (k : Nat) (e : Entry), es[k]? = some e →
        placed[k]? = some { e with offset := o + totalSize (es.take k) } := by
  obtain ⟨f, rfl⟩ : ∃ f, fuel = f + 1 := ⟨fuel - 1, by omega⟩
  have h := placeAll_packed_ascending f o n hn hhi es [] hal hsz
    (by simpa [totalSize] using hsum)
  simp only [packAt, totalSize, List.map_nil, List.sum_nil, Nat.add_zero, List.nil_append] at h
  refine ⟨_, _, h, packAt_length es o, ?_⟩
  intro k e hk
  exact packAt_getElem? es o k e hk

theorem topOf_cons (hi : Nat) (a : Entry) (es : List Entry) :
    topOf hi (a :: es) = a.offset := rfl

theorem place_descending_top (f o n : Nat) (es : List Entry) (e : Entry)
    (hn : n < H64) (hhi : o + n < M64) (hal : e.align ≤ 1)
    (hlo : o ≤ topOf (o + n) es) (htop : topOf (o + n) es ≤ o + n)
    (hfit : e.size ≤ topOf (o + n) es - o) :
    Region.Place (f + 1) ⟨o, n, es, true⟩ e none false
      = .ok ⟨true, o, ⟨o, n, { e with offset := topOf (o + n) es - e.size } :: es, true⟩,
          { e with offset := topOf (o + n) es - e.size }⟩ := by
  have hes : e.size < H64 := by omega
  have hfg : Region.findGap ⟨o, n, es, true⟩ o (add64 o n) RegionFindGapModeFirst
      (e.size : Int) 0 = .ok (true, o, topOf (o + n) es, 0) := by
    cases es with
    | nil =>
      simp only [topOf] at hfit
      obtain ⟨ha1, _⟩ := gap_arith (Nat.le_add_right o n) hhi (by omega)
      simp only [Region.findGap, add64_eq hhi, ha1, topOf]
      rw [if_pos (by omega)]
    | cons d ds =>
      simp only [topOf] at hfit hlo htop
      obtain ⟨ha1, ha2⟩ := gap_arith hlo (by omega : d.offset < M64) (by omega)
      simp only [Region.findGap, ha1, ha2, topOf, max_self]
      rw [if_neg (by simp), if_pos ⟨trivial, by omega, le_refl _⟩]
  have hcalc : calcEntryOffset o (topOf (o + n) es) e.size true e.align
      = (true, topOf (o + n) es - e.size) := by
    unfold calcEntryOffset
    simp only [if_true]
    rw [if_neg (show ¬ e.align > 1 by omega), sub64_eq (by omega) (by omega),
      if_pos (by omega)]
  rw [place_none_eq _ _ _ _ hhi, placeLoop, toInt64_eq hes]
  simp only [hfg, hcalc, Bool.false_eq_true, if_false]
  rfl

theorem totalSize_cons (e : Entry) (es : List Entry) :
    totalSize (e :: es) = e.size + totalSize es := by
  simp [totalSize]

theorem placeAll_descending_top (f o n : Nat) (hn : n < H64) (hhi : o + n < M64) :
    ∀ (es cur : List Entry), (∀ e ∈ es, e.align ≤ 1) →
      o ≤ topOf (o + n) cur → topOf (o + n) cur ≤ o + n →
      totalSize es ≤ topOf (o + n) cur - o →
      placeAll (f + 1) ⟨o, n, cur, true⟩ es
        = some (⟨o, n, (packDown (topOf (o + n) cur) es).reverse ++ cur, true⟩,
            packDown (topOf (o + n) cur) es)
  | [], cur, _, _, _, _ => by simp [placeAll, packDown]
  | e :: es, cur, hal, hlo, htop, hsum => by
    rw [totalSize_cons] at hsum
    have hstep := place_descending_top f o n cur e hn hhi (hal e (List.mem_cons_self _ _))
      hlo htop (by omega)
    have ih := placeAll_descending_top f o n hn hhi es
      ({ e with offset := topOf (o + n) cur - e.size } :: cur)
      (fun a ha => hal a (List.mem_cons_of_mem _ ha))
      (by simp only [topOf_cons]; omega) (by simp only [topOf_cons]; omega)
      (by simp only [topOf_cons]; omega)
    rw [placeAll, hstep]
    simp only [if_true, ih, topOf_cons, packDown, List.reverse_cons, List.append_assoc,
      List.singleton_append]

theorem packDown_length : ∀ (es : List Entry) (top : Nat), (packDown top es).length = es.length
  | [], _ => rfl
  | e :: es, top => by simp [packDown, packDown_length es]

theorem packDown_getElem? : ∀ (es : List Entry) (top k : Nat) (e : Entry), es[k]? = some e →
    (packDown top es)[k]? = some { e with offset := top - totalSize (es.take (k + 1)) }
  | [], _, _, _, h => by simp at h
  | d :: es, top, 0, e, h => by
    simp only [List.getElem?_cons_zero, Option.some.injEq] at h
    subst h; simp [packDown, totalSize]
  | d :: es, top, k + 1, e, h => by
    simp only [List.getElem?_cons_succ] at h
    simp only [packDown, List.getElem?_cons_succ, packDown_getElem? es _ k e h,
      List.take_succ_cons, totalSize_cons, Nat.sub_sub]

/-- Descending placement on the values of the entries: in an empty
descending region `[o, o+n)` with `n < 2^63` and `o + n < 2^64`, placing in
order entries of alignment at most 1 and size at least 1 whose sizes sum to at
most `n` succeeds every time, and the `k`-th placement gives the offset
`o + n` minus the sizes of the first `k` entries. -/
theorem placeAll_descending_offsets (fuel o n : Nat) (es : List Entry) (hf : 1 ≤ fuel)
    (hn : n < H64) (hhi : o + n < M64) (hal : ∀ e ∈ es, e.align ≤ 1)
    (_hsz : ∀ e ∈ es, 1 ≤ e.size) (hsum : totalSize es ≤ n) :
    ∃ r2 placed, placeAll fuel (NewRegion o n true) es = some (r2, placed) ∧
      placed.length = es.length ∧
      ∀ (k : Nat) (e : Entry), es[k]? = some e →
        placed[k]? = some { e with offset := o + n - totalSize (es.take (k + 1)) } := by
  obtain ⟨f, rfl⟩ : ∃ f, fuel = f + 1 := ⟨fuel - 1, by omega⟩
  have h := placeAll_descending_top f o n hn hhi es [] hal
    (by simp only [topOf]; omega) (by simp only [topOf]; omega)
    (by simp only [topOf]; omega)
  simp only [topOf] at h
  exact ⟨_, _, h, packDown_length es _, fun k e hk => packDown_getElem? es _ k e hk⟩

end Relocation

namespace elf

/-! ### Section garbage collector -/

theorem mem_setInsert {keys : List Nat} {k x : Nat} :
    x ∈ setInsert keys k ↔ x ∈ keys ∨ x = k := by
  unfold setInsert
  split_ifs with h
  · constructor
    · exact Or.inl
    · rintro (h1 | rfl)
      · exact h1
      · exact h
  · simp

theorem mem_sectionChildren {e : Elf} {m : Mem} {parent child : Nat} :
    child ∈ e.sectionChildren m parent ↔ e.gcEdge m parent child := by
  unfold Elf.sectionChildren Elf.gcEdge
  simp only [List.mem_flatMap, List.mem_filter, List.mem_filterMap, decide_eq_true_eq]
  constructor
  · rintro ⟨entry, ⟨hmem, hk⟩, rel, hrel, hc⟩
    refine ⟨entry, hmem, hk, rel, hrel, ?_⟩
    cases hs : rel.Symbol with
    | none => simp [hs] at hc
    | some q => simp only [hs] at hc; exact ⟨q, rfl, hc⟩
  · rintro ⟨entry, hmem, hk, rel, hrel, q, hq, hc⟩
    exact ⟨entry, ⟨hmem, hk⟩, rel, hrel, by simp only [hq]; exact hc⟩

theorem mem_gcVisitChildren {retained : List Nat} :
    ∀ {cs next : List Nat} {x : Nat},
      x ∈ gcVisitChildren retained cs next ↔ x ∈ next ∨ (x ∈ cs ∧ x ∉ retained)
  | [], next, x => by simp [gcVisitChildren]
  | c :: cs, next, x => by
    unfold gcVisitChildren
    split_ifs with h
    · rw [mem_gcVisitChildren]
      simp only [List.mem_cons]
      constructor
      · rintro (h1 | ⟨h1, h2⟩)
        · exact Or.inl h1
        · exact Or.inr ⟨Or.inr h1, h2⟩
      · rintro (h1 | ⟨rfl | h1, h2⟩)
        · exact Or.inl h1
        · exact absurd h h2
        · exact Or.inr ⟨h1, h2⟩
    · rw [mem_gcVisitChildren, mem_setInsert]
      simp only [List.mem_cons]
      constructor
      · rintro ((h1 | rfl) | ⟨h1, h2⟩)
        · exact Or.inl h1
        · exact Or.inr ⟨Or.inl rfl, h⟩
        · exact Or.inr ⟨Or.inr h1, h2⟩
      · rintro (h1 | ⟨rfl | h1, h2⟩)
        · exact Or.inl (Or.inl h1)
        · exact Or.inl (Or.inr rfl)
        · exact Or.inr ⟨h1, h2⟩

theorem gcRound_retained {e : Elf} {m : Mem} :
    ∀ {vs retained next : List Nat} {x : Nat},
      x ∈ (e.gcRound m vs retained next).1 ↔ x ∈ retained ∨ x ∈ vs
  | [], retained, next, x => by simp [Elf.gcRound]
  | v :: vs, retained, next, x => by
    unfold Elf.gcRound
    simp only
    rw [gcRound_retained, mem_setInsert, List.mem_cons]
    tauto

theorem gcRound_next_sound {e : Elf} {m : Mem} :
    ∀ {vs retained next : List Nat} {x : Nat},
      x ∈ (e.gcRound m vs retained next).2 →
        x ∈ next ∨ (x ∉ retained ∧ ∃ s ∈ vs, e.gcEdge m s x)
  | [], retained, next, x, h => by simp [Elf.gcRound] at h; exact Or.inl h
  | v :: vs, retained, next, x, h => by
    unfold Elf.gcRound at h
    simp only at h
    rcases gcRound_next_sound h with h1 | ⟨h1, s, hs, hedge⟩
    · rcases mem_gcVisitChildren.1 h1 with h2 | ⟨h2, h3⟩
      · exact Or.inl h2
      · refine Or.inr ⟨fun hx => h3 (mem_setInsert.2 (Or.inl hx)), v, List.mem_cons_self _ _, ?_⟩
        exact mem_sectionChildren.1 h2
    · exact Or.inr ⟨fun hx => h1 (mem_setInsert.2 (Or.inl hx)), s,
        List.mem_cons_of_mem _ hs, hedge⟩

theorem gcRound_next_mono {e : Elf} {m : Mem} :
    ∀ {vs retained next : List Nat} {x : Nat},
      x ∈ next → x ∈ (e.gcRound m vs retained next).2
  | [], _, _, _, h => by simpa [Elf.gcRound] using h
  | v :: vs, retained, next, x, h => by
    unfold Elf.gcRound
    simp only
    exact gcRound_next_mono (mem_gcVisitChildren.2 (Or.inl h))

theorem gcRound_complete {e : Elf} {m : Mem} :
    ∀ {vs retained next : List Nat} {s c : Nat}, s ∈ vs → e.gcEdge m s c →
      c ∈ (e.gcRound m vs retained next).1 ∨ c ∈ (e.gcRound m vs retained next).2
  | [], _, _, _, _, h, _ => by simp at h
  | v :: vs, retained, next, s, c, h, hedge => by
    unfold Elf.gcRound
    simp only
    rcases List.mem_cons.1 h with rfl | h
    · by_cases hc : c ∈ setInsert retained s
      · exact Or.inl (gcRound_retained.2 (Or.inl hc))
      · exact Or.inr (gcRound_next_mono
          (mem_gcVisitChildren.2 (Or.inr ⟨mem_sectionChildren.2 hedge, hc⟩)))
    · exact gcRound_complete h hedge

theorem gcReachable_closed {e : Elf} {m : Mem} {roots R : List Nat}
    (h2 : ∀ r, e.gcRoot m roots r → r ∈ R)
    (h3 : ∀ s ∈ R, ∀ c, e.gcEdge m s c → c ∈ R) :
    ∀ s, e.gcReachable m roots s → s ∈ R := by
  rintro s ⟨r, hr, hpath⟩
  induction hpath with
  | refl => exact h2 r hr
  | tail _ hedge ih => exact h3 _ ih _ hedge

theorem gcLoop_spec {e : Elf} {m : Mem} {ord : Nat → List Nat → List Nat} {roots : List Nat}
    (hord : ∀ k l, (ord k l).Perm l) (U : Finset Nat) (hU : ∀ s c, e.gcEdge m s c → c ∈ U) :
    ∀ (n : Nat) (N R : List Nat) (fuel : Nat),
      2 * (U \ R.toFinset).card + (if ∀ x ∈ N, x ∈ R then 1 else 0) ≤ n → n + 2 ≤ fuel →
      (∀ x ∈ N, x ∈ U) →
      (∀ x, x ∈ N ∨ x ∈ R → e.gcReachable m roots x) →
      (∀ r, e.gcRoot m roots r → r ∈ N ∨ r ∈ R) →
      (∀ s ∈ R, ∀ c, e.gcEdge m s c → c ∈ R ∨ c ∈ N) →
      ∃ retained, e.gcLoop m ord fuel N R = some retained ∧
        ∀ s, s ∈ retained ↔ e.gcReachable m roots s := by
  intro n
  induction n using Nat.strong_induction_on with
  | _ n ih =>
    intro N R fuel hμ hfuel hNU h1 h2 h3
    obtain ⟨f, rfl⟩ : ∃ f, fuel = f + 1 := ⟨fuel - 1, by omega⟩
    have hdone : ∀ (R0 : List Nat) (g : Nat),
        (∀ x, x ∈ R0 → e.gcReachable m roots x) →
        (∀ r, e.gcRoot m roots r → r ∈ R0) →
        (∀ s ∈ R0, ∀ c, e.gcEdge m s c → c ∈ R0) →
        ∃ retained, e.gcLoop m ord (g + 1) [] R0 = some retained ∧
          ∀ s, s ∈ retained ↔ e.gcReachable m roots s := by
      intro R0 g a1 a2 a3
      exact ⟨R0, by simp [Elf.gcLoop], fun s => ⟨a1 s, gcReachable_closed a2 a3 s⟩⟩
    cases hN : N with
    | nil =>
      subst hN
      exact hdone R f (fun x hx => h1 x (Or.inr hx))
        (fun r hr => (h2 r hr).resolve_left (by simp))
        (fun s hs c hc => (h3 s hs c hc).resolve_right (by simp))
    | cons v vs =>
      rw [← hN]
      have hlen : N.length > 0 := by rw [hN]; simp
      rw [Elf.gcLoop, if_pos hlen]
      simp only
      have hperm := hord f N
      have hmemR : ∀ x, x ∈ (e.gcRound m (ord f N) R []).1 ↔ x ∈ R ∨ x ∈ N := fun x => by
        rw [gcRound_retained, hperm.mem_iff]
      have hsound : ∀ x, x ∈ (e.gcRound m (ord f N) R []).2 →
          x ∉ R ∧ ∃ s ∈ N, e.gcEdge m s x := fun x hx => by
        rcases gcRound_next_sound hx with h | ⟨h, s, hs, hedge⟩
        · simp at h
        · exact ⟨h, s, hperm.mem_iff.1 hs, hedge⟩
      have hcomplete : ∀ s ∈ N, ∀ c, e.gcEdge m s c →
          c ∈ (e.gcRound m (ord f N) R []).1 ∨ c ∈ (e.gcRound m (ord f N) R []).2 :=
        fun s hs c hc => gcRound_complete (hperm.mem_iff.2 hs) hc
      generalize (e.gcRound m (ord f N) R []).1 = R2 at hmemR hsound hcomplete ⊢
      generalize (e.gcRound m (ord f N) R []).2 = N2 at hsound hcomplete ⊢
      have i1 : ∀ x, x ∈ N2 ∨ x ∈ R2 → e.gcReachable m roots x := by
        rintro x (hx | hx)
        · obtain ⟨_, s, hs, hedge⟩ := hsound x hx
          obtain ⟨r, hr, hpath⟩ := h1 s (Or.inl hs)
          exact ⟨r, hr, hpath.tail hedge⟩
        · exact h1 x ((hmemR x).1 hx).symm
      have i2 : ∀ r, e.gcRoot m roots r → r ∈ N2 ∨ r ∈ R2 := fun r hr =>
        Or.inr ((hmemR r).2 (h2 r hr).symm)
      have i3 : ∀ s ∈ R2, ∀ c, e.gcEdge m s c → c ∈ R2 ∨ c ∈ N2 := by
        intro s hs c hc
        rcases (hmemR s).1 hs with hs | hs
        · exact Or.inl ((hmemR c).2 (h3 s hs c hc))
        · exact hcomplete s hs c hc
      have i4 : ∀ x ∈ N2, x ∈ U := fun x hx => by
        obtain ⟨_, s, _, hedge⟩ := hsound x hx
        exact hU s x hedge
      cases hN2 : N2 with
      | nil =>
        obtain ⟨g, rfl⟩ : ∃ g, f = g + 1 := ⟨f - 1, by omega⟩
        subst hN2
        exact hdone R2 g (fun x hx => i1 x (Or.inr hx))
          (fun r hr => (i2 r hr).resolve_left (by simp))
          (fun s hs c hc => (i3 s hs c hc).resolve_right (by simp))
      | cons w ws =>
        rw [← hN2]
        have hw : w ∈ N2 := by rw [hN2]; exact List.mem_cons_self _ _
        have hdec : 2 * (U \ R2.toFinset).card + (if ∀ x ∈ N2, x ∈ R2 then 1 else 0) + 1
            ≤ 2 * (U \ R.toFinset).card + (if ∀ x ∈ N, x ∈ R then 1 else 0) := by
          by_cases hB : ∀ x ∈ N, x ∈ R
          · have hsame : U \ R2.toFinset = U \ R.toFinset := by
              ext x
              simp only [Finset.mem_sdiff, List.mem_toFinset, hmemR]
              constructor
              · rintro ⟨a, b⟩; exact ⟨a, fun hx => b (Or.inl hx)⟩
              · rintro ⟨a, b⟩; exact ⟨a, fun hx => b (hx.elim id (hB x))⟩
            have hnot : ¬ ∀ x ∈ N2, x ∈ R2 := fun hall => by
              have := (hmemR w).1 (hall w hw)
              exact (hsound w hw).1 (this.elim id (hB w))
            rw [hsame, if_neg hnot, if_pos hB]
          · have hB2 := hB
            push_neg at hB
            obtain ⟨x, hxN, hxR⟩ := hB
            have hlt : (U \ R2.toFinset).card < (U \ R.toFinset).card := by
              apply Finset.card_lt_card
              refine ⟨fun y hy => ?_, fun hsub => ?_⟩
              · simp only [Finset.mem_sdiff, List.mem_toFinset, hmemR] at hy ⊢
                exact ⟨hy.1, fun hx => hy.2 (Or.inl hx)⟩
              · have hx : x ∈ U \ R.toFinset := by
                  simp only [Finset.mem_sdiff, List.mem_toFinset]
                  exact ⟨hNU x hxN, hxR⟩
                have := hsub hx
                simp only [Finset.mem_sdiff, List.mem_toFinset, hmemR] at this
                exact this.2 (Or.inr hxN)
            rw [if_neg hB2]
            split_ifs <;> omega
        exact ih (n - 1) (by omega) N2 R2 f (by omega) (by omega) i4 i1 i2 i3

theorem mem_gcFlagged {m : Mem} : ∀ (secs acc : List Nat) (x : Nat),
    x ∈ secs.foldl (fun acc section_ =>
        if (m.sec section_).Flags &&& SHF_GNU_RETAIN ≠ 0 then setInsert acc section_ else acc) acc
      ↔ x ∈ acc ∨ (x ∈ secs ∧ (m.sec x).Flags &&& SHF_GNU_RETAIN ≠ 0)
  | [], acc, x => by simp
  | s :: secs, acc, x => by
    rw [List.foldl_cons, mem_gcFlagged secs]
    split_ifs with h
    · rw [mem_setInsert, List.mem_cons]
      constructor
      · rintro ((h1 | rfl) | ⟨h1, h2⟩)
        · exact Or.inl h1
        · exact Or.inr ⟨Or.inl rfl, h⟩
        · exact Or.inr ⟨Or.inr h1, h2⟩
      · rintro (h1 | ⟨rfl | h1, h2⟩)
        · exact Or.inl (Or.inl h1)
        · exact Or.inl (Or.inr rfl)
        · exact Or.inr ⟨h1, h2⟩
    · rw [List.mem_cons]
      constructor
      · rintro (h1 | ⟨h1, h2⟩)
        · exact Or.inl h1
        · exact Or.inr ⟨Or.inr h1, h2⟩
      · rintro (h1 | ⟨rfl | h1, h2⟩)
        · exact Or.inl h1
        · exact absurd h2 h
        · exact Or.inr ⟨h1, h2⟩

theorem gcFlag_some {m : Mem} : ∀ (secs keys : List Nat),
    gcFlag m secs (some keys) = .ok (some (secs.foldl (fun acc section_ =>
      if (m.sec section_).Flags &&& SHF_GNU_RETAIN ≠ 0 then setInsert acc section_ else acc)
      keys))
  | [], _ => rfl
  | s :: secs, keys => by
    rw [gcFlag, List.foldl_cons]
    split_ifs
    · exact gcFlag_some secs _
    · exact gcFlag_some secs _

theorem gcFlag_none {m : Mem} : ∀ (secs : List Nat),
    (∀ s ∈ secs, (m.sec s).Flags &&& SHF_GNU_RETAIN = 0) → gcFlag m secs none = .ok none
  | [], _ => rfl
  | s :: secs, h => by
    rw [gcFlag, if_neg (by rw [h s (List.mem_cons_self _ _)]; simp)]
    exact gcFlag_none secs fun x hx => h x (List.mem_cons_of_mem _ hx)

theorem gcFlag_none_panic {m : Mem} : ∀ (secs : List Nat),
    (∃ s ∈ secs, (m.sec s).Flags &&& SHF_GNU_RETAIN ≠ 0) → gcFlag m secs none = .error Halt.panic
  | [], h => by simp at h
  | s :: secs, h => by
    rw [gcFlag]
    split_ifs with hs
    · rfl
    · apply gcFlag_none_panic secs
      obtain ⟨x, hx, hf⟩ := h
      rcases List.mem_cons.1 hx with rfl | hx
      · exact absurd hf hs
      · exact ⟨x, hx, hf⟩

/-- C6 (amended): let the root set `R` be passed as a map that is not nil, or
as the nil map when no section of the image is flagged `SHF_GNU_RETAIN`.  Then
`GarbageCollectSections(R)` ends (for every order in which the maps are
visited), and afterwards the section list is the original list filtered, in
its original order, to exactly the sections reachable in zero or more steps
from `R` and the sections flagged `SHF_GNU_RETAIN`, along the edges
target section -> `symbol.Section` of the relocation map.  The map of the
caller holds `R` and the flagged sections afterwards (and is still nil if it
was nil). -/
theorem gc_sections_reachable (e : Elf) (m : Mem) (ord : Nat → List Nat → List Nat)
    (roots : Option (List Nat)) (hord : ∀ k l, (ord k l).Perm l)
    (hnil : roots = none → ∀ s ∈ e.Sections, (m.sec s).Flags &&& SHF_GNU_RETAIN = 0) :
    ∃ fuel0, ∀ fuel, fuel0 ≤ fuel → ∃ (retained : List Nat) (callerMap : Option (List Nat)),
      (∀ s, s ∈ retained ↔ e.gcReachable m (roots.getD []) s) ∧
      (callerMap = none ↔ roots = none) ∧
      (∀ s, s ∈ callerMap.getD [] ↔ e.gcRoot m (roots.getD []) s) ∧
      e.GarbageCollectSections m ord fuel roots
        = .ok ({ e with Sections := e.Sections.filter fun s => decide (s ∈ retained) },
               callerMap) := by
  let N := e.Sections.foldl (fun acc section_ =>
      if (m.sec section_).Flags &&& SHF_GNU_RETAIN ≠ 0 then setInsert acc section_ else acc)
      (roots.getD [])
  let U : Finset Nat :=
    (N ++ e.Relocations.flatMap fun entry => e.sectionChildren m entry.1).toFinset
  have hU : ∀ s c, e.gcEdge m s c → c ∈ U := by
    intro s c hedge
    have hc := mem_sectionChildren.2 hedge
    obtain ⟨entry, hentry, hk, _⟩ := hedge
    simp only [U, List.mem_toFinset, List.mem_append, List.mem_flatMap]
    exact Or.inr ⟨entry, hentry, by rw [hk]; exact hc⟩
  have hN : ∀ x, x ∈ N ↔ e.gcRoot m (roots.getD []) x :=
    fun x => mem_gcFlagged e.Sections (roots.getD []) x
  refine ⟨2 * U.card + 1 + 2, fun fuel hfuel => ?_⟩
  obtain ⟨retained, hloop, hret⟩ := gcLoop_spec hord U hU (2 * U.card + 1) N [] fuel
    (by
      have : (U \ ([] : List Nat).toFinset).card = U.card := by simp
      rw [this]; split_ifs <;> omega)
    hfuel
    (fun x hx => by
      simp only [U, List.mem_toFinset, List.mem_append]; exact Or.inl hx)
    (fun x hx => by
      rcases hx with hx | hx
      · exact ⟨x, (hN x).1 hx, Relation.ReflTransGen.refl⟩
      · simp at hx)
    (fun r hr => Or.inl ((hN r).2 hr))
    (fun s hs => by simp at hs)
  cases roots with
  | some keys =>
    refine ⟨retained, some N, hret, by simp, hN, ?_⟩
    unfold Elf.GarbageCollectSections
    rw [gcFlag_some]
    simp only [Option.getD_some]
    simp only [N, Option.getD_some] at hloop
    simp only [hloop]
    rfl
  | none =>
    have hflag := hnil rfl
    have hN0 : N = [] := by
      have : ∀ x, x ∉ N := fun x hx => by
        rcases (mem_gcFlagged e.Sections [] x).1 hx with h | ⟨h1, h2⟩
        · simp at h
        · exact h2 (hflag x h1)
      exact List.eq_nil_iff_forall_not_mem.2 this
    refine ⟨retained, none, hret, by simp, ?_, ?_⟩
    · intro s
      rw [← hN s, hN0]
      simp
    · unfold Elf.GarbageCollectSections
      rw [gcFlag_none _ hflag]
      simp only [Option.getD_none]
      rw [hN0] at hloop
      simp only [hloop]

theorem gc_sections_reachable_witness :
    (∀ k l, ((fun (_ : Nat) (l : List Nat) => l) k l).Perm l) ∧
    ((some [] : Option (List Nat)) = none →
      ∀ s ∈ exampleRetain.1.Sections, (exampleRetain.2.sec s).Flags &&& SHF_GNU_RETAIN = 0) ∧
    (∀ fuel, exampleRetain.1.GarbageCollectSections exampleRetain.2 (fun _ l => l) (fuel + 3)
        (some [])
      = .ok ({ exampleRetain.1 with Sections := [0, 2] }, some [0])) ∧
    ∃ fuel0, ∀ fuel, fuel0 ≤ fuel → ∃ (retained : List Nat) (callerMap : Option (List Nat)),
      (∀ s, s ∈ retained ↔ exampleRetain.1.gcReachable exampleRetain.2 [] s) ∧
      (callerMap = none ↔ (some [] : Option (List Nat)) = none) ∧
      (∀ s, s ∈ callerMap.getD [] ↔ exampleRetain.1.gcRoot exampleRetain.2 [] s) ∧
      exampleRetain.1.GarbageCollectSections exampleRetain.2 (fun _ l => l) fuel (some [])
        = .ok ({ exampleRetain.1 with
                 Sections := exampleRetain.1.Sections.filter fun s => decide (s ∈ retained) },
               callerMap) :=
  ⟨fun _ _ => List.Perm.refl _, (fun h => by cases h), fun _ => rfl,
   gc_sections_reachable exampleRetain.1 exampleRetain.2 (fun _ l => l) (some [])
     (fun _ _ => List.Perm.refl _) (fun h => by cases h)⟩

/-- C6 as stated fails for a root set passed as the nil map.  In the image of
scenario S4 section `A` is flagged `SHF_GNU_RETAIN`; with the nil map,
`retainedSections[section] = true` is an assignment to an entry of a nil map
and `GarbageCollectSections` panics, whatever the visiting order and the
number of rounds allowed.  With the empty map the call returns and keeps `A`
and `C`. -/
theorem gc_nil_roots_panic :
    (∃ s ∈ exampleRetain.1.Sections, (exampleRetain.2.sec s).Flags &&& SHF_GNU_RETAIN ≠ 0) ∧
    (∀ ord fuel, exampleRetain.1.GarbageCollectSections exampleRetain.2 ord fuel none
      = .error Halt.panic) ∧
    (∀ fuel, exampleRetain.1.GarbageCollectSections exampleRetain.2 (fun _ l => l) (fuel + 3)
        (some [])
      = .ok ({ exampleRetain.1 with Sections := [0, 2] }, some [0])) :=
  ⟨⟨0, by decide, by decide⟩, fun _ _ => rfl, fun _ => rfl⟩

end elf

namespace elf

/-! ### Memory -/

theorem Mem.sym_setSec (m : Mem) (q : Nat) (f : SectionHeader → SectionHeader) (p : Nat) :
    (m.setSec q f).sym p = m.sym p := rfl

theorem Mem.sec_setSym (m : Mem) (q : Nat) (f : Symbol → Symbol) (p : Nat) :
    (m.setSym q f).sec p = m.sec p := rfl

theorem Mem.syms_length_setSym (m : Mem) (q : Nat) (f : Symbol → Symbol) :
    (m.setSym q f).syms.length = m.syms.length := by
  simp [Mem.setSym]

theorem Mem.secs_length_setSec (m : Mem) (q : Nat) (f : SectionHeader → SectionHeader) :
    (m.setSec q f).secs.length = m.secs.length := by
  simp [Mem.setSec]

theorem Mem.sym_setSym (m : Mem) (q : Nat) (f : Symbol → Symbol) (p : Nat) :
    (m.setSym q f).sym p = if p = q ∧ q < m.syms.length then f (m.sym q) else m.sym p := by
  unfold Mem.setSym Mem.sym
  simp only [List.getD_eq_getElem?_getD, List.getElem?_set]
  by_cases hpq : p = q
  · subst hpq
    by_cases hlt : p < m.syms.length
    · simp [hlt]
    · simp [hlt, List.getElem?_eq_none (not_lt.1 hlt)]
  · simp [hpq, Ne.symm hpq]

theorem Mem.sec_setSec (m : Mem) (q : Nat) (f : SectionHeader → SectionHeader) (p : Nat) :
    (m.setSec q f).sec p = if p = q ∧ q < m.secs.length then f (m.sec q) else m.sec p := by
  unfold Mem.setSec Mem.sec
  simp only [List.getD_eq_getElem?_getD, List.getElem?_set]
  by_cases hpq : p = q
  · subst hpq
    by_cases hlt : p < m.secs.length
    · simp [hlt]
    · simp [hlt, List.getElem?_eq_none (not_lt.1 hlt)]
  · simp [hpq, Ne.symm hpq]

/-! ### What `Write` leaves unchanged -/

theorem Mem.core_setSym (m : Mem) (q : Nat) (f : Symbol → Symbol)
    (hf : ∀ y, (f y).core = y.core) (p : Nat) :
    ((m.setSym q f).sym p).core = (m.sym p).core := by
  rw [Mem.sym_setSym]
  split_ifs with h
  · rw [hf, h.1]
  · rfl

theorem relSectionStep_syms (e : Elf) (symTabIdx : Nat) (st : RelLoopState)
    (entry : Nat × List Relocation) :
    (e.relSectionStep symTabIdx st entry).mem.syms = st.mem.syms := rfl

theorem relSectionFold_syms (e : Elf) (symTabIdx : Nat) :
    ∀ (rels : List (Nat × List Relocation)) (st : RelLoopState),
      (rels.foldl (e.relSectionStep symTabIdx) st).mem.syms = st.mem.syms
  | [], _ => rfl
  | entry :: rels, st => by
    rw [List.foldl_cons, relSectionFold_syms e symTabIdx rels, relSectionStep_syms]

theorem fillSectionNames_syms : ∀ (secs : List Nat) (t : StringTable) (m : Mem),
    (fillSectionNames secs t m).2.syms = m.syms
  | [], _, _ => rfl
  | sh :: rest, t, m => by
    rw [fillSectionNames, fillSectionNames_syms rest]; rfl

theorem layoutSectionData_syms : ∀ (secs : List Nat) (m : Mem) (w : Nat),
    (layoutSectionData secs m w).1.syms = m.syms
  | [], _, _ => rfl
  | sh :: rest, m, w => by
    rw [layoutSectionData]
    split_ifs
    · rw [layoutSectionData_syms rest]; rfl
    · rw [layoutSectionData_syms rest]

theorem fillSymbols_core (e : Elf) (sections : List Nat) (symtab : Nat) :
    ∀ (syms : List Nat) (i : Nat) (st : SymLoopState) (p : Nat),
      (((e.fillSymbols sections symtab syms i st).mem.sym p)).core = (st.mem.sym p).core
  | [], _, _, _ => rfl
  | sym :: rest, i, st, p => by
    rw [Elf.fillSymbols, fillSymbols_core e sections symtab rest]
    simp only
    have h1 : ∀ (m : Mem) (v : Nat),
        ((m.setSym sym fun y => { y with nameOffset := v }).sym p).core = (m.sym p).core :=
      fun m v => Mem.core_setSym m sym (fun y => { y with nameOffset := v }) (fun _ => rfl) p
    have h2 : ∀ (m : Mem) (v : Nat),
        ((m.setSym sym fun y => { y with SectionIndex := v }).sym p).core = (m.sym p).core :=
      fun m v => Mem.core_setSym m sym (fun y => { y with SectionIndex := v }) (fun _ => rfl) p
    split_ifs <;> split <;> simp only [Mem.sym_setSec, h1, h2]

theorem writeSynthesize_core (e : Elf) (m : Mem) (p : Nat) :
    ((e.writeSynthesize m).mem.sym p).core = (m.sym p).core := by
  unfold Elf.writeSynthesize Elf.writeSyms Elf.writeNames Elf.writeRels
  simp only [Mem.sym_setSec, fillSymbols_core]
  unfold Mem.sym
  rw [fillSectionNames_syms, relSectionFold_syms]
  rfl

theorem writeSynthesize_symbols (e : Elf) (m : Mem) :
    (e.writeSynthesize m).elf.Symbols = sortSymbols m e.Symbols := rfl

theorem writeLayout_symbols (e : Elf) (m : Mem) (sections : List Nat) :
    (e.writeLayout m sections).1.Symbols = e.Symbols := rfl

theorem writeLayout_syms (e : Elf) (m : Mem) (sections : List Nat) :
    (e.writeLayout m sections).2.syms = m.syms := by
  unfold Elf.writeLayout
  simp only [layoutSectionData_syms]

/-- Inversion of a successful `Write`. -/
theorem Write_ok {e : Elf} {m : Mem} {r : WriteResult} (h : e.Write m = .ok r) :
    e.Sections.length ≤ 65500 ∧
    ∃ shstrData strData,
      (e.writeSynthesize m).sectionStringTable.ToData = .ok shstrData ∧
      (e.writeSynthesize m).stringTable.ToData = .ok strData ∧
      r.elf = ((e.writeSynthesize m).elf.writeLayout
        (((e.writeSynthesize m).mem.setSec (e.writeSynthesize m).sectionStringTableSection
            fun h => { h with Data := shstrData }).setSec
          (e.writeSynthesize m).stringTableSection fun h => { h with Data := strData })
        (e.writeSynthesize m).sections).1 ∧
      r.mem = ((e.writeSynthesize m).elf.writeLayout
        (((e.writeSynthesize m).mem.setSec (e.writeSynthesize m).sectionStringTableSection
            fun h => { h with Data := shstrData }).setSec
          (e.writeSynthesize m).stringTableSection fun h => { h with Data := strData })
        (e.writeSynthesize m).sections).2 ∧
      r.sections = (e.writeSynthesize m).sections ∧
      r.bytes = r.elf.writeEmit r.mem r.sections := by
  unfold Elf.Write at h
  split_ifs at h with hlen
  simp only at h
  refine ⟨by omega, ?_⟩
  split at h
  · simp at h
  · simp at h
  · rename_i a b hs1 hs2
    simp only [Except.ok.injEq] at h
    subst h
    exact ⟨a, b, hs1, hs2, rfl, rfl, rfl, rfl⟩

theorem Write_symbols {e : Elf} {m : Mem} {r : WriteResult} (h : e.Write m = .ok r) :
    r.elf.Symbols = sortSymbols m e.Symbols := by
  obtain ⟨_, a, b, _, _, h1, _⟩ := Write_ok h
  rw [h1, writeLayout_symbols, writeSynthesize_symbols]

theorem Write_core {e : Elf} {m : Mem} {r : WriteResult} (h : e.Write m = .ok r) (p : Nat) :
    (r.mem.sym p).core = (m.sym p).core := by
  obtain ⟨_, a, b, _, _, _, h2, _⟩ := Write_ok h
  rw [← writeSynthesize_core e m p, h2]
  unfold Mem.sym
  rw [writeLayout_syms]
  rfl

/-! ### Symbol order -/

theorem pairwise_orderedInsert {α : Type} (r : α → α → Prop) [DecidableRel r] (a : α) :
    ∀ (l : List α), (∀ b ∈ l, r a b ∨ r b a) →
      (∀ b ∈ l, ∀ c ∈ l, r a b → r b c → r a c) →
      l.Pairwise r → (l.orderedInsert r a).Pairwise r
  | [], _, _, _ => by simp
  | b :: l, htot, htrans, hs => by
    rw [List.orderedInsert]
    rw [List.pairwise_cons] at hs
    split_ifs with hab
    · refine List.pairwise_cons.2 ⟨?_, List.pairwise_cons.2 hs⟩
      intro c hc
      rcases List.mem_cons.1 hc with rfl | hc
      · exact hab
      · exact htrans b (List.mem_cons_self _ _) c (List.mem_cons_of_mem _ hc) hab (hs.1 c hc)
    · refine List.pairwise_cons.2 ⟨?_, ?_⟩
      · intro c hc
        rcases (List.mem_orderedInsert r).1 hc with rfl | hc
        · exact (htot b (List.mem_cons_self _ _)).resolve_left hab
        · exact hs.1 c hc
      · exact pairwise_orderedInsert r a l
          (fun c hc => htot c (List.mem_cons_of_mem _ hc))
          (fun c hc d hd => htrans c (List.mem_cons_of_mem _ hc) d (List.mem_cons_of_mem _ hd))
          hs.2

theorem pairwise_insertionSort {α : Type} (r : α → α → Prop) [DecidableRel r] :
    ∀ (l : List α), (∀ a ∈ l, ∀ b ∈ l, r a b ∨ r b a) →
      (∀ a ∈ l, ∀ b ∈ l, ∀ c ∈ l, r a b → r b c → r a c) →
      (l.insertionSort r).Pairwise r
  | [], _, _ => by simp
  | a :: l, htot, htrans => by
    rw [List.insertionSort]
    have hmem : ∀ x, x ∈ l.insertionSort r → x ∈ a :: l := fun x hx =>
      List.mem_cons_of_mem _ ((List.mem_insertionSort r).1 hx)
    apply pairwise_orderedInsert
    · exact fun b hb => htot a (List.mem_cons_self _ _) b (hmem b hb)
    · exact fun b hb c hc => htrans a (List.mem_cons_self _ _) b (hmem b hb) c (hmem c hc)
    · exact pairwise_insertionSort r l
        (fun x hx y hy => htot x (List.mem_cons_of_mem _ hx) y (List.mem_cons_of_mem _ hy))
        (fun x hx y hy z hz => htrans x (List.mem_cons_of_mem _ hx) y
          (List.mem_cons_of_mem _ hy) z (List.mem_cons_of_mem _ hz))

theorem stringsCompare_le_iff : ∀ (a b : List Nat),
    stringsCompare a b ≤ 0 ↔ a = b ∨ List.Lex (· < ·) a b
  | [], [] => by simp [stringsCompare]
  | [], _ :: _ => by
    simp only [stringsCompare]
    exact ⟨fun _ => Or.inr List.Lex.nil, fun _ => by omega⟩
  | _ :: _, [] => by
    simp only [stringsCompare]
    constructor
    · intro h; omega
    · rintro (h | h)
      · simp at h
      · cases h
  | x :: as, y :: bs => by
    have ih := stringsCompare_le_iff as bs
    simp only [stringsCompare]
    split_ifs with h1 h2
    · exact ⟨fun _ => Or.inr (List.Lex.rel h1), fun _ => by omega⟩
    · constructor
      · intro h; omega
      · rintro (h | h)
        · simp only [List.cons.injEq] at h; omega
        · cases h with
          | cons _ => omega
          | rel h3 => omega
    · have hxy : x = y := by omega
      subst hxy
      rw [ih]
      constructor
      · rintro (h | h)
        · exact Or.inl (by rw [h])
        · exact Or.inr (List.Lex.cons h)
      · rintro (h | h)
        · simp only [List.cons.injEq, true_and] at h; exact Or.inl h
        · cases h with
          | cons h3 => exact Or.inr h3
          | rel h3 => omega

theorem wrapS_wrapU_64 {z : Int} (h1 : -9223372036854775808 ≤ z) (h2 : z < 9223372036854775808) :
    wrapS 64 (wrapU 64 z) = z := by
  unfold wrapS wrapU
  norm_num
  split_ifs with h <;> omega

/-- The order `Write` sorts by, spelled out for bindings without overflow. -/
theorem symbolCompare_le_iff {a b : Symbol} (ha : 0 ≤ a.Binding ∧ a.Binding < 2 ^ 63)
    (hb : 0 ≤ b.Binding ∧ b.Binding < 2 ^ 63) :
    symbolCompare a b ≤ 0 ↔
      a.Binding < b.Binding ∨
        (a.Binding = b.Binding ∧ (a.Name = b.Name ∨ List.Lex (· < ·) a.Name b.Name)) := by
  unfold symbolCompare
  split_ifs with h
  · rw [wrapS_wrapU_64 (by omega) (by omega)]
    constructor
    · intro h1; left; omega
    · rintro (h1 | ⟨h1, _⟩)
      · omega
      · exact absurd h1 h
  · rw [stringsCompare_le_iff]
    push_neg at h
    constructor
    · intro h1; exact Or.inr ⟨h, h1⟩
    · rintro (h1 | ⟨_, h1⟩)
      · omega
      · exact h1

theorem lexLe_total (a b : List Nat) :
    (a = b ∨ List.Lex (· < ·) a b) ∨ (b = a ∨ List.Lex (· < ·) b a) := by
  rcases trichotomous_of (List.Lex (· < · : Nat → Nat → Prop)) a b with h | h | h
  · exact Or.inl (Or.inr h)
  · exact Or.inl (Or.inl h)
  · exact Or.inr (Or.inr h)

theorem lexLe_trans {a b c : List Nat} (h1 : a = b ∨ List.Lex (· < ·) a b)
    (h2 : b = c ∨ List.Lex (· < ·) b c) : a = c ∨ List.Lex (· < ·) a c := by
  rcases h1 with rfl | h1
  · exact h2
  · rcases h2 with rfl | h2
    · exact Or.inr h1
    · exact Or.inr (trans_of (List.Lex (· < · : Nat → Nat → Prop)) h1 h2)

/-- C7 (amended): when the bindings of the image's symbols are non-negative
(and fit an `int64`), after `Write` the symbol list is a permutation of the
list before the call in which every symbol with local binding precedes every
symbol with non-local binding and, among symbols of equal binding, names are
in non-decreasing lexicographic byte order. -/
theorem write_sorts_symbols (e : Elf) (m : Mem) (r : WriteResult)
    (hb : ∀ p ∈ e.Symbols, 0 ≤ (m.sym p).Binding ∧ (m.sym p).Binding < 2 ^ 63)
    (hw : e.Write m = .ok r) :
    r.elf.Symbols.Perm e.Symbols ∧
    r.elf.Symbols.Pairwise (fun p q =>
      ((r.mem.sym q).Binding = STB_LOCAL → (r.mem.sym p).Binding = STB_LOCAL) ∧
      ((r.mem.sym p).Binding = (r.mem.sym q).Binding →
        (r.mem.sym p).Name = (r.mem.sym q).Name ∨
          List.Lex (· < ·) (r.mem.sym p).Name (r.mem.sym q).Name)) := by
  have hsym := Write_symbols hw
  have hcore : ∀ p, (r.mem.sym p).Name = (m.sym p).Name ∧
      (r.mem.sym p).Binding = (m.sym p).Binding := fun p => by
    have := Write_core hw p
    simp only [Symbol.core, Prod.mk.injEq] at this
    exact ⟨this.1, this.2.2.1⟩
  rw [hsym]
  refine ⟨List.perm_insertionSort _ _, ?_⟩
  have hsorted : (sortSymbols m e.Symbols).Pairwise
      (fun p q => symbolCompare (m.sym p) (m.sym q) ≤ 0) := by
    apply pairwise_insertionSort
    · intro a ha b hb2
      rw [symbolCompare_le_iff (hb a ha) (hb b hb2), symbolCompare_le_iff (hb b hb2) (hb a ha)]
      rcases lt_trichotomy (m.sym a).Binding (m.sym b).Binding with h | h | h
      · exact Or.inl (Or.inl h)
      · rcases lexLe_total (m.sym a).Name (m.sym b).Name with h2 | h2
        · exact Or.inl (Or.inr ⟨h, h2⟩)
        · exact Or.inr (Or.inr ⟨h.symm, h2⟩)
      · exact Or.inr (Or.inl h)
    · intro a ha b hb2 c hc
      rw [symbolCompare_le_iff (hb a ha) (hb b hb2), symbolCompare_le_iff (hb b hb2) (hb c hc),
        symbolCompare_le_iff (hb a ha) (hb c hc)]
      rintro (h1 | ⟨h1, h1n⟩) (h2 | ⟨h2, h2n⟩)
      · exact Or.inl (by omega)
      · exact Or.inl (by omega)
      · exact Or.inl (by omega)
      · exact Or.inr ⟨by omega, lexLe_trans h1n h2n⟩
  have hmem : ∀ p, p ∈ sortSymbols m e.Symbols → p ∈ e.Symbols := fun p hp =>
    (List.mem_insertionSort _).1 hp
  refine List.Pairwise.imp_of_mem ?_ hsorted
  intro p q hp hq hpq
  rw [symbolCompare_le_iff (hb p (hmem p hp)) (hb q (hmem q hq))] at hpq
  rw [(hcore p).1, (hcore p).2, (hcore q).1, (hcore q).2]
  have hp0 := (hb p (hmem p hp)).1
  refine ⟨fun hq0 => ?_, fun heq => ?_⟩
  · simp only [STB_LOCAL] at hq0 ⊢
    rcases hpq with h | ⟨h, _⟩ <;> omega
  · rcases hpq with h | ⟨_, h⟩
    · omega
    · exact h

theorem write_sorts_symbols_witness :
    (exampleTwoSymbols.1.written exampleTwoSymbols.2).elf.Symbols.Perm exampleTwoSymbols.1.Symbols ∧
    (exampleTwoSymbols.1.written exampleTwoSymbols.2).elf.Symbols.Pairwise (fun p q =>
      (((exampleTwoSymbols.1.written exampleTwoSymbols.2).mem.sym q).Binding = STB_LOCAL →
        ((exampleTwoSymbols.1.written exampleTwoSymbols.2).mem.sym p).Binding = STB_LOCAL) ∧
      (((exampleTwoSymbols.1.written exampleTwoSymbols.2).mem.sym p).Binding
          = ((exampleTwoSymbols.1.written exampleTwoSymbols.2).mem.sym q).Binding →
        ((exampleTwoSymbols.1.written exampleTwoSymbols.2).mem.sym p).Name
            = ((exampleTwoSymbols.1.written exampleTwoSymbols.2).mem.sym q).Name ∨
          List.Lex (· < ·) ((exampleTwoSymbols.1.written exampleTwoSymbols.2).mem.sym p).Name
            ((exampleTwoSymbols.1.written exampleTwoSymbols.2).mem.sym q).Name)) :=
  write_sorts_symbols exampleTwoSymbols.1 exampleTwoSymbols.2
    (exampleTwoSymbols.1.written exampleTwoSymbols.2) (by decide) rfl

/-- C7 as stated fails: with a local symbol `a` and a symbol `b` of binding
`-1`, `Write` succeeds and leaves `b` (not local) before `a` (local). -/
theorem write_symbols_negative_binding :
    ∃ r, exampleNegativeBinding.1.Write exampleNegativeBinding.2 = .ok r ∧
      r.elf.Symbols = [1, 0] ∧
      (r.mem.sym 1).Binding ≠ STB_LOCAL ∧ (r.mem.sym 0).Binding = STB_LOCAL :=
  ⟨exampleNegativeBinding.1.written exampleNegativeBinding.2, rfl, rfl, by decide, rfl⟩

theorem Mem.core_setSec (m : Mem) (q : Nat) (f : SectionHeader → SectionHeader)
    (hf : ∀ y, (f y).core = y.core) (p : Nat) :
    ((m.setSec q f).sec p).core = (m.sec p).core := by
  rw [Mem.sec_setSec]
  split_ifs with h
  · rw [hf, h.1]
  · rfl

theorem Mem.sec_setSec_ne (m : Mem) {q p : Nat} (f : SectionHeader → SectionHeader)
    (h : p ≠ q) : (m.setSec q f).sec p = m.sec p := by
  rw [Mem.sec_setSec, if_neg (fun hh => h hh.1)]

theorem fillSectionNames_core : ∀ (secs : List Nat) (t : StringTable) (m : Mem) (p : Nat),
    ((fillSectionNames secs t m).2.sec p).core = (m.sec p).core
  | [], _, _, _ => rfl
  | sh :: rest, t, m, p => by
    rw [fillSectionNames, fillSectionNames_core rest]
    exact Mem.core_setSec m sh (fun h => { h with nameOffset := (t.Add (m.sec sh).Name).1 })
      (fun _ => rfl) p

theorem fillSectionNames_length : ∀ (secs : List Nat) (t : StringTable) (m : Mem),
    (fillSectionNames secs t m).2.secs.length = m.secs.length
  | [], _, _ => rfl
  | sh :: rest, t, m => by
    rw [fillSectionNames, fillSectionNames_length rest, Mem.secs_length_setSec]

theorem layoutSectionData_core : ∀ (secs : List Nat) (m : Mem) (w : Nat) (p : Nat),
    ((layoutSectionData secs m w).1.sec p).core = (m.sec p).core
  | [], _, _, _ => rfl
  | sh :: rest, m, w, p => by
    rw [layoutSectionData]
    split_ifs
    · rw [layoutSectionData_core rest]
      exact Mem.core_setSec m sh
        (fun h => { h with Size := (m.sec sh).Data.length % 2 ^ 32, offset := w })
        (fun _ => rfl) p
    · rw [layoutSectionData_core rest]

theorem layoutSectionData_length : ∀ (secs : List Nat) (m : Mem) (w : Nat),
    (layoutSectionData secs m w).1.secs.length = m.secs.length
  | [], _, _ => rfl
  | sh :: rest, m, w => by
    rw [layoutSectionData]
    split_ifs
    · rw [layoutSectionData_length rest, Mem.secs_length_setSec]
    · rw [layoutSectionData_length rest]

theorem fillSymbols_sec_ne (e : Elf) (sections : List Nat) (symtab : Nat) {p : Nat}
    (hp : p ≠ symtab) :
    ∀ (syms : List Nat) (i : Nat) (st : SymLoopState),
      (e.fillSymbols sections symtab syms i st).mem.sec p = st.mem.sec p
  | [], _, _ => rfl
  | sym :: rest, i, st => by
    rw [Elf.fillSymbols, fillSymbols_sec_ne e sections symtab hp rest]
    simp only
    split_ifs <;> split <;>
      simp only [Mem.sec_setSec_ne _ _ hp, Mem.sec_setSym]

theorem fillSymbols_length (e : Elf) (sections : List Nat) (symtab : Nat) :
    ∀ (syms : List Nat) (i : Nat) (st : SymLoopState),
      (e.fillSymbols sections symtab syms i st).mem.secs.length = st.mem.secs.length
  | [], _, _ => rfl
  | sym :: rest, i, st => by
    rw [Elf.fillSymbols, fillSymbols_length e sections symtab rest]
    simp only
    split_ifs <;> split <;>
      simp only [Mem.secs_length_setSec, Mem.setSym]

end elf

namespace elf

/-! ### Relocation sections -/

theorem Mem.sec_append_lt (m : Mem) (l : List SectionHeader) {p : Nat} (h : p < m.secs.length) :
    ({ m with secs := m.secs ++ l } : Mem).sec p = m.sec p := by
  unfold Mem.sec
  simp only [List.getD_eq_getElem?_getD, List.getElem?_append_left h]

theorem Mem.sec_append_ge (m : Mem) (l : List SectionHeader) (i : Nat) :
    ({ m with secs := m.secs ++ l } : Mem).sec (m.secs.length + i) = l.getD i default := by
  unfold Mem.sec
  simp only [List.getD_eq_getElem?_getD]
  rw [List.getElem?_append_right (Nat.le_add_right _ _)]
  simp

theorem slicesIndex_append {s x : List Nat} {v : Nat} (h : v ∉ x) :
    slicesIndex (s ++ x) v = slicesIndex s v := by
  unfold slicesIndex
  by_cases hv : v ∈ s
  · rw [if_pos (List.mem_append_left _ hv), if_pos hv, List.indexOf_append_of_mem hv]
  · rw [if_neg (by simp [hv, h]), if_neg hv]

theorem relSection_congr (e : Elf) (idx : Nat) {s s2 : List Nat} {m m2 : Mem}
    {entry : Nat × List Relocation} (h1 : slicesIndex s2 entry.1 = slicesIndex s entry.1)
    (h2 : m2.sec entry.1 = m.sec entry.1) :
    e.relSection idx s2 m2 entry = e.relSection idx s m entry := by
  unfold Elf.relSection
  simp only [h1, h2]

theorem relFold_spec (e : Elf) (idx : Nat) (S0 : List Nat) (M0 : Mem)
    (R0 : List (Nat × List Relocation)) (rels : List (Nat × List Relocation))
    (hk : ∀ en ∈ rels, en.1 < M0.secs.length) :
    (rels.foldl (e.relSectionStep idx) ⟨S0, M0, R0⟩).sections
        = S0 ++ (List.range rels.length).map (M0.secs.length + ·) ∧
    (rels.foldl (e.relSectionStep idx) ⟨S0, M0, R0⟩).mem
        = { M0 with secs := M0.secs ++ rels.map (e.relSection idx S0 M0) } ∧
    (rels.foldl (e.relSectionStep idx) ⟨S0, M0, R0⟩).relocations
        = R0 ++ rels.map (fun en => (en.1, refreshRelocations e.Symbols en.2)) := by
  induction rels using List.reverseRecOn with
  | nil => simp
  | append_singleton rels entry ih =>
    obtain ⟨ih1, ih2, ih3⟩ := ih (fun en hen => hk en (List.mem_append_left _ hen))
    have hentry := hk entry (List.mem_append_right _ (List.mem_singleton_self _))
    rw [List.foldl_append, List.foldl_cons, List.foldl_nil]
    generalize rels.foldl (e.relSectionStep idx) ⟨S0, M0, R0⟩ = st at ih1 ih2 ih3 ⊢
    unfold Elf.relSectionStep
    simp only [ih1, ih2, ih3]
    refine ⟨?_, ?_, ?_⟩
    · simp only [List.length_append, List.length_map, List.length_singleton, List.range_succ,
        List.map_append, List.map_cons, List.map_nil, List.append_assoc]
    · have hc : e.relSection idx (S0 ++ (List.range rels.length).map (M0.secs.length + ·))
          { M0 with secs := M0.secs ++ rels.map (e.relSection idx S0 M0) } entry
          = e.relSection idx S0 M0 entry := by
        apply relSection_congr
        · apply slicesIndex_append
          simp only [List.mem_map, List.mem_range, not_exists, not_and]
          intro x _ hx
          omega
        · exact Mem.sec_append_lt M0 _ hentry
      simp only [hc, List.map_append, List.map_cons, List.map_nil, List.append_assoc]
    · simp only [List.map_append, List.map_cons, List.map_nil, List.append_assoc]

theorem writeTables_secs_length (e : Elf) (m : Mem) :
    (e.writeTables m).2.1.secs.length = m.secs.length + 3 := by
  simp [Elf.writeTables, Mem.setSec]

theorem writeTables_sections (e : Elf) (m : Mem) :
    (e.writeTables m).2.2
      = e.Sections ++ [m.secs.length, m.secs.length + 1, m.secs.length + 2] := rfl

theorem writeTables_relocations (e : Elf) (m : Mem) :
    (e.writeTables m).1.Relocations = e.Relocations := rfl

theorem writeTables_symbols (e : Elf) (m : Mem) :
    (e.writeTables m).1.Symbols = sortSymbols m e.Symbols := rfl

theorem writeTables_class (e : Elf) (m : Mem) :
    (e.writeTables m).1.Class = e.Class ∧ (e.writeTables m).1.Endian = e.Endian := ⟨rfl, rfl⟩

theorem writeTables_sec_lt (e : Elf) (m : Mem) {p : Nat} (hp : p < m.secs.length) :
    (e.writeTables m).2.1.sec p = m.sec p := by
  unfold Elf.writeTables
  simp only
  rw [Mem.sec_setSec_ne _ _ (by omega), Mem.sec_append_lt _ _ hp]

theorem writeTables_symtab (e : Elf) (m : Mem) :
    (e.writeTables m).2.1.sec (m.secs.length + 2)
      = { (default : SectionHeader) with
          Name := nameSymtab, Type_ := SHT_SYMTAB, EntrySize := e.sizeSymbol % 2 ^ 32,
          Link := (e.Sections.length + 1) % 2 ^ 32 } := by
  unfold Elf.writeTables
  simp only
  rw [Mem.sec_setSec, if_pos ⟨rfl, by simp⟩, Mem.sec_append_ge]
  rfl

theorem writeRels_spec (e : Elf) (m : Mem) (hk : ∀ en ∈ e.Relocations, en.1 < m.secs.length) :
    (e.writeRels m).sections
      = e.Sections ++ [m.secs.length, m.secs.length + 1, m.secs.length + 2]
        ++ (List.range e.Relocations.length).map (m.secs.length + 3 + ·) ∧
    (e.writeRels m).mem
      = { (e.writeTables m).2.1 with
          secs := (e.writeTables m).2.1.secs ++ e.Relocations.map
            ((e.writeTables m).1.relSection (e.Sections.length + 2) (e.writeTables m).2.2
              (e.writeTables m).2.1) } ∧
    (e.writeRels m).relocations
      = e.Relocations.map (fun en => (en.1, refreshRelocations (sortSymbols m e.Symbols) en.2)) := by
  have hk2 : ∀ en ∈ (e.writeTables m).1.Relocations, en.1 < (e.writeTables m).2.1.secs.length := by
    intro en hen
    rw [writeTables_secs_length]
    have := hk en hen
    omega
  obtain ⟨h1, h2, h3⟩ := relFold_spec (e.writeTables m).1 (e.Sections.length + 2)
    (e.writeTables m).2.2 (e.writeTables m).2.1 [] (e.writeTables m).1.Relocations hk2
  unfold Elf.writeRels
  simp only
  rw [h1, h2, h3]
  refine ⟨?_, ?_, ?_⟩
  · rw [writeTables_sections, writeTables_relocations, writeTables_secs_length]
  · rw [writeTables_relocations]
  · rw [writeTables_relocations, writeTables_symbols, List.nil_append]

theorem writeRels_secs_length (e : Elf) (m : Mem)
    (hk : ∀ en ∈ e.Relocations, en.1 < m.secs.length) :
    (e.writeRels m).mem.secs.length = m.secs.length + 3 + e.Relocations.length := by
  rw [(writeRels_spec e m hk).2.1]
  simp only [List.length_append, List.length_map, writeTables_secs_length]

theorem writeRels_sec_lt (e : Elf) (m : Mem) (hk : ∀ en ∈ e.Relocations, en.1 < m.secs.length)
    {p : Nat} (hp : p < m.secs.length + 3) :
    (e.writeRels m).mem.sec p = (e.writeTables m).2.1.sec p := by
  rw [(writeRels_spec e m hk).2.1]
  exact Mem.sec_append_lt _ _ (by rw [writeTables_secs_length]; exact hp)

theorem writeRels_sec_rel (e : Elf) (m : Mem) (hk : ∀ en ∈ e.Relocations, en.1 < m.secs.length)
    {i : Nat} {entry : Nat × List Relocation} (hi : e.Relocations[i]? = some entry) :
    (e.writeRels m).mem.sec (m.secs.length + 3 + i)
      = (e.writeTables m).1.relSection (e.Sections.length + 2) (e.writeTables m).2.2
          (e.writeTables m).2.1 entry := by
  rw [(writeRels_spec e m hk).2.1]
  have := Mem.sec_append_ge (e.writeTables m).2.1
    (e.Relocations.map
      ((e.writeTables m).1.relSection (e.Sections.length + 2) (e.writeTables m).2.2
        (e.writeTables m).2.1)) i
  rw [writeTables_secs_length] at this
  rw [this]
  simp only [List.getD_eq_getElem?_getD, List.getElem?_map, hi, Option.map_some',
    Option.getD_some]

theorem writeNames_core (e : Elf) (m : Mem) (p : Nat) :
    ((e.writeNames m).2.sec p).core = ((e.writeRels m).mem.sec p).core :=
  fillSectionNames_core _ _ _ p

theorem writeNames_secs_length (e : Elf) (m : Mem) :
    (e.writeNames m).2.secs.length = (e.writeRels m).mem.secs.length :=
  fillSectionNames_length _ _ _

theorem writeSyms_sec_ne (e : Elf) (m : Mem) {p : Nat} (hp : p ≠ m.secs.length + 2) :
    (e.writeSyms m).mem.sec p = (e.writeNames m).2.sec p :=
  fillSymbols_sec_ne _ _ _ hp _ _ _

theorem writeSyms_secs_length (e : Elf) (m : Mem) :
    (e.writeSyms m).mem.secs.length = (e.writeNames m).2.secs.length :=
  fillSymbols_length _ _ _ _ _ _

theorem writeSynthesize_sec_ne (e : Elf) (m : Mem) {p : Nat} (hp : p ≠ m.secs.length + 2) :
    (e.writeSynthesize m).mem.sec p = (e.writeNames m).2.sec p := by
  unfold Elf.writeSynthesize
  simp only
  rw [Mem.sec_setSec_ne _ _ hp, writeSyms_sec_ne e m hp]

theorem writeSynthesize_sections (e : Elf) (m : Mem) :
    (e.writeSynthesize m).sections = (e.writeRels m).sections := rfl

theorem Write_class {e : Elf} {m : Mem} {r : WriteResult} (h : e.Write m = .ok r) :
    r.elf.Class = e.Class ∧ r.elf.Endian = e.Endian := by
  obtain ⟨_, a, b, _, _, h1, _⟩ := Write_ok h
  rw [h1]
  exact ⟨rfl, rfl⟩

theorem writeSynthesize_shstrtab (e : Elf) (m : Mem) :
    (e.writeSynthesize m).sectionStringTableSection = m.secs.length := rfl

theorem writeSynthesize_strtab (e : Elf) (m : Mem) :
    (e.writeSynthesize m).stringTableSection = m.secs.length + 1 := rfl

theorem writeSynthesize_symtab (e : Elf) (m : Mem) :
    (e.writeSynthesize m).symbolTableSection = m.secs.length + 2 := rfl

theorem Write_sec_core {e : Elf} {m : Mem} {r : WriteResult} (h : e.Write m = .ok r)
    {p : Nat} (h1 : p ≠ m.secs.length) (h2 : p ≠ m.secs.length + 1) :
    (r.mem.sec p).core = ((e.writeSynthesize m).mem.sec p).core := by
  obtain ⟨_, a, b, _, _, _, hm, _⟩ := Write_ok h
  rw [hm]
  unfold Elf.writeLayout
  simp only
  rw [layoutSectionData_core, writeSynthesize_shstrtab, writeSynthesize_strtab,
    Mem.sec_setSec_ne _ _ h2, Mem.sec_setSec_ne _ _ h1]

theorem leBytes_length : ∀ (w v : Nat), (leBytes w v).length = w
  | 0, _ => rfl
  | w + 1, v => by simp [leBytes, leBytes_length w]

theorem putUint_length (be : Bool) (w v : Nat) : (putUint be w v).length = w := by
  unfold putUint
  split_ifs <;> simp [leBytes_length]

theorem putFields_length (be : Bool) : ∀ (fs : List (Nat × Nat)),
    (putFields be fs).length = (fs.map Prod.fst).sum
  | [] => rfl
  | (w, v) :: fs => by
    simp [putFields, putUint_length, putFields_length be fs]

theorem writeRelocation_length (e : Elf) (t : Nat) (rel : Relocation) :
    (e.writeRelocation t rel).length = e.sizeRelocation t := by
  unfold Elf.writeRelocation Elf.sizeRelocation
  split_ifs <;> simp [putFields_length]

theorem writeRelocation_congr {e e2 : Elf} (hc : e2.Class = e.Class) (he : e2.Endian = e.Endian)
    (t : Nat) (rel : Relocation) : e2.writeRelocation t rel = e.writeRelocation t rel := by
  unfold Elf.writeRelocation Elf.bigEndian
  rw [hc, he]

theorem sizeRelocation_lt (e : Elf) (t : Nat) : e.sizeRelocation t < 2 ^ 32 := by
  unfold Elf.sizeRelocation
  split_ifs <;> norm_num

theorem wrapU_natCast (bits k : Nat) : wrapU bits (k : Int) = k % 2 ^ bits := by
  unfold wrapU
  rw [← Int.natCast_mod, Int.toNat_natCast]

theorem slicesIndex_of_mem {s : List Nat} {v : Nat} (h : v ∈ s) :
    slicesIndex s v = (s.indexOf v : Int) := by
  unfold slicesIndex
  rw [if_pos h]

theorem fillSymbols_sec_upto_info (e : Elf) (sections : List Nat) (symtab : Nat) (p : Nat) :
    ∀ (syms : List Nat) (i : Nat) (st : SymLoopState),
      { (e.fillSymbols sections symtab syms i st).mem.sec p with Info := 0 }
        = { st.mem.sec p with Info := 0 }
  | [], _, _ => rfl
  | sym :: rest, i, st => by
    rw [Elf.fillSymbols, fillSymbols_sec_upto_info e sections symtab p rest]
    simp only
    have h : ∀ (m : Mem) (v : Nat),
        { (m.setSec symtab fun h => { h with Info := v }).sec p with Info := 0 }
          = { m.sec p with Info := 0 } := by
      intro m v
      rw [Mem.sec_setSec]
      split_ifs with hc
      · rw [hc.1]
      · rfl
    split_ifs <;> split <;> simp only [h, Mem.sec_setSym]

theorem relSection_fields (e : Elf) (idx : Nat) (s : List Nat) (m : Mem)
    (entry : Nat × List Relocation) :
    (e.relSection idx s m entry).Name
      = (if entry.2.any (fun rel => rel.Addend ≠ 0) then nameRela else nameRel)
        ++ (m.sec entry.1).Name ∧
    (e.relSection idx s m entry).Type_
      = (if entry.2.any (fun rel => rel.Addend ≠ 0) then SHT_RELA else SHT_REL) ∧
    (e.relSection idx s m entry).EntrySize
      = e.sizeRelocation (e.relSection idx s m entry).Type_ ∧
    (e.relSection idx s m entry).Info = wrapU 32 (slicesIndex s entry.1) ∧
    (e.relSection idx s m entry).Link = idx % 2 ^ 32 ∧
    (e.relSection idx s m entry).Data
      = (refreshRelocations e.Symbols entry.2).flatMap
          (e.writeRelocation (e.relSection idx s m entry).Type_) := by
  unfold Elf.relSection relKind
  simp only
  refine ⟨?_, ?_, ?_, trivial, trivial, trivial⟩
  · split_ifs <;> rfl
  · split_ifs <;> rfl
  · exact Nat.mod_eq_of_lt (sizeRelocation_lt _ _)


/-- C8 fails on the code: for an image whose only symbol is local, `Write`
succeeds and the `.symtab` section header (the third and last section emitted)
has `Info = 0`, although the image has one symbol with local binding. -/
theorem write_symtab_info_all_local :
    ∃ r, exampleLocalOnly.1.Write exampleLocalOnly.2 = .ok r ∧
      r.sections = [0, 1, 2] ∧
      (r.mem.sec 2).Name = nameSymtab ∧ (r.mem.sec 2).Type_ = SHT_SYMTAB ∧
      (r.mem.sec 2).Info = 0 ∧
      (r.elf.Symbols.filter fun p => (r.mem.sym p).Binding = STB_LOCAL).length = 1 ∧
      ((r.bytes.drop r.elf.secHdrOffset).drop (2 * r.elf.secHdrEntrySize)).take
          r.elf.secHdrEntrySize
        = r.elf.writeSectionHeader (r.mem.sec 2) ∧
      getFields false [4, 4, 4, 8, 8, 4, 4, 4, 4, 4] (r.elf.writeSectionHeader (r.mem.sec 2))
        = [18, 2, 0, 0, 235, 24, 1, 0, 0, 24] :=
  ⟨exampleLocalOnly.1.written exampleLocalOnly.2, rfl, rfl, rfl, rfl, rfl, rfl, rfl, rfl⟩

end elf

namespace elf

/-! ### Round trip: `ReadELF` of the output of `Write`

The development has three parts.  The reader side shows, stage by stage, that
`ReadELF` returns the decoded records of a file laid out as `Elf.Layout`
describes (`ReadELF_of_layout`).  The writer side shows that the bytes `Write`
produces for an image within `Elf.Portable` are laid out so (`Write_layout`).
The round-trip statements follow from `Write_read`. -/

theorem leValue_leBytes : ∀ (w v : Nat), leValue (leBytes w v) = v % 256 ^ w
  | 0, v => by simp [leBytes, leValue, Nat.mod_one]
  | w + 1, v => by
    rw [leBytes, leValue, leValue_leBytes w, pow_succ, mul_comm (256 ^ w) 256, Nat.mod_mul]

theorem getUint_putUint (be : Bool) (w v : Nat) : getUint be (putUint be w v) = v % 256 ^ w := by
  cases be <;> simp [getUint, putUint, leValue_leBytes]

theorem getFields_putFields (be : Bool) : ∀ (fs : List (Nat × Nat)) (rest : List Nat),
    getFields be (fs.map Prod.fst) (putFields be fs ++ rest)
      = fs.map (fun f => f.2 % 256 ^ f.1)
  | [], _ => rfl
  | (w, v) :: fs, rest => by
    have hl := putUint_length be w v
    simp only [List.map_cons, getFields, putFields, List.append_assoc]
    rw [List.take_left' hl, List.drop_left' hl, getUint_putUint, getFields_putFields be fs rest]

theorem holds_iff {b : List Nat} {off : Nat} {x : List Nat} :
    Holds b off x ↔ (b.drop off).take x.length = x := by
  unfold Holds
  rw [List.prefix_iff_eq_take]
  exact eq_comm

theorem Holds.length_or {b : List Nat} {off : Nat} {x : List Nat} (h : Holds b off x) :
    off + x.length ≤ b.length ∨ x = [] := by
  have := List.IsPrefix.length_le h
  rw [List.length_drop] at this
  by_cases hx : x = []
  · exact Or.inr hx
  · left
    have : 0 < x.length := List.length_pos.2 hx
    omega

theorem Holds.bound {b : List Nat} {off : Nat} {x : List Nat} (h : Holds b off x)
    (hx : 0 < x.length) : off + x.length ≤ b.length := by
  rcases h.length_or with h | h
  · exact h
  · rw [h] at hx; simp at hx

theorem holds_nil (b : List Nat) (off : Nat) : Holds b off [] := List.nil_prefix

theorem Holds.append_right {a : List Nat} {off : Nat} {x : List Nat} (h : Holds a off x)
    (c : List Nat) : Holds (a ++ c) off x := by
  unfold Holds at *
  by_cases ho : off ≤ a.length
  · rw [List.drop_append_of_le_length ho]
    exact h.trans (List.prefix_append _ _)
  · rw [List.drop_eq_nil_of_le (by omega)] at h
    rw [List.prefix_nil] at h
    rw [h]; exact List.nil_prefix

theorem Holds.append_left {b : List Nat} {off : Nat} {x : List Nat} (h : Holds b off x)
    (a : List Nat) : Holds (a ++ b) (a.length + off) x := by
  unfold Holds at *
  rw [List.drop_append]
  exact h

theorem holds_self (a x c : List Nat) : Holds (a ++ x ++ c) a.length x := by
  unfold Holds
  rw [List.append_assoc, List.drop_left]
  exact List.prefix_append _ _

theorem Holds.left {b : List Nat} {off : Nat} {x y : List Nat} (h : Holds b off (x ++ y)) :
    Holds b off x := (List.prefix_append x y).trans h

theorem Holds.right {b : List Nat} {off : Nat} {x y : List Nat} (h : Holds b off (x ++ y)) :
    Holds b (off + x.length) y := by
  unfold Holds at *
  obtain ⟨t, ht⟩ := h
  rw [← List.drop_drop, ← ht, List.append_assoc, List.drop_left]
  exact List.prefix_append _ _

theorem Holds.trans {b d : List Nat} {off o : Nat} {x : List Nat} (h1 : Holds b off d)
    (h2 : Holds d o x) : Holds b (off + o) x := by
  unfold Holds at *
  obtain ⟨t, ht⟩ := h1
  obtain ⟨u, hu⟩ := h2
  rw [← List.drop_drop, ← ht]
  by_cases ho : o ≤ d.length
  · rw [List.drop_append_of_le_length ho, ← hu, List.append_assoc]
    exact List.prefix_append _ _
  · rw [List.drop_eq_nil_of_le (by omega)] at hu
    have : x = [] := by
      cases x with
      | nil => rfl
      | cons a x => simp at hu
    rw [this]; exact List.nil_prefix

theorem holds_flatMap {α : Type} (f : α → List Nat) (l1 : List α) (y : α) (l2 : List α) :
    Holds ((l1 ++ y :: l2).flatMap f) (l1.flatMap f).length (f y) := by
  rw [List.flatMap_append, List.flatMap_cons, ← List.append_assoc]
  exact holds_self _ _ _

theorem cstr_of_not_mem {s : List Nat} (h : 0 ∉ s) : cstr s = s := by
  unfold cstr
  rw [List.takeWhile_eq_self_iff]
  intro b hb
  simp only [bne_iff_ne, ne_eq]
  rintro rfl
  exact h hb

theorem wrapS_of_lt {x : Nat} (h : x < 2 ^ 63) : wrapS 64 x = (x : Int) := by
  unfold wrapS
  have h1 : x % 2 ^ 64 = x := Nat.mod_eq_of_lt (by omega)
  rw [h1, if_pos (by simpa using h)]

theorem readFull_of_holds {s : Stream} {x : List Nat} {n : Nat} (h : Holds s.data s.pos x)
    (hn : x.length = n) (hpos : 0 < n) :
    s.readFull n = .ok (x, { s with pos := s.pos + n }) := by
  have hb := h.bound (by omega)
  unfold Stream.readFull
  rw [if_pos (by omega), ← hn, holds_iff.1 h]

theorem read_of_holds {s : Stream} {x : List Nat} {n : Nat} (h : Holds s.data s.pos x)
    (hn : x.length = n) (hpos : 0 < n) :
    s.read n = .ok (x, { s with pos := s.pos + n }) := by
  have hb := h.bound (by omega)
  unfold Stream.read
  rw [if_neg (by omega)]
  simp only
  rw [← hn, holds_iff.1 h]
  simp

theorem scanString_append (rest : List Nat) : ∀ (str : List Nat),
    scanString (str ++ 0 :: rest) = some (cstr str, (cstr str).length + 1)
  | [] => by simp [scanString, cstr]
  | b :: str => by
    rw [List.cons_append, scanString]
    by_cases hb : b = 0
    · subst hb
      simp [cstr]
    · rw [if_neg hb, scanString_append rest str]
      simp [cstr, List.takeWhile_cons, hb]

theorem readString_of_holds {s : Stream} {str : List Nat} (h : Holds s.data s.pos (str ++ [0])) :
    readString s = .ok (cstr str, { s with pos := s.pos + ((cstr str).length + 1) }) := by
  obtain ⟨t, ht⟩ := h
  unfold readString
  rw [← ht, List.append_assoc, List.singleton_append, scanString_append]

theorem seek_natCast (s : Stream) (n : Nat) : s.seek (n : Int) = .ok { s with pos := n } := by
  unfold Stream.seek
  rw [if_neg (by omega)]
  simp

theorem seekIgnore_natCast (s : Stream) (n : Nat) : s.seekIgnore (n : Int) = { s with pos := n } := by
  unfold Stream.seekIgnore
  rw [if_neg (by omega)]
  simp

theorem readPayload_of_holds {s : Stream} {x : List Nat} {offset size : Nat}
    (h : Holds s.data offset x) (hn : x.length = size) (hpos : 0 < size)
    (ho : offset < 2 ^ 63) :
    readPayload s offset size = .ok (x, s) := by
  unfold readPayload
  simp only
  rw [wrapS_of_lt ho, seek_natCast]
  simp only
  rw [read_of_holds (s := { s with pos := offset }) h hn hpos]
  simp only
  rw [seek_natCast]

theorem getFields_putFields_nil (be : Bool) (fs : List (Nat × Nat)) (ws : List Nat)
    (hws : ws = fs.map Prod.fst) :
    getFields be ws (putFields be fs) = fs.map (fun f => f.2 % 256 ^ f.1) := by
  have := getFields_putFields be fs []
  rw [List.append_nil] at this
  rw [hws, this]

theorem writeSectionHeader_length (e : Elf) (h : SectionHeader) :
    (e.writeSectionHeader h).length = e.sizeSectionHeader := by
  unfold Elf.writeSectionHeader Elf.sizeSectionHeader
  split_ifs <;> simp [putFields_length]

theorem sizeSectionHeader_pos (e : Elf) : 0 < e.sizeSectionHeader := by
  unfold Elf.sizeSectionHeader; split_ifs <;> omega

theorem getFields_step (be : Bool) (w v : Nat) (ws rest : List Nat) :
    getFields be (w :: ws) (putUint be w v ++ rest) = v % 256 ^ w :: getFields be ws rest := by
  have hl := putUint_length be w v
  rw [getFields, List.take_left' hl, List.drop_left' hl, getUint_putUint]

theorem pow256_1 : (256 : Nat) ^ 1 = 2 ^ 8 := by norm_num

theorem pow256_2 : (256 : Nat) ^ 2 = 2 ^ 16 := by norm_num

theorem pow256_4 : (256 : Nat) ^ 4 = 2 ^ 32 := by norm_num

theorem pow256_8 : (256 : Nat) ^ 8 = 2 ^ 64 := by norm_num

theorem getFields_nil (be : Bool) (bs : List Nat) : getFields be [] bs = [] := rfl

theorem readSectionHeader_of_holds (e : Elf) (s : Stream) (h : SectionHeader) (data : List Nat)
    (hrec : Holds s.data s.pos (e.writeSectionHeader h))
    (hdata : 0 < (e.decodeSectionHeader h).Size → HasDataInFile (e.decodeSectionHeader h).Type_ →
      Holds s.data (e.decodeSectionHeader h).offset data ∧
      data.length = (e.decodeSectionHeader h).Size ∧ (e.decodeSectionHeader h).offset < 2 ^ 63) :
    e.readSectionHeader s
      = .ok ({ e.decodeSectionHeader h with
                Data := if 0 < (e.decodeSectionHeader h).Size
                          ∧ HasDataInFile (e.decodeSectionHeader h).Type_ then data else [] },
             { s with pos := s.pos + e.sizeSectionHeader }) := by
  unfold Elf.readSectionHeader
  simp only
  rw [readFull_of_holds hrec (writeSectionHeader_length e h) (sizeSectionHeader_pos e)]
  simp only
  unfold Elf.decodeSectionHeader Elf.addrBits at hdata ⊢
  unfold Elf.writeSectionHeader
  by_cases hc : e.Class = ELFCLASS64
  · simp only [if_pos hc, putFields, getFields_step, getFields_nil, pow256_4, pow256_8] at hdata ⊢
    by_cases hp : 0 < h.Size % 2 ^ 32 ∧ HasDataInFile (h.Type_ % 2 ^ 32)
    · obtain ⟨h1, h2, h3⟩ := hdata hp.1 hp.2
      rw [if_pos hp, if_pos hp]
      rw [readPayload_of_holds (s := { s with pos := s.pos + e.sizeSectionHeader }) h1 h2 hp.1 h3]
    · rw [if_neg hp, if_neg hp]
  · simp only [if_neg hc, putFields, getFields_step, getFields_nil, pow256_4, pow256_8] at hdata ⊢
    by_cases hp : 0 < h.Size % 2 ^ 32 ∧ HasDataInFile (h.Type_ % 2 ^ 32)
    · obtain ⟨h1, h2, h3⟩ := hdata hp.1 hp.2
      rw [if_pos hp, if_pos hp]
      rw [readPayload_of_holds (s := { s with pos := s.pos + e.sizeSectionHeader }) h1 h2 hp.1 h3]
    · rw [if_neg hp, if_neg hp]

theorem readSectionHeaders_of_holds (e : Elf) : ∀ (hs : List SectionHeader) (i : Nat) (acc : Elf)
    (m : Mem) (s : Stream),
    Holds s.data s.pos (hs.flatMap e.writeSectionHeader) →
    (∀ h ∈ hs, e.PayloadAt s.data h) →
    e.readSectionHeaders hs.length i acc m s
      = .ok ({ acc with
                Sections := acc.Sections ++ (List.range hs.length).map (m.secs.length + ·),
                symtabIdx := scanIdx SHT_SYMTAB hs i acc.symtabIdx,
                symtabShndxIdx := scanIdx SHT_SYMTAB_SHNDX hs i acc.symtabShndxIdx },
             { m with secs := m.secs ++ hs.map e.readBack },
             { s with pos := s.pos + hs.length * e.sizeSectionHeader })
  | [], i, acc, m, s, _, _ => by
    simp [Elf.readSectionHeaders, scanIdx]
  | h :: hs, i, acc, m, s, hrec, hpay => by
    rw [List.flatMap_cons] at hrec
    have h1 := hrec.left
    have h2 := hrec.right
    rw [writeSectionHeader_length] at h2
    rw [List.length_cons, Elf.readSectionHeaders,
      readSectionHeader_of_holds e s h h.Data h1 (hpay h (List.mem_cons_self _ _))]
    simp only
    refine (readSectionHeaders_of_holds e hs _ _ _
      { s with pos := s.pos + e.sizeSectionHeader } h2
      (fun h' hh' => hpay h' (List.mem_cons_of_mem _ hh'))).trans ?_
    have hrb : ({ e.decodeSectionHeader h with
        Data := if 0 < (e.decodeSectionHeader h).Size
                  ∧ HasDataInFile (e.decodeSectionHeader h).Type_ then h.Data else [] }
        : SectionHeader) = e.readBack h := rfl
    have hty : (e.decodeSectionHeader h).Type_ = h.Type_ % 2 ^ 32 := rfl
    have hr : (List.range (hs.length + 1)).map (m.secs.length + ·)
        = m.secs.length :: (List.range hs.length).map (m.secs.length + 1 + ·) := by
      rw [List.range_succ_eq_map, List.map_cons, List.map_map]
      simp only [Nat.add_zero, List.cons.injEq, true_and]
      apply List.map_congr_left
      intro a _
      simp only [Function.comp_apply]
      omega
    simp only [hrb, hty, scanIdx, List.map_cons, List.append_assoc, List.singleton_append,
      List.length_append, List.length_singleton, hr]
    have hpos : s.pos + e.sizeSectionHeader + hs.length * e.sizeSectionHeader
        = s.pos + (hs.length + 1) * e.sizeSectionHeader := by ring
    rw [hpos]
    by_cases c1 : h.Type_ % 2 ^ 32 = SHT_SYMTAB
    · have c2 : ¬ h.Type_ % 2 ^ 32 = SHT_SYMTAB_SHNDX := by rw [c1]; decide
      simp only [if_pos c1, if_neg c2, List.append_assoc, List.singleton_append]
      rfl
    · by_cases c2 : h.Type_ % 2 ^ 32 = SHT_SYMTAB_SHNDX
      · simp only [if_neg c1, if_pos c2, List.append_assoc, List.singleton_append]
        rfl
      · simp only [if_neg c1, if_neg c2, List.append_assoc, List.singleton_append]
        rfl

theorem Mem.raw_setSec (m : Mem) (q : Nat) (f : SectionHeader → SectionHeader)
    (hf : ∀ y, (f y).raw = y.raw) (p : Nat) :
    ((m.setSec q f).sec p).raw = (m.sec p).raw := by
  rw [Mem.sec_setSec]
  split_ifs with h
  · rw [hf, h.1]
  · rfl

theorem raw_fields {a b : SectionHeader} (h : a.raw = b.raw) :
    a.nameOffset = b.nameOffset ∧ a.Type_ = b.Type_ ∧ a.Flags = b.Flags ∧
    a.Address = b.Address ∧ a.offset = b.offset ∧ a.Size = b.Size ∧ a.Link = b.Link ∧
    a.Info = b.Info ∧ a.AddrAlign = b.AddrAlign ∧ a.EntrySize = b.EntrySize ∧ a.Data = b.Data := by
  cases a; cases b
  simp only [SectionHeader.raw, SectionHeader.mk.injEq] at h
  simp only
  tauto

theorem resolveLinks_ok (e : Elf) (N : Nat) (hS : ∀ k, k < N → ∃ q, e.Sections[k]? = some q) :
    ∀ (todo : List Nat) (m : Mem),
    (∀ p ∈ todo, ((m.sec p).Link < SHN_LORESERVE → (m.sec p).Link < N) ∧
      ((m.sec p).Info < SHN_LORESERVE → HasSectionInInfo (m.sec p).Type_ → (m.sec p).Info < N)) →
    ∃ m', e.resolveLinks todo m = .ok m' ∧ m'.secs.length = m.secs.length ∧ m'.syms = m.syms ∧
      ∀ p, (m'.sec p).raw = (m.sec p).raw
  | [], m, _ => ⟨m, rfl, rfl, rfl, fun _ => rfl⟩
  | p :: todo, m, hc => by
    obtain ⟨hl, hi⟩ := hc p (List.mem_cons_self _ _)
    have key : ∀ m2 : Mem, m2.secs.length = m.secs.length → m2.syms = m.syms →
        (∀ x, (m2.sec x).raw = (m.sec x).raw) →
        ∃ m', e.resolveLinks todo m2 = .ok m' ∧ m'.secs.length = m.secs.length ∧
          m'.syms = m.syms ∧ ∀ x, (m'.sec x).raw = (m.sec x).raw := by
      intro m2 l2 y2 u2
      have hc2 : ∀ x ∈ todo, ((m2.sec x).Link < SHN_LORESERVE → (m2.sec x).Link < N) ∧
          ((m2.sec x).Info < SHN_LORESERVE → HasSectionInInfo (m2.sec x).Type_ →
            (m2.sec x).Info < N) := by
        intro x hx
        obtain ⟨-, a3, -, -, -, -, a1, a2, -, -, -⟩ := raw_fields (u2 x)
        rw [a1, a2, a3]
        exact hc x (List.mem_cons_of_mem _ hx)
      obtain ⟨m3, e3, l3, y3, u3⟩ := resolveLinks_ok e N hS todo m2 hc2
      exact ⟨m3, e3, l3.trans l2, y3.trans y2, fun x => (u3 x).trans (u2 x)⟩
    have u1 : ∀ (q x : Nat),
        ((m.setSec p fun h => { h with LinkSection := some q }).sec x).raw
          = (m.sec x).raw :=
      fun q x => Mem.raw_setSec m p (fun h => { h with LinkSection := some q })
        (fun _ => rfl) x
    have u2 : ∀ (m1 : Mem) (q x : Nat),
        ((m1.setSec p fun h => { h with InfoSection := some q }).sec x).raw
          = (m1.sec x).raw :=
      fun m1 q x => Mem.raw_setSec m1 p (fun h => { h with InfoSection := some q })
        (fun _ => rfl) x
    rw [Elf.resolveLinks]
    simp only
    by_cases c1 : (m.sec p).Link < SHN_LORESERVE
    · obtain ⟨q1, hq1⟩ := hS _ (hl c1)
      rw [if_pos c1, hq1]
      simp only
      by_cases c2 : (m.sec p).Info < SHN_LORESERVE ∧ HasSectionInInfo (m.sec p).Type_
      · obtain ⟨q2, hq2⟩ := hS _ (hi c2.1 c2.2)
        rw [if_pos c2, hq2]
        simp only
        refine key _ ?_ rfl (fun x => ?_)
        · rw [Mem.secs_length_setSec, Mem.secs_length_setSec]
        · rw [u2, u1]
      · rw [if_neg c2]
        simp only
        exact key _ (Mem.secs_length_setSec _ _ _) rfl (u1 q1)
    · rw [if_neg c1]
      simp only
      by_cases c2 : (m.sec p).Info < SHN_LORESERVE ∧ HasSectionInInfo (m.sec p).Type_
      · obtain ⟨q2, hq2⟩ := hS _ (hi c2.1 c2.2)
        rw [if_pos c2, hq2]
        simp only
        exact key _ (Mem.secs_length_setSec _ _ _) rfl (u2 m q2)
      · rw [if_neg c2]
        simp only
        exact key m rfl rfl (fun _ => rfl)

theorem readStringAt_of_holds (e : Elf) (m : Mem) (s : Stream) (idx offset p : Nat)
    (str : List Nat) (hidx : e.Sections[idx]? = some p)
    (h : Holds s.data ((m.sec p).offset + offset) (str ++ [0]))
    (hlt : (m.sec p).offset + offset < 2 ^ 63) :
    ∃ s', e.readStringAt m s idx offset = .ok (cstr str, s') ∧ s'.data = s.data := by
  unfold Elf.readStringAt
  rw [hidx]
  simp only
  rw [Nat.mod_eq_of_lt (by omega), wrapS_of_lt hlt, seek_natCast]
  simp only
  rw [readString_of_holds (s := { s with pos := (m.sec p).offset + offset }) h]
  exact ⟨_, rfl, rfl⟩

theorem readSectionNames_ok (e : Elf) (t : Nat) (nm : Nat → List Nat)
    (hidx : e.Sections[e.secHdrStrIdx]? = some t) :
    ∀ (todo : List Nat) (m : Mem) (s : Stream),
    (∀ p ∈ todo, Holds s.data ((m.sec t).offset + (m.sec p).nameOffset) (nm p ++ [0]) ∧
      (m.sec t).offset + (m.sec p).nameOffset < 2 ^ 63) →
    ∃ m' s', e.readSectionNames todo m s = .ok (m', s') ∧ s'.data = s.data ∧
      m'.secs.length = m.secs.length ∧ m'.syms = m.syms ∧
      (∀ x, (m'.sec x).raw = (m.sec x).raw) ∧
      (∀ x, x ∉ todo → (m'.sec x).Name = (m.sec x).Name) ∧
      (∀ x ∈ todo, x < m.secs.length → (m'.sec x).Name = cstr (nm x))
  | [], m, s, _ => ⟨m, s, rfl, rfl, rfl, rfl, fun _ => rfl, fun _ _ => rfl, fun _ hx => by simp at hx⟩
  | p :: todo, m, s, hc => by
    obtain ⟨hp1, hp2⟩ := hc p (List.mem_cons_self _ _)
    obtain ⟨s1, hs1, hd1⟩ := readStringAt_of_holds e m s e.secHdrStrIdx (m.sec p).nameOffset t
      (nm p) hidx hp1 hp2
    have hraw : ∀ x, ((m.setSec p fun h => { h with Name := cstr (nm p) }).sec x).raw
        = (m.sec x).raw :=
      fun x => Mem.raw_setSec m p (fun h => { h with Name := cstr (nm p) }) (fun _ => rfl) x
    have hc1 : ∀ x ∈ todo,
        Holds s1.data (((m.setSec p fun h => { h with Name := cstr (nm p) }).sec t).offset
          + ((m.setSec p fun h => { h with Name := cstr (nm p) }).sec x).nameOffset) (nm x ++ [0]) ∧
        ((m.setSec p fun h => { h with Name := cstr (nm p) }).sec t).offset
          + ((m.setSec p fun h => { h with Name := cstr (nm p) }).sec x).nameOffset < 2 ^ 63 := by
      intro x hx
      obtain ⟨a1, -, -, -, -, -, -, -, -, -, -⟩ := raw_fields (hraw x)
      obtain ⟨-, -, -, -, a2, -, -, -, -, -, -⟩ := raw_fields (hraw t)
      rw [a1, a2, hd1]
      exact hc x (List.mem_cons_of_mem _ hx)
    obtain ⟨m', s', e3, d3, l3, y3, u3, n3, c3⟩ := readSectionNames_ok e t nm hidx todo _ s1 hc1
    refine ⟨m', s', ?_, d3.trans hd1, l3.trans (Mem.secs_length_setSec _ _ _), y3,
      fun x => (u3 x).trans (hraw x), ?_, ?_⟩
    · rw [Elf.readSectionNames, hs1]
      exact e3
    · intro x hx
      rw [List.mem_cons, not_or] at hx
      rw [n3 x hx.2, Mem.sec_setSec_ne _ _ hx.1]
    · intro x hx hlen
      by_cases hxt : x ∈ todo
      · exact c3 x hxt (by rw [Mem.secs_length_setSec]; exact hlen)
      · have hxp : x = p := by
          rcases List.mem_cons.1 hx with h | h
          · exact h
          · exact absurd h hxt
        subst hxp
        rw [n3 x hxt, Mem.sec_setSec, if_pos ⟨rfl, hlen⟩]

theorem writeSymbol_length (e : Elf) (y : Symbol) : (e.writeSymbol y).length = e.sizeSymbol := by
  unfold Elf.writeSymbol Elf.sizeSymbol
  split_ifs <;> simp [putFields_length]

theorem sizeSymbol_pos (e : Elf) : 0 < e.sizeSymbol := by
  unfold Elf.sizeSymbol; split_ifs <;> omega

theorem readSymbol_of_holds (e : Elf) (m : Mem) (s : Stream) (parent : SectionHeader)
    (y : Symbol) (t : Nat)
    (hrec : Holds s.data s.pos (e.writeSymbol y))
    (hidx : e.Sections[parent.Link]? = some t)
    (hname : Holds s.data ((m.sec t).offset + (e.decodeSymbol y).nameOffset) (y.Name ++ [0]))
    (hlt : (m.sec t).offset + (e.decodeSymbol y).nameOffset < 2 ^ 63)
    (hx : (e.decodeSymbol y).SectionIndex ≠ SHN_XINDEX)
    (hsec : (e.decodeSymbol y).SectionIndex < SHN_LORESERVE → 0 < (e.decodeSymbol y).SectionIndex →
      ∃ q, e.Sections[(e.decodeSymbol y).SectionIndex]? = some q) :
    e.readSymbol m s parent
      = .ok (e.readBackSymbol y (cstr y.Name), { s with pos := s.pos + e.sizeSymbol }) := by
  obtain ⟨s1, hs1, hd1⟩ := readStringAt_of_holds e m { s with pos := s.pos + e.sizeSymbol }
    parent.Link (e.decodeSymbol y).nameOffset t y.Name hidx hname hlt
  unfold Elf.readSymbol
  simp only
  unfold Elf.readBackSymbol
  unfold Elf.decodeSymbol Elf.addrBits Symbol.info at *
  by_cases hc : e.Class = ELFCLASS64
  · have hsz : e.sizeSymbol = 24 := by unfold Elf.sizeSymbol; rw [if_pos hc]
    simp only [if_pos hc] at hs1 hx hsec ⊢
    rw [hsz] at hs1 ⊢
    rw [readFull_of_holds (x := e.writeSymbol y) hrec (by rw [writeSymbol_length, hsz])
      (by omega)]
    unfold Elf.writeSymbol
    simp only [if_pos hc, putFields, getFields_step, getFields_nil, pow256_1, pow256_2, pow256_4,
      pow256_8]
    rw [hs1]
    simp only
    rw [if_neg hx]
    by_cases hr : y.SectionIndex % 2 ^ 16 < SHN_LORESERVE ∧ y.SectionIndex % 2 ^ 16 > 0
    · obtain ⟨q, hq⟩ := hsec hr.1 hr.2
      rw [if_pos hr, if_pos hr, hq]
      simp only
      rw [seek_natCast, hd1]
    · rw [if_neg hr, if_neg hr]
      simp only
      rw [seek_natCast, hd1]
  · have hsz : e.sizeSymbol = 16 := by unfold Elf.sizeSymbol; rw [if_neg hc]
    simp only [if_neg hc] at hs1 hx hsec ⊢
    rw [hsz] at hs1 ⊢
    rw [readFull_of_holds (x := e.writeSymbol y) hrec (by rw [writeSymbol_length, hsz])
      (by omega)]
    unfold Elf.writeSymbol
    simp only [if_neg hc, putFields, getFields_step, getFields_nil, pow256_1, pow256_2, pow256_4,
      pow256_8]
    rw [hs1]
    simp only
    rw [if_neg hx]
    by_cases hr : y.SectionIndex % 2 ^ 16 < SHN_LORESERVE ∧ y.SectionIndex % 2 ^ 16 > 0
    · obtain ⟨q, hq⟩ := hsec hr.1 hr.2
      rw [if_pos hr, if_pos hr, hq]
      simp only
      rw [seek_natCast, hd1]
    · rw [if_neg hr, if_neg hr]
      simp only
      rw [seek_natCast, hd1]

theorem readSymbols_of_holds (e : Elf) (symtab : SectionHeader) (t : Nat)
    (hidx : e.Sections[symtab.Link]? = some t) :
    ∀ (ys : List Symbol) (acc : Elf) (m : Mem) (s : Stream),
    Holds s.data s.pos (ys.flatMap e.writeSymbol) →
    (∀ y ∈ ys, e.SymbolAt s.data (m.sec t).offset y) →
    e.readSymbols symtab ys.length acc m s
      = .ok ({ acc with Symbols := acc.Symbols ++ (List.range ys.length).map (m.syms.length + ·) },
             { m with syms := m.syms ++ ys.map fun y => e.readBackSymbol y (cstr y.Name) },
             { s with pos := s.pos + ys.length * e.sizeSymbol })
  | [], acc, m, s, _, _ => by
    simp [Elf.readSymbols]
  | y :: ys, acc, m, s, hrec, hsym => by
    rw [List.flatMap_cons] at hrec
    have h1 := hrec.left
    have h2 := hrec.right
    rw [writeSymbol_length] at h2
    obtain ⟨a1, a2, a3, a4⟩ := hsym y (List.mem_cons_self _ _)
    rw [List.length_cons, Elf.readSymbols, readSymbol_of_holds e m s symtab y t h1 hidx a1 a2 a3 a4]
    simp only
    refine (readSymbols_of_holds e symtab t hidx ys _
      { m with syms := m.syms ++ [e.readBackSymbol y (cstr y.Name)] }
      { s with pos := s.pos + e.sizeSymbol } h2
      (fun y' hy' => hsym y' (List.mem_cons_of_mem _ hy'))).trans ?_
    have hr : (List.range (ys.length + 1)).map (m.syms.length + ·)
        = m.syms.length :: (List.range ys.length).map (m.syms.length + 1 + ·) := by
      rw [List.range_succ_eq_map, List.map_cons, List.map_map]
      simp only [Nat.add_zero, List.cons.injEq, true_and]
      apply List.map_congr_left
      intro a _
      simp only [Function.comp_apply]
      omega
    have hpos : s.pos + e.sizeSymbol + ys.length * e.sizeSymbol
        = s.pos + (ys.length + 1) * e.sizeSymbol := by ring
    simp only [List.map_cons, List.append_assoc, List.singleton_append,
      List.length_append, List.length_singleton, hr, hpos]

theorem sizeRelocation_pos (e : Elf) (t : Nat) : 0 < e.sizeRelocation t := by
  unfold Elf.sizeRelocation; split_ifs <;> omega

theorem readRelocation_of_holds (e : Elf) (s : Stream) (sec t : Nat) (rel : Relocation)
    (ht : t = SHT_RELA ∨ t = SHT_REL)
    (hrec : Holds s.data s.pos (e.writeRelocation t rel))
    (hsym : ∃ q, e.Symbols[(e.decodeRelocation t sec rel).symbolIndex.toNat]? = some q) :
    e.readRelocation s sec t
      = .ok (e.readBackRelocation t sec rel, { s with pos := s.pos + e.sizeRelocation t }) := by
  obtain ⟨q, hq⟩ := hsym
  have hfull := readFull_of_holds hrec (writeRelocation_length e t rel) (sizeRelocation_pos e t)
  unfold Elf.readBackRelocation
  rw [hq]
  unfold Elf.readRelocation
  simp only
  unfold Elf.decodeRelocation Elf.relInfo at hq ⊢
  unfold Elf.sizeRelocation at hfull ⊢
  unfold Elf.writeRelocation at hfull
  by_cases hc : e.Class = ELFCLASS64
  · simp only [if_pos hc] at hq hfull ⊢
    rcases ht with ht | ht
    · subst ht
      simp only [if_true] at hq hfull ⊢
      rw [hfull]
      simp only [putFields, getFields_step, getFields_nil, pow256_8, hq]
    · subst ht
      have hne : ¬ SHT_REL = SHT_RELA := by decide
      simp only [if_neg hne, if_true] at hq hfull ⊢
      rw [hfull]
      simp only [putFields, getFields_step, getFields_nil, pow256_8, hq]
  · simp only [if_neg hc] at hq hfull ⊢
    rcases ht with ht | ht
    · subst ht
      simp only [if_true] at hq hfull ⊢
      rw [hfull]
      simp only [putFields, getFields_step, getFields_nil, pow256_4, hq]
    · subst ht
      have hne : ¬ SHT_REL = SHT_RELA := by decide
      simp only [if_neg hne, if_true] at hq hfull ⊢
      rw [hfull]
      simp only [putFields, getFields_step, getFields_nil, pow256_4, hq]

theorem readRelocations_of_holds (e : Elf) (sec t : Nat) (ht : t = SHT_RELA ∨ t = SHT_REL) :
    ∀ (L : List Relocation) (rels : List (Nat × List Relocation)) (s : Stream),
    Holds s.data s.pos (L.flatMap (e.writeRelocation t)) →
    (∀ rel ∈ L, ∃ q, e.Symbols[(e.decodeRelocation t sec rel).symbolIndex.toNat]? = some q) →
    e.readRelocations sec t L.length rels s
      = .ok (L.foldl (fun acc rel => appendRelocation acc sec (e.readBackRelocation t sec rel)) rels,
             { s with pos := s.pos + L.length * e.sizeRelocation t })
  | [], rels, s, _, _ => by simp [Elf.readRelocations]
  | rel :: L, rels, s, hrec, hsym => by
    rw [List.flatMap_cons] at hrec
    have h1 := hrec.left
    have h2 := hrec.right
    rw [writeRelocation_length] at h2
    rw [List.length_cons, Elf.readRelocations,
      readRelocation_of_holds e s sec t rel ht h1 (hsym rel (List.mem_cons_self _ _))]
    simp only
    refine (readRelocations_of_holds e sec t ht L _
      { s with pos := s.pos + e.sizeRelocation t } h2
      (fun r hr => hsym r (List.mem_cons_of_mem _ hr))).trans ?_
    have hpos : s.pos + e.sizeRelocation t + L.length * e.sizeRelocation t
        = s.pos + (L.length + 1) * e.sizeRelocation t := by ring
    simp only [List.foldl_cons, hpos]

theorem readRelocationSections_of_holds (e : Elf) (m : Mem) (L : Nat → List Relocation) :
    ∀ (todo : List Nat) (rels : List (Nat × List Relocation)) (s : Stream),
    (∀ p ∈ todo, (m.sec p).Type_ = SHT_REL ∨ (m.sec p).Type_ = SHT_RELA →
      e.RelSectionAt s.data (m.sec p) (L p)) →
    ∃ s', e.readRelocationSections m todo rels s = .ok (e.relocationsRead m L todo rels, s') ∧
      s'.data = s.data
  | [], rels, s, _ => ⟨s, rfl, rfl⟩
  | p :: todo, rels, s, hc => by
    rw [Elf.readRelocationSections, Elf.relocationsRead]
    simp only
    by_cases ht : (m.sec p).Type_ = SHT_REL ∨ (m.sec p).Type_ = SHT_RELA
    · obtain ⟨⟨sec, hsec⟩, hes, hcount, hoff, hrec, hsym⟩ := hc p (List.mem_cons_self _ _) ht
      have hget : e.Sections.getD (m.sec p).Info 0 = sec := by
        rw [List.getD_eq_getElem?_getD, hsec]; rfl
      rw [if_pos ht, if_pos ht, hsec]
      simp only
      rw [if_neg hes, hcount, wrapS_of_lt hoff, seekIgnore_natCast, hget]
      rw [readRelocations_of_holds e sec (m.sec p).Type_ ht.symm (L p) rels
        { s with pos := (m.sec p).offset } hrec (fun rel hr => hsym rel hr sec)]
      simp only
      obtain ⟨s', h1, h2⟩ := readRelocationSections_of_holds e m L todo
        ((L p).foldl (fun acc rel => appendRelocation acc sec
          (e.readBackRelocation (m.sec p).Type_ sec rel)) rels)
        { s with pos := (m.sec p).offset + (L p).length * e.sizeRelocation (m.sec p).Type_ }
        (fun q hq => hc q (List.mem_cons_of_mem _ hq))
      exact ⟨s', h1, h2⟩
    · rw [if_neg ht, if_neg ht]
      exact readRelocationSections_of_holds e m L todo rels s
        (fun q hq => hc q (List.mem_cons_of_mem _ hq))

theorem readElfHeader_of_holds (e0 E : Elf) (b : List Nat)
    (hrec : Holds b 0 E.writeElfHeader)
    (hclass : E.Class = ELFCLASS32 ∨ E.Class = ELFCLASS64) (hend : E.Endian < 256)
    (hstr : E.secHdrStrIdx % 2 ^ 16 ≠ SHN_XINDEX) :
    ∃ e1, e0.readElfHeader ⟨b, 0⟩ = .ok (e1, ⟨b, E.sizeElfHeader⟩) ∧
      e1.Class = E.Class ∧ e1.Endian = E.Endian ∧
      e1.progHdrOffset = E.progHdrOffset % 2 ^ E.addrBits ∧
      e1.progHdrCount = E.progHdrCount % 2 ^ 16 ∧
      e1.secHdrOffset = E.secHdrOffset % 2 ^ E.addrBits ∧
      e1.secHdrCount = E.secHdrCount % 2 ^ 16 ∧
      e1.secHdrStrIdx = E.secHdrStrIdx % 2 ^ 16 ∧
      e1.ProgramHeaders = e0.ProgramHeaders ∧ e1.Sections = e0.Sections ∧
      e1.Symbols = e0.Symbols ∧ e1.Relocations = e0.Relocations ∧
      e1.symtabIdx = e0.symtabIdx ∧ e1.symtabShndxIdx = e0.symtabShndxIdx := by
  have hE : E.Endian % 256 = E.Endian := Nat.mod_eq_of_lt hend
  unfold Elf.writeElfHeader at hrec
  unfold Elf.readElfHeader Elf.sizeElfHeader Elf.addrBits
  rcases hclass with hc | hc
  · have hne : ¬ E.Class = ELFCLASS64 := by rw [hc]; decide
    simp only [if_neg hne, if_pos hc] at hrec ⊢
    have h16 := read_of_holds (s := ⟨b, 0⟩) (n := 16) hrec.left rfl (by omega)
    have h36 := readFull_of_holds (s := ⟨b, 0 + 16⟩) (n := 36) hrec.right
      (by rw [putFields_length]; rfl) (by omega)
    rw [h16]
    simp only [List.getD_cons_zero, List.getD_cons_succ, ne_eq, not_true_eq_false, or_self,
      if_false, hc, hE]
    simp only [show ¬ (ELFCLASS32 % 256 = ELFCLASS64) by decide,
      show ¬ (ELFCLASS32 = ELFCLASS64) by decide,
      show ELFCLASS32 % 256 = ELFCLASS32 by decide, if_false, if_true, h36]
    simp only [Elf.bigEndian, putFields, getFields_step, getFields_nil, pow256_2, pow256_4,
      if_neg hstr]
    exact ⟨_, rfl, rfl, rfl, rfl, rfl, rfl, rfl, rfl, rfl, rfl, rfl, rfl, rfl, rfl⟩
  · have hne : ¬ ELFCLASS64 = ELFCLASS32 := by decide
    simp only [if_pos hc] at hrec ⊢
    have h16 := read_of_holds (s := ⟨b, 0⟩) (n := 16) hrec.left rfl (by omega)
    have h48 := readFull_of_holds (s := ⟨b, 0 + 16⟩) (n := 48) hrec.right
      (by rw [putFields_length]; rfl) (by omega)
    rw [h16]
    simp only [List.getD_cons_zero, List.getD_cons_succ, ne_eq, not_true_eq_false, or_self,
      if_false, hc, hE]
    simp only [show ELFCLASS64 % 256 = ELFCLASS64 by decide, if_true, h48]
    simp only [Elf.bigEndian, putFields, getFields_step, getFields_nil, pow256_2, pow256_4,
      pow256_8, if_neg hstr]
    exact ⟨_, rfl, rfl, rfl, rfl, rfl, rfl, rfl, rfl, rfl, rfl, rfl, rfl, rfl, rfl⟩

theorem read_ok (s : Stream) (n : Nat) (h : s.pos < s.data.length) :
    ∃ data s', s.read n = .ok (data, s') ∧ s'.data = s.data := by
  unfold Stream.read
  rw [if_neg (by omega)]
  exact ⟨_, _, rfl, rfl⟩

theorem readPayload_ok (s : Stream) (offset size : Nat) (ho : offset < 2 ^ 63)
    (hin : offset < s.data.length) :
    ∃ data, readPayload s offset size = .ok (data, s) := by
  unfold readPayload
  simp only
  rw [wrapS_of_lt ho, seek_natCast]
  simp only
  obtain ⟨data, s', h1, h2⟩ := read_ok { s with pos := offset } size hin
  rw [h1]
  simp only
  rw [seek_natCast]
  refine ⟨data, ?_⟩
  cases s' with
  | mk d p =>
    simp only at h2
    subst h2
    rfl

theorem writeProgramHeader_length (e : Elf) (ph : ProgramHeader) :
    (e.writeProgramHeader ph).length = e.sizeProgramHeader := by
  unfold Elf.writeProgramHeader Elf.sizeProgramHeader
  split_ifs <;> simp [putFields_length]

theorem sizeProgramHeader_pos (e : Elf) : 0 < e.sizeProgramHeader := by
  unfold Elf.sizeProgramHeader; split_ifs <;> omega

theorem readProgramHeader_ok (e : Elf) (s : Stream) (ph : ProgramHeader)
    (hrec : Holds s.data s.pos (e.writeProgramHeader ph))
    (hin : SpanInside s.data.length (e.decodeProgramSpan ph)) :
    ∃ ph', e.readProgramHeader s = .ok (ph', { s with pos := s.pos + e.sizeProgramHeader }) ∧
      (ph'.offset, ph'.fileSize) = e.decodeProgramSpan ph := by
  have hfull := readFull_of_holds hrec (writeProgramHeader_length e ph) (sizeProgramHeader_pos e)
  unfold Elf.readProgramHeader
  simp only
  unfold SpanInside Elf.decodeProgramSpan Elf.addrBits at *
  unfold Elf.sizeProgramHeader at hfull ⊢
  unfold Elf.writeProgramHeader at hfull
  by_cases hc : e.Class = ELFCLASS64
  · simp only [if_pos hc] at hin hfull ⊢
    rw [hfull]
    simp only [putFields, getFields_step, getFields_nil, pow256_4, pow256_8]
    by_cases hp : 0 < ph.fileSize % 2 ^ 64
    · obtain ⟨h1, h2⟩ := hin hp
      obtain ⟨data, hd⟩ := readPayload_ok { s with pos := s.pos + 56 } (ph.offset % 2 ^ 64)
        (ph.fileSize % 2 ^ 64) h1 h2
      rw [if_pos hp, hd]
      exact ⟨_, rfl, rfl⟩
    · rw [if_neg hp]
      exact ⟨_, rfl, rfl⟩
  · simp only [if_neg hc] at hin hfull ⊢
    rw [hfull]
    simp only [putFields, getFields_step, getFields_nil, pow256_4, pow256_8]
    by_cases hp : 0 < ph.fileSize % 2 ^ 32
    · obtain ⟨h1, h2⟩ := hin hp
      obtain ⟨data, hd⟩ := readPayload_ok { s with pos := s.pos + 32 } (ph.offset % 2 ^ 32)
        (ph.fileSize % 2 ^ 32) h1 h2
      rw [if_pos hp, hd]
      exact ⟨_, rfl, rfl⟩
    · rw [if_neg hp]
      exact ⟨_, rfl, rfl⟩

theorem readProgramHeaders_ok (e : Elf) : ∀ (phs : List ProgramHeader) (s : Stream),
    Holds s.data s.pos (phs.flatMap e.writeProgramHeader) →
    (∀ ph ∈ phs, SpanInside s.data.length (e.decodeProgramSpan ph)) →
    ∃ phs' s', e.readProgramHeaders phs.length s = .ok (phs', s') ∧ s'.data = s.data ∧
      ∀ ph' ∈ phs', SpanInside s.data.length (ph'.offset, ph'.fileSize)
  | [], s, _, _ => ⟨[], s, rfl, rfl, fun _ h => by simp at h⟩
  | ph :: phs, s, hrec, hin => by
    rw [List.flatMap_cons] at hrec
    have h1 := hrec.left
    have h2 := hrec.right
    rw [writeProgramHeader_length] at h2
    obtain ⟨ph', e1, sp1⟩ := readProgramHeader_ok e s ph h1 (hin ph (List.mem_cons_self _ _))
    obtain ⟨phs', s', e2, d2, sp2⟩ := readProgramHeaders_ok e phs
      { s with pos := s.pos + e.sizeProgramHeader } h2
      (fun p hp => hin p (List.mem_cons_of_mem _ hp))
    refine ⟨ph' :: phs', s', ?_, d2, ?_⟩
    · rw [List.length_cons, Elf.readProgramHeaders, e1]
      simp only
      rw [e2]
    · intro p hp
      rcases List.mem_cons.1 hp with h | h
      · rw [h, sp1]
        exact hin ph (List.mem_cons_self _ _)
      · exact sp2 p h

theorem readProgramData_ok : ∀ (phs : List ProgramHeader) (s : Stream),
    (∀ ph ∈ phs, SpanInside s.data.length (ph.offset, ph.fileSize)) →
    ∃ phs' s', readProgramData phs s = .ok (phs', s') ∧ s'.data = s.data
  | [], s, _ => ⟨[], s, rfl, rfl⟩
  | ph :: phs, s, hin => by
    rw [readProgramData]
    by_cases hp : 0 < ph.fileSize
    · obtain ⟨h1, h2⟩ := hin ph (List.mem_cons_self _ _) hp
      rw [if_pos hp, wrapS_of_lt h1, seekIgnore_natCast]
      obtain ⟨data, s1, e1, d1⟩ := read_ok { s with pos := ph.offset } ph.fileSize h2
      rw [e1]
      simp only
      obtain ⟨phs', s', e2, d2⟩ := readProgramData_ok phs s1
        (fun p hp => by rw [d1]; exact hin p (List.mem_cons_of_mem _ hp))
      rw [e2]
      exact ⟨_, _, rfl, d2.trans d1⟩
    · rw [if_neg hp]
      obtain ⟨phs', s', e2, d2⟩ := readProgramData_ok phs s
        (fun p hp => hin p (List.mem_cons_of_mem _ hp))
      rw [e2]
      exact ⟨_, _, rfl, d2⟩

theorem bigEndian_congr {e e2 : Elf} (he : e2.Endian = e.Endian) : e2.bigEndian = e.bigEndian := by
  unfold Elf.bigEndian; rw [he]

theorem addrBits_congr {e e2 : Elf} (hc : e2.Class = e.Class) : e2.addrBits = e.addrBits := by
  unfold Elf.addrBits; rw [hc]

theorem writeProgramHeader_congr {e e2 : Elf} (hc : e2.Class = e.Class) (he : e2.Endian = e.Endian) :
    e2.writeProgramHeader = e.writeProgramHeader := by
  funext ph; unfold Elf.writeProgramHeader; rw [hc, bigEndian_congr he]

theorem writeSectionHeader_congr {e e2 : Elf} (hc : e2.Class = e.Class) (he : e2.Endian = e.Endian) :
    e2.writeSectionHeader = e.writeSectionHeader := by
  funext h; unfold Elf.writeSectionHeader; rw [hc, bigEndian_congr he]

theorem writeSymbol_congr {e e2 : Elf} (hc : e2.Class = e.Class) (he : e2.Endian = e.Endian) :
    e2.writeSymbol = e.writeSymbol := by
  funext y; unfold Elf.writeSymbol; rw [hc, bigEndian_congr he]

theorem writeRelocation_congr2 {e e2 : Elf} (hc : e2.Class = e.Class) (he : e2.Endian = e.Endian) :
    e2.writeRelocation = e.writeRelocation := by
  funext t rel; exact writeRelocation_congr hc he t rel

theorem sizeSectionHeader_congr {e e2 : Elf} (hc : e2.Class = e.Class) :
    e2.sizeSectionHeader = e.sizeSectionHeader := by
  unfold Elf.sizeSectionHeader; rw [hc]

theorem sizeSymbol_congr {e e2 : Elf} (hc : e2.Class = e.Class) : e2.sizeSymbol = e.sizeSymbol := by
  unfold Elf.sizeSymbol; rw [hc]

theorem decodeProgramSpan_congr {e e2 : Elf} (hc : e2.Class = e.Class) :
    e2.decodeProgramSpan = e.decodeProgramSpan := by
  funext ph; unfold Elf.decodeProgramSpan; rw [addrBits_congr hc]

theorem decodeSectionHeader_congr {e e2 : Elf} (hc : e2.Class = e.Class) :
    e2.decodeSectionHeader = e.decodeSectionHeader := by
  funext h; unfold Elf.decodeSectionHeader; rw [addrBits_congr hc]

theorem readBack_congr {e e2 : Elf} (hc : e2.Class = e.Class) : e2.readBack = e.readBack := by
  funext h; unfold Elf.readBack; rw [decodeSectionHeader_congr hc]

theorem PayloadAt_congr {e e2 : Elf} (hc : e2.Class = e.Class) (b : List Nat) (h : SectionHeader) :
    e2.PayloadAt b h ↔ e.PayloadAt b h := by
  unfold Elf.PayloadAt; rw [decodeSectionHeader_congr hc]

theorem decodeSymbol_congr {e e2 : Elf} (hc : e2.Class = e.Class) :
    e2.decodeSymbol = e.decodeSymbol := by
  funext y; unfold Elf.decodeSymbol; rw [addrBits_congr hc]

theorem readBackSymbol_congr {e e2 : Elf} (hc : e2.Class = e.Class)
    (hs : e2.Sections = e.Sections) : e2.readBackSymbol = e.readBackSymbol := by
  funext y name; unfold Elf.readBackSymbol; rw [decodeSymbol_congr hc, hs]

theorem relInfo_congr {e e2 : Elf} (hc : e2.Class = e.Class) : e2.relInfo = e.relInfo := by
  funext rel; unfold Elf.relInfo; rw [hc]

theorem decodeRelocation_congr {e e2 : Elf} (hc : e2.Class = e.Class) :
    e2.decodeRelocation = e.decodeRelocation := by
  funext t sec rel; unfold Elf.decodeRelocation; rw [hc, relInfo_congr hc]

theorem readBackRelocation_congr {e e2 : Elf} (hc : e2.Class = e.Class)
    (hs : e2.Symbols = e.Symbols) : e2.readBackRelocation = e.readBackRelocation := by
  funext t sec rel; unfold Elf.readBackRelocation; rw [decodeRelocation_congr hc, hs]

theorem relocationsRead_congr {e e2 : Elf} (hc : e2.Class = e.Class)
    (hs : e2.Sections = e.Sections) (hy : e2.Symbols = e.Symbols) (m : Mem)
    (L : Nat → List Relocation) :
    ∀ (todo : List Nat) (rels : List (Nat × List Relocation)),
      e2.relocationsRead m L todo rels = e.relocationsRead m L todo rels
  | [], _ => rfl
  | p :: todo, rels => by
    rw [Elf.relocationsRead, Elf.relocationsRead, readBackRelocation_congr hc hy, hs,
      relocationsRead_congr hc hs hy m L todo, relocationsRead_congr hc hs hy m L todo]

theorem range_map_zero_add (N : Nat) : (List.range N).map (0 + ·) = List.range N := by
  simp

theorem SymbolAt_congr {e e2 : Elf} (hc : e2.Class = e.Class) (hs : e2.Sections = e.Sections)
    (b : List Nat) (o : Nat) (y : Symbol) : e2.SymbolAt b o y ↔ e.SymbolAt b o y := by
  unfold Elf.SymbolAt; rw [decodeSymbol_congr hc, hs]

theorem RelSectionAt_congr {e e2 : Elf} (hc : e2.Class = e.Class) (he : e2.Endian = e.Endian)
    (hs : e2.Sections = e.Sections) (hy : e2.Symbols = e.Symbols) (b : List Nat)
    {h h2 : SectionHeader} (hr : h2.raw = h.raw) (L : List Relocation) :
    e2.RelSectionAt b h2 L ↔ e.RelSectionAt b h L := by
  obtain ⟨-, a3, -, -, a6, a7, -, a9, -, a11, -⟩ := raw_fields hr
  unfold Elf.RelSectionAt
  rw [decodeRelocation_congr hc, hs, hy, writeRelocation_congr2 hc he, a3, a6, a7, a9, a11]

theorem Mem.sec_mk_map (f : SectionHeader → SectionHeader) (hs : List SectionHeader)
    (ys : List Symbol) {j : Nat} {h : SectionHeader} (hj : hs[j]? = some h) :
    (Mem.mk (hs.map f) ys).sec j = f h := by
  unfold Mem.sec
  simp only [List.getD_eq_getElem?_getD, List.getElem?_map, hj, Option.map_some', Option.getD_some]

theorem getElem?_range_some {N k : Nat} (h : k < N) : (List.range N)[k]? = some k := by
  rw [List.getElem?_range h]

theorem readRelocationPart_of_holds (e : Elf) (m : Mem) (r : Stream) (L : Nat → List Relocation)
    (h : ∀ p ∈ e.Sections, (m.sec p).Type_ = SHT_REL ∨ (m.sec p).Type_ = SHT_RELA →
      e.RelSectionAt r.data (m.sec p) (L p)) :
    e.readRelocationPart m r
      = .ok ({ e with
                Relocations := e.relocationsRead m L e.Sections [],
                Sections := e.Sections.filter fun p =>
                  !((m.sec p).Type_ == SHT_REL || (m.sec p).Type_ == SHT_RELA
                    || (m.sec p).Type_ == SHT_SYMTAB || (m.sec p).Type_ == SHT_STRTAB
                    || (m.sec p).Type_ == SHT_SYMTAB_SHNDX) }, m) := by
  obtain ⟨s', h1, -⟩ := readRelocationSections_of_holds e m L e.Sections [] r h
  unfold Elf.readRelocationPart
  rw [h1]

theorem readSymbolPart_of_layout (E : Elf) (b : List Nat) (hs : List SectionHeader)
    (ys : List Symbol) (L : Nat → List Relocation) (lay : E.Layout b hs ys L)
    (e : Elf) (m : Mem) (r : Stream)
    (hc : e.Class = E.Class) (hn : e.Endian = E.Endian) (hsec : e.Sections = List.range hs.length)
    (hsym : e.Symbols = []) (hix : e.symtabIdx = scanIdx SHT_SYMTAB hs 0 0) (hr : r.data = b)
    (hm : m.syms = [])
    (hraw : ∀ j h, hs[j]? = some h → (m.sec j).raw = (E.readBack h).raw) :
    ∃ e' m', e.readSymbolPart m r = .ok (e', m') ∧ m'.secs = m.secs ∧
      m'.syms = ys.map (fun y => (E.reading hs.length ys.length).readBackSymbol y (cstr y.Name)) ∧
      e'.Class = E.Class ∧ e'.Endian = E.Endian ∧ e'.Symbols = List.range ys.length ∧
      e'.Sections = (List.range hs.length).filter (fun p =>
        !((m'.sec p).Type_ == SHT_REL || (m'.sec p).Type_ == SHT_RELA
          || (m'.sec p).Type_ == SHT_SYMTAB || (m'.sec p).Type_ == SHT_STRTAB
          || (m'.sec p).Type_ == SHT_SYMTAB_SHNDX)) ∧
      e'.Relocations
        = (E.reading hs.length ys.length).relocationsRead m' L (List.range hs.length) [] := by
  obtain ⟨ix, st, strh, h1, h2, h3, h4, h5, h6, h7, h8, h9⟩ := lay.symtab
  have hixlt : ix < hs.length := (List.getElem?_eq_some_iff.1 h3).1
  have hlklt : (E.readBack st).Link < hs.length := (List.getElem?_eq_some_iff.1 h8).1
  obtain ⟨-, a3, -, -, a6, a7, a8, -, -, a11, -⟩ := raw_fields (hraw ix st h3)
  obtain ⟨-, -, -, -, b6, -, -, -, -, -, -⟩ := raw_fields (hraw _ strh h8)
  have hrec : Holds ({ r with pos := (m.sec ix).offset } : Stream).data
      ({ r with pos := (m.sec ix).offset } : Stream).pos (ys.flatMap e.writeSymbol) := by
    rw [writeSymbol_congr hc hn, a6]
    show Holds r.data _ _
    rw [hr]; exact h7
  have hlk : e.Sections[(m.sec ix).Link]? = some (E.readBack st).Link := by
    rw [a8, hsec, getElem?_range_some hlklt]
  have hsyms : ∀ y ∈ ys, e.SymbolAt ({ r with pos := (m.sec ix).offset } : Stream).data
      (m.sec (E.readBack st).Link).offset y := by
    intro y hy
    rw [SymbolAt_congr (e := E.reading hs.length ys.length) hc hsec, b6]
    show Elf.SymbolAt _ r.data _ _
    rw [hr]; exact h9 y hy
  have hread := readSymbols_of_holds e (m.sec ix) _ hlk ys e m
    { r with pos := (m.sec ix).offset } hrec hsyms
  obtain ⟨e4, he4⟩ : ∃ e4 : Elf, e4 = { e with Symbols := List.range ys.length } := ⟨_, rfl⟩
  obtain ⟨m4, hm4⟩ : ∃ m4 : Mem, m4 = { m with syms := ys.map fun y =>
      (E.reading hs.length ys.length).readBackSymbol y (cstr y.Name) } := ⟨_, rfl⟩
  have hread4 : e.readSymbols (m.sec ix) ys.length e m { r with pos := (m.sec ix).offset }
      = .ok (e4, m4, { r with pos := (m.sec ix).offset + ys.length * e.sizeSymbol }) := by
    rw [hread, he4, hm4, hm, hsym, readBackSymbol_congr (e := E.reading hs.length ys.length) hc hsec]
    simp only [List.nil_append, List.length_nil, range_map_zero_add]
  have hsec4 : e4.Sections = List.range hs.length := by rw [he4]; exact hsec
  have hsym4 : e4.Symbols = List.range ys.length := by rw [he4]
  have hc4 : e4.Class = E.Class := by rw [he4]; exact hc
  have hn4 : e4.Endian = E.Endian := by rw [he4]; exact hn
  have hsec4m : ∀ p, m4.sec p = m.sec p := by intro p; rw [hm4]; rfl
  have hrel : ∀ p ∈ e4.Sections, (m4.sec p).Type_ = SHT_REL ∨ (m4.sec p).Type_ = SHT_RELA →
      e4.RelSectionAt ({ r with pos := (m.sec ix).offset + ys.length * e.sizeSymbol } : Stream).data
        (m4.sec p) (L p) := by
    intro p hp ht
    rw [hsec4, List.mem_range] at hp
    obtain ⟨h, hh⟩ : ∃ h, hs[p]? = some h := ⟨hs[p], List.getElem?_eq_getElem hp⟩
    have hrw := hraw p h hh
    rw [hsec4m] at ht ⊢
    obtain ⟨-, c3, -, -, -, -, -, -, -, -, -⟩ := raw_fields hrw
    rw [c3] at ht
    rw [RelSectionAt_congr (e := E.reading hs.length ys.length) hc4 hn4 hsec4 hsym4 _ hrw]
    show Elf.RelSectionAt _ r.data _ _
    rw [hr]
    exact lay.rels p h hh ht
  refine ⟨{ e4 with
      Relocations := e4.relocationsRead m4 L e4.Sections [],
      Sections := e4.Sections.filter fun p =>
        !((m4.sec p).Type_ == SHT_REL || (m4.sec p).Type_ == SHT_RELA
          || (m4.sec p).Type_ == SHT_SYMTAB || (m4.sec p).Type_ == SHT_STRTAB
          || (m4.sec p).Type_ == SHT_SYMTAB_SHNDX) }, m4, ?_, by rw [hm4], by rw [hm4],
      hc4, hn4, hsym4, ?_, ?_⟩
  · unfold Elf.readSymbolPart
    simp only
    rw [hix, h1, if_pos (by exact_mod_cast h2), Int.toNat_ofNat, hsec, getElem?_range_some hixlt]
    simp only
    rw [a11, if_neg h4, a7, h5, a6, wrapS_of_lt h6, seekIgnore_natCast, ← a6, hread4]
    simp only
    rw [readRelocationPart_of_holds e4 m4 _ L hrel]
  · simp only [hsec4]
  · simp only
    rw [hsec4]
    exact relocationsRead_congr (e := E.reading hs.length ys.length) hc4 hsec4 hsym4 m4 L _ _

theorem Mem.sec_congr {m m2 : Mem} (h : m2.secs = m.secs) (p : Nat) : m2.sec p = m.sec p := by
  unfold Mem.sec; rw [h]

theorem readLinkPart_of_layout (E : Elf) (b : List Nat) (hs : List SectionHeader)
    (ys : List Symbol) (L : Nat → List Relocation) (lay : E.Layout b hs ys L)
    (e : Elf) (m : Mem) (r : Stream)
    (hc : e.Class = E.Class) (hn : e.Endian = E.Endian) (hsec : e.Sections = List.range hs.length)
    (hsym : e.Symbols = []) (hix : e.symtabIdx = scanIdx SHT_SYMTAB hs 0 0)
    (hstr : e.secHdrStrIdx = E.secHdrStrIdx % 2 ^ 16) (hr : r.data = b)
    (hm : m.syms = []) (hlen : m.secs.length = hs.length)
    (hraw : ∀ j h, hs[j]? = some h → (m.sec j).raw = (E.readBack h).raw) :
    ∃ e' m', e.readLinkPart m r = .ok (e', m') ∧ m'.secs.length = hs.length ∧
      (∀ j h, hs[j]? = some h → (m'.sec j).raw = (E.readBack h).raw ∧
        (E.secHdrStrIdx % 2 ^ 16 ≠ SHN_UNDEF → (m'.sec j).Name = cstr h.Name)) ∧
      m'.syms = ys.map (fun y => (E.reading hs.length ys.length).readBackSymbol y (cstr y.Name)) ∧
      e'.Class = E.Class ∧ e'.Endian = E.Endian ∧ e'.Symbols = List.range ys.length ∧
      e'.Sections = (List.range hs.length).filter (fun p =>
        !((m'.sec p).Type_ == SHT_REL || (m'.sec p).Type_ == SHT_RELA
          || (m'.sec p).Type_ == SHT_SYMTAB || (m'.sec p).Type_ == SHT_STRTAB
          || (m'.sec p).Type_ == SHT_SYMTAB_SHNDX)) ∧
      e'.Relocations
        = (E.reading hs.length ys.length).relocationsRead m' L (List.range hs.length) [] := by
  have hget : ∀ p, p < hs.length → hs[p]? = some (hs.getD p default) := by
    intro p hp
    rw [List.getD_eq_getElem?_getD, List.getElem?_eq_getElem hp]; rfl
  have hmemhs : ∀ p, p < hs.length → hs.getD p default ∈ hs := fun p hp =>
    List.mem_iff_getElem?.2 ⟨p, hget p hp⟩
  -- the links
  have hS : ∀ k, k < hs.length → ∃ q, e.Sections[k]? = some q := fun k hk =>
    ⟨k, by rw [hsec, getElem?_range_some hk]⟩
  have hcond : ∀ p ∈ e.Sections,
      ((m.sec p).Link < SHN_LORESERVE → (m.sec p).Link < hs.length) ∧
      ((m.sec p).Info < SHN_LORESERVE → HasSectionInInfo (m.sec p).Type_ →
        (m.sec p).Info < hs.length) := by
    intro p hp
    rw [hsec, List.mem_range] at hp
    obtain ⟨-, a3, -, -, -, -, a8, a9, -, -, -⟩ := raw_fields (hraw p _ (hget p hp))
    rw [a3, a8, a9]
    exact lay.links _ (hmemhs p hp)
  obtain ⟨m2, e2, l2, y2, u2⟩ := resolveLinks_ok e hs.length hS e.Sections m hcond
  have hraw2 : ∀ j h, hs[j]? = some h → (m2.sec j).raw = (E.readBack h).raw :=
    fun j h hj => (u2 j).trans (hraw j h hj)
  -- the names
  have hnamed : ∃ m3 r3, (if e.secHdrStrIdx ≠ SHN_UNDEF then e.readSectionNames e.Sections m2 r
        else .ok (m2, r)) = .ok (m3, r3) ∧ r3.data = b ∧ m3.secs.length = hs.length ∧
      m3.syms = [] ∧ (∀ j h, hs[j]? = some h → (m3.sec j).raw = (E.readBack h).raw ∧
        (E.secHdrStrIdx % 2 ^ 16 ≠ SHN_UNDEF → (m3.sec j).Name = cstr h.Name)) := by
    by_cases hz : E.secHdrStrIdx % 2 ^ 16 ≠ SHN_UNDEF
    · obtain ⟨t, ht, hnm⟩ := lay.names hz
      have htlt : E.secHdrStrIdx % 2 ^ 16 < hs.length := (List.getElem?_eq_some_iff.1 ht).1
      have hidx : e.Sections[e.secHdrStrIdx]? = some (E.secHdrStrIdx % 2 ^ 16) := by
        rw [hstr, hsec, getElem?_range_some htlt]
      obtain ⟨-, -, -, -, t6, -, -, -, -, -, -⟩ := raw_fields (hraw2 _ t ht)
      have hcn : ∀ p ∈ e.Sections,
          Holds r.data ((m2.sec (E.secHdrStrIdx % 2 ^ 16)).offset + (m2.sec p).nameOffset)
            ((hs.getD p default).Name ++ [0]) ∧
          (m2.sec (E.secHdrStrIdx % 2 ^ 16)).offset + (m2.sec p).nameOffset < 2 ^ 63 := by
        intro p hp
        rw [hsec, List.mem_range] at hp
        obtain ⟨a1, -, -, -, -, -, -, -, -, -, -⟩ := raw_fields (hraw2 p _ (hget p hp))
        rw [t6, a1, hr]
        exact hnm _ (hmemhs p hp)
      obtain ⟨m3, r3, e3, d3, l3, y3, u3, -, c3⟩ := readSectionNames_ok e _
        (fun p => (hs.getD p default).Name) hidx e.Sections m2 r hcn
      refine ⟨m3, r3, ?_, d3.trans hr, l3.trans (l2.trans hlen), y3.trans (y2.trans hm), ?_⟩
      · rw [if_pos (by rw [hstr]; exact hz), e3]
      · intro j h hj
        have hjlt : j < hs.length := (List.getElem?_eq_some_iff.1 hj).1
        refine ⟨(u3 j).trans (hraw2 j h hj), fun _ => ?_⟩
        have := c3 j (by rw [hsec, List.mem_range]; exact hjlt) (by rw [l2, hlen]; exact hjlt)
        rw [this]
        have hh : hs.getD j default = h := by
          rw [List.getD_eq_getElem?_getD, hj]; rfl
        rw [hh]
    · refine ⟨m2, r, ?_, hr, l2.trans hlen, y2.trans hm, fun j h hj => ⟨hraw2 j h hj, ?_⟩⟩
      · rw [if_neg (by rw [hstr]; exact hz)]
      · intro h'; exact absurd h' hz
  obtain ⟨m3, r3, e3, d3, l3, y3, u3⟩ := hnamed
  -- the symbols and the relocations
  obtain ⟨e', m', e4, s4, y4, c4, n4, sy4, se4, re4⟩ := readSymbolPart_of_layout E b hs ys L lay
    e m3 r3 hc hn hsec hsym hix d3 y3 (fun j h hj => (u3 j h hj).1)
  refine ⟨e', m', ?_, by rw [s4]; exact l3, ?_, y4, c4, n4, sy4, se4, re4⟩
  · unfold Elf.readLinkPart
    rw [e2]
    simp only
    rw [e3]
    exact e4
  · intro j h hj
    rw [Mem.sec_congr s4]
    exact u3 j h hj

theorem readSectionPart_of_layout (E : Elf) (b : List Nat) (hs : List SectionHeader)
    (ys : List Symbol) (L : Nat → List Relocation) (lay : E.Layout b hs ys L)
    (e : Elf) (r : Stream)
    (hc : e.Class = E.Class) (hn : e.Endian = E.Endian) (hsec : e.Sections = [])
    (hsym : e.Symbols = []) (hix : e.symtabIdx = 0)
    (hstr : e.secHdrStrIdx = E.secHdrStrIdx % 2 ^ 16)
    (hcount : e.secHdrCount = E.secHdrCount % 2 ^ 16)
    (hoff : e.secHdrOffset = E.secHdrOffset % 2 ^ E.addrBits) (hr : r.data = b) :
    ∃ e' m', e.readSectionPart { secs := [], syms := [] } r = .ok (e', m') ∧
      m'.secs.length = hs.length ∧
      (∀ j h, hs[j]? = some h → (m'.sec j).raw = (E.readBack h).raw ∧
        (E.secHdrStrIdx % 2 ^ 16 ≠ SHN_UNDEF → (m'.sec j).Name = cstr h.Name)) ∧
      m'.syms = ys.map (fun y => (E.reading hs.length ys.length).readBackSymbol y (cstr y.Name)) ∧
      e'.Class = E.Class ∧ e'.Endian = E.Endian ∧ e'.Symbols = List.range ys.length ∧
      e'.Sections = (List.range hs.length).filter (fun p =>
        !((m'.sec p).Type_ == SHT_REL || (m'.sec p).Type_ == SHT_RELA
          || (m'.sec p).Type_ == SHT_SYMTAB || (m'.sec p).Type_ == SHT_STRTAB
          || (m'.sec p).Type_ == SHT_SYMTAB_SHNDX)) ∧
      e'.Relocations
        = (E.reading hs.length ys.length).relocationsRead m' L (List.range hs.length) [] := by
  have hrec : Holds ({ r with pos := E.secHdrOffset % 2 ^ E.addrBits } : Stream).data
      ({ r with pos := E.secHdrOffset % 2 ^ E.addrBits } : Stream).pos
      (hs.flatMap e.writeSectionHeader) := by
    rw [writeSectionHeader_congr hc hn]
    show Holds r.data _ _
    rw [hr]; exact lay.sh_recs
  have hread := readSectionHeaders_of_holds e hs 0 e { secs := [], syms := [] }
    { r with pos := E.secHdrOffset % 2 ^ E.addrBits } hrec
    (fun h hh => by
      rw [PayloadAt_congr hc]
      show E.PayloadAt r.data h
      rw [hr]; exact lay.sh_payload h hh)
  obtain ⟨e3, he3⟩ : ∃ e3 : Elf, e3 = { e with
      Sections := List.range hs.length,
      symtabIdx := scanIdx SHT_SYMTAB hs 0 0,
      symtabShndxIdx := scanIdx SHT_SYMTAB_SHNDX hs 0 e.symtabShndxIdx } := ⟨_, rfl⟩
  obtain ⟨m3, hm3⟩ : ∃ m3 : Mem, m3 = { secs := hs.map E.readBack, syms := [] } := ⟨_, rfl⟩
  have hread3 : e.readSectionHeaders hs.length 0 e { secs := [], syms := [] }
      { r with pos := E.secHdrOffset % 2 ^ E.addrBits }
      = .ok (e3, m3, { r with pos := E.secHdrOffset % 2 ^ E.addrBits
                                      + hs.length * e.sizeSectionHeader }) := by
    rw [hread, he3, hm3, hsec, hix, readBack_congr hc]
    simp only [List.nil_append, List.length_nil, range_map_zero_add]
  obtain ⟨e', m', h1, h2⟩ := readLinkPart_of_layout E b hs ys L lay e3 m3
    { r with pos := E.secHdrOffset % 2 ^ E.addrBits + hs.length * e.sizeSectionHeader }
    (by rw [he3]; exact hc) (by rw [he3]; exact hn) (by rw [he3]) (by rw [he3]; exact hsym)
    (by rw [he3]) (by rw [he3]; exact hstr) hr (by rw [hm3]) (by rw [hm3]; simp)
    (fun j h hj => by rw [hm3, Mem.sec_mk_map _ _ _ hj])
  refine ⟨e', m', ?_, h2⟩
  unfold Elf.readSectionPart
  rw [hcount, lay.sh_count, hoff, wrapS_of_lt lay.sh_off, seekIgnore_natCast, hread3]
  exact h1

theorem ReadELF_of_layout (E : Elf) (b : List Nat) (hs : List SectionHeader) (ys : List Symbol)
    (L : Nat → List Relocation) (lay : E.Layout b hs ys L) :
    ∃ e' m', ReadELF ⟨b, 0⟩ = .ok (e', m') ∧
      m'.secs.length = hs.length ∧
      (∀ j h, hs[j]? = some h → (m'.sec j).raw = (E.readBack h).raw ∧
        (E.secHdrStrIdx % 2 ^ 16 ≠ SHN_UNDEF → (m'.sec j).Name = cstr h.Name)) ∧
      m'.syms = ys.map (fun y => (E.reading hs.length ys.length).readBackSymbol y (cstr y.Name)) ∧
      e'.Class = E.Class ∧ e'.Endian = E.Endian ∧ e'.Symbols = List.range ys.length ∧
      e'.Sections = (List.range hs.length).filter (fun p =>
        !((m'.sec p).Type_ == SHT_REL || (m'.sec p).Type_ == SHT_RELA
          || (m'.sec p).Type_ == SHT_SYMTAB || (m'.sec p).Type_ == SHT_STRTAB
          || (m'.sec p).Type_ == SHT_SYMTAB_SHNDX)) ∧
      e'.Relocations
        = (E.reading hs.length ys.length).relocationsRead m' L (List.range hs.length) [] := by
  -- the file header
  obtain ⟨e1, he1, c1, n1, po1, pc1, so1, sc1, si1, ph1, se1, sy1, re1, ix1, sx1⟩ :=
    readElfHeader_of_holds default E b lay.header lay.class_ok lay.endian_ok lay.str_idx
  -- the program headers
  have hph : Holds b (E.progHdrOffset % 2 ^ E.addrBits)
      (E.ProgramHeaders.flatMap e1.writeProgramHeader) := by
    rw [writeProgramHeader_congr c1 n1]; exact lay.ph_recs
  obtain ⟨phs1, s2, hp2, d2, sp2⟩ := readProgramHeaders_ok e1 E.ProgramHeaders
    ⟨b, E.progHdrOffset % 2 ^ E.addrBits⟩ hph
    (by rw [decodeProgramSpan_congr c1]; exact lay.ph_spans)
  obtain ⟨phs2, s3, hp3, d3⟩ := readProgramData_ok phs1 s2 (by rw [d2]; exact sp2)
  have d3b : s3.data = b := d3.trans d2
  -- the sections, symbols and relocations
  obtain ⟨e', m', h1, h2⟩ := readSectionPart_of_layout E b hs ys L lay
    { e1 with ProgramHeaders := phs2 } s3 c1 n1 se1 sy1 ix1 si1 sc1 so1 d3b
  refine ⟨e', m', ?_, h2⟩
  unfold ReadELF
  simp only
  rw [he1]
  simp only
  rw [pc1, lay.ph_count, po1, wrapS_of_lt lay.ph_off, seekIgnore_natCast, hp2]
  simp only
  rw [hp3]
  simp only
  rw [← h1, ← lay.ph_count, ← pc1, ← po1]

theorem tableBytes_cons (en : List Nat × Nat) (rest : List (List Nat × Nat)) :
    tableBytes (en :: rest) = en.1 ++ [0] ++ tableBytes rest := by
  simp [tableBytes]

theorem tableBytes_append (a b : List (List Nat × Nat)) :
    tableBytes (a ++ b) = tableBytes a ++ tableBytes b := by
  simp [tableBytes]

theorem contig_append : ∀ (a b : List (List Nat × Nat)) (o : Nat),
    contig o (a ++ b) ↔ contig o a ∧ contig (o + (tableBytes a).length) b
  | [], b, o => by simp [contig, tableBytes]
  | en :: a, b, o => by
    rw [List.cons_append, contig, contig, contig_append a b, tableBytes_cons]
    simp only [List.length_append, List.length_singleton, List.length_cons, List.length_nil]
    rw [and_assoc]
    have : o + en.1.length + 1 + (tableBytes a).length
        = o + (en.1.length + (0 + 1) + (tableBytes a).length) := by omega
    rw [this]

theorem toDataLoop_contig : ∀ (strs : List (List Nat × Nat)) (done : List Nat),
    contig done.length strs →
    toDataLoop strs (done ++ List.replicate (tableBytes strs).length 0)
      = .ok (done ++ tableBytes strs)
  | [], done, _ => by simp [toDataLoop, tableBytes]
  | (s, i) :: rest, done, hc => by
    obtain ⟨hi, hrest⟩ := hc
    simp only at hi hrest
    subst hi
    rw [toDataLoop, slicesReplace, tableBytes_cons]
    simp only [List.length_append, List.length_singleton, List.length_replicate]
    rw [if_pos (by omega)]
    simp only
    have h1 : List.take done.length
        (done ++ List.replicate (s.length + 1 + (tableBytes rest).length) 0) = done := by
      rw [List.take_left']; rfl
    have h2 : List.drop (done.length + s.length)
        (done ++ List.replicate (s.length + 1 + (tableBytes rest).length) 0)
        = 0 :: List.replicate (tableBytes rest).length 0 := by
      rw [List.drop_append, List.drop_replicate]
      have : s.length + 1 + (tableBytes rest).length - s.length
          = (tableBytes rest).length + 1 := by omega
      rw [this, List.replicate_succ]
    rw [h1, h2]
    have h3 : done ++ s ++ 0 :: List.replicate (tableBytes rest).length 0
        = (done ++ s ++ [0]) ++ List.replicate (tableBytes rest).length 0 := by simp
    rw [h3, toDataLoop_contig rest (done ++ s ++ [0])
      (by simpa [List.length_append, Nat.add_assoc] using hrest)]
    simp

theorem ToData_of_WF {t : StringTable} (h : t.WF) : t.ToData = .ok (tableBytes t.strings) := by
  unfold StringTable.ToData
  rw [h.2]
  have := toDataLoop_contig t.strings [] h.1
  simpa using this

theorem holds_of_contig : ∀ (strs : List (List Nat × Nat)) (pre : List Nat),
    contig pre.length strs → ∀ en ∈ strs, Holds (pre ++ tableBytes strs) en.2 (en.1 ++ [0])
  | [], _, _, _, hen => by simp at hen
  | en0 :: rest, pre, hc, en, hen => by
    obtain ⟨hi, hrest⟩ := hc
    rw [tableBytes_cons]
    rcases List.mem_cons.1 hen with h | h
    · subst h
      rw [hi, ← List.append_assoc]
      exact holds_self pre _ _
    · have := holds_of_contig rest (pre ++ (en0.1 ++ [0]))
        (by simpa [List.length_append, Nat.add_assoc] using hrest) en h
      simpa [List.append_assoc] using this

theorem lookup_mem : ∀ (strs : List (List Nat × Nat)) (s : List Nat) (o : Nat),
    strs.lookup s = some o → (s, o) ∈ strs
  | [], _, _, h => by simp at h
  | (k, v) :: rest, s, o, h => by
    rw [List.lookup_cons] at h
    by_cases hk : s == k
    · rw [hk] at h
      simp only [Option.some.injEq] at h
      have : s = k := by simpa using hk
      rw [this, ← h]
      exact List.mem_cons_self _ _
    · have hk2 : (s == k) = false := by simpa using hk
      rw [hk2] at h
      exact List.mem_cons_of_mem _ (lookup_mem rest s o h)

theorem holds_of_WF {t : StringTable} (h : t.WF) {s : List Nat} {o : Nat}
    (hl : t.strings.lookup s = some o) : Holds (tableBytes t.strings) o (s ++ [0]) := by
  have := holds_of_contig t.strings [] h.1 (s, o) (lookup_mem _ _ _ hl)
  simpa using this

theorem lookup_append_of_some {strs x : List (List Nat × Nat)} {s : List Nat} {o : Nat}
    (h : strs.lookup s = some o) : (strs ++ x).lookup s = some o := by
  induction strs with
  | nil => simp at h
  | cons kv rest ih =>
    obtain ⟨k, v⟩ := kv
    rw [List.cons_append, List.lookup_cons] at *
    by_cases hk : (s == k) = true
    · rw [hk] at h ⊢; exact h
    · have hk2 : (s == k) = false := by simpa using hk
      rw [hk2] at h ⊢
      exact ih h

theorem lookup_append_of_none {strs : List (List Nat × Nat)} {s : List Nat} (o : Nat)
    (h : strs.lookup s = none) : (strs ++ [(s, o)]).lookup s = some o := by
  induction strs with
  | nil => simp [List.lookup]
  | cons kv rest ih =>
    obtain ⟨k, v⟩ := kv
    rw [List.cons_append, List.lookup_cons] at *
    by_cases hk : (s == k) = true
    · rw [hk] at h; simp at h
    · have hk2 : (s == k) = false := by simpa using hk
      rw [hk2] at h ⊢
      exact ih h

/-- After `Add s` the table records for `s` the offset returned. -/
theorem Add_lookup (t : StringTable) (s : List Nat) :
    (t.Add s).2.strings.lookup s = some (t.Add s).1 := by
  unfold StringTable.Add
  cases h : t.strings.lookup s with
  | some val => simp only [h]
  | none => simp only [lookup_append_of_none t.pos h]

/-- `Add` keeps the offsets already recorded. -/
theorem Add_stable (t : StringTable) (s : List Nat) {x : List Nat} {o : Nat}
    (h : t.strings.lookup x = some o) : (t.Add s).2.strings.lookup x = some o := by
  unfold StringTable.Add
  cases hs : t.strings.lookup s with
  | some val => simpa only using h
  | none => simp only [lookup_append_of_some h]

theorem Add_strings (t : StringTable) (s : List Nat) :
    ∃ x, (t.Add s).2.strings = t.strings ++ x := by
  unfold StringTable.Add
  cases hs : t.strings.lookup s with
  | some val => exact ⟨[], by simp⟩
  | none => exact ⟨[(s, t.pos)], rfl⟩

theorem Fits_of_Add {t : StringTable} {s : List Nat} (h : (t.Add s).2.Fits) : t.Fits := by
  obtain ⟨x, hx⟩ := Add_strings t s
  intro en hen
  exact h en (by rw [hx]; exact List.mem_append_left _ hen)

theorem WF_Add {t : StringTable} (s : List Nat) (hw : t.WF) (hf : (t.Add s).2.Fits) :
    (t.Add s).2.WF := by
  unfold StringTable.Add at hf ⊢
  cases hs : t.strings.lookup s with
  | some val => simpa only [hs] using hw
  | none =>
    simp only [hs] at hf ⊢
    have hb := hf (s, t.pos) (by simp)
    simp only at hb
    refine ⟨?_, ?_⟩
    · simp only
      rw [contig_append]
      refine ⟨hw.1, ?_⟩
      simp only [contig, Nat.zero_add, and_true]
      exact hw.2
    · simp only
      rw [tableBytes_append, List.length_append, ← hw.2]
      simp only [tableBytes, List.flatMap_cons, List.flatMap_nil, List.append_nil,
        List.length_append, List.length_singleton]
      rw [Nat.mod_eq_of_lt (a := s.length) (by omega), Nat.mod_eq_of_lt (a := s.length + 1) (by omega),
        Nat.mod_eq_of_lt (by omega)]

theorem WF_new : newStringTable.WF := ⟨trivial, rfl⟩

theorem slicesReplace_length {s v : List Nat} {i j : Nat} {d : List Nat}
    (h : slicesReplace s i j v = .ok d) (hv : j = i + v.length) :
    d.length = s.length ∧ j ≤ s.length := by
  unfold slicesReplace at h
  split_ifs at h with hc
  simp only [Except.ok.injEq] at h
  subst h
  refine ⟨?_, hc.2⟩
  simp only [List.length_append, List.length_take, List.length_drop]
  omega

theorem toDataLoop_bounds : ∀ (strs : List (List Nat × Nat)) (data d : List Nat),
    toDataLoop strs data = .ok d →
    d.length = data.length ∧ ∀ en ∈ strs, en.2 + en.1.length ≤ data.length
  | [], data, d, h => by
    simp only [toDataLoop, Except.ok.injEq] at h
    subst h
    exact ⟨rfl, fun _ hen => by simp at hen⟩
  | (s, i) :: rest, data, d, h => by
    rw [toDataLoop] at h
    cases hr : slicesReplace data i (i + s.length) s with
    | error f => rw [hr] at h; simp at h
    | ok data1 =>
      rw [hr] at h
      simp only at h
      obtain ⟨l1, b1⟩ := slicesReplace_length hr rfl
      obtain ⟨l2, b2⟩ := toDataLoop_bounds rest data1 d h
      refine ⟨l2.trans l1, fun en hen => ?_⟩
      rcases List.mem_cons.1 hen with h' | h'
      · subst h'; exact b1
      · rw [← l1]; exact b2 en h'

/-- A string table that `ToData` turns into fewer than `2^32 - 1` bytes fits. -/
theorem Fits_of_ToData {t : StringTable} {d : List Nat} (h : t.ToData = .ok d)
    (hd : d.length < 2 ^ 32 - 1) : t.Fits := by
  unfold StringTable.ToData at h
  obtain ⟨l, b⟩ := toDataLoop_bounds _ _ _ h
  rw [List.length_replicate] at l b
  intro en hen
  have := b en hen
  omega

theorem fillSectionNames_sec_notin : ∀ (secs : List Nat) (t : StringTable) (m : Mem) (p : Nat),
    p ∉ secs → (fillSectionNames secs t m).2.sec p = m.sec p
  | [], _, _, _, _ => rfl
  | sh :: rest, t, m, p, hp => by
    rw [List.mem_cons, not_or] at hp
    rw [fillSectionNames, fillSectionNames_sec_notin rest _ _ p hp.2, Mem.sec_setSec_ne _ _ hp.1]

theorem fillSectionNames_sec : ∀ (secs : List Nat) (t : StringTable) (m : Mem) (p : Nat),
    ∃ o, (fillSectionNames secs t m).2.sec p = { m.sec p with nameOffset := o }
  | [], _, m, p => ⟨(m.sec p).nameOffset, rfl⟩
  | sh :: rest, t, m, p => by
    obtain ⟨o, ho⟩ := fillSectionNames_sec rest (t.Add (m.sec sh).Name).2
      (m.setSec sh fun h => { h with nameOffset := (t.Add (m.sec sh).Name).1 }) p
    rw [fillSectionNames, ho, Mem.sec_setSec]
    split_ifs with hc
    · rw [hc.1]; exact ⟨o, rfl⟩
    · exact ⟨o, rfl⟩

theorem fillSectionNames_table : ∀ (secs : List Nat) (t : StringTable) (m : Mem),
    (t.WF → (fillSectionNames secs t m).1.Fits → (fillSectionNames secs t m).1.WF) ∧
    (∀ x o, t.strings.lookup x = some o →
      (fillSectionNames secs t m).1.strings.lookup x = some o) ∧
    (∀ p ∈ secs, p < m.secs.length →
      (fillSectionNames secs t m).1.strings.lookup (m.sec p).Name
        = some ((fillSectionNames secs t m).2.sec p).nameOffset)
  | [], t, m => ⟨fun h _ => h, fun _ _ h => h, fun _ hp => by simp at hp⟩
  | sh :: rest, t, m => by
    obtain ⟨ih1, ih2, ih3⟩ := fillSectionNames_table rest (t.Add (m.sec sh).Name).2
      (m.setSec sh fun h => { h with nameOffset := (t.Add (m.sec sh).Name).1 })
    rw [fillSectionNames]
    refine ⟨fun hw hf => ih1 (WF_Add _ hw ?_) hf, fun x o h => ih2 x o (Add_stable t _ h), ?_⟩
    · -- the table after the first `Add` fits, as its entries stay in the final table
      intro en hen
      obtain ⟨k, hk⟩ : ∃ k, (fillSectionNames rest (t.Add (m.sec sh).Name).2
          (m.setSec sh fun h => { h with nameOffset := (t.Add (m.sec sh).Name).1 })).1.strings
          = (t.Add (m.sec sh).Name).2.strings ++ k := by
        clear ih1 ih2 ih3 hen hf hw
        generalize (t.Add (m.sec sh).Name).2 = t1
        generalize (m.setSec sh fun h => { h with nameOffset := (t.Add (m.sec sh).Name).1 }) = m1
        induction rest generalizing t1 m1 with
        | nil => exact ⟨[], by simp [fillSectionNames]⟩
        | cons a rest ih =>
          rw [fillSectionNames]
          obtain ⟨k, hk⟩ := ih (t1.Add (m1.sec a).Name).2
            (m1.setSec a fun h => { h with nameOffset := (t1.Add (m1.sec a).Name).1 })
          obtain ⟨x, hx⟩ := Add_strings t1 (m1.sec a).Name
          exact ⟨x ++ k, by rw [hk, hx, List.append_assoc]⟩
      exact hf en (by rw [hk]; exact List.mem_append_left _ hen)
    · intro p hp hlive
      have hname : ∀ x, ((m.setSec sh fun h =>
          { h with nameOffset := (t.Add (m.sec sh).Name).1 }).sec x).Name = (m.sec x).Name := by
        intro x
        rw [Mem.sec_setSec]
        split_ifs with hc
        · rw [hc.1]
        · rfl
      by_cases hpr : p ∈ rest
      · have := ih3 p hpr (by rw [Mem.secs_length_setSec]; exact hlive)
        rw [hname] at this
        exact this
      · have hps : p = sh := by
          rcases List.mem_cons.1 hp with h | h
          · exact h
          · exact absurd h hpr
        subst hps
        rw [fillSectionNames_sec_notin rest _ _ p hpr, Mem.sec_setSec, if_pos ⟨rfl, hlive⟩]
        exact ih2 _ _ (Add_lookup t _)

theorem symStep_symStep (sections : List Nat) (o o2 : Nat) (y : Symbol) :
    symStep sections o2 (symStep sections o y) = symStep sections o2 y := by
  unfold symStep
  cases h : y.Section <;> simp [h]

theorem symStep_Name (sections : List Nat) (o : Nat) (y : Symbol) :
    (symStep sections o y).Name = y.Name := rfl

theorem emitSymbol_symStep (t : StringTable) (sections : List Nat) (o : Nat) (y : Symbol) :
    emitSymbol t sections (symStep sections o y) = emitSymbol t sections y := by
  unfold emitSymbol
  rw [symStep_symStep, symStep_Name]

theorem offsetOf_of_lookup {t : StringTable} {s : List Nat} {o : Nat}
    (h : t.strings.lookup s = some o) : t.offsetOf s = o := by
  unfold StringTable.offsetOf; rw [h]; rfl

theorem symStep_mem_none (m : Mem) (sections : List Nat) (sym o : Nat)
    (hl : sym < m.syms.length) (hs : (m.sym sym).Section = none) (x : Nat) :
    (m.setSym sym fun y => { y with nameOffset := o }).sym x
      = if x = sym then symStep sections o (m.sym sym) else m.sym x := by
  rw [Mem.sym_setSym]
  by_cases hx : x = sym
  · rw [if_pos ⟨hx, hl⟩, if_pos hx]
    unfold symStep; rw [hs]
  · rw [if_neg (fun h => hx h.1), if_neg hx]

theorem symStep_mem_some (m : Mem) (sections : List Nat) (sym o p : Nat)
    (hl : sym < m.syms.length) (hs : (m.sym sym).Section = some p) (x : Nat) :
    ((m.setSym sym fun y => { y with nameOffset := o }).setSym sym fun y =>
        { y with SectionIndex := wrapU 16 (slicesIndex sections p) }).sym x
      = if x = sym then symStep sections o (m.sym sym) else m.sym x := by
  have h1 : (m.setSym sym fun y => { y with nameOffset := o }).sym sym
      = { m.sym sym with nameOffset := o } := by
    rw [Mem.sym_setSym, if_pos ⟨rfl, hl⟩]
  have hl1 : sym < (m.setSym sym fun y => { y with nameOffset := o }).syms.length := by
    rw [Mem.syms_length_setSym]; exact hl
  rw [Mem.sym_setSym]
  by_cases hx : x = sym
  · rw [if_pos ⟨hx, hl1⟩, if_pos hx, h1]
    unfold symStep; rw [hs]
  · rw [if_neg (fun h => hx h.1), if_neg hx, Mem.sym_setSym, if_neg (fun h => hx h.1)]

theorem fillSymbols_cons (e : Elf) (sections : List Nat) (symtab : Nat) (sym : Nat)
    (rest : List Nat) (i : Nat) (st : SymLoopState) (hl : sym < st.mem.syms.length) :
    ∃ st1, e.fillSymbols sections symtab (sym :: rest) i st
        = e.fillSymbols sections symtab rest (i + 1) st1 ∧
      st1.table = (st.table.Add (st.mem.sym sym).Name).2 ∧
      (∀ x, st1.mem.sym x = if x = sym then
          symStep sections (st.table.Add (st.mem.sym sym).Name).1 (st.mem.sym sym)
        else st.mem.sym x) ∧
      st1.mem.syms.length = st.mem.syms.length ∧
      st1.buffer = st.buffer ++ e.writeSymbol
        (symStep sections (st.table.Add (st.mem.sym sym).Name).1 (st.mem.sym sym)) := by
  have h1 : ((st.mem.setSym sym fun y =>
      { y with nameOffset := (st.table.Add (st.mem.sym sym).Name).1 }).sym sym).Section
      = (st.mem.sym sym).Section := by
    rw [Mem.sym_setSym, if_pos ⟨rfl, hl⟩]
  rw [Elf.fillSymbols]
  simp only [h1]
  cases hs : (st.mem.sym sym).Section with
  | none =>
    have hx := symStep_mem_none st.mem sections sym (st.table.Add (st.mem.sym sym).Name).1 hl hs
    simp only
    refine ⟨_, rfl, rfl, ?_, ?_, ?_⟩
    · intro x
      simp only
      split_ifs with h1 h2 h2
      · rw [Mem.sym_setSec, hx, if_pos h2]
      · rw [Mem.sym_setSec, hx, if_neg h2]
      · rw [hx, if_pos h2]
      · rw [hx, if_neg h2]
    · simp only
      split_ifs with h1 <;> simp only [Mem.setSec, Mem.syms_length_setSym]
    · simp only
      congr 2
      split_ifs with h1
      · rw [Mem.sym_setSec, hx, if_pos rfl]
      · rw [hx, if_pos rfl]
  | some p =>
    have hx := symStep_mem_some st.mem sections sym (st.table.Add (st.mem.sym sym).Name).1 p hl hs
    simp only
    refine ⟨_, rfl, rfl, ?_, ?_, ?_⟩
    · intro x
      simp only
      split_ifs with h1 h2 h2
      · rw [Mem.sym_setSec, hx, if_pos h2]
      · rw [Mem.sym_setSec, hx, if_neg h2]
      · rw [hx, if_pos h2]
      · rw [hx, if_neg h2]
    · simp only
      split_ifs with h1 <;> simp only [Mem.setSec, Mem.syms_length_setSym]
    · simp only
      congr 2
      split_ifs with h1
      · rw [Mem.sym_setSec, hx, if_pos rfl]
      · rw [hx, if_pos rfl]

theorem fillSymbols_table (e : Elf) (sections : List Nat) (symtab : Nat) :
    ∀ (syms : List Nat) (i : Nat) (st : SymLoopState),
    (∀ q ∈ syms, q < st.mem.syms.length) →
    (∃ k, (e.fillSymbols sections symtab syms i st).table.strings = st.table.strings ++ k) ∧
    (st.table.WF → (e.fillSymbols sections symtab syms i st).table.Fits →
      (e.fillSymbols sections symtab syms i st).table.WF) ∧
    (∀ x o, st.table.strings.lookup x = some o →
      (e.fillSymbols sections symtab syms i st).table.strings.lookup x = some o) ∧
    (e.fillSymbols sections symtab syms i st).buffer
      = st.buffer ++ syms.flatMap (fun q => e.writeSymbol
          (emitSymbol (e.fillSymbols sections symtab syms i st).table sections (st.mem.sym q)))
  | [], _, st, _ => ⟨⟨[], by simp [Elf.fillSymbols]⟩, fun h _ => h, fun _ _ h => h,
      by simp [Elf.fillSymbols]⟩
  | sym :: rest, i, st, hlive => by
    obtain ⟨st1, h0, h1, h2, h3, h4⟩ := fillSymbols_cons e sections symtab sym rest i st
      (hlive sym (List.mem_cons_self _ _))
    obtain ⟨⟨k, ih0⟩, ih1, ih2, ih3⟩ := fillSymbols_table e sections symtab rest (i + 1) st1
      (fun q hq => by rw [h3]; exact hlive q (List.mem_cons_of_mem _ hq))
    rw [h0]
    obtain ⟨x, hx⟩ := Add_strings st.table (st.mem.sym sym).Name
    have hext : (e.fillSymbols sections symtab rest (i + 1) st1).table.strings
        = st.table.strings ++ (x ++ k) := by
      rw [ih0, h1, hx, List.append_assoc]
    refine ⟨⟨x ++ k, hext⟩, ?_, ?_, ?_⟩
    · intro hw hf
      refine ih1 ?_ hf
      rw [h1]
      refine WF_Add _ hw ?_
      intro en hen
      exact hf en (by rw [ih0, h1]; exact List.mem_append_left _ hen)
    · intro y o hy
      exact ih2 y o (by rw [h1]; exact Add_stable _ _ hy)
    · rw [ih3, h4, List.flatMap_cons, List.append_assoc]
      congr 1
      have hoff : (e.fillSymbols sections symtab rest (i + 1) st1).table.offsetOf
          (st.mem.sym sym).Name = (st.table.Add (st.mem.sym sym).Name).1 :=
        offsetOf_of_lookup (ih2 _ _ (by rw [h1]; exact Add_lookup _ _))
      congr 1
      · unfold emitSymbol; rw [hoff]
      · apply List.flatMap_congr
        intro q _
        rw [h2]
        split_ifs with hq
        · rw [emitSymbol_symStep, hq]
        · rfl

theorem sectionData_cons (m : Mem) (sh : Nat) (rest : List Nat) :
    sectionData m (sh :: rest)
      = (if HasDataInFile (m.sec sh).Type_ then (m.sec sh).Data else []) ++ sectionData m rest := by
  unfold sectionData
  rw [List.filter_cons]
  split_ifs <;> simp

theorem sectionData_congr {m m2 : Mem} (h : ∀ p, (m2.sec p).core = (m.sec p).core) :
    ∀ (secs : List Nat), sectionData m2 secs = sectionData m secs
  | [] => rfl
  | sh :: rest => by
    have h1 : (m2.sec sh).Type_ = (m.sec sh).Type_ := congrArg (fun c => c.2.1) (h sh)
    have h2 : (m2.sec sh).Data = (m.sec sh).Data :=
      congrArg (fun c => c.2.2.2.2.2.2.2.2.2.2) (h sh)
    rw [sectionData_cons, sectionData_cons, sectionData_congr h rest, h1, h2]

theorem layoutSectionData_sec_notin : ∀ (secs : List Nat) (m : Mem) (w : Nat) (p : Nat),
    p ∉ secs → (layoutSectionData secs m w).1.sec p = m.sec p
  | [], _, _, _, _ => rfl
  | sh :: rest, m, w, p, hp => by
    rw [List.mem_cons, not_or] at hp
    rw [layoutSectionData]
    split_ifs
    · rw [layoutSectionData_sec_notin rest _ _ p hp.2, Mem.sec_setSec_ne _ _ hp.1]
    · rw [layoutSectionData_sec_notin rest _ _ p hp.2]

theorem layoutSectionData_sec : ∀ (secs : List Nat) (m : Mem) (w : Nat) (p : Nat),
    ∃ sz off, (layoutSectionData secs m w).1.sec p = { m.sec p with Size := sz, offset := off }
  | [], m, _, p => ⟨(m.sec p).Size, (m.sec p).offset, rfl⟩
  | sh :: rest, m, w, p => by
    rw [layoutSectionData]
    split_ifs
    · obtain ⟨sz, off, h⟩ := layoutSectionData_sec rest
        (m.setSec sh fun h => { h with Size := (m.sec sh).Data.length % 2 ^ 32, offset := w })
        (w + (m.sec sh).Data.length % 2 ^ 32) p
      rw [h, Mem.sec_setSec]
      split_ifs with hc
      · rw [hc.1]; exact ⟨sz, off, rfl⟩
      · exact ⟨sz, off, rfl⟩
    · exact layoutSectionData_sec rest m w p

theorem layoutSectionData_spec : ∀ (secs : List Nat) (m : Mem) (w : Nat),
    (∀ p ∈ secs, p < m.secs.length) → (∀ p ∈ secs, (m.sec p).Data.length < 2 ^ 32) →
    ∀ p ∈ secs, HasDataInFile (m.sec p).Type_ →
      ((layoutSectionData secs m w).1.sec p).Size = (m.sec p).Data.length ∧
      ∃ pre post, sectionData m secs = pre ++ (m.sec p).Data ++ post ∧
        ((layoutSectionData secs m w).1.sec p).offset = w + pre.length
  | [], _, _, _, _, _, hp, _ => by simp at hp
  | sh :: rest, m, w, hlive, hlen, p, hp, hd => by
    have hcore : ∀ x, ((m.setSec sh fun h =>
        { h with Size := (m.sec sh).Data.length % 2 ^ 32, offset := w }).sec x).core
        = (m.sec x).core := fun x => Mem.core_setSec m sh
          (fun h => { h with Size := (m.sec sh).Data.length % 2 ^ 32, offset := w })
          (fun _ => rfl) x
    have hshlen : (m.sec sh).Data.length % 2 ^ 32 = (m.sec sh).Data.length :=
      Nat.mod_eq_of_lt (hlen sh (List.mem_cons_self _ _))
    rw [layoutSectionData, sectionData_cons]
    by_cases hpr : p ∈ rest
    · by_cases hsh : HasDataInFile (m.sec sh).Type_
      · rw [if_pos hsh, if_pos hsh]
        have hT : (((m.setSec sh fun h =>
            { h with Size := (m.sec sh).Data.length % 2 ^ 32, offset := w }).sec p)).Type_
            = (m.sec p).Type_ := congrArg (fun c => c.2.1) (hcore p)
        have hD : (((m.setSec sh fun h =>
            { h with Size := (m.sec sh).Data.length % 2 ^ 32, offset := w }).sec p)).Data
            = (m.sec p).Data := congrArg (fun c => c.2.2.2.2.2.2.2.2.2.2) (hcore p)
        obtain ⟨h1, pre, post, h2, h3⟩ := layoutSectionData_spec rest
          (m.setSec sh fun h => { h with Size := (m.sec sh).Data.length % 2 ^ 32, offset := w })
          (w + (m.sec sh).Data.length % 2 ^ 32)
          (fun q hq => by rw [Mem.secs_length_setSec]; exact hlive q (List.mem_cons_of_mem _ hq))
          (fun q hq => by
            have : ((m.setSec sh fun h =>
                { h with Size := (m.sec sh).Data.length % 2 ^ 32, offset := w }).sec q).Data
                = (m.sec q).Data := congrArg (fun c => c.2.2.2.2.2.2.2.2.2.2) (hcore q)
            rw [this]; exact hlen q (List.mem_cons_of_mem _ hq))
          p hpr (by rw [hT]; exact hd)
        rw [hD] at h1 h2
        rw [sectionData_congr hcore] at h2
        refine ⟨h1, (m.sec sh).Data ++ pre, post, ?_, ?_⟩
        · rw [h2]; simp
        · rw [h3, hshlen, List.length_append]; omega
      · rw [if_neg hsh, if_neg hsh]
        obtain ⟨h1, pre, post, h2, h3⟩ := layoutSectionData_spec rest m w
          (fun q hq => hlive q (List.mem_cons_of_mem _ hq))
          (fun q hq => hlen q (List.mem_cons_of_mem _ hq)) p hpr hd
        exact ⟨h1, pre, post, by rw [h2]; simp, h3⟩
    · have hps : p = sh := by
        rcases List.mem_cons.1 hp with h | h
        · exact h
        · exact absurd h hpr
      subst hps
      rw [if_pos hd, if_pos hd, layoutSectionData_sec_notin rest _ _ p hpr, Mem.sec_setSec,
        if_pos ⟨rfl, hlive p (List.mem_cons_self _ _)⟩]
      exact ⟨hshlen, [], sectionData m rest, by simp, by simp⟩

theorem layoutProgramData_spec : ∀ (phs : List ProgramHeader) (w : Nat),
    (layoutProgramData phs w).1.length = phs.length ∧
    (layoutProgramData phs w).1.flatMap (fun ph => ph.Data) = phs.flatMap (fun ph => ph.Data) ∧
    (layoutProgramData phs w).2 = w + (phs.flatMap fun ph => ph.Data).length ∧
    ∀ ph ∈ (layoutProgramData phs w).1, ph.fileSize = ph.Data.length ∧ w ≤ ph.offset ∧
      ph.offset + ph.fileSize ≤ (layoutProgramData phs w).2
  | [], w => ⟨rfl, rfl, rfl, fun _ h => by simp [layoutProgramData] at h⟩
  | ph :: rest, w => by
    obtain ⟨h1, h2, h3, h4⟩ := layoutProgramData_spec rest (w + ph.Data.length)
    rw [layoutProgramData]
    simp only
    refine ⟨by simp [h1], ?_, ?_, ?_⟩
    · rw [List.flatMap_cons, List.flatMap_cons, h2]
    · rw [h3, List.flatMap_cons, List.length_append]; omega
    · intro p hp
      rcases List.mem_cons.1 hp with h | h
      · subst h
        simp only
        rw [h3]
        exact ⟨trivial, le_refl _, by omega⟩
      · obtain ⟨a, b, c⟩ := h4 p h
        exact ⟨a, by omega, c⟩

theorem flatMap_length_const {α : Type} (f : α → List Nat) (c : Nat)
    (h : ∀ x, (f x).length = c) : ∀ (l : List α), (l.flatMap f).length = l.length * c
  | [] => by simp
  | x :: l => by
    rw [List.flatMap_cons, List.length_append, h, flatMap_length_const f c h l, List.length_cons]
    ring

theorem writeElfHeader_length (e : Elf) (hc : e.Class = ELFCLASS32 ∨ e.Class = ELFCLASS64) :
    e.writeElfHeader.length = e.sizeElfHeader := by
  unfold Elf.writeElfHeader Elf.sizeElfHeader
  rcases hc with hc | hc
  · have hne : ¬ e.Class = ELFCLASS64 := by rw [hc]; decide
    simp only [if_neg hne, if_pos hc, List.length_append, putFields_length]
    rfl
  · simp only [if_pos hc, List.length_append, putFields_length]
    rfl

theorem writeTables_shstrtab (e : Elf) (m : Mem) :
    (e.writeTables m).2.1.sec m.secs.length
      = { (default : SectionHeader) with Name := nameShstrtab, Type_ := SHT_STRTAB } := by
  unfold Elf.writeTables
  simp only
  rw [Mem.sec_setSec_ne _ _ (by omega)]
  exact Mem.sec_append_ge m _ 0

theorem writeTables_strtab (e : Elf) (m : Mem) :
    (e.writeTables m).2.1.sec (m.secs.length + 1)
      = { (default : SectionHeader) with Name := nameStrtab, Type_ := SHT_STRTAB } := by
  unfold Elf.writeTables
  simp only
  rw [Mem.sec_setSec_ne _ _ (by omega)]
  exact Mem.sec_append_ge m _ 1

theorem writeNames_sec (e : Elf) (m : Mem) (p : Nat) :
    ∃ o, (e.writeNames m).2.sec p = { (e.writeRels m).mem.sec p with nameOffset := o } :=
  fillSectionNames_sec _ _ _ p

theorem fillSymbols_sec_info (e : Elf) (sections : List Nat) (symtab : Nat) (p : Nat)
    (syms : List Nat) (i : Nat) (st : SymLoopState) :
    ∃ inf, (e.fillSymbols sections symtab syms i st).mem.sec p = { st.mem.sec p with Info := inf } := by
  have h := fillSymbols_sec_upto_info e sections symtab p syms i st
  refine ⟨((e.fillSymbols sections symtab syms i st).mem.sec p).Info, ?_⟩
  generalize (e.fillSymbols sections symtab syms i st).mem.sec p = a at h ⊢
  generalize st.mem.sec p = b at h ⊢
  cases a; cases b
  simp only [SectionHeader.mk.injEq] at h ⊢
  tauto

theorem writeSynthesize_secs_length (e : Elf) (m : Mem)
    (hk : ∀ en ∈ e.Relocations, en.1 < m.secs.length) :
    (e.writeSynthesize m).mem.secs.length = m.secs.length + 3 + e.Relocations.length := by
  unfold Elf.writeSynthesize
  simp only
  rw [Mem.secs_length_setSec, writeSyms_secs_length, writeNames_secs_length,
    writeRels_secs_length e m hk]

theorem writeFilled_secs_length (e : Elf) (m : Mem) (a b : List Nat)
    (hk : ∀ en ∈ e.Relocations, en.1 < m.secs.length) :
    (e.writeFilled m a b).secs.length = m.secs.length + 3 + e.Relocations.length := by
  unfold Elf.writeFilled
  rw [Mem.secs_length_setSec, Mem.secs_length_setSec, writeSynthesize_secs_length e m hk]

theorem writeFilled_syms (e : Elf) (m : Mem) (a b : List Nat) :
    (e.writeFilled m a b).syms = (e.writeSynthesize m).mem.syms := rfl

theorem writeFilled_other (e : Elf) (m : Mem) (a b : List Nat) {p : Nat}
    (h0 : p ≠ m.secs.length) (h1 : p ≠ m.secs.length + 1) (h2 : p ≠ m.secs.length + 2) :
    ∃ o, (e.writeFilled m a b).sec p = { (e.writeRels m).mem.sec p with nameOffset := o } := by
  unfold Elf.writeFilled
  rw [Mem.sec_setSec_ne _ _ h1, Mem.sec_setSec_ne _ _ h0, writeSynthesize_sec_ne e m h2]
  exact writeNames_sec e m p

theorem writeFilled_shstrtab (e : Elf) (m : Mem) (a b : List Nat)
    (hk : ∀ en ∈ e.Relocations, en.1 < m.secs.length) :
    ∃ o, (e.writeFilled m a b).sec m.secs.length
      = { (default : SectionHeader) with
          Name := nameShstrtab, Type_ := SHT_STRTAB, nameOffset := o, Data := a } := by
  have hlen := writeSynthesize_secs_length e m hk
  unfold Elf.writeFilled
  rw [Mem.sec_setSec_ne _ _ (by omega), Mem.sec_setSec, if_pos ⟨rfl, by omega⟩,
    writeSynthesize_sec_ne e m (by omega)]
  obtain ⟨o, ho⟩ := writeNames_sec e m m.secs.length
  rw [ho, writeRels_sec_lt e m hk (by omega), writeTables_shstrtab]
  exact ⟨o, rfl⟩

theorem writeFilled_strtab (e : Elf) (m : Mem) (a b : List Nat)
    (hk : ∀ en ∈ e.Relocations, en.1 < m.secs.length) :
    ∃ o, (e.writeFilled m a b).sec (m.secs.length + 1)
      = { (default : SectionHeader) with
          Name := nameStrtab, Type_ := SHT_STRTAB, nameOffset := o, Data := b } := by
  have hlen := writeSynthesize_secs_length e m hk
  unfold Elf.writeFilled
  rw [Mem.sec_setSec, if_pos ⟨rfl, by rw [Mem.secs_length_setSec]; omega⟩,
    Mem.sec_setSec_ne _ _ (by omega), writeSynthesize_sec_ne e m (by omega)]
  obtain ⟨o, ho⟩ := writeNames_sec e m (m.secs.length + 1)
  rw [ho, writeRels_sec_lt e m hk (by omega), writeTables_strtab]
  exact ⟨o, rfl⟩

theorem writeFilled_symtab (e : Elf) (m : Mem) (a b : List Nat)
    (hk : ∀ en ∈ e.Relocations, en.1 < m.secs.length) :
    ∃ o inf, (e.writeFilled m a b).sec (m.secs.length + 2)
      = { (default : SectionHeader) with
          Name := nameSymtab, Type_ := SHT_SYMTAB, EntrySize := e.sizeSymbol % 2 ^ 32,
          Link := (e.Sections.length + 1) % 2 ^ 32, nameOffset := o, Info := inf,
          Data := (e.writeSyms m).buffer } := by
  have hlen := writeSynthesize_secs_length e m hk
  have hlen2 : (e.writeSyms m).mem.secs.length = m.secs.length + 3 + e.Relocations.length := by
    rw [writeSyms_secs_length, writeNames_secs_length, writeRels_secs_length e m hk]
  unfold Elf.writeFilled
  rw [Mem.sec_setSec_ne _ _ (by omega), Mem.sec_setSec_ne _ _ (by omega)]
  unfold Elf.writeSynthesize
  simp only
  rw [Mem.sec_setSec, if_pos ⟨rfl, by omega⟩]
  obtain ⟨inf, hinf⟩ := fillSymbols_sec_info (e.writeTables m).1 (e.writeRels m).sections
    (m.secs.length + 2) (m.secs.length + 2) (e.writeTables m).1.Symbols 0
    { table := newStringTable, mem := (e.writeNames m).2, globalBindingSet := false,
      buffer := [] }
  obtain ⟨o, ho⟩ := writeNames_sec e m (m.secs.length + 2)
  have : (e.writeSyms m).mem.sec (m.secs.length + 2)
      = { (e.writeNames m).2.sec (m.secs.length + 2) with Info := inf } := hinf
  rw [this, ho, writeRels_sec_lt e m hk (by omega), writeTables_symtab]
  exact ⟨o, inf, rfl⟩

theorem sizeElfHeader_mod (e : Elf) : e.sizeElfHeader % 2 ^ 16 = e.sizeElfHeader := by
  unfold Elf.sizeElfHeader; split_ifs <;> rfl

theorem sizeProgramHeader_mod (e : Elf) : e.sizeProgramHeader % 2 ^ 16 = e.sizeProgramHeader := by
  unfold Elf.sizeProgramHeader; split_ifs <;> rfl

theorem sizeSectionHeader_mod (e : Elf) : e.sizeSectionHeader % 2 ^ 16 = e.sizeSectionHeader := by
  unfold Elf.sizeSectionHeader; split_ifs <;> rfl

theorem ite_pos_add (c a b : Nat) : (if c > 0 then a + c * b else a) = a + c * b := by
  split_ifs with h
  · rfl
  · have : c = 0 := by omega
    rw [this]; simp

theorem writeLayout_fields (e : Elf) (m : Mem) (sections : List Nat) :
    (e.writeLayout m sections).1.Class = e.Class ∧
    (e.writeLayout m sections).1.Endian = e.Endian ∧
    (e.writeLayout m sections).1.Symbols = e.Symbols ∧
    (e.writeLayout m sections).1.secHdrStrIdx = e.secHdrStrIdx ∧
    (e.writeLayout m sections).1.progHdrCount = e.ProgramHeaders.length % 2 ^ 16 ∧
    (e.writeLayout m sections).1.progHdrOffset
      = (if e.ProgramHeaders.length % 2 ^ 16 > 0 then e.sizeElfHeader else 0) ∧
    (e.writeLayout m sections).1.secHdrCount = sections.length % 2 ^ 16 ∧
    (e.writeLayout m sections).1.secHdrOffset
      = (if sections.length % 2 ^ 16 > 0 then
          e.sizeElfHeader + e.ProgramHeaders.length % 2 ^ 16 * e.sizeProgramHeader
            + (e.ProgramHeaders.flatMap fun ph => ph.Data).length else 0) ∧
    (e.writeLayout m sections).1.ProgramHeaders
      = (layoutProgramData e.ProgramHeaders
          (e.sizeElfHeader + e.ProgramHeaders.length % 2 ^ 16 * e.sizeProgramHeader)).1 ∧
    (e.writeLayout m sections).2
      = (layoutSectionData sections m
          (e.sizeElfHeader + e.ProgramHeaders.length % 2 ^ 16 * e.sizeProgramHeader
            + (e.ProgramHeaders.flatMap fun ph => ph.Data).length
            + sections.length % 2 ^ 16 * e.sizeSectionHeader)).1 := by
  unfold Elf.writeLayout
  simp only [sizeElfHeader_mod, sizeProgramHeader_mod, sizeSectionHeader_mod, ite_pos_add,
    (layoutProgramData_spec _ _).2.2.1]
  exact ⟨trivial, trivial, trivial, trivial, trivial, trivial, trivial, trivial, trivial, trivial⟩

/-- Inversion of a successful `Write`, in terms of the memory before the layout. -/
theorem Write_normal {e : Elf} {m : Mem} {r : WriteResult} (h : e.Write m = .ok r) :
    e.Sections.length ≤ 65500 ∧
    ∃ a b,
      (e.writeNames m).1.ToData = .ok a ∧
      (e.writeSyms m).table.ToData = .ok b ∧
      r.mem = (layoutSectionData (e.writeRels m).sections (e.writeFilled m a b)
        (e.sizeElfHeader + e.ProgramHeaders.length % 2 ^ 16 * e.sizeProgramHeader
          + (e.ProgramHeaders.flatMap fun ph => ph.Data).length
          + (e.writeRels m).sections.length % 2 ^ 16 * e.sizeSectionHeader)).1 ∧
      r.sections = (e.writeRels m).sections ∧
      r.bytes = r.elf.writeEmit r.mem r.sections ∧
      r.elf.Class = e.Class ∧ r.elf.Endian = e.Endian ∧
      r.elf.Symbols = sortSymbols m e.Symbols ∧
      r.elf.secHdrStrIdx = e.Sections.length % 2 ^ 16 ∧
      r.elf.progHdrCount = e.ProgramHeaders.length % 2 ^ 16 ∧
      r.elf.progHdrOffset
        = (if e.ProgramHeaders.length % 2 ^ 16 > 0 then e.sizeElfHeader else 0) ∧
      r.elf.secHdrCount = (e.writeRels m).sections.length % 2 ^ 16 ∧
      r.elf.secHdrOffset = (if (e.writeRels m).sections.length % 2 ^ 16 > 0 then
        e.sizeElfHeader + e.ProgramHeaders.length % 2 ^ 16 * e.sizeProgramHeader
          + (e.ProgramHeaders.flatMap fun ph => ph.Data).length else 0) ∧
      r.elf.ProgramHeaders = (layoutProgramData e.ProgramHeaders
        (e.sizeElfHeader + e.ProgramHeaders.length % 2 ^ 16 * e.sizeProgramHeader)).1 := by
  obtain ⟨hlen, a, b, ha, hb, he, hm, hs, hby⟩ := Write_ok h
  obtain ⟨f1, f2, f3, f4, f5, f6, f7, f8, f9, f10⟩ :=
    writeLayout_fields (e.writeSynthesize m).elf (e.writeFilled m a b) (e.writeRels m).sections
  have he2 : r.elf = ((e.writeSynthesize m).elf.writeLayout (e.writeFilled m a b)
      (e.writeRels m).sections).1 := he
  have hm2 : r.mem = ((e.writeSynthesize m).elf.writeLayout (e.writeFilled m a b)
      (e.writeRels m).sections).2 := hm
  refine ⟨hlen, a, b, ha, hb, ?_, hs, hby, ?_, ?_, ?_, ?_, ?_, ?_, ?_, ?_, ?_⟩
  · rw [hm2, f10]; rfl
  · rw [he2, f1]; rfl
  · rw [he2, f2]; rfl
  · rw [he2, f3]; rfl
  · rw [he2, f4]; rfl
  · rw [he2, f5]; rfl
  · rw [he2, f6]; rfl
  · rw [he2, f7]
  · rw [he2, f8]; rfl
  · rw [he2, f9]; rfl

theorem Elf.Portable.keys_live {e : Elf} {m : Mem} {r : WriteResult} (hp : e.Portable m r) :
    ∀ en ∈ e.Relocations, en.1 < m.secs.length :=
  fun en hen => hp.live_sections _ (hp.keys en hen)

theorem Write_sections {e : Elf} {m : Mem} {r : WriteResult} (hw : e.Write m = .ok r)
    (hp : e.Portable m r) :
    r.sections = e.Sections ++ [m.secs.length, m.secs.length + 1, m.secs.length + 2]
      ++ (List.range e.Relocations.length).map (m.secs.length + 3 + ·) := by
  obtain ⟨-, a, b, -, -, -, hs, -⟩ := Write_normal hw
  rw [hs, (writeRels_spec e m hp.keys_live).1]

theorem Write_sections_length {e : Elf} {m : Mem} {r : WriteResult} (hw : e.Write m = .ok r)
    (hp : e.Portable m r) :
    r.sections.length = e.Sections.length + 3 + e.Relocations.length := by
  rw [Write_sections hw hp]; simp; omega

theorem Write_sections_live {e : Elf} {m : Mem} {r : WriteResult} (hw : e.Write m = .ok r)
    (hp : e.Portable m r) :
    ∀ p ∈ r.sections, p < m.secs.length + 3 + e.Relocations.length := by
  intro p hpm
  rw [Write_sections hw hp] at hpm
  simp only [List.mem_append, List.mem_cons, List.mem_singleton, List.mem_map, List.mem_range,
    List.not_mem_nil, or_false] at hpm
  rcases hpm with (h | h | h | h) | ⟨i, hi, rfl⟩
  · have := hp.live_sections p h; omega
  · omega
  · omega
  · omega
  · omega

/-- The section pointer at index `j` of the emitted section list. -/
theorem Write_sections_get {e : Elf} {m : Mem} {r : WriteResult} (hw : e.Write m = .ok r)
    (hp : e.Portable m r) (j : Nat) :
    r.sections[j]? =
      if j < e.Sections.length then e.Sections[j]?
      else if j < e.Sections.length + 3 + e.Relocations.length then
        some (m.secs.length + (j - e.Sections.length))
      else none := by
  rw [Write_sections hw hp, List.append_assoc]
  by_cases h1 : j < e.Sections.length
  · rw [if_pos h1, List.getElem?_append_left h1]
  · rw [if_neg h1, List.getElem?_append_right (by omega)]
    by_cases h2 : j < e.Sections.length + 3 + e.Relocations.length
    · rw [if_pos h2]
      by_cases h3 : j - e.Sections.length < 3
      · rw [List.getElem?_append_left (by simpa using h3)]
        have : j - e.Sections.length = 0 ∨ j - e.Sections.length = 1
            ∨ j - e.Sections.length = 2 := by omega
        rcases this with h | h | h <;> rw [h] <;> rfl
      · rw [List.getElem?_append_right (by simp; omega)]
        simp only [List.length_cons, List.length_nil, List.getElem?_map]
        rw [List.getElem?_range (by omega)]
        simp only [Option.map_some', Option.some.injEq]
        omega
    · rw [if_neg h2]
      rw [List.getElem?_eq_none]
      simp; omega

theorem Mem.sec_setSec_data (m : Mem) (q : Nat) (x : List Nat) (p : Nat) :
    ∃ d, (m.setSec q fun h => { h with Data := x }).sec p = { m.sec p with Data := d } := by
  rw [Mem.sec_setSec]
  split_ifs with hc
  · rw [hc.1]; exact ⟨x, rfl⟩
  · exact ⟨(m.sec p).Data, rfl⟩

theorem writeFilled_frame (e : Elf) (m : Mem) (a b : List Nat) (p : Nat) :
    ∃ d inf, (e.writeFilled m a b).sec p = { (e.writeNames m).2.sec p with Data := d, Info := inf } := by
  unfold Elf.writeFilled
  obtain ⟨d1, h1⟩ := Mem.sec_setSec_data
    ((e.writeSynthesize m).mem.setSec m.secs.length fun h => { h with Data := a })
    (m.secs.length + 1) b p
  obtain ⟨d2, h2⟩ := Mem.sec_setSec_data (e.writeSynthesize m).mem m.secs.length a p
  have h3 : ∃ d3, (e.writeSynthesize m).mem.sec p = { (e.writeSyms m).mem.sec p with Data := d3 } :=
    Mem.sec_setSec_data (e.writeSyms m).mem (m.secs.length + 2) (e.writeSyms m).buffer p
  obtain ⟨d3, h3⟩ := h3
  obtain ⟨inf, h4⟩ := fillSymbols_sec_info (e.writeTables m).1 (e.writeRels m).sections
    (m.secs.length + 2) p (e.writeTables m).1.Symbols 0
    { table := newStringTable, mem := (e.writeNames m).2, globalBindingSet := false,
      buffer := [] }
  have h4' : (e.writeSyms m).mem.sec p = { (e.writeNames m).2.sec p with Info := inf } := h4
  rw [h1, h2, h3, h4']
  exact ⟨d1, inf, rfl⟩

/-- The final record of a section: that before the layout, with its size and offset. -/
theorem Write_sec {e : Elf} {m : Mem} {r : WriteResult} {a b : List Nat}
    (hm : r.mem = (layoutSectionData (e.writeRels m).sections (e.writeFilled m a b)
      (e.dataBase m)).1) (p : Nat) :
    ∃ sz off, r.mem.sec p = { (e.writeFilled m a b).sec p with Size := sz, offset := off } := by
  rw [hm]; exact layoutSectionData_sec _ _ _ p

theorem Write_sec_core2 {e : Elf} {m : Mem} {r : WriteResult} {a b : List Nat}
    (hm : r.mem = (layoutSectionData (e.writeRels m).sections (e.writeFilled m a b)
      (e.dataBase m)).1) (p : Nat) :
    (r.mem.sec p).core = ((e.writeFilled m a b).sec p).core := by
  rw [hm]; exact layoutSectionData_core _ _ _ p

theorem Write_names {e : Elf} {m : Mem} {r : WriteResult} {a b : List Nat}
    (hp : e.Portable m r)
    (hm : r.mem = (layoutSectionData (e.writeRels m).sections (e.writeFilled m a b)
      (e.dataBase m)).1) :
    ∀ p ∈ (e.writeRels m).sections, p < m.secs.length + 3 + e.Relocations.length →
      (e.writeNames m).1.strings.lookup (r.mem.sec p).Name = some (r.mem.sec p).nameOffset := by
  intro p hps hlt
  obtain ⟨sz, off, h1⟩ := Write_sec hm p
  obtain ⟨d, inf, h2⟩ := writeFilled_frame e m a b p
  obtain ⟨o, h3⟩ := writeNames_sec e m p
  have := (fillSectionNames_table (e.writeRels m).sections newStringTable (e.writeRels m).mem).2.2
    p hps (by rw [writeRels_secs_length e m hp.keys_live]; exact hlt)
  have hN : (r.mem.sec p).Name = ((e.writeRels m).mem.sec p).Name := by rw [h1, h2, h3]
  have hO : (r.mem.sec p).nameOffset = ((e.writeNames m).2.sec p).nameOffset := by rw [h1, h2]
  rw [hN, hO]
  exact this

theorem Write_placed {e : Elf} {m : Mem} {r : WriteResult} {a b : List Nat}
    (hp : e.Portable m r) (hs : r.sections = (e.writeRels m).sections)
    (hlive : ∀ p ∈ r.sections, p < m.secs.length + 3 + e.Relocations.length)
    (hm : r.mem = (layoutSectionData (e.writeRels m).sections (e.writeFilled m a b)
      (e.dataBase m)).1) :
    ∀ p ∈ r.sections, HasDataInFile (r.mem.sec p).Type_ →
      (r.mem.sec p).Size = (r.mem.sec p).Data.length ∧
      ∃ pre post, sectionData r.mem r.sections = pre ++ (r.mem.sec p).Data ++ post ∧
        (r.mem.sec p).offset = e.dataBase m + pre.length := by
  intro p hps hd
  have hcore := Write_sec_core2 hm
  have hT : ∀ x, (r.mem.sec x).Type_ = ((e.writeFilled m a b).sec x).Type_ :=
    fun x => congrArg (fun c => c.2.1) (hcore x)
  have hD : ∀ x, (r.mem.sec x).Data = ((e.writeFilled m a b).sec x).Data :=
    fun x => congrArg (fun c => c.2.2.2.2.2.2.2.2.2.2) (hcore x)
  rw [hs] at hps
  obtain ⟨h1, pre, post, h2, h3⟩ := layoutSectionData_spec (e.writeRels m).sections
    (e.writeFilled m a b) (e.dataBase m)
    (fun q hq => by
      rw [writeFilled_secs_length e m a b hp.keys_live]; exact hlive q (by rw [hs]; exact hq))
    (fun q hq => by
      rw [← hD]
      have := hp.payloads q (by rw [hs]; exact hq)
      omega)
    p hps (by rw [← hT]; exact hd)
  rw [hD, hs, sectionData_congr hcore]
  rw [← hm] at h1 h3
  exact ⟨h1, pre, post, h2, h3⟩

theorem sizeElfHeader_congr {e e2 : Elf} (hc : e2.Class = e.Class) :
    e2.sizeElfHeader = e.sizeElfHeader := by
  unfold Elf.sizeElfHeader; rw [hc]

theorem sizeProgramHeader_congr {e e2 : Elf} (hc : e2.Class = e.Class) :
    e2.sizeProgramHeader = e.sizeProgramHeader := by
  unfold Elf.sizeProgramHeader; rw [hc]

/-- The parts of the file `Write` produces and where they stand. -/
theorem Write_holds {e : Elf} {m : Mem} {r : WriteResult} (hw : e.Write m = .ok r)
    (hp : e.Portable m r) :
    Holds r.bytes 0 r.elf.writeElfHeader ∧
    Holds r.bytes e.sizeElfHeader (r.elf.ProgramHeaders.flatMap r.elf.writeProgramHeader) ∧
    Holds r.bytes (e.sizeElfHeader + e.ProgramHeaders.length * e.sizeProgramHeader
        + (e.ProgramHeaders.flatMap fun ph => ph.Data).length)
      (r.sections.flatMap fun sh => r.elf.writeSectionHeader (r.mem.sec sh)) ∧
    (∀ pre post, sectionData r.mem r.sections = pre ++ post →
      Holds r.bytes (e.dataBase m + pre.length) post) ∧
    e.dataBase m + (sectionData r.mem r.sections).length = r.bytes.length ∧
    e.dataBase m = e.sizeElfHeader + e.ProgramHeaders.length * e.sizeProgramHeader
        + (e.ProgramHeaders.flatMap fun ph => ph.Data).length
        + r.sections.length * e.sizeSectionHeader := by
  obtain ⟨-, a, b, -, -, -, hs, hby, hc, hn, -, -, -, -, -, -, hph⟩ := Write_normal hw
  have hbytes : r.bytes = r.elf.writeElfHeader
      ++ r.elf.ProgramHeaders.flatMap r.elf.writeProgramHeader
      ++ r.elf.ProgramHeaders.flatMap (fun ph => ph.Data)
      ++ r.sections.flatMap (fun sh => r.elf.writeSectionHeader (r.mem.sec sh))
      ++ sectionData r.mem r.sections := by
    rw [hby]; rfl
  have hcl : r.elf.Class = ELFCLASS32 ∨ r.elf.Class = ELFCLASS64 := by rw [hc]; exact hp.class_ok
  have l1 : r.elf.writeElfHeader.length = e.sizeElfHeader := by
    rw [writeElfHeader_length _ hcl, sizeElfHeader_congr hc]
  obtain ⟨q1, q2, -, -⟩ := layoutProgramData_spec e.ProgramHeaders
    (e.sizeElfHeader + e.ProgramHeaders.length % 2 ^ 16 * e.sizeProgramHeader)
  have l2 : (r.elf.ProgramHeaders.flatMap r.elf.writeProgramHeader).length
      = e.ProgramHeaders.length * e.sizeProgramHeader := by
    rw [flatMap_length_const _ _ (writeProgramHeader_length r.elf), hph, q1,
      sizeProgramHeader_congr hc]
  have l3 : (r.elf.ProgramHeaders.flatMap fun ph => ph.Data).length
      = (e.ProgramHeaders.flatMap fun ph => ph.Data).length := by
    rw [hph, q2]
  have l4 : (r.sections.flatMap fun sh => r.elf.writeSectionHeader (r.mem.sec sh)).length
      = r.sections.length * e.sizeSectionHeader := by
    rw [flatMap_length_const _ _ (fun sh => writeSectionHeader_length r.elf (r.mem.sec sh)),
      sizeSectionHeader_congr hc]
  have hbase : e.dataBase m = e.sizeElfHeader + e.ProgramHeaders.length * e.sizeProgramHeader
        + (e.ProgramHeaders.flatMap fun ph => ph.Data).length
        + r.sections.length * e.sizeSectionHeader := by
    unfold Elf.dataBase
    rw [← hs, Nat.mod_eq_of_lt hp.ph_count, Nat.mod_eq_of_lt hp.sec_count]
  refine ⟨?_, ?_, ?_, ?_, ?_, hbase⟩
  · rw [hbytes]
    simp only [List.append_assoc]
    have := holds_self [] r.elf.writeElfHeader
      (r.elf.ProgramHeaders.flatMap r.elf.writeProgramHeader
      ++ (r.elf.ProgramHeaders.flatMap (fun ph => ph.Data)
      ++ (r.sections.flatMap (fun sh => r.elf.writeSectionHeader (r.mem.sec sh))
      ++ sectionData r.mem r.sections)))
    simpa using this
  · rw [hbytes, ← l1]
    simp only [List.append_assoc]
    have := holds_self r.elf.writeElfHeader
      (r.elf.ProgramHeaders.flatMap r.elf.writeProgramHeader)
      (r.elf.ProgramHeaders.flatMap (fun ph => ph.Data)
      ++ (r.sections.flatMap (fun sh => r.elf.writeSectionHeader (r.mem.sec sh))
      ++ sectionData r.mem r.sections))
    simpa [List.append_assoc] using this
  · rw [hbytes, ← l1, ← l2, ← l3]
    have := holds_self (r.elf.writeElfHeader
      ++ r.elf.ProgramHeaders.flatMap r.elf.writeProgramHeader
      ++ r.elf.ProgramHeaders.flatMap (fun ph => ph.Data))
      (r.sections.flatMap (fun sh => r.elf.writeSectionHeader (r.mem.sec sh)))
      (sectionData r.mem r.sections)
    simpa [List.append_assoc, Nat.add_assoc] using this
  · intro pre post hsd
    rw [hbytes, hsd, hbase, ← l1, ← l2, ← l3, ← l4]
    have := holds_self (r.elf.writeElfHeader
      ++ r.elf.ProgramHeaders.flatMap r.elf.writeProgramHeader
      ++ r.elf.ProgramHeaders.flatMap (fun ph => ph.Data)
      ++ r.sections.flatMap (fun sh => r.elf.writeSectionHeader (r.mem.sec sh)) ++ pre) post []
    simpa [List.append_assoc, Nat.add_assoc] using this
  · rw [hbytes, hbase]
    simp only [List.length_append, l1, l2, l3, l4]

theorem fillSymbols_names (e : Elf) (sections : List Nat) (symtab : Nat) :
    ∀ (syms : List Nat) (i : Nat) (st : SymLoopState),
    (∀ q ∈ syms, q < st.mem.syms.length) →
    ∀ q ∈ syms, ∃ o, (e.fillSymbols sections symtab syms i st).table.strings.lookup
      (st.mem.sym q).Name = some o
  | [], _, _, _, _, hq => by simp at hq
  | sym :: rest, i, st, hlive, q, hq => by
    obtain ⟨st1, h0, h1, h2, h3, -⟩ := fillSymbols_cons e sections symtab sym rest i st
      (hlive sym (List.mem_cons_self _ _))
    have hl1 : ∀ x ∈ rest, x < st1.mem.syms.length :=
      fun x hx => by rw [h3]; exact hlive x (List.mem_cons_of_mem _ hx)
    rw [h0]
    by_cases hqr : q ∈ rest
    · obtain ⟨o, ho⟩ := fillSymbols_names e sections symtab rest (i + 1) st1 hl1 q hqr
      refine ⟨o, ?_⟩
      rw [h2] at ho
      split_ifs at ho with hqs
      · rw [symStep_Name] at ho; rw [hqs]; exact ho
      · exact ho
    · have hqs : q = sym := by
        rcases List.mem_cons.1 hq with h | h
        · exact h
        · exact absurd h hqr
      subst hqs
      exact ⟨_, (fillSymbols_table e sections symtab rest (i + 1) st1 hl1).2.2.1 _ _
        (by rw [h1]; exact Add_lookup _ _)⟩

theorem writeNames_syms (e : Elf) (m : Mem) : (e.writeNames m).2.syms = m.syms := by
  unfold Elf.writeNames
  simp only
  rw [fillSectionNames_syms]
  unfold Elf.writeRels
  simp only
  rw [relSectionFold_syms]
  rfl

theorem mem_sortSymbols (m : Mem) (syms : List Nat) (q : Nat) :
    q ∈ sortSymbols m syms ↔ q ∈ syms := by
  unfold sortSymbols
  exact (List.perm_insertionSort _ _).mem_iff

theorem length_sortSymbols (m : Mem) (syms : List Nat) :
    (sortSymbols m syms).length = syms.length := by
  unfold sortSymbols
  exact List.length_insertionSort _ _

theorem Mem.sym_congr {m m2 : Mem} (h : m2.syms = m.syms) (q : Nat) : m2.sym q = m.sym q := by
  unfold Mem.sym; rw [h]

/-- The two string tables of a `Write` within the limits: no offset wrapped
around, the payloads are the strings one after the other, and the symbol table
holds the emitted records. -/
theorem Write_tables {e : Elf} {m : Mem} {r : WriteResult} (hw : e.Write m = .ok r)
    (hp : e.Portable m r) {a b : List Nat} (ha : (e.writeNames m).1.ToData = .ok a)
    (hb : (e.writeSyms m).table.ToData = .ok b)
    (hla : a.length < 2 ^ 32 - 1) (hlb : b.length < 2 ^ 32 - 1) :
    (e.writeNames m).1.WF ∧ a = tableBytes (e.writeNames m).1.strings ∧
    (e.writeSyms m).table.WF ∧ b = tableBytes (e.writeSyms m).table.strings ∧
    (e.writeSyms m).buffer = (e.emittedSymbols m).flatMap r.elf.writeSymbol ∧
    ∀ q ∈ e.Symbols, ∃ o, (e.writeSyms m).table.strings.lookup (m.sym q).Name = some o := by
  obtain ⟨-, -, -, -, -, -, -, -, hc, hn, -⟩ := Write_normal hw
  have w1 : (e.writeNames m).1.WF :=
    (fillSectionNames_table (e.writeRels m).sections newStringTable (e.writeRels m).mem).1
      WF_new (Fits_of_ToData ha hla)
  have e1 : a = tableBytes (e.writeNames m).1.strings := by
    have := ToData_of_WF w1
    rw [ha] at this
    exact Except.ok.inj this
  have hlive : ∀ q ∈ (e.writeTables m).1.Symbols, q < (e.writeNames m).2.syms.length := by
    intro q hq
    rw [writeNames_syms]
    exact hp.live_symbols q ((mem_sortSymbols m e.Symbols q).1 hq)
  obtain ⟨-, t2, -, t4⟩ := fillSymbols_table (e.writeTables m).1 (e.writeRels m).sections
    (m.secs.length + 2) (e.writeTables m).1.Symbols 0
    { table := newStringTable, mem := (e.writeNames m).2, globalBindingSet := false,
      buffer := [] } hlive
  have w2 : (e.writeSyms m).table.WF := t2 WF_new (Fits_of_ToData hb hlb)
  have e2 : b = tableBytes (e.writeSyms m).table.strings := by
    have := ToData_of_WF w2
    rw [hb] at this
    exact Except.ok.inj this
  refine ⟨w1, e1, w2, e2, ?_, ?_⟩
  · have t4' : (e.writeSyms m).buffer = [] ++ (e.writeTables m).1.Symbols.flatMap (fun q =>
        (e.writeTables m).1.writeSymbol
          (emitSymbol (e.writeSyms m).table (e.writeRels m).sections
            ((e.writeNames m).2.sym q))) := t4
    rw [t4', List.nil_append]
    unfold Elf.emittedSymbols
    rw [List.flatMap_map]
    have hsy : (e.writeTables m).1.Symbols = sortSymbols m e.Symbols := rfl
    rw [hsy]
    apply List.flatMap_congr
    intro q _
    rw [Mem.sym_congr (writeNames_syms e m)]
    have : (e.writeTables m).1.writeSymbol = r.elf.writeSymbol :=
      (@writeSymbol_congr (e.writeTables m).1 r.elf hc hn).symm
    rw [this]
  · intro q hq
    have := fillSymbols_names (e.writeTables m).1 (e.writeRels m).sections
      (m.secs.length + 2) (e.writeTables m).1.Symbols 0
      { table := newStringTable, mem := (e.writeNames m).2, globalBindingSet := false,
        buffer := [] } hlive q ((mem_sortSymbols m e.Symbols q).2 hq)
    simp only at this
    rw [Mem.sym_congr (writeNames_syms e m)] at this
    exact this

/-- The final record of every emitted section, by kind: a section of the
image, `.shstrtab`, `.strtab`, `.symtab`, or the relocation section of the
`i`-th entry of the relocation map. -/
theorem Write_sec_cases {e : Elf} {m : Mem} {r : WriteResult} {a b : List Nat}
    (hp : e.Portable m r)
    (hs : r.sections = e.Sections ++ [m.secs.length, m.secs.length + 1, m.secs.length + 2]
      ++ (List.range e.Relocations.length).map (m.secs.length + 3 + ·))
    (hm : r.mem = (layoutSectionData (e.writeRels m).sections (e.writeFilled m a b)
      (e.dataBase m)).1) :
    ∀ p ∈ r.sections,
      (p ∈ e.Sections ∧ ∃ o sz off,
        r.mem.sec p = { m.sec p with nameOffset := o, Size := sz, offset := off }) ∨
      (p = m.secs.length ∧ ∃ o sz off,
        r.mem.sec p = { (default : SectionHeader) with
          Name := nameShstrtab, Type_ := SHT_STRTAB, nameOffset := o, Data := a,
          Size := sz, offset := off }) ∨
      (p = m.secs.length + 1 ∧ ∃ o sz off,
        r.mem.sec p = { (default : SectionHeader) with
          Name := nameStrtab, Type_ := SHT_STRTAB, nameOffset := o, Data := b,
          Size := sz, offset := off }) ∨
      (p = m.secs.length + 2 ∧ ∃ o inf sz off,
        r.mem.sec p = { (default : SectionHeader) with
          Name := nameSymtab, Type_ := SHT_SYMTAB, EntrySize := e.sizeSymbol % 2 ^ 32,
          Link := (e.Sections.length + 1) % 2 ^ 32, nameOffset := o, Info := inf,
          Data := (e.writeSyms m).buffer, Size := sz, offset := off }) ∨
      (∃ i entry, e.Relocations[i]? = some entry ∧ p = m.secs.length + 3 + i ∧ ∃ o sz off,
        r.mem.sec p = { (e.writeTables m).1.relSection (e.Sections.length + 2)
            (e.writeTables m).2.2 (e.writeTables m).2.1 entry with
          nameOffset := o, Size := sz, offset := off }) := by
  intro p hpm
  obtain ⟨sz, off, hfin⟩ := Write_sec hm p
  rw [hs] at hpm
  simp only [List.mem_append, List.mem_cons, List.mem_singleton, List.mem_map, List.mem_range,
    List.not_mem_nil, or_false] at hpm
  rcases hpm with (h | h | h | h) | ⟨i, hi, rfl⟩
  · left
    have hlt := hp.live_sections p h
    obtain ⟨o, ho⟩ := writeFilled_other e m a b (p := p) (by omega) (by omega) (by omega)
    refine ⟨h, o, sz, off, ?_⟩
    rw [hfin, ho, writeRels_sec_lt e m hp.keys_live (by omega), writeTables_sec_lt e m hlt]
  · right; left
    subst h
    obtain ⟨o, ho⟩ := writeFilled_shstrtab e m a b hp.keys_live
    exact ⟨rfl, o, sz, off, by rw [hfin, ho]⟩
  · right; right; left
    subst h
    obtain ⟨o, ho⟩ := writeFilled_strtab e m a b hp.keys_live
    exact ⟨rfl, o, sz, off, by rw [hfin, ho]⟩
  · right; right; right; left
    subst h
    obtain ⟨o, inf, ho⟩ := writeFilled_symtab e m a b hp.keys_live
    exact ⟨rfl, o, inf, sz, off, by rw [hfin, ho]⟩
  · right; right; right; right
    have hentry : e.Relocations[i]? = some (e.Relocations[i]) := List.getElem?_eq_getElem hi
    obtain ⟨o, ho⟩ := writeFilled_other e m a b (p := m.secs.length + 3 + i)
      (by omega) (by omega) (by omega)
    refine ⟨i, _, hentry, rfl, o, sz, off, ?_⟩
    rw [hfin, ho, writeRels_sec_rel e m hp.keys_live hentry]

/-- An offset inside the file fits the offset fields of the class. -/
theorem fits_addr {e : Elf} {m : Mem} {r : WriteResult} (hp : e.Portable m r)
    (hc : r.elf.Class = e.Class) {x : Nat} (hx : x ≤ r.bytes.length) :
    x % 2 ^ r.elf.addrBits = x ∧ x < 2 ^ 63 := by
  have hf := hp.file_size
  unfold Elf.addrBits
  rw [hc]
  by_cases h : e.Class = ELFCLASS64
  · rw [if_pos h] at hf ⊢
    exact ⟨Nat.mod_eq_of_lt (by omega), by omega⟩
  · rw [if_neg h] at hf ⊢
    exact ⟨Nat.mod_eq_of_lt (by omega), by omega⟩

theorem Write_payload {e : Elf} {m : Mem} {r : WriteResult} {a b : List Nat}
    (hw : e.Write m = .ok r) (hp : e.Portable m r)
    (hm : r.mem = (layoutSectionData (e.writeRels m).sections (e.writeFilled m a b)
      (e.dataBase m)).1) :
    ∀ p ∈ r.sections, HasDataInFile (r.mem.sec p).Type_ →
      (r.mem.sec p).Size = (r.mem.sec p).Data.length ∧
      Holds r.bytes (r.mem.sec p).offset (r.mem.sec p).Data ∧
      (r.mem.sec p).offset + (r.mem.sec p).Data.length ≤ r.bytes.length := by
  intro p hps hd
  obtain ⟨-, -, -, -, -, -, hs, -⟩ := Write_normal hw
  obtain ⟨-, -, -, h4, h5, -⟩ := Write_holds hw hp
  obtain ⟨h1, pre, post, h2, h3⟩ := Write_placed hp hs (Write_sections_live hw hp) hm p hps hd
  refine ⟨h1, ?_, ?_⟩
  · rw [h3]
    have := h4 pre ((r.mem.sec p).Data ++ post) (by rw [h2, List.append_assoc])
    exact this.left
  · rw [h3, ← h5, h2]
    simp only [List.length_append]
    omega

theorem Write_type_lt {e : Elf} {m : Mem} {r : WriteResult} {a b : List Nat}
    (hp : e.Portable m r)
    (hs : r.sections = e.Sections ++ [m.secs.length, m.secs.length + 1, m.secs.length + 2]
      ++ (List.range e.Relocations.length).map (m.secs.length + 3 + ·))
    (hm : r.mem = (layoutSectionData (e.writeRels m).sections (e.writeFilled m a b)
      (e.dataBase m)).1) :
    ∀ p ∈ r.sections, (r.mem.sec p).Type_ < 2 ^ 32 := by
  intro p hps
  rcases Write_sec_cases hp hs hm p hps with ⟨h, o, sz, off, hr⟩ | ⟨-, o, sz, off, hr⟩ |
    ⟨-, o, sz, off, hr⟩ | ⟨-, o, inf, sz, off, hr⟩ | ⟨i, entry, -, -, o, sz, off, hr⟩
  · rw [hr]; exact (hp.typed_sections p h).1
  · rw [hr]; show SHT_STRTAB < 2 ^ 32; decide
  · rw [hr]; show SHT_STRTAB < 2 ^ 32; decide
  · rw [hr]; show SHT_SYMTAB < 2 ^ 32; decide
  · rw [hr]
    have := (relSection_fields (e.writeTables m).1 (e.Sections.length + 2) (e.writeTables m).2.2
      (e.writeTables m).2.1 entry).2.1
    simp only
    rw [this]
    split_ifs <;> decide

theorem mem_map_sec {r : WriteResult} {h : SectionHeader} (hh : h ∈ r.sections.map r.mem.sec) :
    ∃ p ∈ r.sections, h = r.mem.sec p := by
  obtain ⟨p, hp, rfl⟩ := List.mem_map.1 hh
  exact ⟨p, hp, rfl⟩

theorem Write_layout_sh_payload {e : Elf} {m : Mem} {r : WriteResult}
    (hw : e.Write m = .ok r) (hp : e.Portable m r) :
    ∀ h ∈ r.sections.map r.mem.sec, r.elf.PayloadAt r.bytes h := by
  obtain ⟨-, a, b, -, -, hm, -, -, hc, -⟩ := Write_normal hw
  intro h hh
  obtain ⟨p, hps, rfl⟩ := mem_map_sec hh
  have hty := Write_type_lt hp (Write_sections hw hp) hm p hps
  unfold Elf.PayloadAt Elf.decodeSectionHeader
  simp only
  rw [Nat.mod_eq_of_lt hty]
  intro hsz hd
  obtain ⟨h1, h2, h3⟩ := Write_payload hw hp hm p hps hd
  obtain ⟨f1, f2⟩ := fits_addr hp hc (x := (r.mem.sec p).offset) (by omega)
  have hlen := hp.payloads p hps
  rw [f1, h1, Nat.mod_eq_of_lt (by omega)]
  exact ⟨h2, rfl, f2⟩

theorem Write_layout_ph {e : Elf} {m : Mem} {r : WriteResult}
    (hw : e.Write m = .ok r) (hp : e.Portable m r) :
    r.elf.progHdrCount % 2 ^ 16 = r.elf.ProgramHeaders.length ∧
    r.elf.progHdrOffset % 2 ^ r.elf.addrBits < 2 ^ 63 ∧
    Holds r.bytes (r.elf.progHdrOffset % 2 ^ r.elf.addrBits)
      (r.elf.ProgramHeaders.flatMap r.elf.writeProgramHeader) ∧
    ∀ ph ∈ r.elf.ProgramHeaders, SpanInside r.bytes.length (r.elf.decodeProgramSpan ph) := by
  obtain ⟨-, a, b, -, -, hm, hs, -, hc, -, -, -, hpc, hpo, -, -, hph⟩ := Write_normal hw
  obtain ⟨-, g2, -, -, g5, g6⟩ := Write_holds hw hp
  obtain ⟨q1, q2, q3, q4⟩ := layoutProgramData_spec e.ProgramHeaders
    (e.sizeElfHeader + e.ProgramHeaders.length % 2 ^ 16 * e.sizeProgramHeader)
  have hcnt : e.ProgramHeaders.length % 2 ^ 16 = e.ProgramHeaders.length :=
    Nat.mod_eq_of_lt hp.ph_count
  have hsz : e.sizeElfHeader ≤ 64 := by unfold Elf.sizeElfHeader; split_ifs <;> omega
  have hszb : e.sizeElfHeader ≤ r.bytes.length := by rw [← g5, g6]; omega
  refine ⟨?_, ?_, ?_, ?_⟩
  · rw [hpc, hph, q1, Nat.mod_mod]
    exact hcnt
  · exact lt_of_le_of_lt (Nat.mod_le _ _) (by rw [hpo]; split_ifs <;> omega)
  · rw [hpo, hcnt]
    by_cases h0 : e.ProgramHeaders.length > 0
    · rw [if_pos h0, (fits_addr hp hc hszb).1]
      exact g2
    · have hnil : r.elf.ProgramHeaders = [] := by
        apply List.eq_nil_of_length_eq_zero
        rw [hph, q1]; omega
      rw [hnil]
      exact holds_nil _ _
  · intro ph hph'
    rw [hph] at hph'
    obtain ⟨c1, c2, c3⟩ := q4 ph hph'
    rw [q3] at c3
    have hb : ph.offset + ph.fileSize ≤ r.bytes.length := by
      rw [← g5, g6, hcnt] at *
      omega
    unfold SpanInside Elf.decodeProgramSpan
    simp only
    rw [(fits_addr hp hc (x := ph.offset) (by omega)).1,
      (fits_addr hp hc (x := ph.fileSize) (by omega)).1]
    intro hpos
    exact ⟨(fits_addr hp hc (x := ph.offset) (by omega)).2, by omega⟩

theorem Write_layout_sh {e : Elf} {m : Mem} {r : WriteResult}
    (hw : e.Write m = .ok r) (hp : e.Portable m r) :
    r.elf.secHdrCount % 2 ^ 16 = (r.sections.map r.mem.sec).length ∧
    r.elf.secHdrOffset % 2 ^ r.elf.addrBits < 2 ^ 63 ∧
    Holds r.bytes (r.elf.secHdrOffset % 2 ^ r.elf.addrBits)
      ((r.sections.map r.mem.sec).flatMap r.elf.writeSectionHeader) := by
  obtain ⟨-, a, b, -, -, hm, hs, -, hc, -, -, -, -, -, hsc, hso, -⟩ := Write_normal hw
  obtain ⟨-, -, g3, -, g5, g6⟩ := Write_holds hw hp
  have hcnt : e.ProgramHeaders.length % 2 ^ 16 = e.ProgramHeaders.length :=
    Nat.mod_eq_of_lt hp.ph_count
  have hscnt : r.sections.length % 2 ^ 16 = r.sections.length := Nat.mod_eq_of_lt hp.sec_count
  have hpos : r.sections.length > 0 := by rw [Write_sections_length hw hp]; omega
  have hoff : r.elf.secHdrOffset = e.sizeElfHeader + e.ProgramHeaders.length * e.sizeProgramHeader
      + (e.ProgramHeaders.flatMap fun ph => ph.Data).length := by
    rw [hso, ← hs, hscnt, if_pos hpos, hcnt]
  have hle : r.elf.secHdrOffset ≤ r.bytes.length := by rw [hoff, ← g5, g6]; omega
  obtain ⟨f1, f2⟩ := fits_addr hp hc hle
  refine ⟨?_, ?_, ?_⟩
  · rw [hsc, ← hs, Nat.mod_mod, hscnt, List.length_map]
  · rw [f1]; exact f2
  · rw [f1, hoff, List.flatMap_map]
    exact g3

/-- A value shifted left by `k` and or-ed with a value below `2^k`. -/
theorem shl_or (x a k : Nat) (ha : a < 2 ^ k) : (x <<< k) ||| a = 2 ^ k * x + a := by
  rw [Nat.shiftLeft_eq, Nat.mul_comm, Nat.mul_add_lt_is_or ha]

theorem shl_or_shr (x a k : Nat) (ha : a < 2 ^ k) : ((x <<< k) ||| a) >>> k = x := by
  rw [shl_or x a k ha, Nat.shiftRight_eq_div_pow, Nat.mul_add_div (by positivity),
    Nat.div_eq_of_lt ha, Nat.add_zero]

theorem shl_or_mod (x a k : Nat) (ha : a < 2 ^ k) : ((x <<< k) ||| a) % 2 ^ k = a := by
  rw [shl_or x a k ha, Nat.mul_add_mod, Nat.mod_eq_of_lt ha]

theorem shl_or_lt (x a k n : Nat) (ha : a < 2 ^ k) (hx : x < 2 ^ n) :
    (x <<< k) ||| a < 2 ^ (n + k) := by
  rw [shl_or x a k ha, pow_add]
  have h1 : 2 ^ k * x + a < 2 ^ k * (x + 1) := by rw [Nat.mul_add]; omega
  have h2 : 2 ^ k * (x + 1) ≤ 2 ^ k * 2 ^ n := Nat.mul_le_mul_left _ (by omega)
  calc 2 ^ k * x + a < 2 ^ k * (x + 1) := h1
    _ ≤ 2 ^ k * 2 ^ n := h2
    _ = 2 ^ n * 2 ^ k := Nat.mul_comm _ _

/-- The symbol index and type that `readRelocation` decodes from the `r_info`
word of a relocation whose fields fit the class. -/
theorem decodeRelocation_fields (e : Elf) (t sec : Nat) (rel : Relocation) (idx : Nat)
    (hidx : rel.symbolIndex = (idx : Int))
    (hi : idx < (if e.Class = ELFCLASS64 then 2 ^ 32 else 2 ^ 24))
    (hty : rel.Type_ < (if e.Class = ELFCLASS64 then 2 ^ 32 else 2 ^ 8)) :
    (e.decodeRelocation t sec rel).symbolIndex = (idx : Int) ∧
    (e.decodeRelocation t sec rel).Type_ = rel.Type_ := by
  unfold Elf.decodeRelocation Elf.relInfo
  rw [hidx, wrapU_natCast, wrapU_natCast]
  by_cases hc : e.Class = ELFCLASS64
  · simp only [if_pos hc] at hi hty ⊢
    have h1 : idx % 2 ^ 64 = idx := Nat.mod_eq_of_lt (by omega)
    have h2 : (idx <<< 32) % 2 ^ 64 = idx <<< 32 := by
      apply Nat.mod_eq_of_lt
      rw [Nat.shiftLeft_eq]
      calc idx * 2 ^ 32 < 2 ^ 32 * 2 ^ 32 := Nat.mul_lt_mul_of_pos_right hi (by positivity)
        _ = 2 ^ 64 := by norm_num
    have h3 : ((idx <<< 32) ||| rel.Type_) % 2 ^ 64 = (idx <<< 32) ||| rel.Type_ :=
      Nat.mod_eq_of_lt (shl_or_lt idx rel.Type_ 32 32 hty hi)
    rw [h1, h2, h3, shl_or_shr _ _ _ hty, shl_or_mod _ _ _ hty]
    exact ⟨rfl, rfl⟩
  · simp only [if_neg hc] at hi hty ⊢
    have h1 : idx % 2 ^ 32 = idx := Nat.mod_eq_of_lt (by omega)
    have h2 : (idx <<< 8) % 2 ^ 32 = idx <<< 8 := by
      apply Nat.mod_eq_of_lt
      rw [Nat.shiftLeft_eq]
      calc idx * 2 ^ 8 < 2 ^ 24 * 2 ^ 8 := Nat.mul_lt_mul_of_pos_right hi (by positivity)
        _ = 2 ^ 32 := by norm_num
    have h3 : ((idx <<< 8) ||| rel.Type_) % 2 ^ 32 = (idx <<< 8) ||| rel.Type_ :=
      Nat.mod_eq_of_lt (shl_or_lt idx rel.Type_ 8 24 hty hi)
    have h4 : ((idx <<< 8) ||| rel.Type_) &&& 0xFF = rel.Type_ := by
      have := Nat.and_pow_two_sub_one_eq_mod ((idx <<< 8) ||| rel.Type_) 8
      have h255 : (2 : Nat) ^ 8 - 1 = 0xFF := by norm_num
      rw [h255] at this
      rw [this, shl_or_mod _ _ _ hty]
    rw [h1, h2, h3, shl_or_shr _ _ _ hty, h4]
    exact ⟨rfl, rfl⟩

theorem indexOf_lt_of_mem {s : List Nat} {v : Nat} (h : v ∈ s) : s.indexOf v < s.length :=
  List.indexOf_lt_length.2 h

/-- The header of the relocation section `Write` creates for an entry of the
relocation map of an image within the limits. -/
theorem relSection_portable {e : Elf} {m : Mem} {r : WriteResult} (hp : e.Portable m r)
    (hlen : e.Sections.length ≤ 65500)
    {entry : Nat × List Relocation} (hen : entry ∈ e.Relocations) :
    (((e.writeTables m).1.relSection (e.Sections.length + 2) (e.writeTables m).2.2
        (e.writeTables m).2.1 entry).Type_ = SHT_RELA ∨
      ((e.writeTables m).1.relSection (e.Sections.length + 2) (e.writeTables m).2.2
        (e.writeTables m).2.1 entry).Type_ = SHT_REL) ∧
    ((e.writeTables m).1.relSection (e.Sections.length + 2) (e.writeTables m).2.2
        (e.writeTables m).2.1 entry).Link = e.Sections.length + 2 ∧
    ((e.writeTables m).1.relSection (e.Sections.length + 2) (e.writeTables m).2.2
        (e.writeTables m).2.1 entry).Info = e.Sections.indexOf entry.1 ∧
    e.Sections.indexOf entry.1 < e.Sections.length ∧
    ((e.writeTables m).1.relSection (e.Sections.length + 2) (e.writeTables m).2.2
        (e.writeTables m).2.1 entry).EntrySize
      = e.sizeRelocation ((e.writeTables m).1.relSection (e.Sections.length + 2)
          (e.writeTables m).2.2 (e.writeTables m).2.1 entry).Type_ ∧
    ((e.writeTables m).1.relSection (e.Sections.length + 2) (e.writeTables m).2.2
        (e.writeTables m).2.1 entry).Data
      = (refreshRelocations (sortSymbols m e.Symbols) entry.2).flatMap
          (e.writeRelocation ((e.writeTables m).1.relSection (e.Sections.length + 2)
            (e.writeTables m).2.2 (e.writeTables m).2.1 entry).Type_) := by
  obtain ⟨-, f2, f3, f4, f5, f6⟩ := relSection_fields (e.writeTables m).1 (e.Sections.length + 2)
    (e.writeTables m).2.2 (e.writeTables m).2.1 entry
  have hkey := hp.keys entry hen
  have hlive := hp.live_sections _ hkey
  have hidx := indexOf_lt_of_mem hkey
  refine ⟨?_, ?_, ?_, hidx, ?_, ?_⟩
  · rw [f2]
    by_cases hany : (entry.2.any fun rel => decide (rel.Addend ≠ 0)) = true
    · rw [if_pos hany]; exact Or.inl rfl
    · rw [if_neg hany]; exact Or.inr rfl
  · rw [f5]; exact Nat.mod_eq_of_lt (by omega)
  · rw [f4, writeTables_sections, slicesIndex_append (by simp; omega), slicesIndex_of_mem hkey,
      wrapU_natCast]
    exact Nat.mod_eq_of_lt (by omega)
  · rw [f3]; rfl
  · rw [f6, writeTables_symbols]
    rfl

theorem Write_layout_links {e : Elf} {m : Mem} {r : WriteResult}
    (hw : e.Write m = .ok r) (hp : e.Portable m r) :
    ∀ h ∈ r.sections.map r.mem.sec,
      ((r.elf.readBack h).Link < SHN_LORESERVE →
        (r.elf.readBack h).Link < (r.sections.map r.mem.sec).length) ∧
      ((r.elf.readBack h).Info < SHN_LORESERVE → HasSectionInInfo (r.elf.readBack h).Type_ →
        (r.elf.readBack h).Info < (r.sections.map r.mem.sec).length) := by
  obtain ⟨hlen, a, b, -, -, hm, -⟩ := Write_normal hw
  have hN := Write_sections_length hw hp
  intro h hh
  obtain ⟨p, hps, rfl⟩ := mem_map_sec hh
  rw [List.length_map, hN]
  show ((r.mem.sec p).Link % 2 ^ 32 < SHN_LORESERVE → (r.mem.sec p).Link % 2 ^ 32 < _) ∧
    ((r.mem.sec p).Info % 2 ^ 32 < SHN_LORESERVE →
      HasSectionInInfo ((r.mem.sec p).Type_ % 2 ^ 32) → (r.mem.sec p).Info % 2 ^ 32 < _)
  rcases Write_sec_cases hp (Write_sections hw hp) hm p hps with ⟨h, o, sz, off, hr⟩ |
    ⟨-, o, sz, off, hr⟩ | ⟨-, o, sz, off, hr⟩ | ⟨-, o, inf, sz, off, hr⟩ |
    ⟨i, entry, hi, -, o, sz, off, hr⟩
  · obtain ⟨t1, t2, t3⟩ := hp.typed_sections p h
    obtain ⟨n1, n2⟩ := hp.no_rel_sections p h
    rw [hr]
    simp only
    rw [Nat.mod_eq_of_lt t1, Nat.mod_eq_of_lt t2]
    refine ⟨fun hl => ?_, fun _ hI => ?_⟩
    · have := hp.links p h hl
      rw [hN] at this; exact this
    · unfold HasSectionInInfo at hI
      simp only [Bool.or_eq_true, beq_iff_eq] at hI
      rcases hI with hI | hI
      · exact absurd hI n1
      · exact absurd hI n2
  · rw [hr]
    refine ⟨fun _ => ?_, fun _ hI => ?_⟩
    · show (0 : Nat) % 2 ^ 32 < _
      simp
    · exact absurd hI (by show ¬ HasSectionInInfo (SHT_STRTAB % 2 ^ 32) = true; decide)
  · rw [hr]
    refine ⟨fun _ => ?_, fun _ hI => ?_⟩
    · show (0 : Nat) % 2 ^ 32 < _
      simp
    · exact absurd hI (by show ¬ HasSectionInInfo (SHT_STRTAB % 2 ^ 32) = true; decide)
  · rw [hr]
    refine ⟨fun _ => ?_, fun _ hI => ?_⟩
    · show (e.Sections.length + 1) % 2 ^ 32 % 2 ^ 32 < _
      rw [Nat.mod_mod, Nat.mod_eq_of_lt (by omega)]; omega
    · exact absurd hI (by show ¬ HasSectionInInfo (SHT_SYMTAB % 2 ^ 32) = true; decide)
  · obtain ⟨g1, g2, g3, g4, -, -⟩ := relSection_portable hp hlen (List.mem_iff_getElem?.2 ⟨i, hi⟩)
    rw [hr]
    simp only
    rw [g2, g3, Nat.mod_eq_of_lt (by omega), Nat.mod_eq_of_lt (by omega)]
    exact ⟨fun _ => by omega, fun _ _ => by omega⟩

theorem Write_mem_shstrtab {e : Elf} {m : Mem} {r : WriteResult}
    (hw : e.Write m = .ok r) (hp : e.Portable m r) :
    m.secs.length ∈ r.sections ∧ m.secs.length + 1 ∈ r.sections ∧
    m.secs.length + 2 ∈ r.sections := by
  rw [Write_sections hw hp]
  simp

/-- The payloads of the two string tables, as the final records hold them. -/
theorem Write_string_data {e : Elf} {m : Mem} {r : WriteResult} {a b : List Nat}
    (hw : e.Write m = .ok r) (hp : e.Portable m r)
    (hm : r.mem = (layoutSectionData (e.writeRels m).sections (e.writeFilled m a b)
      (e.dataBase m)).1) :
    (r.mem.sec m.secs.length).Data = a ∧ (r.mem.sec m.secs.length).Type_ = SHT_STRTAB ∧
    (r.mem.sec (m.secs.length + 1)).Data = b ∧
    (r.mem.sec (m.secs.length + 1)).Type_ = SHT_STRTAB ∧
    a.length < 2 ^ 32 - 1 ∧ b.length < 2 ^ 32 - 1 := by
  obtain ⟨m0, m1, m2⟩ := Write_mem_shstrtab hw hp
  have hs := Write_sections hw hp
  have ha : (r.mem.sec m.secs.length).Data = a ∧ (r.mem.sec m.secs.length).Type_ = SHT_STRTAB := by
    rcases Write_sec_cases hp hs hm _ m0 with ⟨h, -⟩ | ⟨-, o, sz, off, hr⟩ |
      ⟨h, -⟩ | ⟨h, -⟩ | ⟨i, entry, -, h, -⟩
    · have := hp.live_sections _ h; omega
    · rw [hr]; exact ⟨rfl, rfl⟩
    · omega
    · omega
    · omega
  have hb : (r.mem.sec (m.secs.length + 1)).Data = b
      ∧ (r.mem.sec (m.secs.length + 1)).Type_ = SHT_STRTAB := by
    rcases Write_sec_cases hp hs hm _ m1 with ⟨h, -⟩ | ⟨h, -⟩ | ⟨-, o, sz, off, hr⟩ |
      ⟨h, -⟩ | ⟨i, entry, -, h, -⟩
    · have := hp.live_sections _ h; omega
    · omega
    · rw [hr]; exact ⟨rfl, rfl⟩
    · omega
    · omega
  refine ⟨ha.1, ha.2, hb.1, hb.2, ?_, ?_⟩
  · rw [← ha.1]; exact hp.payloads _ m0
  · rw [← hb.1]; exact hp.payloads _ m1

theorem getElem?_map_sec {r : WriteResult} {j p : Nat} (h : r.sections[j]? = some p) :
    (r.sections.map r.mem.sec)[j]? = some (r.mem.sec p) := by
  rw [List.getElem?_map, h]; rfl

theorem Write_layout_names {e : Elf} {m : Mem} {r : WriteResult}
    (hw : e.Write m = .ok r) (hp : e.Portable m r) :
    r.elf.secHdrStrIdx % 2 ^ 16 ≠ SHN_XINDEX ∧
    (r.elf.secHdrStrIdx % 2 ^ 16 ≠ SHN_UNDEF →
      ∃ t, (r.sections.map r.mem.sec)[r.elf.secHdrStrIdx % 2 ^ 16]? = some t ∧
        ∀ h ∈ r.sections.map r.mem.sec,
          Holds r.bytes ((r.elf.readBack t).offset + (r.elf.readBack h).nameOffset)
            (h.Name ++ [0]) ∧
          (r.elf.readBack t).offset + (r.elf.readBack h).nameOffset < 2 ^ 63) := by
  obtain ⟨hlen, a, b, ha, hb, hm, hs, -, hc, -, -, hstr, -⟩ := Write_normal hw
  obtain ⟨d1, d2, d3, d4, d5, d6⟩ := Write_string_data hw hp hm
  obtain ⟨w1, e1, -⟩ := Write_tables hw hp ha hb d5 d6
  obtain ⟨m0, -, -⟩ := Write_mem_shstrtab hw hp
  have hidx : r.elf.secHdrStrIdx % 2 ^ 16 = e.Sections.length := by
    rw [hstr, Nat.mod_mod, Nat.mod_eq_of_lt (by omega)]
  rw [hidx]
  refine ⟨by unfold SHN_XINDEX; omega, fun _ => ?_⟩
  have hget : r.sections[e.Sections.length]? = some m.secs.length := by
    rw [Write_sections_get hw hp, if_neg (by omega), if_pos (by omega)]
    simp
  refine ⟨r.mem.sec m.secs.length, getElem?_map_sec hget, ?_⟩
  obtain ⟨-, p2, p3⟩ := Write_payload hw hp hm _ m0 (by rw [d2]; decide)
  rw [d1] at p2 p3
  obtain ⟨f1, f2⟩ := fits_addr hp hc (x := (r.mem.sec m.secs.length).offset) (by omega)
  intro h hh
  obtain ⟨p, hps, rfl⟩ := mem_map_sec hh
  have hlook := Write_names hp hm p (by rw [← hs]; exact hps) (Write_sections_live hw hp p hps)
  have hh1 := holds_of_WF w1 hlook
  rw [← e1] at hh1
  have hb1 := hh1.bound (by simp)
  simp only [List.length_append, List.length_singleton] at hb1
  show Holds r.bytes ((r.mem.sec m.secs.length).offset % 2 ^ r.elf.addrBits
      + (r.mem.sec p).nameOffset % 2 ^ 32) _ ∧ _ % 2 ^ r.elf.addrBits + _ % 2 ^ 32 < 2 ^ 63
  rw [f1, Nat.mod_eq_of_lt (by omega)]
  have hh2 := p2.trans hh1
  have hb2 := hh2.bound (by simp)
  simp only [List.length_append, List.length_singleton] at hb2
  refine ⟨hh2, ?_⟩
  have := (fits_addr hp hc (x := (r.mem.sec m.secs.length).offset + (r.mem.sec p).nameOffset)
    (by omega)).2
  exact this

theorem scanIdx_none (t : Nat) : ∀ (l : List SectionHeader) (i : Nat) (cur : Int),
    (∀ x ∈ l, x.Type_ % 2 ^ 32 ≠ t) → scanIdx t l i cur = cur
  | [], _, _, _ => rfl
  | h :: l, i, cur, hne => by
    rw [scanIdx, if_neg (hne h (List.mem_cons_self _ _)),
      scanIdx_none t l _ _ (fun x hx => hne x (List.mem_cons_of_mem _ hx))]

theorem scanIdx_last (t : Nat) (h : SectionHeader) (l2 : List SectionHeader)
    (ht : h.Type_ % 2 ^ 32 = t) (hne : ∀ x ∈ l2, x.Type_ % 2 ^ 32 ≠ t) :
    ∀ (l1 : List SectionHeader) (i : Nat) (cur : Int),
      scanIdx t (l1 ++ h :: l2) i cur = ((i + l1.length : Nat) : Int)
  | [], i, cur => by
    rw [List.nil_append, scanIdx, if_pos ht, scanIdx_none t l2 _ _ hne]; simp
  | x :: l1, i, cur => by
    rw [List.cons_append, scanIdx, scanIdx_last t h l2 ht hne l1, List.length_cons]
    congr 1; omega

theorem slicesIndex_sections {e : Elf} {m : Mem} {r : WriteResult}
    (hw : e.Write m = .ok r) (hp : e.Portable m r) {p : Nat} (h : p ∈ e.Sections) :
    slicesIndex r.sections p = (e.Sections.indexOf p : Int) ∧
    e.Sections.indexOf p < e.Sections.length := by
  have hlive := hp.live_sections p h
  rw [Write_sections hw hp, List.append_assoc,
    slicesIndex_append (by
      simp only [List.mem_append, List.mem_cons, List.mem_singleton, List.mem_map,
        List.mem_range, List.not_mem_nil, or_false, not_or, not_exists, not_and]
      refine ⟨⟨by omega, by omega, by omega⟩, fun i _ => by omega⟩),
    slicesIndex_of_mem h]
  exact ⟨rfl, indexOf_lt_of_mem h⟩

theorem emittedSymbols_length (e : Elf) (m : Mem) :
    (e.emittedSymbols m).length = e.Symbols.length := by
  unfold Elf.emittedSymbols
  rw [List.length_map, length_sortSymbols]

theorem Write_symbolAt {e : Elf} {m : Mem} {r : WriteResult}
    (hw : e.Write m = .ok r) (hp : e.Portable m r) :
    ∀ y ∈ e.emittedSymbols m,
      (r.elf.reading (r.sections.map r.mem.sec).length (e.emittedSymbols m).length).SymbolAt
        r.bytes (r.elf.readBack (r.mem.sec (m.secs.length + 1))).offset y := by
  obtain ⟨hlen, a, b, ha, hb, hm, hs, -, hc, -⟩ := Write_normal hw
  obtain ⟨d1, d2, d3, d4, d5, d6⟩ := Write_string_data hw hp hm
  obtain ⟨-, -, w2, e2, -, hnames⟩ := Write_tables hw hp ha hb d5 d6
  obtain ⟨-, m1, -⟩ := Write_mem_shstrtab hw hp
  have hN := Write_sections_length hw hp
  obtain ⟨-, p2, p3⟩ := Write_payload hw hp hm _ m1 (by rw [d4]; decide)
  rw [d3] at p2 p3
  obtain ⟨f1, f2⟩ := fits_addr hp hc (x := (r.mem.sec (m.secs.length + 1)).offset) (by omega)
  intro y hy
  unfold Elf.emittedSymbols at hy
  obtain ⟨q, hq, rfl⟩ := List.mem_map.1 hy
  have hqe : q ∈ e.Symbols := (mem_sortSymbols m e.Symbols q).1 hq
  obtain ⟨o, ho⟩ := hnames q hqe
  have hh1 := holds_of_WF w2 ho
  rw [← e2] at hh1
  have hb1 := hh1.bound (by simp)
  simp only [List.length_append, List.length_singleton] at hb1
  have hh2 := p2.trans hh1
  have hb2 := hh2.bound (by simp)
  simp only [List.length_append, List.length_singleton] at hb2
  have hoff : (emitSymbol (e.writeSyms m).table (e.writeRels m).sections (m.sym q)).nameOffset
      = o := offsetOf_of_lookup ho
  have hname : (emitSymbol (e.writeSyms m).table (e.writeRels m).sections (m.sym q)).Name
      = (m.sym q).Name := rfl
  have hsi : ∃ si, (emitSymbol (e.writeSyms m).table (e.writeRels m).sections
      (m.sym q)).SectionIndex = si ∧ si < SHN_XINDEX ∧
      (si < SHN_LORESERVE → si < r.sections.length) := by
    obtain ⟨s1, s2⟩ := hp.sym_sections q hqe
    unfold emitSymbol symStep
    cases hsec : (m.sym q).Section with
    | none =>
      obtain ⟨t1, t2⟩ := s1 hsec
      exact ⟨_, rfl, t1, t2⟩
    | some p =>
      obtain ⟨i1, i2⟩ := slicesIndex_sections hw hp (s2 p hsec)
      refine ⟨_, rfl, ?_, fun _ => ?_⟩
      · simp only
        rw [← hs, i1, wrapU_natCast, Nat.mod_eq_of_lt (by omega)]
        unfold SHN_XINDEX; omega
      · simp only
        rw [← hs, i1, wrapU_natCast, Nat.mod_eq_of_lt (by omega), hN]
        omega
  obtain ⟨si, hsi1, hsi2, hsi3⟩ := hsi
  unfold Elf.SymbolAt Elf.decodeSymbol
  simp only
  show Holds r.bytes ((r.mem.sec (m.secs.length + 1)).offset % 2 ^ r.elf.addrBits + _) _ ∧
    (r.mem.sec (m.secs.length + 1)).offset % 2 ^ r.elf.addrBits + _ < 2 ^ 63 ∧ _ ∧ _
  rw [f1, hoff, hname, hsi1, Nat.mod_eq_of_lt (a := o) (by omega),
    Nat.mod_eq_of_lt (a := si) (by unfold SHN_XINDEX at hsi2; omega)]
  refine ⟨hh2, (fits_addr hp hc (x := _ + o) (by omega)).2, by omega, fun h1 _ => ?_⟩
  refine ⟨si, ?_⟩
  unfold Elf.reading
  simp only
  rw [List.length_map]
  exact getElem?_range_some (hsi3 h1)

theorem Write_scan_symtab {e : Elf} {m : Mem} {r : WriteResult}
    (hw : e.Write m = .ok r) (hp : e.Portable m r) :
    scanIdx SHT_SYMTAB (r.sections.map r.mem.sec) 0 0 = ((e.Sections.length + 2 : Nat) : Int) := by
  obtain ⟨hlen, a, b, -, -, hm, -⟩ := Write_normal hw
  have hs := Write_sections hw hp
  have hsplit : r.sections.map r.mem.sec
      = (e.Sections ++ [m.secs.length, m.secs.length + 1]).map r.mem.sec
        ++ r.mem.sec (m.secs.length + 2)
          :: ((List.range e.Relocations.length).map (m.secs.length + 3 + ·)).map r.mem.sec := by
    rw [hs]; simp
  obtain ⟨-, -, m2⟩ := Write_mem_shstrtab hw hp
  have hty : (r.mem.sec (m.secs.length + 2)).Type_ % 2 ^ 32 = SHT_SYMTAB := by
    rcases Write_sec_cases hp hs hm _ m2 with ⟨h, -⟩ | ⟨h, -⟩ | ⟨h, -⟩ |
      ⟨-, o, inf, sz, off, hr⟩ | ⟨i, entry, -, h, -⟩
    · have := hp.live_sections _ h; omega
    · omega
    · omega
    · rw [hr]; rfl
    · omega
  have hne : ∀ x ∈ ((List.range e.Relocations.length).map (m.secs.length + 3 + ·)).map r.mem.sec,
      x.Type_ % 2 ^ 32 ≠ SHT_SYMTAB := by
    intro x hx
    simp only [List.mem_map, List.mem_range, exists_exists_and_eq_and] at hx
    obtain ⟨i, hi, rfl⟩ := hx
    have hmem : m.secs.length + 3 + i ∈ r.sections := by
      rw [hs]; simp only [List.mem_append, List.mem_map, List.mem_range]
      exact Or.inr ⟨i, hi, rfl⟩
    rcases Write_sec_cases hp hs hm _ hmem with ⟨h, -⟩ | ⟨h, -⟩ | ⟨h, -⟩ | ⟨h, -⟩ |
      ⟨i', entry, hi', h, o, sz, off, hr⟩
    · have := hp.live_sections _ h; omega
    · omega
    · omega
    · omega
    · obtain ⟨g1, -⟩ := relSection_portable hp hlen (List.mem_iff_getElem?.2 ⟨i', hi'⟩)
      rw [hr]
      simp only
      rcases g1 with g | g <;> rw [g] <;> decide
  rw [hsplit, scanIdx_last SHT_SYMTAB _ _ hty hne]
  simp

theorem Write_layout_symtab {e : Elf} {m : Mem} {r : WriteResult}
    (hw : e.Write m = .ok r) (hp : e.Portable m r) :
    ∃ (ix : Nat) (st strh : SectionHeader),
      scanIdx SHT_SYMTAB (r.sections.map r.mem.sec) 0 0 = (ix : Int) ∧ 0 < ix ∧
      (r.sections.map r.mem.sec)[ix]? = some st ∧
      (r.elf.readBack st).EntrySize ≠ 0 ∧
      (r.elf.readBack st).Size / (r.elf.readBack st).EntrySize = (e.emittedSymbols m).length ∧
      (r.elf.readBack st).offset < 2 ^ 63 ∧
      Holds r.bytes (r.elf.readBack st).offset ((e.emittedSymbols m).flatMap r.elf.writeSymbol) ∧
      (r.sections.map r.mem.sec)[(r.elf.readBack st).Link]? = some strh ∧
      ∀ y ∈ e.emittedSymbols m,
        (r.elf.reading (r.sections.map r.mem.sec).length (e.emittedSymbols m).length).SymbolAt
          r.bytes (r.elf.readBack strh).offset y := by
  obtain ⟨hlen, a, b, ha, hb, hm, hs, -, hc, -⟩ := Write_normal hw
  obtain ⟨d1, d2, d3, d4, d5, d6⟩ := Write_string_data hw hp hm
  obtain ⟨-, -, -, -, hbuf, -⟩ := Write_tables hw hp ha hb d5 d6
  obtain ⟨-, -, m2⟩ := Write_mem_shstrtab hw hp
  have hS := Write_sections hw hp
  -- the record of `.symtab`
  have hrec : ∃ o inf sz off,
      r.mem.sec (m.secs.length + 2) = { (default : SectionHeader) with
        Name := nameSymtab, Type_ := SHT_SYMTAB, EntrySize := e.sizeSymbol % 2 ^ 32,
        Link := (e.Sections.length + 1) % 2 ^ 32, nameOffset := o, Info := inf,
        Data := (e.writeSyms m).buffer, Size := sz, offset := off } := by
    rcases Write_sec_cases hp hS hm _ m2 with ⟨h, -⟩ | ⟨h, -⟩ | ⟨h, -⟩ |
      ⟨-, hr⟩ | ⟨i, entry, -, h, -⟩
    · have := hp.live_sections _ h; omega
    · omega
    · omega
    · exact hr
    · omega
  obtain ⟨o, inf, sz, off, hr⟩ := hrec
  have hT : (r.mem.sec (m.secs.length + 2)).Type_ = SHT_SYMTAB := by rw [hr]
  have hE : (r.mem.sec (m.secs.length + 2)).EntrySize = e.sizeSymbol := by
    rw [hr]
    show e.sizeSymbol % 2 ^ 32 = e.sizeSymbol
    unfold Elf.sizeSymbol; split_ifs <;> rfl
  have hL : (r.mem.sec (m.secs.length + 2)).Link = e.Sections.length + 1 := by
    rw [hr]
    show (e.Sections.length + 1) % 2 ^ 32 = _
    exact Nat.mod_eq_of_lt (by omega)
  have hD : (r.mem.sec (m.secs.length + 2)).Data
      = (e.emittedSymbols m).flatMap r.elf.writeSymbol := by
    rw [hr]; exact hbuf
  obtain ⟨p1, p2, p3⟩ := Write_payload hw hp hm _ m2 (by rw [hT]; decide)
  have hDl : (r.mem.sec (m.secs.length + 2)).Data.length
      = (e.emittedSymbols m).length * e.sizeSymbol := by
    rw [hD, flatMap_length_const _ _ (writeSymbol_length r.elf), sizeSymbol_congr hc]
  have hpl := hp.payloads _ m2
  obtain ⟨f1, f2⟩ := fits_addr hp hc (x := (r.mem.sec (m.secs.length + 2)).offset) (by omega)
  have hszpos : 0 < e.sizeSymbol := sizeSymbol_pos e
  have hszlt : e.sizeSymbol < 2 ^ 32 := by unfold Elf.sizeSymbol; split_ifs <;> omega
  have hg2 : r.sections[e.Sections.length + 2]? = some (m.secs.length + 2) := by
    rw [Write_sections_get hw hp, if_neg (by omega), if_pos (by omega)]
    congr 1; omega
  have hg1 : r.sections[e.Sections.length + 1]? = some (m.secs.length + 1) := by
    rw [Write_sections_get hw hp, if_neg (by omega), if_pos (by omega)]
    congr 1; omega
  refine ⟨e.Sections.length + 2, r.mem.sec (m.secs.length + 2), r.mem.sec (m.secs.length + 1),
    Write_scan_symtab hw hp, by omega, getElem?_map_sec hg2, ?_, ?_, ?_, ?_, ?_,
    Write_symbolAt hw hp⟩
  · show (r.mem.sec (m.secs.length + 2)).EntrySize % 2 ^ 32 ≠ 0
    rw [hE, Nat.mod_eq_of_lt hszlt]; omega
  · show (r.mem.sec (m.secs.length + 2)).Size % 2 ^ 32
      / ((r.mem.sec (m.secs.length + 2)).EntrySize % 2 ^ 32) = _
    rw [hE, p1, Nat.mod_eq_of_lt hszlt, Nat.mod_eq_of_lt (by omega), hDl,
      Nat.mul_div_cancel _ hszpos]
  · show (r.mem.sec (m.secs.length + 2)).offset % 2 ^ r.elf.addrBits < 2 ^ 63
    rw [f1]; exact f2
  · show Holds r.bytes ((r.mem.sec (m.secs.length + 2)).offset % 2 ^ r.elf.addrBits) _
    rw [f1, ← hD]; exact p2
  · show (r.sections.map r.mem.sec)[(r.mem.sec (m.secs.length + 2)).Link % 2 ^ 32]? = _
    rw [hL, Nat.mod_eq_of_lt (by omega)]
    exact getElem?_map_sec hg1

theorem mem_refreshRelocations {symbols : List Nat} {rels : List Relocation} {rel : Relocation}
    (h : rel ∈ refreshRelocations symbols rels) :
    ∃ rel0 ∈ rels, rel = (match rel0.Symbol with
      | some q => { rel0 with symbolIndex := slicesIndex symbols q }
      | none => rel0) := by
  unfold refreshRelocations at h
  obtain ⟨rel0, h0, rfl⟩ := List.mem_map.1 h
  exact ⟨rel0, h0, rfl⟩

theorem Write_symbol_count {e : Elf} {m : Mem} {r : WriteResult}
    (hw : e.Write m = .ok r) (hp : e.Portable m r) :
    e.Symbols.length < (if r.elf.Class = ELFCLASS64 then 2 ^ 32 else 2 ^ 24) := by
  obtain ⟨hlen, a, b, ha, hb, hm, hs, -, hc, -⟩ := Write_normal hw
  obtain ⟨d1, d2, d3, d4, d5, d6⟩ := Write_string_data hw hp hm
  obtain ⟨-, -, -, -, hbuf, -⟩ := Write_tables hw hp ha hb d5 d6
  obtain ⟨-, -, m2⟩ := Write_mem_shstrtab hw hp
  have hS := Write_sections hw hp
  rw [hc]
  by_cases h64 : e.Class = ELFCLASS64
  · rw [if_pos h64]
    have hD : (r.mem.sec (m.secs.length + 2)).Data.length
        = (e.emittedSymbols m).length * e.sizeSymbol := by
      rcases Write_sec_cases hp hS hm _ m2 with ⟨h, -⟩ | ⟨h, -⟩ | ⟨h, -⟩ |
        ⟨-, o, inf, sz, off, hr⟩ | ⟨i, entry, -, h, -⟩
      · have := hp.live_sections _ h; omega
      · omega
      · omega
      · rw [hr]
        show (e.writeSyms m).buffer.length = _
        rw [hbuf, flatMap_length_const _ _ (writeSymbol_length r.elf), sizeSymbol_congr hc]
      · omega
    have hpl := hp.payloads _ m2
    rw [hD, emittedSymbols_length] at hpl
    have hpos := sizeSymbol_pos e
    have : e.Symbols.length ≤ e.Symbols.length * e.sizeSymbol := Nat.le_mul_of_pos_right _ hpos
    omega
  · rw [if_neg h64]
    rcases hp.class_ok with h | h
    · exact hp.sym_count h
    · exact absurd h h64

theorem Write_layout_rels {e : Elf} {m : Mem} {r : WriteResult}
    (hw : e.Write m = .ok r) (hp : e.Portable m r) :
    ∀ j h, (r.sections.map r.mem.sec)[j]? = some h →
      ((r.elf.readBack h).Type_ = SHT_REL ∨ (r.elf.readBack h).Type_ = SHT_RELA) →
      (r.elf.reading (r.sections.map r.mem.sec).length (e.emittedSymbols m).length).RelSectionAt
        r.bytes (r.elf.readBack h) (e.emittedRelocations m j) := by
  intro j h hj ht
  obtain ⟨hlen, a, b, ha, hb, hm, hs, -, hc, hn, -⟩ := Write_normal hw
  have hS := Write_sections hw hp
  have hN := Write_sections_length hw hp
  rw [List.getElem?_map] at hj
  obtain ⟨p, hjp, rfl⟩ := Option.map_eq_some'.1 hj
  have hpm : p ∈ r.sections := List.mem_iff_getElem?.2 ⟨j, hjp⟩
  have hty : (r.elf.readBack (r.mem.sec p)).Type_ = (r.mem.sec p).Type_ := by
    show (r.mem.sec p).Type_ % 2 ^ 32 = _
    exact Nat.mod_eq_of_lt (Write_type_lt hp hS hm p hpm)
  rw [hty] at ht
  have hget := Write_sections_get hw hp j
  rw [hjp] at hget
  rcases Write_sec_cases hp hS hm p hpm with ⟨h1, o, sz, off, hr⟩ | ⟨h1, o, sz, off, hr⟩ |
    ⟨h1, o, sz, off, hr⟩ | ⟨h1, o, inf, sz, off, hr⟩ | ⟨i, entry, hi, h1, o, sz, off, hr⟩
  · exfalso
    have h2 := hp.no_rel_sections p h1
    rw [hr] at ht
    exact ht.elim h2.1 h2.2
  · exfalso; rw [hr] at ht
    have h2 : SHT_STRTAB = SHT_REL ∨ SHT_STRTAB = SHT_RELA := ht
    revert h2; decide
  · exfalso; rw [hr] at ht
    have h2 : SHT_STRTAB = SHT_REL ∨ SHT_STRTAB = SHT_RELA := ht
    revert h2; decide
  · exfalso; rw [hr] at ht
    have h2 : SHT_SYMTAB = SHT_REL ∨ SHT_SYMTAB = SHT_RELA := ht
    revert h2; decide
  · have hen : entry ∈ e.Relocations := List.mem_iff_getElem?.2 ⟨i, hi⟩
    have hilt : i < e.Relocations.length := (List.getElem?_eq_some.1 hi).1
    obtain ⟨g1, g2, g3, g4, g5, g6⟩ := relSection_portable hp hlen hen
    have hjv : j = e.Sections.length + 3 + i := by
      by_cases hj1 : j < e.Sections.length
      · rw [if_pos hj1] at hget
        have := hp.live_sections p (List.mem_iff_getElem?.2 ⟨j, hget.symm⟩)
        omega
      · rw [if_neg hj1] at hget
        by_cases hj2 : j < e.Sections.length + 3 + e.Relocations.length
        · rw [if_pos hj2] at hget
          have := Option.some.inj hget
          omega
        · rw [if_neg hj2] at hget; cases hget
    have hL : e.emittedRelocations m j = refreshRelocations (sortSymbols m e.Symbols) entry.2 := by
      unfold Elf.emittedRelocations
      rw [if_neg (by omega)]
      have : j - (e.Sections.length + 3) = i := by omega
      rw [this, hi]
    obtain ⟨rs, hrs⟩ : ∃ rs : SectionHeader, rs = (e.writeTables m).1.relSection
      (e.Sections.length + 2) (e.writeTables m).2.2 (e.writeTables m).2.1 entry := ⟨_, rfl⟩
    rw [← hrs] at hr g1 g2 g3 g5 g6
    have hT : (r.mem.sec p).Type_ = rs.Type_ := by rw [hr]
    have hI : (r.mem.sec p).Info = e.Sections.indexOf entry.1 := by rw [hr]; exact g3
    have hE : (r.mem.sec p).EntrySize = e.sizeRelocation rs.Type_ := by rw [hr]; exact g5
    have hD : (r.mem.sec p).Data
        = (e.emittedRelocations m j).flatMap (e.writeRelocation rs.Type_) := by
      rw [hr, hL]; exact g6
    have hdf : HasDataInFile (r.mem.sec p).Type_ := by
      rw [hT]; rcases g1 with g | g <;> rw [g] <;> decide
    obtain ⟨p1, p2, p3⟩ := Write_payload hw hp hm p hpm hdf
    have hDl : (r.mem.sec p).Data.length
        = (e.emittedRelocations m j).length * e.sizeRelocation rs.Type_ := by
      rw [hD, flatMap_length_const _ _ (writeRelocation_length e rs.Type_)]
    have hpl := hp.payloads p hpm
    obtain ⟨f1, f2⟩ := fits_addr hp hc (x := (r.mem.sec p).offset) (by omega)
    have hszpos : 0 < e.sizeRelocation rs.Type_ := sizeRelocation_pos e _
    have hszlt : e.sizeRelocation rs.Type_ < 2 ^ 32 := by
      unfold Elf.sizeRelocation; split_ifs <;> omega
    have hK := Write_symbol_count hw hp
    have hwr : (r.elf.reading (r.sections.map r.mem.sec).length
        (e.emittedSymbols m).length).writeRelocation = e.writeRelocation :=
      @writeRelocation_congr2 e
        (r.elf.reading (r.sections.map r.mem.sec).length (e.emittedSymbols m).length) hc hn
    refine ⟨⟨e.Sections.indexOf entry.1, ?_⟩, ?_, ?_, ?_, ?_, ?_⟩
    · show (List.range (r.sections.map r.mem.sec).length)[(r.mem.sec p).Info % 2 ^ 32]? = _
      rw [hI, Nat.mod_eq_of_lt (by omega)]
      exact getElem?_range_some (by rw [List.length_map, hN]; omega)
    · show (r.mem.sec p).EntrySize % 2 ^ 32 ≠ 0
      rw [hE, Nat.mod_eq_of_lt hszlt]; omega
    · show (r.mem.sec p).Size % 2 ^ 32 / ((r.mem.sec p).EntrySize % 2 ^ 32) = _
      rw [hE, p1, Nat.mod_eq_of_lt hszlt, Nat.mod_eq_of_lt (by omega), hDl,
        Nat.mul_div_cancel _ hszpos]
    · show (r.mem.sec p).offset % 2 ^ r.elf.addrBits < 2 ^ 63
      rw [f1]; exact f2
    · show Holds r.bytes ((r.mem.sec p).offset % 2 ^ r.elf.addrBits) _
      rw [f1, hty, hwr, hT, ← hD]; exact p2
    · intro rel hrel sec
      rw [hL] at hrel
      obtain ⟨rel0, h0, hrel0⟩ := mem_refreshRelocations hrel
      obtain ⟨q, hqs, hq⟩ := hp.rel_symbols entry hen rel0 h0
      rw [hq] at hrel0
      have hqs2 : q ∈ sortSymbols m e.Symbols := (mem_sortSymbols m e.Symbols q).2 hqs
      have hidx : rel.symbolIndex = (((sortSymbols m e.Symbols).indexOf q : Nat) : Int) := by
        rw [hrel0]; exact slicesIndex_of_mem hqs2
      have hilt2 : (sortSymbols m e.Symbols).indexOf q < e.Symbols.length := by
        rw [← length_sortSymbols m]; exact indexOf_lt_of_mem hqs2
      have hrt : rel.Type_ = rel0.Type_ := by rw [hrel0]
      have hrty := hp.rel_types entry hen rel0 h0
      rw [← hc, ← hrt] at hrty
      obtain ⟨k1, -⟩ := decodeRelocation_fields
        (r.elf.reading (r.sections.map r.mem.sec).length (e.emittedSymbols m).length)
        (r.elf.readBack (r.mem.sec p)).Type_ sec rel _ hidx (by
          show _ < (if r.elf.Class = ELFCLASS64 then 2 ^ 32 else 2 ^ 24)
          omega) hrty
      rw [k1]
      refine ⟨(sortSymbols m e.Symbols).indexOf q, ?_⟩
      show (List.range (e.emittedSymbols m).length)[_]? = _
      rw [Int.toNat_ofNat]
      exact getElem?_range_some (by rw [emittedSymbols_length]; exact hilt2)

/-- The bytes `Write` produces for an image within the limits are laid out as
`ReadELF` expects them. -/
theorem Write_layout {e : Elf} {m : Mem} {r : WriteResult}
    (hw : e.Write m = .ok r) (hp : e.Portable m r) :
    r.elf.Layout r.bytes (r.sections.map r.mem.sec) (e.emittedSymbols m)
      (e.emittedRelocations m) := by
  obtain ⟨-, a, b, -, -, -, -, -, hc, hn, -⟩ := Write_normal hw
  obtain ⟨p1, p2, p3, p4⟩ := Write_layout_ph hw hp
  obtain ⟨s1, s2, s3⟩ := Write_layout_sh hw hp
  obtain ⟨n1, n2⟩ := Write_layout_names hw hp
  exact
    { class_ok := by rw [hc]; exact hp.class_ok
      endian_ok := by rw [hn]; exact hp.endian_ok
      header := (Write_holds hw hp).1
      ph_count := p1
      ph_off := p2
      ph_recs := p3
      ph_spans := p4
      sh_count := s1
      sh_off := s2
      sh_recs := s3
      sh_payload := Write_layout_sh_payload hw hp
      links := Write_layout_links hw hp
      str_idx := n1
      names := n2
      symtab := Write_layout_symtab hw hp
      rels := Write_layout_rels hw hp }

/-- What `ReadELF` returns for the bytes `Write` produced from an image within
the limits, in terms of the records `Write` emitted. -/
theorem Write_read {e : Elf} {m : Mem} {r : WriteResult}
    (hw : e.Write m = .ok r) (hp : e.Portable m r) :
    ∃ e' m', ReadELF ⟨r.bytes, 0⟩ = .ok (e', m') ∧
      (∀ j p, r.sections[j]? = some p →
        (m'.sec j).raw = (r.elf.readBack (r.mem.sec p)).raw ∧
        (0 < e.Sections.length → (m'.sec j).Name = cstr (r.mem.sec p).Name)) ∧
      m'.syms = (e.emittedSymbols m).map (fun y =>
        (r.elf.reading r.sections.length e.Symbols.length).readBackSymbol y (cstr y.Name)) ∧
      e'.Class = e.Class ∧ e'.Endian = e.Endian ∧
      e'.Symbols = List.range e.Symbols.length ∧
      e'.Sections = (List.range r.sections.length).filter (fun p =>
        !((m'.sec p).Type_ == SHT_REL || (m'.sec p).Type_ == SHT_RELA
          || (m'.sec p).Type_ == SHT_SYMTAB || (m'.sec p).Type_ == SHT_STRTAB
          || (m'.sec p).Type_ == SHT_SYMTAB_SHNDX)) ∧
      e'.Relocations = (r.elf.reading r.sections.length e.Symbols.length).relocationsRead m'
        (e.emittedRelocations m) (List.range r.sections.length) [] := by
  obtain ⟨hlen, a, b, -, -, -, -, -, hc, hn, -, hstr, -⟩ := Write_normal hw
  obtain ⟨e', m', h1, -, h3, h4, h5, h6, h7, h8, h9⟩ :=
    ReadELF_of_layout r.elf r.bytes (r.sections.map r.mem.sec) (e.emittedSymbols m)
      (e.emittedRelocations m) (Write_layout hw hp)
  simp only [List.length_map, emittedSymbols_length] at h4 h7 h8 h9
  have hidx : r.elf.secHdrStrIdx % 2 ^ 16 = e.Sections.length := by
    rw [hstr, Nat.mod_mod, Nat.mod_eq_of_lt (by omega)]
  refine ⟨e', m', h1, ?_, h4, h5.trans hc, h6.trans hn, h7, h8, h9⟩
  intro j p hj
  obtain ⟨g1, g2⟩ := h3 j (r.mem.sec p) (getElem?_map_sec hj)
  refine ⟨g1, fun hpos => g2 ?_⟩
  rw [hidx]
  unfold SHN_UNDEF
  omega

theorem filter_range_prefix (f : Nat → Bool) (n k : Nat)
    (h1 : ∀ j, j < n → f j = true) (h2 : ∀ j, n ≤ j → j < n + k → f j = false) :
    (List.range (n + k)).filter f = List.range n := by
  rw [List.range_add, List.filter_append, List.filter_eq_self.2, List.filter_eq_nil_iff.2,
    List.append_nil]
  · intro x hx
    obtain ⟨i, hi, rfl⟩ := List.mem_map.1 hx
    rw [List.mem_range] at hi
    rw [h2 (n + i) (by omega) (by omega)]
    exact Bool.false_ne_true
  · intro x hx
    exact h1 x (List.mem_range.1 hx)

/-- The type `ReadELF` finds in the header at position `j` of the file. -/
theorem Write_read_type {e : Elf} {m : Mem} {r : WriteResult}
    (hw : e.Write m = .ok r) (hp : e.Portable m r) {m' : Mem} {j p : Nat}
    (hj : r.sections[j]? = some p)
    (hraw : (m'.sec j).raw = (r.elf.readBack (r.mem.sec p)).raw) :
    (m'.sec j).Type_ = (r.mem.sec p).Type_ := by
  obtain ⟨-, a, b, -, -, hm, -⟩ := Write_normal hw
  obtain ⟨-, a2, -⟩ := raw_fields hraw
  rw [a2]
  show (r.mem.sec p).Type_ % 2 ^ 32 = _
  exact Nat.mod_eq_of_lt (Write_type_lt hp (Write_sections hw hp) hm p
    (List.mem_iff_getElem?.2 ⟨j, hj⟩))

/-- The types of the sections `Write` adds: string tables, the symbol table,
relocation tables. -/
theorem Write_added_type {e : Elf} {m : Mem} {r : WriteResult}
    (hw : e.Write m = .ok r) (hp : e.Portable m r) {j p : Nat}
    (hj : r.sections[j]? = some p) (hge : e.Sections.length ≤ j) :
    (r.mem.sec p).Type_ = SHT_STRTAB ∨ (r.mem.sec p).Type_ = SHT_SYMTAB ∨
    (r.mem.sec p).Type_ = SHT_REL ∨ (r.mem.sec p).Type_ = SHT_RELA := by
  obtain ⟨hlen, a, b, -, -, hm, -⟩ := Write_normal hw
  have hpm : p ∈ r.sections := List.mem_iff_getElem?.2 ⟨j, hj⟩
  have hget := Write_sections_get hw hp j
  rw [hj, if_neg (by omega)] at hget
  have hpge : m.secs.length ≤ p := by
    by_cases h2 : j < e.Sections.length + 3 + e.Relocations.length
    · rw [if_pos h2] at hget
      have := Option.some.inj hget
      omega
    · rw [if_neg h2] at hget; cases hget
  rcases Write_sec_cases hp (Write_sections hw hp) hm p hpm with ⟨h1, -⟩ |
    ⟨-, o, sz, off, hr⟩ | ⟨-, o, sz, off, hr⟩ | ⟨-, o, inf, sz, off, hr⟩ |
    ⟨i, entry, hi, -, o, sz, off, hr⟩
  · have := hp.live_sections p h1; omega
  · left; rw [hr]
  · left; rw [hr]
  · right; left; rw [hr]
  · obtain ⟨g1, -⟩ := relSection_portable hp hlen (List.mem_iff_getElem?.2 ⟨i, hi⟩)
    rw [hr]
    rcases g1 with g | g
    · right; right; right; exact g
    · right; right; left; exact g

/-- The record `Write` leaves for a section of the image. -/
theorem Write_original {e : Elf} {m : Mem} {r : WriteResult}
    (hw : e.Write m = .ok r) (hp : e.Portable m r) {p : Nat} (hps : p ∈ e.Sections) :
    ∃ o sz off, r.mem.sec p = { m.sec p with nameOffset := o, Size := sz, offset := off } := by
  obtain ⟨hlen, a, b, -, -, hm, -⟩ := Write_normal hw
  have hpm : p ∈ r.sections := by
    rw [Write_sections hw hp]; simp only [List.mem_append]; exact Or.inl (Or.inl hps)
  have hlive := hp.live_sections p hps
  rcases Write_sec_cases hp (Write_sections hw hp) hm p hpm with ⟨-, hr⟩ | ⟨h, -⟩ | ⟨h, -⟩ |
    ⟨h, -⟩ | ⟨i, entry, -, h, -⟩
  · exact hr
  · omega
  · omega
  · omega
  · omega

theorem info_nibbles : ∀ t, t < 16 → ∀ b, b < 16 →
    ((t % 2 ^ 8 ||| ((b % 2 ^ 8) <<< 4) % 256) % 2 ^ 8) &&& 0xF = t ∧
    ((t % 2 ^ 8 ||| ((b % 2 ^ 8) <<< 4) % 256) % 2 ^ 8) >>> 4 = b := by
  decide

/-- The type and binding `readSymbol` decodes from the `st_info` byte. -/
theorem decodeSymbol_kinds (e : Elf) (y : Symbol)
    (h : 0 ≤ y.Type_ ∧ y.Type_ < 16 ∧ 0 ≤ y.Binding ∧ y.Binding < 16) :
    (e.decodeSymbol y).Type_ = y.Type_ ∧ (e.decodeSymbol y).Binding = y.Binding := by
  obtain ⟨t0, t1, b0, b1⟩ := h
  obtain ⟨t, ht⟩ := Int.eq_ofNat_of_zero_le t0
  obtain ⟨b, hb⟩ := Int.eq_ofNat_of_zero_le b0
  have ht2 : t < 16 := by omega
  have hb2 : b < 16 := by omega
  obtain ⟨k1, k2⟩ := info_nibbles t ht2 b hb2
  unfold Elf.decodeSymbol Symbol.info
  simp only
  rw [ht, hb, wrapU_natCast, wrapU_natCast, k1, k2]
  exact ⟨rfl, rfl⟩

theorem readBackSymbol_fields (e : Elf) (y : Symbol) (name : List Nat) :
    (e.readBackSymbol y name).Name = name ∧
    (e.readBackSymbol y name).Type_ = (e.decodeSymbol y).Type_ ∧
    (e.readBackSymbol y name).Binding = (e.decodeSymbol y).Binding ∧
    (e.readBackSymbol y name).Value = (e.decodeSymbol y).Value ∧
    (e.readBackSymbol y name).Size = (e.decodeSymbol y).Size := by
  unfold Elf.readBackSymbol
  split_ifs <;> exact ⟨rfl, rfl, rfl, rfl, rfl⟩

theorem Mem.sym_of_map {α : Type} (m : Mem) (l : List α) (f : α → Symbol) (hm : m.syms = l.map f)
    {i : Nat} {x : α} (hi : l[i]? = some x) : m.sym i = f x := by
  unfold Mem.sym
  rw [hm, List.getD_eq_getElem?_getD, List.getElem?_map, hi]
  rfl

/-- The sections of the image come back with their contents. -/
theorem Write_read_section {e : Elf} {m : Mem} {r : WriteResult}
    (hw : e.Write m = .ok r) (hp : e.Portable m r) (hst : e.Storable m) {m' : Mem}
    (hsec : ∀ j p, r.sections[j]? = some p →
      (m'.sec j).raw = (r.elf.readBack (r.mem.sec p)).raw ∧
      (0 < e.Sections.length → (m'.sec j).Name = cstr (r.mem.sec p).Name))
    {j p : Nat} (hj : e.Sections[j]? = some p) :
    (m'.sec j).Name = (m.sec p).Name ∧ (m'.sec j).Type_ = (m.sec p).Type_ ∧
    (m'.sec j).Flags = (m.sec p).Flags ∧ (m'.sec j).Data = (m.sec p).Data ∧
    (m'.sec j).AddrAlign = (m.sec p).AddrAlign := by
  obtain ⟨hlen, a, b, -, -, hm, -⟩ := Write_normal hw
  have hjlt : j < e.Sections.length := (List.getElem?_eq_some.1 hj).1
  have hps : p ∈ e.Sections := List.mem_iff_getElem?.2 ⟨j, hj⟩
  have hrj : r.sections[j]? = some p := by
    rw [Write_sections_get hw hp, if_pos hjlt, hj]
  have hpm : p ∈ r.sections := List.mem_iff_getElem?.2 ⟨j, hrj⟩
  obtain ⟨g1, g2⟩ := hsec j p hrj
  obtain ⟨o, sz, off, hr⟩ := Write_original hw hp hps
  obtain ⟨-, a2, a3, -, -, -, -, -, a9, -, a11⟩ := raw_fields g1
  obtain ⟨t1, -, -⟩ := hp.typed_sections p hps
  obtain ⟨f1, f2⟩ := hst.sec_fields p hps
  have hN : (r.mem.sec p).Name = (m.sec p).Name := by rw [hr]
  have hT : (r.mem.sec p).Type_ = (m.sec p).Type_ := by rw [hr]
  have hF : (r.mem.sec p).Flags = (m.sec p).Flags := by rw [hr]
  have hA : (r.mem.sec p).AddrAlign = (m.sec p).AddrAlign := by rw [hr]
  have hD : (r.mem.sec p).Data = (m.sec p).Data := by rw [hr]
  refine ⟨?_, ?_, ?_, ?_, ?_⟩
  · rw [g2 (by omega), hN, cstr_of_not_mem (hst.sec_names p hps)]
  · rw [a2]
    show (r.mem.sec p).Type_ % 2 ^ 32 = _
    rw [hT, Nat.mod_eq_of_lt t1]
  · rw [a3]
    show (r.mem.sec p).Flags % 2 ^ 32 = _
    rw [hF, Nat.mod_eq_of_lt f1]
  · rw [a11]
    show (if 0 < (r.mem.sec p).Size % 2 ^ 32 ∧ HasDataInFile ((r.mem.sec p).Type_ % 2 ^ 32)
      then (r.mem.sec p).Data else []) = _
    rw [hT, Nat.mod_eq_of_lt t1, hD]
    by_cases hd : HasDataInFile (m.sec p).Type_ = true
    · obtain ⟨p1, -, -⟩ := Write_payload hw hp hm p hpm (by rw [hT]; exact hd)
      have hpl := hp.payloads p hpm
      rw [hD] at hpl
      rw [p1, hD, Nat.mod_eq_of_lt (by omega)]
      by_cases h0 : 0 < (m.sec p).Data.length
      · rw [if_pos ⟨h0, hd⟩]
      · rw [if_neg (fun h => h0 h.1)]
        exact (List.eq_nil_of_length_eq_zero (by omega)).symm
    · rw [if_neg (fun h => hd h.2)]
      exact (hst.sec_data p hps (by simpa using hd)).symm
  · rw [a9]
    show (r.mem.sec p).AddrAlign % 2 ^ 32 = _
    rw [hA, Nat.mod_eq_of_lt f2]

/-- The section list `ReadELF` returns holds the sections of the image and
none of the tables `Write` added. -/
theorem Write_read_sections {e : Elf} {m : Mem} {r : WriteResult}
    (hw : e.Write m = .ok r) (hp : e.Portable m r) (hst : e.Storable m) {m' : Mem}
    (hsec : ∀ j p, r.sections[j]? = some p →
      (m'.sec j).raw = (r.elf.readBack (r.mem.sec p)).raw ∧
      (0 < e.Sections.length → (m'.sec j).Name = cstr (r.mem.sec p).Name)) :
    (List.range r.sections.length).filter (fun p =>
      !((m'.sec p).Type_ == SHT_REL || (m'.sec p).Type_ == SHT_RELA
        || (m'.sec p).Type_ == SHT_SYMTAB || (m'.sec p).Type_ == SHT_STRTAB
        || (m'.sec p).Type_ == SHT_SYMTAB_SHNDX)) = List.range e.Sections.length := by
  rw [Write_sections_length hw hp, Nat.add_assoc]
  apply filter_range_prefix
  · intro j hj
    obtain ⟨p, hjp⟩ : ∃ p, e.Sections[j]? = some p := ⟨_, List.getElem?_eq_getElem hj⟩
    have hps : p ∈ e.Sections := List.mem_iff_getElem?.2 ⟨j, hjp⟩
    obtain ⟨-, hT, -⟩ := Write_read_section hw hp hst hsec hjp
    obtain ⟨n1, n2⟩ := hp.no_rel_sections p hps
    obtain ⟨n3, n4, n5⟩ := hst.sec_types p hps
    rw [hT]
    simp [n1, n2, n3, n4, n5]
  · intro j h1 h2
    have hget := Write_sections_get hw hp j
    rw [if_neg (by omega), if_pos (by omega)] at hget
    obtain ⟨g1, -⟩ := hsec j _ hget
    rw [Write_read_type hw hp hget g1]
    rcases Write_added_type hw hp hget h1 with h | h | h | h <;> rw [h] <;> rfl

/-- The symbols come back with their contents, in the order of the sorted
symbol table. -/
theorem Write_read_symbol {e : Elf} {m : Mem} {r : WriteResult}
    (hw : e.Write m = .ok r) (hst : e.Storable m) {m' : Mem}
    (hsym : m'.syms = (e.emittedSymbols m).map (fun y =>
      (r.elf.reading r.sections.length e.Symbols.length).readBackSymbol y (cstr y.Name)))
    {i q : Nat} (hi : (sortSymbols m e.Symbols)[i]? = some q) :
    (m'.sym i).Name = (m.sym q).Name ∧ (m'.sym i).Type_ = (m.sym q).Type_ ∧
    (m'.sym i).Binding = (m.sym q).Binding ∧ (m'.sym i).Value = (m.sym q).Value ∧
    (m'.sym i).Size = (m.sym q).Size := by
  obtain ⟨-, a, b, -, -, -, -, -, hc, -⟩ := Write_normal hw
  have hq : q ∈ e.Symbols :=
    (mem_sortSymbols m e.Symbols q).1 (List.mem_iff_getElem?.2 ⟨i, hi⟩)
  have hy : (e.emittedSymbols m)[i]?
      = some (emitSymbol (e.writeSyms m).table (e.writeRels m).sections (m.sym q)) := by
    unfold Elf.emittedSymbols
    rw [List.getElem?_map, hi]; rfl
  rw [Mem.sym_of_map m' _ _ hsym hy]
  obtain ⟨k1, k2, k3, k4, k5⟩ := readBackSymbol_fields
    (r.elf.reading r.sections.length e.Symbols.length)
    (emitSymbol (e.writeSyms m).table (e.writeRels m).sections (m.sym q))
    (cstr (emitSymbol (e.writeSyms m).table (e.writeRels m).sections (m.sym q)).Name)
  obtain ⟨d1, d2⟩ := decodeSymbol_kinds (r.elf.reading r.sections.length e.Symbols.length)
    (emitSymbol (e.writeSyms m).table (e.writeRels m).sections (m.sym q))
    (hst.sym_kinds q hq)
  obtain ⟨v1, v2⟩ := hst.sym_values q hq
  have hbits : (r.elf.reading r.sections.length e.Symbols.length).addrBits = e.addrBits := by
    unfold Elf.addrBits
    show (if r.elf.Class = ELFCLASS64 then 64 else 32) = _
    rw [hc]
  rw [k1, k2, k3, k4, k5, d1, d2]
  refine ⟨?_, rfl, rfl, ?_, ?_⟩
  · show cstr (m.sym q).Name = _
    exact cstr_of_not_mem (hst.sym_names q hq)
  · show (m.sym q).Value % 2 ^ (r.elf.reading r.sections.length e.Symbols.length).addrBits = _
    rw [hbits, Nat.mod_eq_of_lt v1]
  · show (m.sym q).Size % 2 ^ (r.elf.reading r.sections.length e.Symbols.length).addrBits = _
    rw [hbits, Nat.mod_eq_of_lt v2]

theorem map_range_eq_map {α : Type} (f : Nat → α) (g : Nat → α) (l : List Nat)
    (h : ∀ i q, l[i]? = some q → f i = g q) :
    (List.range l.length).map f = l.map g := by
  apply List.ext_getElem?
  intro i
  rw [List.getElem?_map, List.getElem?_map]
  by_cases hi : i < l.length
  · rw [List.getElem?_range hi, List.getElem?_eq_getElem hi]
    exact congrArg some (h i _ (List.getElem?_eq_getElem hi))
  · rw [List.getElem?_eq_none (by rw [List.length_range]; omega),
      List.getElem?_eq_none (by omega)]
    rfl

/-- C1 (amended): for every image on which `Write` succeeds and that stays
within the limits of the file format (`Portable`) and holds only contents the
file keeps (`Storable`), `ReadELF` applied to the bytes `Write` produced
returns an image whose sections are, in order, the sections of the image with
the same name, type, flags, payload bytes and address alignment, and whose
symbols are, in order, the symbols of the image as sorted by `Write`, with the
same name, type, binding, value and size. -/
theorem write_read_round_trip (e : Elf) (m : Mem) (r : WriteResult)
    (hw : e.Write m = .ok r) (hp : e.Portable m r) (hst : e.Storable m) :
    ∃ e' m', ReadELF ⟨r.bytes, 0⟩ = .ok (e', m') ∧
      e'.Sections.map (fun p => ((m'.sec p).Name, (m'.sec p).Type_, (m'.sec p).Flags,
          (m'.sec p).Data, (m'.sec p).AddrAlign))
        = e.Sections.map (fun p => ((m.sec p).Name, (m.sec p).Type_, (m.sec p).Flags,
          (m.sec p).Data, (m.sec p).AddrAlign)) ∧
      e'.Symbols.map (fun q => ((m'.sym q).Name, (m'.sym q).Type_, (m'.sym q).Binding,
          (m'.sym q).Value, (m'.sym q).Size))
        = r.elf.Symbols.map (fun q => ((m.sym q).Name, (m.sym q).Type_, (m.sym q).Binding,
          (m.sym q).Value, (m.sym q).Size)) := by
  obtain ⟨e', m', h1, h2, h3, -, -, h6, h7, -⟩ := Write_read hw hp
  refine ⟨e', m', h1, ?_, ?_⟩
  · rw [h7, Write_read_sections hw hp hst h2]
    apply map_range_eq_map
    intro i q hi
    obtain ⟨a1, a2, a3, a4, a5⟩ := Write_read_section hw hp hst h2 hi
    rw [a1, a2, a3, a4, a5]
  · rw [h6, Write_symbols hw, ← length_sortSymbols m e.Symbols]
    apply map_range_eq_map
    intro i q hi
    obtain ⟨a1, a2, a3, a4, a5⟩ := Write_read_symbol hw hst h3 hi
    rw [a1, a2, a3, a4, a5]

/-- The payload of `.symtab` in the written image: the records of the emitted
symbols. -/
theorem Write_symtab_data {e : Elf} {m : Mem} {r : WriteResult}
    (hw : e.Write m = .ok r) (hp : e.Portable m r) :
    (r.mem.sec (m.secs.length + 2)).Data = (e.emittedSymbols m).flatMap r.elf.writeSymbol := by
  obtain ⟨hlen, a, b, ha, hb, hm, -⟩ := Write_normal hw
  obtain ⟨-, -, -, -, d5, d6⟩ := Write_string_data hw hp hm
  obtain ⟨-, -, -, -, hbuf, -⟩ := Write_tables hw hp ha hb d5 d6
  obtain ⟨-, -, m2⟩ := Write_mem_shstrtab hw hp
  rcases Write_sec_cases hp (Write_sections hw hp) hm _ m2 with ⟨h, -⟩ | ⟨h, -⟩ | ⟨h, -⟩ |
    ⟨-, o, inf, sz, off, hr⟩ | ⟨i, entry, -, h, -⟩
  · have := hp.live_sections _ h; omega
  · omega
  · omega
  · rw [hr]; exact hbuf
  · omega

/-- The section index of the record `Write` emits for a symbol, and what
`readSymbol` makes of it. -/
theorem Write_read_symbol_section {e : Elf} {m : Mem} {r : WriteResult}
    (hw : e.Write m = .ok r) (hp : e.Portable m r) {m' : Mem}
    (hsym : m'.syms = (e.emittedSymbols m).map (fun y =>
      (r.elf.reading r.sections.length e.Symbols.length).readBackSymbol y (cstr y.Name)))
    {k q : Nat} (hk : (sortSymbols m e.Symbols)[k]? = some q) :
    ∃ y, (e.emittedSymbols m)[k]? = some y ∧
      (∀ p i, (m.sym q).Section = some p → r.sections.indexOf p = i → 0 < i →
        i < SHN_LORESERVE →
        r.sections[i]? = some p ∧ y.SectionIndex = i ∧ (m'.sym k).Section = some i) ∧
      ((m.sym q).Section = none →
        ((m.sym q).SectionIndex = SHN_UNDEF ∨ SHN_LORESERVE ≤ (m.sym q).SectionIndex) →
        y.SectionIndex = (m.sym q).SectionIndex ∧ (m'.sym k).Section = none ∧
        (m'.sym k).SectionIndex = (m.sym q).SectionIndex) := by
  obtain ⟨-, a, b, -, -, -, hs, -⟩ := Write_normal hw
  have hq : q ∈ e.Symbols :=
    (mem_sortSymbols m e.Symbols q).1 (List.mem_iff_getElem?.2 ⟨k, hk⟩)
  have hy : (e.emittedSymbols m)[k]?
      = some (emitSymbol (e.writeSyms m).table (e.writeRels m).sections (m.sym q)) := by
    unfold Elf.emittedSymbols
    rw [List.getElem?_map, hk]; rfl
  obtain ⟨s1, s2⟩ := hp.sym_sections q hq
  refine ⟨_, hy, ?_, ?_⟩
  · intro p i hsec hidx hpos hlt
    have hps : p ∈ e.Sections := s2 p hsec
    have hpm : p ∈ r.sections := by
      rw [Write_sections hw hp]; simp only [List.mem_append]; exact Or.inl (Or.inl hps)
    have hil : i < r.sections.length := by rw [← hidx]; exact indexOf_lt_of_mem hpm
    have hget : r.sections[i]? = some p := by
      rw [List.getElem?_eq_getElem hil]
      congr 1
      subst hidx
      exact List.getElem_indexOf hil
    have hSI : (emitSymbol (e.writeSyms m).table (e.writeRels m).sections
        (m.sym q)).SectionIndex = i := by
      unfold emitSymbol symStep
      simp only [hsec]
      rw [← hs, slicesIndex_of_mem hpm, hidx, wrapU_natCast]
      exact Nat.mod_eq_of_lt (by unfold SHN_LORESERVE at hlt; omega)
    refine ⟨hget, hSI, ?_⟩
    rw [Mem.sym_of_map m' _ _ hsym hy]
    unfold Elf.readBackSymbol
    have hdec : ((r.elf.reading r.sections.length e.Symbols.length).decodeSymbol
        (emitSymbol (e.writeSyms m).table (e.writeRels m).sections (m.sym q))).SectionIndex
        = i := by
      show (emitSymbol (e.writeSyms m).table (e.writeRels m).sections
        (m.sym q)).SectionIndex % 2 ^ 16 = i
      rw [hSI]
      exact Nat.mod_eq_of_lt (by unfold SHN_LORESERVE at hlt; omega)
    rw [hdec, if_pos ⟨hlt, hpos⟩]
    show (List.range r.sections.length)[i]? = some i
    exact getElem?_range_some hil
  · intro hnone hres
    obtain ⟨x1, -⟩ := s1 hnone
    have hSI : (emitSymbol (e.writeSyms m).table (e.writeRels m).sections
        (m.sym q)).SectionIndex = (m.sym q).SectionIndex := by
      unfold emitSymbol symStep
      simp only [hnone]
    refine ⟨hSI, ?_⟩
    rw [Mem.sym_of_map m' _ _ hsym hy]
    unfold Elf.readBackSymbol
    have hdec : ((r.elf.reading r.sections.length e.Symbols.length).decodeSymbol
        (emitSymbol (e.writeSyms m).table (e.writeRels m).sections (m.sym q))).SectionIndex
        = (m.sym q).SectionIndex := by
      show (emitSymbol (e.writeSyms m).table (e.writeRels m).sections
        (m.sym q)).SectionIndex % 2 ^ 16 = _
      rw [hSI]
      exact Nat.mod_eq_of_lt (by unfold SHN_XINDEX at x1; omega)
    rw [hdec, if_neg (by
      rcases hres with h | h
      · rw [h]; unfold SHN_UNDEF; omega
      · omega)]
    exact ⟨rfl, hdec⟩

/-- C10 (amended): for every image on which `Write` succeeds and that stays
within the limits of the file format (`Portable`), `ReadELF` takes the output
back, the payload of `.symtab` is the sequence of the emitted symbol records,
and for the symbol at each position `k` of the sorted symbol table: if its
`Section` pointer is the section whose (first) position in the emitted section
list is `i` with `0 < i < 0xFF00`, the emitted record carries section index
`i` and the symbol read back at position `k` has as `Section` the section read
from position `i`, which has the type of the original; if the symbol has no
`Section` and its `SectionIndex` is `0` or a reserved value (`0xFF00` and
above, such as `0xFFF1` absolute and `0xFFF2` common), that value is emitted
and read back unchanged, with no `Section`. -/
theorem write_read_symbol_section (e : Elf) (m : Mem) (r : WriteResult)
    (hw : e.Write m = .ok r) (hp : e.Portable m r) :
    ∃ e' m', ReadELF ⟨r.bytes, 0⟩ = .ok (e', m') ∧
      (r.mem.sec (m.secs.length + 2)).Data = (e.emittedSymbols m).flatMap r.elf.writeSymbol ∧
      ∀ k q, r.elf.Symbols[k]? = some q →
        ∃ y, (e.emittedSymbols m)[k]? = some y ∧
          (∀ p i, (m.sym q).Section = some p → r.sections.indexOf p = i → 0 < i →
            i < SHN_LORESERVE →
            r.sections[i]? = some p ∧ y.SectionIndex = i ∧ (m'.sym k).Section = some i ∧
            (m'.sec i).Type_ = (m.sec p).Type_) ∧
          ((m.sym q).Section = none →
            ((m.sym q).SectionIndex = SHN_UNDEF ∨ SHN_LORESERVE ≤ (m.sym q).SectionIndex) →
            y.SectionIndex = (m.sym q).SectionIndex ∧ (m'.sym k).Section = none ∧
            (m'.sym k).SectionIndex = (m.sym q).SectionIndex) := by
  obtain ⟨e', m', h1, h2, h3, -⟩ := Write_read hw hp
  refine ⟨e', m', h1, Write_symtab_data hw hp, ?_⟩
  intro k q hk
  rw [Write_symbols hw] at hk
  obtain ⟨y, hy, c1, c2⟩ := Write_read_symbol_section hw hp h3 hk
  refine ⟨y, hy, ?_, c2⟩
  intro p i hsec hidx hpos hlt
  obtain ⟨g1, g2, g3⟩ := c1 p i hsec hidx hpos hlt
  refine ⟨g1, g2, g3, ?_⟩
  have hq : q ∈ e.Symbols :=
    (mem_sortSymbols m e.Symbols q).1 (List.mem_iff_getElem?.2 ⟨k, hk⟩)
  have hps : p ∈ e.Sections := (hp.sym_sections q hq).2 p hsec
  obtain ⟨o, sz, off, hr⟩ := Write_original hw hp hps
  rw [Write_read_type hw hp g1 (h2 i p g1).1, hr]

theorem relocationsOf_append : ∀ (acc : List (Nat × List Relocation)) (k : Nat) (x : Relocation)
    (t : Nat), relocationsOf (appendRelocation acc k x) t
      = if t = k then relocationsOf acc k ++ [x] else relocationsOf acc t
  | [], k, x, t => by
    unfold appendRelocation relocationsOf
    by_cases h : t = k
    · subst h; simp [List.lookup]
    · rw [if_neg h]
      have : (t == k) = false := by simpa using h
      simp [List.lookup, this]
  | (k0, l0) :: rest, k, x, t => by
    have ih := relocationsOf_append rest k x t
    unfold relocationsOf at ih ⊢
    unfold appendRelocation
    by_cases h0 : k0 = k
    · rw [if_pos h0]
      subst h0
      by_cases h : t = k0
      · subst h; simp [List.lookup]
      · have : (t == k0) = false := by simpa using h
        simp [List.lookup, this, h]
    · rw [if_neg h0]
      by_cases h : t = k0
      · subst h
        have hne : ¬ t = k := h0
        simp [List.lookup, hne]
      · have : (t == k0) = false := by simpa using h
        have hk : (k == k0) = false := by
          simpa using (fun hh : k = k0 => h0 hh.symm)
        simp only [List.lookup, this, hk]
        exact ih

theorem relocationsOf_foldl (k : Nat) (f : Relocation → Relocation) (t : Nat) :
    ∀ (L : List Relocation) (acc : List (Nat × List Relocation)),
    relocationsOf (L.foldl (fun acc rel => appendRelocation acc k (f rel)) acc) t
      = if t = k then relocationsOf acc k ++ L.map f else relocationsOf acc t
  | [], acc => by
    by_cases h : t = k
    · subst h; simp
    · simp [h]
  | x :: L, acc => by
    rw [List.foldl_cons, relocationsOf_foldl k f t L, relocationsOf_append, if_pos rfl]
    by_cases h : t = k
    · rw [if_pos h, if_pos h]; simp
    · rw [if_neg h, if_neg h, relocationsOf_append, if_neg h]

/-- The relocations `ReadELF` collects for the key `t`: those of every
relocation section whose `Info` resolves to `t`, in file order. -/
theorem relocationsOf_relocationsRead (e : Elf) (m : Mem) (L : Nat → List Relocation) (t : Nat) :
    ∀ (todo : List Nat) (acc : List (Nat × List Relocation)),
    relocationsOf (e.relocationsRead m L todo acc) t
      = relocationsOf acc t ++ todo.flatMap (fun p =>
          if ((m.sec p).Type_ = SHT_REL ∨ (m.sec p).Type_ = SHT_RELA) ∧
              t = e.Sections.getD (m.sec p).Info 0 then
            (L p).map (e.readBackRelocation (m.sec p).Type_ (e.Sections.getD (m.sec p).Info 0))
          else [])
  | [], acc => by simp [Elf.relocationsRead]
  | p :: todo, acc => by
    rw [Elf.relocationsRead, List.flatMap_cons]
    by_cases ht : (m.sec p).Type_ = SHT_REL ∨ (m.sec p).Type_ = SHT_RELA
    · rw [if_pos ht, relocationsOf_relocationsRead e m L t todo, relocationsOf_foldl]
      by_cases hk : t = e.Sections.getD (m.sec p).Info 0
      · rw [if_pos hk, if_pos ⟨ht, hk⟩, ← hk, List.append_assoc]
      · rw [if_neg hk, if_neg (fun h => hk h.2), List.nil_append]
    · rw [if_neg ht, if_neg (fun h => ht h.1), relocationsOf_relocationsRead e m L t todo,
        List.nil_append]

theorem flatMap_range_single {α : Type} (g : Nat → List α) (N p0 : Nat) (h0 : p0 < N)
    (h : ∀ p, p < N → p ≠ p0 → g p = []) : (List.range N).flatMap g = g p0 := by
  have hN : N = p0 + (1 + (N - p0 - 1)) := by omega
  rw [hN, List.range_add, List.flatMap_append, List.range_add, List.map_append,
    List.flatMap_append]
  have h1 : (List.range p0).flatMap g = [] := by
    rw [List.flatMap_eq_nil_iff]
    intro x hx
    rw [List.mem_range] at hx
    exact h x (by omega) (by omega)
  have h2 : (((List.range (N - p0 - 1)).map (1 + ·)).map (p0 + ·)).flatMap g = [] := by
    rw [List.flatMap_eq_nil_iff]
    intro x hx
    simp only [List.mem_map, List.mem_range, exists_exists_and_eq_and] at hx
    obtain ⟨i, hi, rfl⟩ := hx
    exact h _ (by omega) (by omega)
  rw [h1, h2, show List.range 1 = [0] from rfl]
  simp

theorem wrapS_wrapU_mod_64 (a : Int) (h1 : -(2 ^ 63 : Int) ≤ a) (h2 : a < 2 ^ 63) :
    wrapS 64 (wrapU 64 a % 2 ^ 64) = a := by
  unfold wrapS wrapU
  norm_num at h1 h2 ⊢
  split_ifs <;> omega

theorem wrapS_wrapU_mod_32 (a : Int) (h1 : -(2 ^ 31 : Int) ≤ a) (h2 : a < 2 ^ 31) :
    wrapS 32 (wrapU 32 a % 2 ^ 32) = a := by
  unfold wrapS wrapU
  norm_num at h1 h2 ⊢
  split_ifs <;> omega

theorem relKind_rel {L : List Relocation} (h : (relKind L).1 ≠ SHT_RELA) :
    ∀ rel ∈ L, rel.Addend = 0 := by
  intro rel hrel
  unfold relKind at h
  by_contra hne
  have : L.any (fun rel => rel.Addend ≠ 0) = true := by
    rw [List.any_eq_true]
    exact ⟨rel, hrel, by simpa using hne⟩
  rw [if_pos this] at h
  exact h rfl

/-- What `readRelocation` makes of the record written for a relocation whose
fields fit the class. -/
theorem readBackRelocation_fields (e : Elf) (t sec : Nat) (rel : Relocation) (idx : Nat)
    (hidx : rel.symbolIndex = (idx : Int))
    (hi : idx < (if e.Class = ELFCLASS64 then 2 ^ 32 else 2 ^ 24))
    (hty : rel.Type_ < (if e.Class = ELFCLASS64 then 2 ^ 32 else 2 ^ 8))
    (hoff : rel.Offset < 2 ^ e.addrBits)
    (hadd : -(2 ^ (e.addrBits - 1) : Int) ≤ rel.Addend ∧ rel.Addend < 2 ^ (e.addrBits - 1))
    (hrel : t ≠ SHT_RELA → rel.Addend = 0) :
    (e.readBackRelocation t sec rel).Section = some sec ∧
    (e.readBackRelocation t sec rel).Symbol = e.Symbols[idx]? ∧
    (e.readBackRelocation t sec rel).Offset = rel.Offset ∧
    (e.readBackRelocation t sec rel).Type_ = rel.Type_ ∧
    (e.readBackRelocation t sec rel).Addend = rel.Addend := by
  obtain ⟨k1, k2⟩ := decodeRelocation_fields e t sec rel idx hidx hi hty
  have hsym : (e.readBackRelocation t sec rel).Symbol = e.Symbols[idx]? := by
    show e.Symbols[(e.decodeRelocation t sec rel).symbolIndex.toNat]? = _
    rw [k1, Int.toNat_ofNat]
  have hty2 : (e.readBackRelocation t sec rel).Type_ = rel.Type_ := k2
  refine ⟨?_, hsym, ?_, hty2, ?_⟩
  · show (e.decodeRelocation t sec rel).Section = _
    unfold Elf.decodeRelocation; split_ifs <;> rfl
  · show (e.decodeRelocation t sec rel).Offset = _
    unfold Elf.decodeRelocation Elf.addrBits at *
    by_cases hc : e.Class = ELFCLASS64
    · simp only [if_pos hc] at hoff ⊢
      exact Nat.mod_eq_of_lt hoff
    · simp only [if_neg hc] at hoff ⊢
      exact Nat.mod_eq_of_lt hoff
  · show (e.decodeRelocation t sec rel).Addend = _
    unfold Elf.decodeRelocation
    unfold Elf.addrBits at hadd
    by_cases hc : e.Class = ELFCLASS64
    · simp only [if_pos hc] at hadd ⊢
      by_cases ht : t = SHT_RELA
      · rw [if_pos ht]; exact wrapS_wrapU_mod_64 _ hadd.1 hadd.2
      · rw [if_neg ht]; exact (hrel ht).symm
    · simp only [if_neg hc] at hadd ⊢
      by_cases ht : t = SHT_RELA
      · rw [if_pos ht]; exact wrapS_wrapU_mod_32 _ hadd.1 hadd.2
      · rw [if_neg ht]; exact (hrel ht).symm

theorem relSection_type (e : Elf) (idx : Nat) (s : List Nat) (m : Mem)
    (entry : Nat × List Relocation) :
    (e.relSection idx s m entry).Type_ = (relKind entry.2).1 := rfl

theorem getD_range {N k : Nat} (h : k < N) : (List.range N).getD k 0 = k := by
  rw [List.getD_eq_getElem?_getD, getElem?_range_some h]; rfl

/-- The type and `Info` that `ReadELF` finds in the header at position `j` of
the file when that header is the relocation section of a map entry. -/
theorem Write_read_rel_header {e : Elf} {m : Mem} {r : WriteResult}
    (hw : e.Write m = .ok r) (hp : e.Portable m r) {m' : Mem}
    (hsec : ∀ j p, r.sections[j]? = some p →
      (m'.sec j).raw = (r.elf.readBack (r.mem.sec p)).raw ∧
      (0 < e.Sections.length → (m'.sec j).Name = cstr (r.mem.sec p).Name))
    {i : Nat} {entry : Nat × List Relocation} (hi : e.Relocations[i]? = some entry) :
    (m'.sec (e.Sections.length + 3 + i)).Type_ = (relKind entry.2).1 ∧
    (m'.sec (e.Sections.length + 3 + i)).Info = e.Sections.indexOf entry.1 ∧
    e.Sections.indexOf entry.1 < e.Sections.length ∧
    ((relKind entry.2).1 = SHT_RELA ∨ (relKind entry.2).1 = SHT_REL) := by
  obtain ⟨hlen, a, b, -, -, hm, -⟩ := Write_normal hw
  have hilt : i < e.Relocations.length := (List.getElem?_eq_some.1 hi).1
  have hen : entry ∈ e.Relocations := List.mem_iff_getElem?.2 ⟨i, hi⟩
  have hget : r.sections[e.Sections.length + 3 + i]? = some (m.secs.length + 3 + i) := by
    rw [Write_sections_get hw hp, if_neg (by omega), if_pos (by omega)]
    congr 1; omega
  have hpm : m.secs.length + 3 + i ∈ r.sections := List.mem_iff_getElem?.2 ⟨_, hget⟩
  obtain ⟨g1, -⟩ := hsec _ _ hget
  obtain ⟨k1, k2, k3, k4, -⟩ := relSection_portable hp hlen hen
  rw [relSection_type] at k1
  rcases Write_sec_cases hp (Write_sections hw hp) hm _ hpm with ⟨h, -⟩ | ⟨h, -⟩ | ⟨h, -⟩ |
    ⟨h, -⟩ | ⟨i2, entry2, hi2, h, o, sz, off, hr⟩
  · have := hp.live_sections _ h; omega
  · omega
  · omega
  · omega
  · have hii : i2 = i := by omega
    subst hii
    rw [hi] at hi2
    have hee : entry2 = entry := (Option.some.inj hi2).symm
    subst hee
    refine ⟨?_, ?_, k4, k1⟩
    · rw [Write_read_type hw hp hget g1, hr]
      rfl
    · obtain ⟨-, -, -, -, -, -, -, a8, -⟩ := raw_fields g1
      rw [a8]
      show (r.mem.sec (m.secs.length + 3 + i2)).Info % 2 ^ 32 = _
      rw [hr]
      show ((e.writeTables m).1.relSection (e.Sections.length + 2) (e.writeTables m).2.2
        (e.writeTables m).2.1 entry2).Info % 2 ^ 32 = _
      rw [k3]
      exact Nat.mod_eq_of_lt (by omega)

theorem indexOf_inj {l : List Nat} {a b : Nat} (ha : a ∈ l) (hb : b ∈ l)
    (h : l.indexOf a = l.indexOf b) : a = b := by
  have h1 := List.getElem_indexOf (List.indexOf_lt_length.2 ha)
  have h2 := List.getElem_indexOf (List.indexOf_lt_length.2 hb)
  rw [← h1, ← h2]
  congr 1

theorem nodup_keys_inj {l : List (Nat × List Relocation)} (hn : (l.map Prod.fst).Nodup)
    {i j : Nat} {x y : Nat × List Relocation} (hi : l[i]? = some x) (hj : l[j]? = some y)
    (h : x.1 = y.1) : i = j := by
  have hi2 : (l.map Prod.fst)[i]? = some x.1 := by rw [List.getElem?_map, hi]; rfl
  have hj2 : (l.map Prod.fst)[j]? = some y.1 := by rw [List.getElem?_map, hj]; rfl
  rw [h] at hi2
  obtain ⟨hil, hie⟩ := List.getElem?_eq_some.1 hi2
  obtain ⟨hjl, hje⟩ := List.getElem?_eq_some.1 hj2
  exact (List.Nodup.getElem_inj_iff hn).1 (hie.trans hje.symm)

/-- The relocations `ReadELF` returns for the target section of a map entry:
those `Write` emitted for the entry, each as `readRelocation` decodes it. -/
theorem Write_read_relocations {e : Elf} {m : Mem} {r : WriteResult}
    (hw : e.Write m = .ok r) (hp : e.Portable m r) {e' : Elf} {m' : Mem}
    (hsec : ∀ j p, r.sections[j]? = some p →
      (m'.sec j).raw = (r.elf.readBack (r.mem.sec p)).raw ∧
      (0 < e.Sections.length → (m'.sec j).Name = cstr (r.mem.sec p).Name))
    (hrel : e'.Relocations = (r.elf.reading r.sections.length e.Symbols.length).relocationsRead m'
      (e.emittedRelocations m) (List.range r.sections.length) [])
    {i : Nat} {entry : Nat × List Relocation} (hi : e.Relocations[i]? = some entry) :
    relocationsOf e'.Relocations (e.Sections.indexOf entry.1)
      = (refreshRelocations (sortSymbols m e.Symbols) entry.2).map
          ((r.elf.reading r.sections.length e.Symbols.length).readBackRelocation
            (relKind entry.2).1 (e.Sections.indexOf entry.1)) := by
  obtain ⟨hlen, a, b, -, -, hm, -⟩ := Write_normal hw
  have hN := Write_sections_length hw hp
  have hilt : i < e.Relocations.length := (List.getElem?_eq_some.1 hi).1
  have hen : entry ∈ e.Relocations := List.mem_iff_getElem?.2 ⟨i, hi⟩
  obtain ⟨t1, t2, t3, t4⟩ := Write_read_rel_header hw hp hsec hi
  have hkey : ∀ k, k < r.sections.length →
      (r.elf.reading r.sections.length e.Symbols.length).Sections.getD k 0 = k :=
    fun k hk => getD_range hk
  rw [hrel, relocationsOf_relocationsRead]
  show [] ++ _ = _
  rw [List.nil_append,
    flatMap_range_single _ r.sections.length (e.Sections.length + 3 + i) (by omega)]
  · rw [t1, t2, hkey _ (by omega), if_pos ⟨t4.symm, rfl⟩]
    congr 1
    unfold Elf.emittedRelocations
    rw [if_neg (by omega)]
    have : e.Sections.length + 3 + i - (e.Sections.length + 3) = i := by omega
    rw [this, hi]
  · intro p hpN hpne
    apply if_neg
    rintro ⟨hty, hk⟩
    obtain ⟨p', hp'⟩ : ∃ p', r.sections[p]? = some p' :=
      ⟨_, List.getElem?_eq_getElem hpN⟩
    have hpm : p' ∈ r.sections := List.mem_iff_getElem?.2 ⟨p, hp'⟩
    obtain ⟨g1, -⟩ := hsec p p' hp'
    have hT := Write_read_type hw hp hp' g1
    have hget := Write_sections_get hw hp p
    rw [hp'] at hget
    by_cases hp1 : p < e.Sections.length
    · rw [if_pos hp1] at hget
      have hps : p' ∈ e.Sections := List.mem_iff_getElem?.2 ⟨p, hget.symm⟩
      obtain ⟨o, sz, off, hr⟩ := Write_original hw hp hps
      obtain ⟨n1, n2⟩ := hp.no_rel_sections p' hps
      rw [hT, hr] at hty
      exact hty.elim n1 n2
    · rw [if_neg hp1, if_pos (by omega)] at hget
      have hpv : p' = m.secs.length + (p - e.Sections.length) := Option.some.inj hget
      by_cases hp2 : p < e.Sections.length + 3
      · exfalso
        rw [hT] at hty
        rcases Write_sec_cases hp (Write_sections hw hp) hm _ hpm with ⟨h1, -⟩ |
          ⟨-, o, sz, off, hr⟩ | ⟨-, o, sz, off, hr⟩ | ⟨-, o, inf, sz, off, hr⟩ |
          ⟨i2, entry2, -, h1, -⟩
        · have := hp.live_sections _ h1; omega
        · rw [hr] at hty
          have h2 : SHT_STRTAB = SHT_REL ∨ SHT_STRTAB = SHT_RELA := hty
          revert h2; decide
        · rw [hr] at hty
          have h2 : SHT_STRTAB = SHT_REL ∨ SHT_STRTAB = SHT_RELA := hty
          revert h2; decide
        · rw [hr] at hty
          have h2 : SHT_SYMTAB = SHT_REL ∨ SHT_SYMTAB = SHT_RELA := hty
          revert h2; decide
        · omega
      · -- another relocation section: its key differs
        obtain ⟨i2, hi2v⟩ : ∃ i2, p = e.Sections.length + 3 + i2 :=
          ⟨p - (e.Sections.length + 3), by omega⟩
        subst hi2v
        have hi2lt : i2 < e.Relocations.length := by omega
        obtain ⟨entry2, hentry2⟩ : ∃ en, e.Relocations[i2]? = some en :=
          ⟨_, List.getElem?_eq_getElem hi2lt⟩
        obtain ⟨u1, u2, u3, u4⟩ := Write_read_rel_header hw hp hsec hentry2
        rw [u2, hkey _ (by omega)] at hk
        have hen2 : entry2 ∈ e.Relocations := List.mem_iff_getElem?.2 ⟨i2, hentry2⟩
        have hkeq : entry.1 = entry2.1 :=
          indexOf_inj (hp.keys entry hen) (hp.keys entry2 hen2) hk
        have := nodup_keys_inj hp.keys_nodup hi hentry2 hkeq
        omega

/-- C2 (amended): for every image on which `Write` succeeds, that stays within
the limits of the file format (`Portable`: among them, every relocation
references a symbol of the image, every key of the relocation map is a
section of the image, and the type codes fit the `r_info` word of the class)
and whose relocation offsets and addends fit the address width of the class,
`ReadELF` takes the output back, and for every entry of the relocation map
the list read back for the target section (at its position in the emitted
section list) has the same length and order, and every relocation has that
section, the same offset, type code and addend, and references the symbol at
the index its symbol has in the emitted (sorted) symbol table. -/
theorem write_read_relocations (e : Elf) (m : Mem) (r : WriteResult)
    (hw : e.Write m = .ok r) (hp : e.Portable m r)
    (hfit : ∀ en ∈ e.Relocations, ∀ rel ∈ en.2, rel.Offset < 2 ^ e.addrBits ∧
      -(2 ^ (e.addrBits - 1) : Int) ≤ rel.Addend ∧ rel.Addend < 2 ^ (e.addrBits - 1)) :
    ∃ e' m', ReadELF ⟨r.bytes, 0⟩ = .ok (e', m') ∧
      ∀ en ∈ e.Relocations,
        r.sections[e.Sections.indexOf en.1]? = some en.1 ∧
        (relocationsOf e'.Relocations (e.Sections.indexOf en.1)).map
            (fun rel => (rel.Section, rel.Offset, rel.Type_, rel.Addend, rel.Symbol))
          = en.2.map (fun rel => (some (e.Sections.indexOf en.1), rel.Offset, rel.Type_,
              rel.Addend, rel.Symbol.map (fun q => r.elf.Symbols.indexOf q))) := by
  obtain ⟨-, a, b, -, -, -, -, -, hc, -⟩ := Write_normal hw
  obtain ⟨e', m', h1, h2, -, -, -, -, -, h8⟩ := Write_read hw hp
  refine ⟨e', m', h1, ?_⟩
  intro en hen
  obtain ⟨i, hi⟩ := List.mem_iff_getElem?.1 hen
  have hkey := hp.keys en hen
  have hidx := indexOf_lt_of_mem hkey
  refine ⟨?_, ?_⟩
  · rw [Write_sections_get hw hp, if_pos hidx, List.getElem?_eq_getElem hidx]
    congr 1
    exact List.getElem_indexOf hidx
  · rw [Write_read_relocations hw hp h2 h8 hi]
    unfold refreshRelocations
    rw [List.map_map, List.map_map]
    apply List.map_congr_left
    intro rel hrel
    obtain ⟨q, hqs, hq⟩ := hp.rel_symbols en hen rel hrel
    obtain ⟨f1, f2, f3⟩ := hfit en hen rel hrel
    have hqs2 : q ∈ sortSymbols m e.Symbols := (mem_sortSymbols m e.Symbols q).2 hqs
    have hilt : (sortSymbols m e.Symbols).indexOf q < e.Symbols.length := by
      rw [← length_sortSymbols m]; exact indexOf_lt_of_mem hqs2
    have hK := Write_symbol_count hw hp
    have hty := hp.rel_types en hen rel hrel
    rw [← hc] at hty
    have hbits : (r.elf.reading r.sections.length e.Symbols.length).addrBits = e.addrBits := by
      unfold Elf.addrBits
      show (if r.elf.Class = ELFCLASS64 then 64 else 32) = _
      rw [hc]
    obtain ⟨k1, k2, k3, k4, k5⟩ := readBackRelocation_fields
      (r.elf.reading r.sections.length e.Symbols.length) (relKind en.2).1
      (e.Sections.indexOf en.1)
      { Section := rel.Section, Symbol := some q,
        symbolIndex := slicesIndex (sortSymbols m e.Symbols) q, Offset := rel.Offset,
        Type_ := rel.Type_, Addend := rel.Addend }
      ((sortSymbols m e.Symbols).indexOf q) (slicesIndex_of_mem hqs2)
      (by
        show _ < (if r.elf.Class = ELFCLASS64 then 2 ^ 32 else 2 ^ 24)
        omega)
      hty (by rw [hbits]; exact f1) (by rw [hbits]; exact ⟨f2, f3⟩)
      (fun hne => relKind_rel hne rel hrel)
    have k6 : (r.elf.reading r.sections.length e.Symbols.length).Symbols[
        (sortSymbols m e.Symbols).indexOf q]? = some ((sortSymbols m e.Symbols).indexOf q) :=
      getElem?_range_some hilt
    simp only [Function.comp, hq]
    rw [k1, k2, k3, k4, k5, k6, Write_symbols hw]
    rfl

theorem exampleText_portable :
    exampleText.1.Portable exampleText.2 (exampleText.1.written exampleText.2) where
  class_ok := by decide
  endian_ok := by decide
  live_sections := by decide
  live_symbols := by decide
  keys := by decide
  keys_nodup := by decide
  typed_sections := by decide
  no_rel_sections := by decide
  links := by decide
  sym_sections := by decide
  rel_symbols := by decide
  rel_types := by decide
  sym_count := by decide
  ph_count := by decide
  sec_count := by decide
  payloads := by decide
  file_size := by decide

theorem exampleText_storable : exampleText.1.Storable exampleText.2 where
  sec_types := by decide
  sec_names := by decide
  sec_data := by decide
  sec_fields := by decide
  sym_names := by decide
  sym_kinds := by decide
  sym_values := by decide

/-- C1 as stated fails: `Write` succeeds on an image whose second section is a
`.bss` section of type `SHT_NOBITS` holding four bytes in memory, `ReadELF`
takes the output back with the same two sections, and the payload of `.bss`
comes back empty. -/
theorem write_read_drops_nobits_payload :
    ∃ r e' m', exampleBss.1.Write exampleBss.2 = .ok r ∧ ReadELF ⟨r.bytes, 0⟩ = .ok (e', m') ∧
      exampleBss.1.Sections = [0, 1] ∧ e'.Sections = [0, 1] ∧
      (exampleBss.2.sec 1).Name = [46, 98, 115, 115] ∧ (m'.sec 1).Name = [46, 98, 115, 115] ∧
      (exampleBss.2.sec 1).Type_ = SHT_NOBITS ∧ (m'.sec 1).Type_ = SHT_NOBITS ∧
      (exampleBss.2.sec 1).Data = [0, 0, 0, 0] ∧ (m'.sec 1).Data = [] :=
  ⟨exampleBss.1.written exampleBss.2, (reread (exampleBss.1.written exampleBss.2).bytes).1,
   (reread (exampleBss.1.written exampleBss.2).bytes).2, rfl, rfl, rfl, rfl, rfl, rfl, rfl, rfl,
   rfl, rfl⟩

/-- C10 as stated fails: in an image whose first section is `.text` (there is
no null section before it) and whose symbol `main` points at `.text`, `Write`
emits `.text` at position 0 of the section list and `main` at position 1 of
the symbol table with section index 0, and `ReadELF` returns `main` without a
section. -/
theorem write_read_symbol_first_section :
    ∃ r e' m', exampleFirstSection.1.Write exampleFirstSection.2 = .ok r ∧
      ReadELF ⟨r.bytes, 0⟩ = .ok (e', m') ∧
      r.elf.Symbols[1]? = some 0 ∧ (exampleFirstSection.2.sym 0).Section = some 0 ∧
      r.sections[0]? = some 0 ∧ r.sections.indexOf 0 = 0 ∧ (r.mem.sym 0).SectionIndex = 0 ∧
      (m'.sym 1).Name = (exampleFirstSection.2.sym 0).Name ∧ (m'.sym 1).Section = none :=
  ⟨exampleFirstSection.1.written exampleFirstSection.2,
   (reread (exampleFirstSection.1.written exampleFirstSection.2).bytes).1,
   (reread (exampleFirstSection.1.written exampleFirstSection.2).bytes).2,
   rfl, rfl, rfl, rfl, rfl, rfl, rfl, rfl, rfl⟩

/-- C2 as stated fails: in a 32-bit image whose only relocation (in `.text`,
against `main`) has the addend `2^32`, `Write` succeeds and `ReadELF` returns
the relocation with addend 0. -/
theorem write_read_relocation_addend_truncated :
    ∃ r e' m', exampleAddend32.1.Write exampleAddend32.2 = .ok r ∧
      ReadELF ⟨r.bytes, 0⟩ = .ok (e', m') ∧
      exampleAddend32.1.Relocations.map (fun en => (en.1, en.2.map (fun rel => rel.Addend)))
        = [(1, [4294967296])] ∧
      r.sections[1]? = some 1 ∧
      e'.Relocations.map (fun en => (en.1, en.2.map (fun rel => rel.Addend))) = [(1, [0])] :=
  ⟨exampleAddend32.1.written exampleAddend32.2,
   (reread (exampleAddend32.1.written exampleAddend32.2).bytes).1,
   (reread (exampleAddend32.1.written exampleAddend32.2).bytes).2,
   rfl, rfl, rfl, rfl, rfl⟩

theorem write_read_round_trip_witness :
    exampleText.1.Write exampleText.2 = .ok (exampleText.1.written exampleText.2) ∧
    exampleText.1.Portable exampleText.2 (exampleText.1.written exampleText.2) ∧
    exampleText.1.Storable exampleText.2 ∧
    ∃ e' m', ReadELF ⟨(exampleText.1.written exampleText.2).bytes, 0⟩ = .ok (e', m') ∧
      e'.Sections.map (fun p => ((m'.sec p).Name, (m'.sec p).Type_, (m'.sec p).Flags,
          (m'.sec p).Data, (m'.sec p).AddrAlign))
        = exampleText.1.Sections.map (fun p => ((exampleText.2.sec p).Name,
          (exampleText.2.sec p).Type_, (exampleText.2.sec p).Flags, (exampleText.2.sec p).Data,
          (exampleText.2.sec p).AddrAlign)) ∧
      e'.Symbols.map (fun q => ((m'.sym q).Name, (m'.sym q).Type_, (m'.sym q).Binding,
          (m'.sym q).Value, (m'.sym q).Size))
        = (exampleText.1.written exampleText.2).elf.Symbols.map (fun q =>
          ((exampleText.2.sym q).Name, (exampleText.2.sym q).Type_,
           (exampleText.2.sym q).Binding, (exampleText.2.sym q).Value,
           (exampleText.2.sym q).Size)) :=
  ⟨rfl, exampleText_portable, exampleText_storable,
   write_read_round_trip exampleText.1 exampleText.2 (exampleText.1.written exampleText.2) rfl
     exampleText_portable exampleText_storable⟩

theorem write_read_symbol_section_witness :
    exampleText.1.Write exampleText.2 = .ok (exampleText.1.written exampleText.2) ∧
    exampleText.1.Portable exampleText.2 (exampleText.1.written exampleText.2) ∧
    ∃ e' m', ReadELF ⟨(exampleText.1.written exampleText.2).bytes, 0⟩ = .ok (e', m') ∧
      ((exampleText.1.written exampleText.2).mem.sec (exampleText.2.secs.length + 2)).Data
        = (exampleText.1.emittedSymbols exampleText.2).flatMap
            (exampleText.1.written exampleText.2).elf.writeSymbol ∧
      ∀ k q, (exampleText.1.written exampleText.2).elf.Symbols[k]? = some q →
        ∃ y, (exampleText.1.emittedSymbols exampleText.2)[k]? = some y ∧
          (∀ p i, (exampleText.2.sym q).Section = some p →
            (exampleText.1.written exampleText.2).sections.indexOf p = i → 0 < i →
            i < SHN_LORESERVE →
            (exampleText.1.written exampleText.2).sections[i]? = some p ∧
            y.SectionIndex = i ∧ (m'.sym k).Section = some i ∧
            (m'.sec i).Type_ = (exampleText.2.sec p).Type_) ∧
          ((exampleText.2.sym q).Section = none →
            ((exampleText.2.sym q).SectionIndex = SHN_UNDEF ∨
              SHN_LORESERVE ≤ (exampleText.2.sym q).SectionIndex) →
            y.SectionIndex = (exampleText.2.sym q).SectionIndex ∧ (m'.sym k).Section = none ∧
            (m'.sym k).SectionIndex = (exampleText.2.sym q).SectionIndex) :=
  ⟨rfl, exampleText_portable,
   write_read_symbol_section exampleText.1 exampleText.2 (exampleText.1.written exampleText.2)
     rfl exampleText_portable⟩

theorem write_read_relocations_witness :
    exampleText.1.Write exampleText.2 = .ok (exampleText.1.written exampleText.2) ∧
    exampleText.1.Portable exampleText.2 (exampleText.1.written exampleText.2) ∧
    (∀ en ∈ exampleText.1.Relocations, ∀ rel ∈ en.2, rel.Offset < 2 ^ exampleText.1.addrBits ∧
      -(2 ^ (exampleText.1.addrBits - 1) : Int) ≤ rel.Addend ∧
      rel.Addend < 2 ^ (exampleText.1.addrBits - 1)) ∧
    ∃ e' m', ReadELF ⟨(exampleText.1.written exampleText.2).bytes, 0⟩ = .ok (e', m') ∧
      ∀ en ∈ exampleText.1.Relocations,
        (exampleText.1.written exampleText.2).sections[exampleText.1.Sections.indexOf en.1]?
          = some en.1 ∧
        (relocationsOf e'.Relocations (exampleText.1.Sections.indexOf en.1)).map
            (fun rel => (rel.Section, rel.Offset, rel.Type_, rel.Addend, rel.Symbol))
          = en.2.map (fun rel => (some (exampleText.1.Sections.indexOf en.1), rel.Offset,
              rel.Type_, rel.Addend,
              rel.Symbol.map (fun q =>
                (exampleText.1.written exampleText.2).elf.Symbols.indexOf q))) :=
  ⟨rfl, exampleText_portable, by decide,
   write_read_relocations exampleText.1 exampleText.2 (exampleText.1.written exampleText.2)
     rfl exampleText_portable (by decide)⟩

end elf

namespace elf

/-! ### String tables: offsets and contents -/

theorem tableBytes_length (strs : List (List Nat × Nat)) :
    (tableBytes strs).length = ((strs.map Prod.fst).map fun s => s.length + 1).sum := by
  induction strs with
  | nil => rfl
  | cons en rest ih =>
    rw [tableBytes_cons, List.length_append, ih]
    simp

theorem stringsSize_of_keys {keys seen : List (List Nat)} (hn : keys.Nodup)
    (hm : ∀ a, a ∈ keys ↔ a ∈ seen) :
    (keys.map fun s => s.length + 1).sum = stringsSize seen := by
  unfold stringsSize
  have hp : keys.Perm seen.dedup :=
    (List.perm_ext_iff_of_nodup hn (List.nodup_dedup seen)).2
      (fun a => by rw [hm a, List.mem_dedup])
  exact (hp.map _).sum_eq

theorem StringTable.Holding.pos {t : StringTable} {seen : List (List Nat)}
    (h : t.Holding seen) : t.pos = stringsSize seen := by
  rw [h.1.2, tableBytes_length, stringsSize_of_keys h.2.1 h.2.2]

theorem stringsSize_mono (l1 l2 : List (List Nat)) : stringsSize l1 ≤ stringsSize (l1 ++ l2) := by
  unfold stringsSize
  have hsub : l1.dedup.Subperm (l1 ++ l2).dedup :=
    List.subperm_of_subset (List.nodup_dedup l1) (fun a ha => by
      rw [List.mem_dedup] at ha ⊢
      exact List.mem_append_left _ ha)
  obtain ⟨l, hp, hs⟩ := hsub
  rw [← (hp.map (fun s : List Nat => s.length + 1)).sum_eq]
  exact (hs.map (fun s : List Nat => s.length + 1)).sum_le_sum (fun _ _ => Nat.zero_le _)

theorem stringsSize_snoc_of_mem {seen : List (List Nat)} {s : List Nat} (h : s ∈ seen) :
    stringsSize (seen ++ [s]) = stringsSize seen := by
  unfold stringsSize
  have hp : (seen ++ [s]).dedup.Perm seen.dedup :=
    (List.perm_ext_iff_of_nodup (List.nodup_dedup _) (List.nodup_dedup _)).2
      (fun a => by
        simp only [List.mem_dedup, List.mem_append, List.mem_singleton]
        constructor
        · rintro (ha | rfl)
          · exact ha
          · exact h
        · exact fun ha => Or.inl ha)
  exact (hp.map _).sum_eq

theorem stringsSize_snoc_of_not_mem {seen : List (List Nat)} {s : List Nat} (h : s ∉ seen) :
    stringsSize (seen ++ [s]) = stringsSize seen + (s.length + 1) := by
  unfold stringsSize
  have hn : (seen.dedup ++ [s]).Nodup := by
    rw [List.nodup_append]
    refine ⟨List.nodup_dedup _, List.nodup_singleton _, ?_⟩
    intro a ha hb
    rw [List.mem_singleton] at hb
    subst hb
    exact h (List.mem_dedup.1 ha)
  have hp : (seen ++ [s]).dedup.Perm (seen.dedup ++ [s]) :=
    (List.perm_ext_iff_of_nodup (List.nodup_dedup _) hn).2
      (fun a => by simp only [List.mem_dedup, List.mem_append, List.mem_singleton])
  rw [(hp.map _).sum_eq]
  simp

theorem lookup_none_iff (strs : List (List Nat × Nat)) (s : List Nat) :
    strs.lookup s = none ↔ s ∉ strs.map Prod.fst := by
  induction strs with
  | nil => simp
  | cons en rest ih =>
    obtain ⟨k, v⟩ := en
    rw [List.lookup_cons]
    by_cases hk : s = k
    · subst hk; simp
    · have : (s == k) = false := by simpa using hk
      rw [this]
      simp only [List.map_cons, List.mem_cons, not_or]
      rw [ih]
      exact ⟨fun h => ⟨hk, h⟩, fun h => h.2⟩

theorem holding_new : newStringTable.Holding [] :=
  ⟨WF_new, List.nodup_nil, fun a => by simp [newStringTable]⟩

/-- One `Add` on a table that has not wrapped around. -/
theorem Holding_Add {t : StringTable} {seen : List (List Nat)} (s : List Nat)
    (h : t.Holding seen) (hb : stringsSize (seen ++ [s]) < 2 ^ 32) :
    (t.Add s).2.Holding (seen ++ [s]) ∧ (s ∉ seen → (t.Add s).1 = stringsSize seen) := by
  obtain ⟨hw, hn, hm⟩ := h
  have hpos := StringTable.Holding.pos ⟨hw, hn, hm⟩
  unfold StringTable.Add
  cases hs : t.strings.lookup s with
  | some val =>
    have hin : s ∈ seen := by
      rw [← hm]
      by_contra hc
      rw [(lookup_none_iff _ _).2 hc] at hs
      cases hs
    simp only
    refine ⟨⟨hw, hn, fun a => ?_⟩, fun hc => absurd hin hc⟩
    rw [hm]
    simp only [List.mem_append, List.mem_singleton]
    constructor
    · exact fun ha => Or.inl ha
    · rintro (ha | rfl)
      · exact ha
      · exact hin
  | none =>
    have hnin : s ∉ seen := by
      rw [← hm]; exact (lookup_none_iff _ _).1 hs
    rw [stringsSize_snoc_of_not_mem hnin] at hb
    simp only
    refine ⟨⟨⟨?_, ?_⟩, ?_, fun a => ?_⟩, fun _ => hpos⟩
    · simp only
      rw [contig_append]
      refine ⟨hw.1, ?_⟩
      simp only [contig, Nat.zero_add, and_true]
      exact hw.2
    · simp only
      rw [tableBytes_append, List.length_append, ← hw.2]
      simp only [tableBytes, List.flatMap_cons, List.flatMap_nil, List.append_nil,
        List.length_append, List.length_singleton]
      rw [Nat.mod_eq_of_lt (a := s.length) (by omega),
        Nat.mod_eq_of_lt (a := s.length + 1) (by omega), Nat.mod_eq_of_lt (by omega)]
    · simp only [List.map_append, List.map_cons, List.map_nil]
      rw [List.nodup_append]
      refine ⟨hn, List.nodup_singleton _, ?_⟩
      intro a ha hb2
      rw [List.mem_singleton] at hb2
      subst hb2
      exact hnin ((hm a).1 ha)
    · simp only [List.map_append, List.map_cons, List.map_nil, List.mem_append,
        List.mem_singleton]
      rw [hm]

/-- A sequence of `Add` calls on a table that does not wrap around. -/
theorem addAll_spec : ∀ (ss : List (List Nat)) (t : StringTable) (seen : List (List Nat)),
    t.Holding seen → stringsSize (seen ++ ss) < 2 ^ 32 →
    (t.addAll ss).2.Holding (seen ++ ss) ∧ (t.addAll ss).1.length = ss.length ∧
    (∀ x o, t.strings.lookup x = some o → (t.addAll ss).2.strings.lookup x = some o) ∧
    (∀ (i : Nat) (s : List Nat), ss[i]? = some s →
      ∃ o, (t.addAll ss).1[i]? = some o ∧ (t.addAll ss).2.strings.lookup s = some o) ∧
    (∀ (i : Nat) (s : List Nat), ss[i]? = some s → s ∉ seen → s ∉ ss.take i →
      (t.addAll ss).1[i]? = some (stringsSize (seen ++ ss.take i)))
  | [], t, seen, h, _ => by
    simp only [StringTable.addAll, List.append_nil]
    exact ⟨h, rfl, fun _ _ hx => hx, fun i s hi => by simp at hi, fun i s hi => by simp at hi⟩
  | s :: rest, t, seen, h, hb => by
    have hb1 : stringsSize (seen ++ [s]) < 2 ^ 32 := by
      have := stringsSize_mono (seen ++ [s]) rest
      rw [List.append_assoc, List.singleton_append] at this
      omega
    obtain ⟨h1, hfirst⟩ := Holding_Add s h hb1
    have hb2 : stringsSize ((seen ++ [s]) ++ rest) < 2 ^ 32 := by
      rw [List.append_assoc, List.singleton_append]; exact hb
    obtain ⟨i1, i2, i3, i4, i5⟩ := addAll_spec rest (t.Add s).2 (seen ++ [s]) h1 hb2
    rw [List.append_assoc, List.singleton_append] at i1
    simp only [StringTable.addAll]
    refine ⟨i1, by simp [i2], fun x o hx => i3 x o (Add_stable t s hx), ?_, ?_⟩
    · intro i x hi
      cases i with
      | zero =>
        simp only [List.getElem?_cons_zero, Option.some.injEq] at hi
        subst hi
        exact ⟨(t.Add s).1, by simp, i3 _ _ (Add_lookup t s)⟩
      | succ i =>
        simp only [List.getElem?_cons_succ] at hi ⊢
        exact i4 i x hi
    · intro i x hi hns hnt
      cases i with
      | zero =>
        simp only [List.getElem?_cons_zero, Option.some.injEq] at hi
        subst hi
        simp only [List.getElem?_cons_zero, List.take_zero, List.append_nil]
        rw [hfirst hns]
      | succ i =>
        simp only [List.getElem?_cons_succ, List.take_succ_cons, List.mem_cons, not_or] at hi hnt ⊢
        have := i5 i x hi (by
          simp only [List.mem_append, List.mem_singleton, not_or]
          exact ⟨hns, hnt.1⟩) hnt.2
        rw [this, List.append_assoc, List.singleton_append]

/-- The table a sequence of `Add` calls leaves when the total stays below
`2^32`. -/
theorem addAll_new (ss : List (List Nat)) (hb : stringsSize ss < 2 ^ 32) :
    (newStringTable.addAll ss).2.Holding ss ∧ (newStringTable.addAll ss).1.length = ss.length ∧
    (∀ (i : Nat) (s : List Nat), ss[i]? = some s →
      ∃ o, (newStringTable.addAll ss).1[i]? = some o ∧
        (newStringTable.addAll ss).2.strings.lookup s = some o) ∧
    (∀ (i : Nat) (s : List Nat), ss[i]? = some s → s ∉ ss.take i →
      (newStringTable.addAll ss).1[i]? = some (stringsSize (ss.take i))) := by
  obtain ⟨a1, a2, -, a4, a5⟩ := addAll_spec ss newStringTable [] holding_new
    (by rw [List.nil_append]; exact hb)
  rw [List.nil_append] at a1
  refine ⟨a1, a2, a4, fun i s hi hn => ?_⟩
  have := a5 i s hi (by simp) hn
  rw [List.nil_append] at this
  exact this

/-- Writing the strings of a table into a buffer that has room for all of
them succeeds, whatever the order, and keeps the length of the buffer. -/
theorem toDataLoop_ok : ∀ (order : List (List Nat × Nat)) (data : List Nat),
    (∀ en ∈ order, en.2 + en.1.length ≤ data.length) →
    ∃ d, toDataLoop order data = .ok d ∧ d.length = data.length
  | [], data, _ => ⟨data, rfl, rfl⟩
  | (s, i) :: rest, data, h => by
    have hb := h (s, i) (List.mem_cons_self _ _)
    simp only at hb
    rw [toDataLoop, slicesReplace, if_pos ⟨by omega, hb⟩]
    simp only
    have hl : (List.take i data ++ s ++ List.drop (i + s.length) data).length = data.length := by
      simp only [List.length_append, List.length_take, List.length_drop]
      omega
    obtain ⟨d, hd, hdl⟩ := toDataLoop_ok rest _ (fun en hen => by
      rw [hl]; exact h en (List.mem_cons_of_mem _ hen))
    exact ⟨d, hd, hdl.trans hl⟩

theorem contig_end : ∀ (strs : List (List Nat × Nat)) (o : Nat), contig o strs →
    ∀ en ∈ strs, o ≤ en.2 ∧ en.2 + en.1.length + 1 ≤ o + (tableBytes strs).length
  | [], _, _, _, hen => by simp at hen
  | en0 :: rest, o, hc, en, hen => by
    obtain ⟨hi, hrest⟩ := hc
    rw [tableBytes_cons]
    simp only [List.length_append, List.length_singleton]
    rcases List.mem_cons.1 hen with h | h
    · subst h; omega
    · have := contig_end rest _ hrest en h
      omega

theorem ToDataIn_ok {t : StringTable} {seen : List (List Nat)} (h : t.Holding seen)
    {order : List (List Nat × Nat)} (hp : order.Perm t.strings) :
    ∃ d, t.ToDataIn order = .ok d ∧ d.length = stringsSize seen := by
  unfold StringTable.ToDataIn
  obtain ⟨d, hd, hl⟩ := toDataLoop_ok order (List.replicate t.pos 0) (fun en hen => by
    have := (contig_end t.strings 0 h.1.1 en (hp.mem_iff.1 hen)).2
    rw [List.length_replicate, h.1.2]
    omega)
  exact ⟨d, hd, by rw [hl, List.length_replicate, h.pos]⟩

/-- C11 (amended): for every sequence `ss` of `Add` calls on a fresh string
table in which the distinct strings take, with one terminator each, fewer than
`2^32` bytes in all: `Add` returns one offset per call; it returns the same
offset each time it is given an equal string; a string added for the first
time gets as offset the sum of `len + 1` over the distinct strings added
before it (0 for the first); and `ToData`, in whatever order it visits the
map, returns a buffer whose length is the sum of `len + 1` over the distinct
strings added (0 for a table with no `Add`). -/
theorem stringTable_add_offsets (ss : List (List Nat)) (hb : stringsSize ss < 2 ^ 32) :
    (newStringTable.addAll ss).1.length = ss.length ∧
    (∀ (i j : Nat) (s : List Nat) (a b : Nat), ss[i]? = some s → ss[j]? = some s →
      (newStringTable.addAll ss).1[i]? = some a → (newStringTable.addAll ss).1[j]? = some b →
      a = b) ∧
    (∀ (i : Nat) (s : List Nat), ss[i]? = some s → s ∉ ss.take i →
      (newStringTable.addAll ss).1[i]? = some (stringsSize (ss.take i))) ∧
    (∀ order : List (List Nat × Nat), order.Perm (newStringTable.addAll ss).2.strings →
      ∃ d, (newStringTable.addAll ss).2.ToDataIn order = .ok d ∧ d.length = stringsSize ss) ∧
    ∃ d, (newStringTable.addAll ss).2.ToData = .ok d ∧ d.length = stringsSize ss := by
  obtain ⟨a1, a2, a3, a4⟩ := addAll_new ss hb
  refine ⟨a2, ?_, a4, fun order hp => ToDataIn_ok a1 hp, ToDataIn_ok a1 (List.Perm.refl _)⟩
  intro i j s a b hi hj ha hb2
  obtain ⟨o1, h1, l1⟩ := a3 i s hi
  obtain ⟨o2, h2, l2⟩ := a3 j s hj
  rw [ha] at h1
  rw [hb2] at h2
  rw [l1] at l2
  have e1 := Option.some.inj h1
  have e2 := Option.some.inj h2
  have e3 := Option.some.inj l2
  omega

theorem stringTable_add_offsets_witness :
    stringsSize [[97], [98, 99], [97]] < 2 ^ 32 ∧
    (newStringTable.addAll [[97], [98, 99], [97]]).1 = [0, 2, 0] ∧
    ((newStringTable.addAll [[97], [98, 99], [97]]).1.length = [[97], [98, 99], [97]].length ∧
    (∀ (i j : Nat) (s : List Nat) (a b : Nat), [[97], [98, 99], [97]][i]? = some s →
      [[97], [98, 99], [97]][j]? = some s →
      (newStringTable.addAll [[97], [98, 99], [97]]).1[i]? = some a →
      (newStringTable.addAll [[97], [98, 99], [97]]).1[j]? = some b → a = b) ∧
    (∀ (i : Nat) (s : List Nat), [[97], [98, 99], [97]][i]? = some s →
      s ∉ [[97], [98, 99], [97]].take i →
      (newStringTable.addAll [[97], [98, 99], [97]]).1[i]?
        = some (stringsSize ([[97], [98, 99], [97]].take i))) ∧
    (∀ order : List (List Nat × Nat),
      order.Perm (newStringTable.addAll [[97], [98, 99], [97]]).2.strings →
      ∃ d, (newStringTable.addAll [[97], [98, 99], [97]]).2.ToDataIn order = .ok d ∧
        d.length = stringsSize [[97], [98, 99], [97]]) ∧
    ∃ d, (newStringTable.addAll [[97], [98, 99], [97]]).2.ToData = .ok d ∧
      d.length = stringsSize [[97], [98, 99], [97]]) :=
  ⟨by decide, by decide, stringTable_add_offsets [[97], [98, 99], [97]] (by decide)⟩

theorem addAll_wrap (big : List Nat) (hl : big.length = 4294967295) :
    (newStringTable.addAll [big, [98]]).1 = [0, 0] ∧ [98] ∉ [big] ∧
    stringsSize [big] = 4294967296 := by
  have hne : ¬ ([98] : List Nat) = big := by
    intro h
    have := congrArg List.length h
    rw [hl] at this
    simp at this
  refine ⟨?_, by simpa using hne, ?_⟩
  · have hb : (([98] : List Nat) == big) = false := by simpa using hne
    simp only [StringTable.addAll, StringTable.Add, newStringTable, List.lookup_nil,
      List.nil_append, List.lookup_cons, hb, hl]
    norm_num
  · unfold stringsSize
    simp [hl]

/-- C11 as stated fails: after `Add` of a string of `2^32 - 1` bytes the
position of the table has wrapped around to 0, so `Add` of the new string `b`
returns offset 0, not `2^32`, the sum of `len + 1` over the strings added
before it. -/
theorem stringTable_offsets_wrap :
    (newStringTable.addAll [List.replicate 4294967295 97, [98]]).1 = [0, 0] ∧
    [98] ∉ [List.replicate 4294967295 97] ∧
    stringsSize [List.replicate 4294967295 97] = 4294967296 :=
  addAll_wrap (List.replicate 4294967295 97) (List.length_replicate _ _)

theorem Apart.symm {a b : List Nat × Nat} (h : Apart a b) : Apart b a := Or.symm h

theorem contig_apart : ∀ (strs : List (List Nat × Nat)) (o : Nat), contig o strs →
    strs.Pairwise Apart
  | [], _, _ => List.Pairwise.nil
  | en :: rest, o, hc => by
    obtain ⟨hi, hrest⟩ := hc
    refine List.Pairwise.cons (fun b hb => ?_) (contig_apart rest _ hrest)
    have := (contig_end rest _ hrest b hb).1
    left
    omega

theorem getElem?_replace (data s : List Nat) (i k : Nat) (hb : i + s.length ≤ data.length) :
    (List.take i data ++ s ++ List.drop (i + s.length) data)[k]?
      = if i ≤ k ∧ k < i + s.length then s[k - i]? else data[k]? := by
  have hti : (List.take i data).length = i := by rw [List.length_take]; omega
  by_cases h1 : k < i
  · rw [if_neg (by omega), List.append_assoc, List.getElem?_append_left (by omega),
      List.getElem?_take_of_lt h1]
  · by_cases h2 : k < i + s.length
    · rw [if_pos ⟨by omega, h2⟩, List.getElem?_append_left (by
        rw [List.length_append, hti]; exact h2),
        List.getElem?_append_right (by omega), hti]
    · rw [if_neg (by omega), List.getElem?_append_right (by
        rw [List.length_append, hti]; omega), List.length_append, hti,
        List.getElem?_drop]
      congr 1
      omega

/-- Bytes outside every string written stay as they were. -/
theorem toDataLoop_frame : ∀ (order : List (List Nat × Nat)) (data d : List Nat),
    toDataLoop order data = .ok d →
    ∀ k, (∀ en ∈ order, k < en.2 ∨ en.2 + en.1.length ≤ k) → d[k]? = data[k]?
  | [], data, d, h, k, _ => by
    simp only [toDataLoop, Except.ok.injEq] at h
    rw [h]
  | (s, i) :: rest, data, d, h, k, hk => by
    rw [toDataLoop, slicesReplace] at h
    by_cases hc : i ≤ i + s.length ∧ i + s.length ≤ data.length
    · rw [if_pos hc] at h
      simp only at h
      rw [toDataLoop_frame rest _ d h k (fun en hen => hk en (List.mem_cons_of_mem _ hen)),
        getElem?_replace data s i k hc.2]
      have := hk (s, i) (List.mem_cons_self _ _)
      simp only at this
      rw [if_neg (by omega)]
    · rw [if_neg hc] at h
      cases h

/-- Every string written stands at its offset in the result, whatever the
order, when no two entries overlap. -/
theorem toDataLoop_content : ∀ (order : List (List Nat × Nat)) (data d : List Nat),
    order.Pairwise Apart → toDataLoop order data = .ok d →
    ∀ en ∈ order, (∀ j, j < en.1.length → d[en.2 + j]? = en.1[j]?) ∧
      d[en.2 + en.1.length]? = data[en.2 + en.1.length]?
  | [], _, _, _, _, _, hen => by simp at hen
  | (s, i) :: rest, data, d, hp, h, en, hen => by
    rw [toDataLoop, slicesReplace] at h
    by_cases hc : i ≤ i + s.length ∧ i + s.length ≤ data.length
    · rw [if_pos hc] at h
      simp only at h
      obtain ⟨hhead, htail⟩ := List.pairwise_cons.1 hp
      rcases List.mem_cons.1 hen with he | he
      · subst he
        simp only
        have hout : ∀ k, i ≤ k → k ≤ i + s.length →
            ∀ b ∈ rest, k < b.2 ∨ b.2 + b.1.length ≤ k := by
          intro k h1 h2 b hb
          rcases hhead b hb with h3 | h3
          · simp only at h3; left; omega
          · simp only at h3; right; omega
        refine ⟨fun j hj => ?_, ?_⟩
        · rw [toDataLoop_frame rest _ d h (i + j) (hout _ (by omega) (by omega)),
            getElem?_replace data s i (i + j) hc.2, if_pos ⟨by omega, by omega⟩]
          congr 1
          omega
        · rw [toDataLoop_frame rest _ d h (i + s.length) (hout _ (by omega) (by omega)),
            getElem?_replace data s i (i + s.length) hc.2, if_neg (by omega)]
      · obtain ⟨c1, c2⟩ := toDataLoop_content rest _ d htail h en he
        refine ⟨c1, ?_⟩
        rw [c2, getElem?_replace data s i _ hc.2]
        have := hhead en he
        unfold Apart at this
        simp only at this
        rw [if_neg (by omega)]
    · rw [if_neg hc] at h
      cases h

theorem holds_of_getElem? {b x : List Nat} {off : Nat}
    (h : ∀ j, j < x.length → b[off + j]? = x[j]?) : Holds b off x := by
  rw [holds_iff]
  apply List.ext_getElem?
  intro j
  by_cases hj : j < x.length
  · rw [List.getElem?_take_of_lt hj, List.getElem?_drop, h j hj]
  · rw [List.getElem?_eq_none (by rw [List.length_take]; omega),
      List.getElem?_eq_none (by omega)]

theorem Add_of_lookup {t : StringTable} {s : List Nat} {o : Nat}
    (h : t.strings.lookup s = some o) : (t.Add s).1 = o := by
  unfold StringTable.Add; rw [h]

/-- C12 (amended): for every string table made by a sequence `ss` of `Add`
calls on a fresh table in which the distinct strings take, with one terminator
each, fewer than `2^32` bytes in all, `ToData` succeeds in whatever order it
visits the map, and for every string `s` that was added the bytes of the
result at offsets `Add(s) .. Add(s)+len(s)-1` equal `s` and the byte at
`Add(s)+len(s)` is zero; if `s` holds no zero byte, `readString` from offset
`Add(s)` returns exactly `s` (and stops after the terminator). -/
theorem stringTable_data_holds_strings (ss : List (List Nat)) (hb : stringsSize ss < 2 ^ 32)
    (order : List (List Nat × Nat)) (hp : order.Perm (newStringTable.addAll ss).2.strings) :
    ∃ d, (newStringTable.addAll ss).2.ToDataIn order = .ok d ∧
      ∀ s ∈ ss,
        (d.drop ((newStringTable.addAll ss).2.Add s).1).take s.length = s ∧
        d[((newStringTable.addAll ss).2.Add s).1 + s.length]? = some 0 ∧
        (0 ∉ s → readString ⟨d, ((newStringTable.addAll ss).2.Add s).1⟩
          = .ok (s, ⟨d, ((newStringTable.addAll ss).2.Add s).1 + (s.length + 1)⟩)) := by
  obtain ⟨a1, -, a3, -⟩ := addAll_new ss hb
  obtain ⟨d, hd, hl⟩ := ToDataIn_ok a1 hp
  refine ⟨d, hd, fun s hs => ?_⟩
  obtain ⟨i, hi⟩ := List.mem_iff_getElem?.1 hs
  obtain ⟨o, -, hlook⟩ := a3 i s hi
  rw [Add_of_lookup hlook]
  have hmem : (s, o) ∈ order := hp.mem_iff.2 (lookup_mem _ _ _ hlook)
  have hapart : order.Pairwise Apart :=
    (hp.pairwise_iff (fun h => Apart.symm h)).2 (contig_apart _ 0 a1.1.1)
  unfold StringTable.ToDataIn at hd
  obtain ⟨c1, c2⟩ := toDataLoop_content order _ d hapart hd (s, o) hmem
  simp only at c1 c2
  have hend := (contig_end _ 0 a1.1.1 (s, o) (lookup_mem _ _ _ hlook)).2
  simp only at hend
  have hzero : d[o + s.length]? = some 0 := by
    rw [c2, List.getElem?_replicate, if_pos (by rw [a1.1.2]; omega)]
  have hholds : Holds d o s := holds_of_getElem? c1
  refine ⟨holds_iff.1 hholds, hzero, fun hz => ?_⟩
  have hfull : Holds d o (s ++ [0]) := by
    apply holds_of_getElem?
    intro j hj
    rw [List.length_append, List.length_singleton] at hj
    by_cases hjs : j < s.length
    · rw [c1 j hjs, List.getElem?_append_left hjs]
    · have : j = s.length := by omega
      subst this
      rw [hzero, List.getElem?_append_right (le_refl _)]
      simp
  have := readString_of_holds (s := ⟨d, o⟩) hfull
  rw [cstr_of_not_mem hz] at this
  exact this

theorem stringTable_data_holds_strings_witness :
    stringsSize [[97], [98, 99], [97]] < 2 ^ 32 ∧
    (newStringTable.addAll [[97], [98, 99], [97]]).2.ToData = .ok [97, 0, 98, 99, 0] ∧
    ∃ d, (newStringTable.addAll [[97], [98, 99], [97]]).2.ToDataIn
        (newStringTable.addAll [[97], [98, 99], [97]]).2.strings = .ok d ∧
      ∀ s ∈ [[97], [98, 99], [97]],
        (d.drop ((newStringTable.addAll [[97], [98, 99], [97]]).2.Add s).1).take s.length = s ∧
        d[((newStringTable.addAll [[97], [98, 99], [97]]).2.Add s).1 + s.length]? = some 0 ∧
        (0 ∉ s → readString ⟨d, ((newStringTable.addAll [[97], [98, 99], [97]]).2.Add s).1⟩
          = .ok (s, ⟨d, ((newStringTable.addAll [[97], [98, 99], [97]]).2.Add s).1
              + (s.length + 1)⟩)) :=
  ⟨by decide, rfl,
   stringTable_data_holds_strings [[97], [98, 99], [97]] (by decide) _ (List.Perm.refl _)⟩

theorem ToData_wrap (big : List Nat) (hl : big.length = 4294967295) :
    [98] ∈ [big, [98]] ∧ 0 ∉ ([98] : List Nat) ∧
    (newStringTable.addAll [big, [98]]).2.strings = [(big, 0), ([98], 0)] ∧
    (newStringTable.addAll [big, [98]]).2.ToData = .error Fault.panic ∧
    (newStringTable.addAll [big, [98]]).2.ToDataIn [([98], 0), (big, 0)]
      = .error Fault.panic := by
  have hne : ¬ ([98] : List Nat) = big := by
    intro h
    have := congrArg List.length h
    rw [hl] at this
    simp at this
  have hb : (([98] : List Nat) == big) = false := by simpa using hne
  have hfin : (newStringTable.addAll [big, [98]]).2
      = { strings := [(big, 0), ([98], 0)], pos := 2 } := by
    simp only [StringTable.addAll, StringTable.Add, newStringTable, List.lookup_nil,
      List.nil_append, List.lookup_cons, hb, hl]
    norm_num
  rw [hfin]
  refine ⟨by simp, by decide, rfl, ?_, ?_⟩
  · simp only [StringTable.ToData, toDataLoop, slicesReplace, hl, List.length_replicate]
    norm_num
  · simp only [StringTable.ToDataIn, toDataLoop, slicesReplace, hl, List.length_replicate,
      List.length_singleton]
    norm_num

/-- C12 as stated fails: in the table left by `Add` of a string of `2^32 - 1`
bytes and `Add` of the string `b` (which holds no zero byte), the position has
wrapped around to 2, and `ToData` panics in `slices.Replace`, in either order
of the two entries, so there are no bytes to read `b` from. -/
theorem stringTable_data_wrap :
    [98] ∈ [List.replicate 4294967295 97, [98]] ∧ 0 ∉ ([98] : List Nat) ∧
    (newStringTable.addAll [List.replicate 4294967295 97, [98]]).2.strings
      = [(List.replicate 4294967295 97, 0), ([98], 0)] ∧
    (newStringTable.addAll [List.replicate 4294967295 97, [98]]).2.ToData
      = .error Fault.panic ∧
    (newStringTable.addAll [List.replicate 4294967295 97, [98]]).2.ToDataIn
      [([98], 0), (List.replicate 4294967295 97, 0)] = .error Fault.panic :=
  ToData_wrap (List.replicate 4294967295 97) (List.length_replicate _ _)

end elf

namespace Relocation

/-! ### Region allocator: exact offsets, region lists, simulation, gap search -/

theorem placeLoop_simulate (r : Region) (e : Entry) (lo hi : Nat) :
    ∀ (fuel s : Nat),
      placeLoop r e lo hi true fuel s = simulated r e (placeLoop r e lo hi false fuel s)
  | 0, _ => rfl
  | fuel + 1, s => by
    rw [placeLoop, placeLoop]
    cases hf : r.findGap lo hi RegionFindGapModeFirst (toInt64 e.size) s with
    | error h => rfl
    | ok v =>
      obtain ⟨ok, gs, ge, gi⟩ := v
      cases ok with
      | false => rfl
      | true =>
        simp only
        cases hc : calcEntryOffset gs ge e.size r.descending e.align with
        | mk b off =>
          cases b with
          | true => rfl
          | false =>
            simp only
            exact placeLoop_simulate r e lo hi fuel (gi + 1)

/-- C15: for every region, entry, offset range and fuel, `Place` with
`simulate = true` behaves as `Place` with `simulate = false` on the same
region state, entry and range does, except that it leaves the region (its
entry list included) and the entry (its offset included) as they were: it
returns exactly when the other returns, with the same success flag and the
same returned offset, and it panics exactly when the other panics. -/
theorem place_simulate (fuel : Nat) (r : Region) (e : Entry) (offsetRange : Option (List Nat)) :
    r.Place fuel e offsetRange true = simulated r e (r.Place fuel e offsetRange false) := by
  have key : ∀ lo hi : Nat,
      (if r.size ≥ sub64 hi lo then placeLoop r e lo hi true fuel 0
        else .ok { ok := false, ret := 0, region := r, entry := e })
      = simulated r e (if r.size ≥ sub64 hi lo then placeLoop r e lo hi false fuel 0
        else .ok { ok := false, ret := 0, region := r, entry := e }) := by
    intro lo hi
    by_cases hs : r.size ≥ sub64 hi lo
    · rw [if_pos hs, if_pos hs]
      exact placeLoop_simulate r e lo hi fuel 0
    · rw [if_neg hs, if_neg hs]
      rfl
  unfold Region.Place
  rcases offsetRange with _ | l
  · exact key _ _
  · rcases l with _ | ⟨x, _ | ⟨y, _ | ⟨z, l⟩⟩⟩
    · rfl
    · exact key _ _
    · exact key _ _
    · rfl

/-- C13 fails on the code.  In the descending region `[0, 100)` holding one
entry at `[50, 60)`, the range `[20, 25)` lies inside the region, overlaps no
entry and 20 satisfies the alignment 1, yet `Place(e, [20], false)` for an
entry of size 5 gives `e` the offset 45.  In the same region taken ascending,
`Place(e, [20], false)` for an entry of size 5 and alignment 16 succeeds, with
offset 32, although 20 is not a multiple of 16.  In both cases the first gap
`findGap` reports, `[20, 50)`, is not cut at `offsetMax = 25`. -/
theorem place_exact_offset_elsewhere :
    (⟨0, 100, [⟨50, 10, 1⟩], true⟩ : Region).WellFormed ∧
    Fits 0 100 [⟨50, 10, 1⟩] 5 1 20 ∧
    (⟨0, 100, [⟨50, 10, 1⟩], true⟩ : Region).findGap 20 25 RegionFindGapModeFirst 5 0
      = .ok (true, 20, 50, 0) ∧
    (∀ fuel, (⟨0, 100, [⟨50, 10, 1⟩], true⟩ : Region).Place (fuel + 1) ⟨0, 5, 1⟩ (some [20]) false
      = .ok ⟨true, 0, ⟨0, 100, [⟨45, 5, 1⟩, ⟨50, 10, 1⟩], true⟩, ⟨45, 5, 1⟩⟩) ∧
    (⟨0, 100, [⟨50, 10, 1⟩], false⟩ : Region).WellFormed ∧
    ¬ Fits 0 100 [⟨50, 10, 1⟩] 5 16 20 ∧
    (∀ fuel, (⟨0, 100, [⟨50, 10, 1⟩], false⟩ : Region).Place (fuel + 1) ⟨0, 5, 16⟩ (some [20])
        false
      = .ok ⟨true, 0, ⟨0, 100, [⟨32, 5, 16⟩, ⟨50, 10, 1⟩], false⟩, ⟨32, 5, 16⟩⟩) := by
  refine ⟨by decide, ?_, rfl, fun fuel => rfl, by decide, ?_, fun fuel => rfl⟩
  · unfold Fits; simp
  · unfold Fits; simp

theorem regionListLoop_error (h : Halt) (n : Nat) :
    regionListLoop (.error h) (n + 1) = .error h := rfl

/-- C14 fails on the code: for every region list with at least one region,
`RegionList.Place` never returns, whatever the depth of calls allowed, because
its loop body calls `Place` on the region list itself and not on
`r.Regions[i]`; so it does not return the result of `Region.Place` on the
first region in which placement succeeds, such as the success of placing an
entry of size 1 in the empty region `[0, 100)`.  Only on the empty list does
it return, with failure `(false, 0)`. -/
theorem regionList_place_never_returns :
    (∀ (fuel : Nat) (r : Region) (rs : List Region) (e : Entry) (offsetRange : Option (List Nat))
        (simulate : Bool),
      RegionList.Place fuel ⟨r :: rs⟩ e offsetRange simulate = .error Halt.fuel) ∧
    (NewRegion 0 100 false).Place 1 ⟨0, 1, 1⟩ none false
      = .ok ⟨true, 0, ⟨0, 100, [⟨0, 1, 1⟩], false⟩, ⟨0, 1, 1⟩⟩ ∧
    (∀ (fuel : Nat) (e : Entry) (offsetRange : Option (List Nat)) (simulate : Bool),
      RegionList.Place (fuel + 1) ⟨[]⟩ e offsetRange simulate = .ok (false, 0)) := by
  refine ⟨?_, rfl, fun fuel e offsetRange simulate => rfl⟩
  intro fuel r rs e offsetRange simulate
  induction fuel with
  | zero => rfl
  | succ n ih =>
    rw [RegionList.Place, ih]
    rfl

/-- C16 fails on the code: the region `[0, 100)` with one entry at `[0, 10)`
has the gaps `[0, 0)` and `[10, 100)`, the second of size 90, yet
`FindAnyGap` in Smallest mode with minimum size 5 reports failure: the search
starts from the first gap, of size 0, and takes a later gap only if it is
smaller. -/
theorem findAnyGap_smallest_misses_gap :
    (⟨0, 100, [⟨0, 10, 1⟩], false⟩ : Region).WellFormed ∧
    gaps 0 100 [⟨0, 10, 1⟩] = [(0, 0), (10, 100)] ∧
    (⟨0, 100, [⟨0, 10, 1⟩], false⟩ : Region).FindAnyGap RegionFindGapModeSmallest 5
      = .ok (false, 0, 0) := by
  refine ⟨by decide, rfl, rfl⟩

theorem toInt64_sub64 {a b : Nat}
    (h1 : -(H64 : Int) ≤ (a : Int) - b) (h2 : (a : Int) - b < H64) :
    toInt64 (sub64 a b) = (a : Int) - b := by
  unfold toInt64 sub64
  simp only [M64, H64] at *
  split_ifs <;> omega

theorem add64_ofInt64 {a b : Nat} (hb : b < M64) :
    add64 a (ofInt64 ((b : Int) - a)) = b := by
  unfold add64 ofInt64
  simp only [M64] at *
  omega

theorem newBestGap_largest (m gZ cg : Int) :
    newBestGap RegionFindGapModeLargest m gZ cg = decide (m ≤ cg ∧ gZ < cg) := by
  unfold newBestGap
  by_cases h : cg < m
  · simp [h]
  · have h3 : ¬ RegionFindGapModeLargest = RegionFindGapModeFirst := by decide
    simp [h, h3, not_lt.1 h]

/-- The loop of `findGap` in Largest mode over the whole region: it ends with
the first largest of the gaps it was started with and those it visits that
reach the minimum size. -/
theorem findGapLoop_largest {r : Region} (m : Int) (s : Nat) (hhi : r.offset + r.size < M64)
    (hn : r.size < H64) :
    ∀ (rest : List Entry) (i : Nat) (prev : Entry) (gS : Nat) (gZ : Int) (gI : Nat),
      (r.offset ≤ prev.offset ∧ prev.offset + prev.size ≤ r.offset + r.size) →
      (∀ a ∈ rest, r.offset ≤ a.offset ∧ a.offset + a.size ≤ r.offset + r.size) →
      ∃ bs bz bi,
        findGapLoop r r.offset (add64 r.offset r.size) RegionFindGapModeLargest m s
          rest i prev gS gZ gI = findGapEnd m bs bz bi ∧
        ((bs = gS ∧ bz = gZ) ∨
          ∃ g ∈ gaps (prev.offset + prev.size) (r.offset + r.size) rest,
            bs = g.1 ∧ bz = (g.2 : Int) - g.1 ∧ m ≤ bz) ∧
        gZ ≤ bz ∧
        ∀ g ∈ gaps (prev.offset + prev.size) (r.offset + r.size) rest,
          m ≤ (g.2 : Int) - g.1 → (g.2 : Int) - g.1 ≤ bz := by
  have hadd : add64 r.offset r.size = r.offset + r.size := add64_eq hhi
  have hmode : ¬ (RegionFindGapModeLargest = RegionFindGapModeFirst) := by decide
  intro rest
  induction rest with
  | nil =>
    intro i prev gS gZ gI hp _
    have e1 : add64 prev.offset prev.size = prev.offset + prev.size :=
      add64_eq (by simp only [M64] at *; omega)
    have e2 : max r.offset (prev.offset + prev.size) = prev.offset + prev.size :=
      max_eq_right (by omega)
    have e3 : toInt64 (sub64 (r.offset + r.size) (prev.offset + prev.size))
        = ((r.offset + r.size : Nat) : Int) - ((prev.offset + prev.size : Nat) : Int) :=
      toInt64_sub64 (by simp only [H64] at *; omega) (by simp only [H64] at *; omega)
    rw [findGapLoop]
    simp only [hadd, e1, e2, min_self, e3, newBestGap_largest, hmode, false_and, if_false,
      gaps, List.mem_singleton, forall_eq, exists_eq_left]
    by_cases hc : m ≤ ((r.offset + r.size : Nat) : Int) - ((prev.offset + prev.size : Nat) : Int)
        ∧ gZ < ((r.offset + r.size : Nat) : Int) - ((prev.offset + prev.size : Nat) : Int)
    · simp only [hc, and_self, decide_True, if_true]
      exact ⟨_, _, _, rfl, Or.inr ⟨rfl, rfl, hc.1⟩, le_of_lt hc.2, fun _ => le_refl _⟩
    · simp only [hc, decide_False, Bool.false_eq_true, if_false]
      refine ⟨_, _, _, rfl, Or.inl ⟨rfl, rfl⟩, le_refl _, fun hm => ?_⟩
      by_contra hcon
      exact hc ⟨hm, by omega⟩
  | cons cur rest ih =>
    intro i prev gS gZ gI hp hr
    have hcur := hr cur (List.mem_cons_self _ _)
    have hrest : ∀ a ∈ rest, r.offset ≤ a.offset ∧ a.offset + a.size ≤ r.offset + r.size :=
      fun a ha => hr a (List.mem_cons_of_mem _ ha)
    have e1 : add64 prev.offset prev.size = prev.offset + prev.size :=
      add64_eq (by simp only [M64] at *; omega)
    have e2 : max r.offset (prev.offset + prev.size) = prev.offset + prev.size :=
      max_eq_right (by omega)
    have e4 : min (r.offset + r.size) cur.offset = cur.offset := min_eq_right (by omega)
    have e3 : toInt64 (sub64 cur.offset (prev.offset + prev.size))
        = (cur.offset : Int) - ((prev.offset + prev.size : Nat) : Int) :=
      toInt64_sub64 (by simp only [H64] at *; omega) (by simp only [H64] at *; omega)
    rw [findGapLoop]
    simp only [hadd, e1, e2, min_self, e4, e3, newBestGap_largest, hmode, false_and, if_false,
      gaps, List.mem_cons]
    by_cases hc : m ≤ (cur.offset : Int) - ((prev.offset + prev.size : Nat) : Int)
        ∧ gZ < (cur.offset : Int) - ((prev.offset + prev.size : Nat) : Int)
    · simp only [hc, and_self, decide_True, if_true]
      obtain ⟨bs, bz, bi, h1, h2, h3, h4⟩ := ih (i + 1) cur (prev.offset + prev.size)
        ((cur.offset : Int) - ((prev.offset + prev.size : Nat) : Int)) i hcur hrest
      rw [hadd] at h1
      refine ⟨bs, bz, bi, h1, ?_, by omega, ?_⟩
      · rcases h2 with ⟨a1, a2⟩ | ⟨g, hg, a1, a2, a3⟩
        · exact Or.inr ⟨(prev.offset + prev.size, cur.offset), Or.inl rfl, a1, a2,
            by rw [a2]; exact hc.1⟩
        · exact Or.inr ⟨g, Or.inr hg, a1, a2, a3⟩
      · intro g hg hm
        rcases hg with rfl | hg
        · exact h3
        · exact h4 g hg hm
    · simp only [hc, decide_False, Bool.false_eq_true, if_false]
      obtain ⟨bs, bz, bi, h1, h2, h3, h4⟩ := ih (i + 1) cur gS gZ gI hcur hrest
      rw [hadd] at h1
      refine ⟨bs, bz, bi, h1, ?_, h3, ?_⟩
      · rcases h2 with h2 | ⟨g, hg, a1, a2, a3⟩
        · exact Or.inl h2
        · exact Or.inr ⟨g, Or.inr hg, a1, a2, a3⟩
      · intro g hg hm
        rcases hg with rfl | hg
        · by_contra hcon
          exact hc ⟨hm, by simp only at hcon hm ⊢; omega⟩
        · exact h4 g hg hm

/-- C17 (amended): for every region of size below `2^63` that ends below
`2^64` and whose entries lie inside the region (as they do when they are
sorted by offset, pairwise disjoint and inside the region), and every minimum
size `m`, `FindAnyGap` in Largest mode returns; it reports success if and only
if some gap of the region (before the first entry, between consecutive
entries, after the last entry) has size at least `m`; and then the returned
`[start, end)` is a gap of the region whose size is the greatest among all
gaps.  The size of a gap is its end minus its start, as the code computes
it. -/
theorem findAnyGap_largest (r : Region) (m : Int) (hn : r.size < H64)
    (hhi : r.offset + r.size < M64)
    (hin : ∀ a ∈ r.entries, r.offset ≤ a.offset ∧ a.offset + a.size ≤ r.offset + r.size) :
    ∃ ok gs ge, r.FindAnyGap RegionFindGapModeLargest m = .ok (ok, gs, ge) ∧
      (ok = true ↔ ∃ g ∈ gaps r.offset (r.offset + r.size) r.entries, m ≤ (g.2 : Int) - g.1) ∧
      (ok = true → (gs, ge) ∈ gaps r.offset (r.offset + r.size) r.entries ∧
        ∀ g ∈ gaps r.offset (r.offset + r.size) r.entries,
          (g.2 : Int) - g.1 ≤ (ge : Int) - gs) := by
  have hadd : add64 r.offset r.size = r.offset + r.size := add64_eq hhi
  unfold Region.FindAnyGap Region.FindGap Region.findGap
  cases hes : r.entries with
  | nil =>
    have e3 : toInt64 (sub64 (r.offset + r.size) r.offset)
        = ((r.offset + r.size : Nat) : Int) - (r.offset : Int) :=
      toInt64_sub64 (by simp only [H64] at *; omega) (by simp only [H64] at *; omega)
    simp only [hadd, e3, gaps, List.mem_singleton, exists_eq_left, forall_eq]
    by_cases hc : m ≤ ((r.offset + r.size : Nat) : Int) - (r.offset : Int)
    · rw [if_pos hc]
      exact ⟨true, _, _, rfl, ⟨fun _ => hc, fun _ => rfl⟩, fun _ => ⟨rfl, le_refl _⟩⟩
    · rw [if_neg hc]
      exact ⟨false, _, _, rfl, ⟨fun h => Bool.noConfusion h, fun h => absurd h hc⟩,
        fun h => Bool.noConfusion h⟩
  | cons first rest =>
    rw [hes] at hin
    have hfirst := hin first (List.mem_cons_self _ _)
    have hrest : ∀ a ∈ rest, r.offset ≤ a.offset ∧ a.offset + a.size ≤ r.offset + r.size :=
      fun a ha => hin a (List.mem_cons_of_mem _ ha)
    have hmode : ¬ (RegionFindGapModeLargest = RegionFindGapModeFirst) := by decide
    have e3 : toInt64 (sub64 first.offset r.offset) = (first.offset : Int) - (r.offset : Int) :=
      toInt64_sub64 (by simp only [H64] at *; omega) (by simp only [H64] at *; omega)
    obtain ⟨bs, bz, bi, h1, h2, h3, h4⟩ := findGapLoop_largest m 0 hhi hn rest 1 first
      (max r.offset r.offset) ((first.offset : Int) - (r.offset : Int)) 0 hfirst hrest
    have hnp : ¬ (0 > 0 ∧ RegionFindGapModeLargest ≠ RegionFindGapModeFirst) := by
      intro h; exact absurd h.1 (by decide)
    simp only [hnp, if_false, hmode, false_and, e3, h1, gaps, List.mem_cons]
    -- the best gap found is a gap of the region
    have hbest : ∃ g, (g = (r.offset, first.offset) ∨
        g ∈ gaps (first.offset + first.size) (r.offset + r.size) rest) ∧
        bs = g.1 ∧ bz = (g.2 : Int) - g.1 := by
      rcases h2 with ⟨a1, a2⟩ | ⟨g, hg, a1, a2, -⟩
      · exact ⟨(r.offset, first.offset), Or.inl rfl, by rw [a1]; simp, a2⟩
      · exact ⟨g, Or.inr hg, a1, a2⟩
    obtain ⟨gb, hgb, b1, b2⟩ := hbest
    have hgbound : gb.2 < M64 := by
      rcases hgb with rfl | hg
      · simp only [M64] at *; omega
      · have : ∀ (es : List Entry) (lo : Nat) (g : Nat × Nat), g ∈ gaps lo (r.offset + r.size) es →
            (∀ a ∈ es, a.offset + a.size ≤ r.offset + r.size) → g.2 ≤ r.offset + r.size := by
          intro es
          induction es with
          | nil =>
            intro lo g hg _
            simp only [gaps, List.mem_singleton] at hg
            rw [hg]
          | cons a es ih =>
            intro lo g hg hb
            simp only [gaps, List.mem_cons] at hg
            rcases hg with rfl | hg
            · have := hb a (List.mem_cons_self _ _)
              simp only
              omega
            · exact ih _ g hg (fun x hx => hb x (List.mem_cons_of_mem _ hx))
        have := this rest _ gb hg (fun a ha => (hrest a ha).2)
        omega
    have hall : (∃ g, (g = (r.offset, first.offset) ∨
        g ∈ gaps (first.offset + first.size) (r.offset + r.size) rest) ∧
        m ≤ (g.2 : Int) - g.1) → m ≤ bz := by
      rintro ⟨g, hg | hg, hm⟩
      · subst hg; simp only at hm; omega
      · exact le_trans hm (h4 g hg hm)
    unfold findGapEnd
    by_cases hc : bz < m
    · rw [if_pos hc]
      refine ⟨false, _, _, rfl, ⟨fun h => Bool.noConfusion h, fun h => ?_⟩,
        fun h => Bool.noConfusion h⟩
      have := hall h
      omega
    · rw [if_neg hc]
      refine ⟨true, _, _, rfl, ⟨fun _ => ⟨gb, hgb, by rw [← b2]; omega⟩, fun _ => rfl⟩,
        fun _ => ⟨?_, ?_⟩⟩
      · have hend : add64 bs (ofInt64 bz) = gb.2 := by
          rw [b1, b2]; exact add64_ofInt64 hgbound
        rw [hend, b1]
        exact hgb
      · have hend : add64 bs (ofInt64 bz) = gb.2 := by
          rw [b1, b2]; exact add64_ofInt64 hgbound
        rw [hend, b1, ← b2]
        intro g hg
        rcases hg with rfl | hg
        · simp only; omega
        · by_cases hm : m ≤ (g.2 : Int) - g.1
          · exact h4 g hg hm
          · omega

theorem findAnyGap_largest_witness :
    (100 : Nat) < H64 ∧ 0 + 100 < M64 ∧
    (∀ a ∈ ([⟨10, 10, 1⟩, ⟨50, 10, 1⟩] : List Entry),
      0 ≤ a.offset ∧ a.offset + a.size ≤ 0 + 100) ∧
    (⟨0, 100, [⟨10, 10, 1⟩, ⟨50, 10, 1⟩], false⟩ : Region).FindAnyGap RegionFindGapModeLargest 5
      = .ok (true, 60, 100) ∧
    ∃ ok gs ge, (⟨0, 100, [⟨10, 10, 1⟩, ⟨50, 10, 1⟩], false⟩ : Region).FindAnyGap
        RegionFindGapModeLargest 5 = .ok (ok, gs, ge) ∧
      (ok = true ↔ ∃ g ∈ gaps 0 (0 + 100) [⟨10, 10, 1⟩, ⟨50, 10, 1⟩],
        (5 : Int) ≤ (g.2 : Int) - g.1) ∧
      (ok = true → (gs, ge) ∈ gaps 0 (0 + 100) [⟨10, 10, 1⟩, ⟨50, 10, 1⟩] ∧
        ∀ g ∈ gaps 0 (0 + 100) [⟨10, 10, 1⟩, ⟨50, 10, 1⟩],
          (g.2 : Int) - g.1 ≤ (ge : Int) - gs) :=
  ⟨by decide, by decide, by decide, rfl,
   findAnyGap_largest ⟨0, 100, [⟨10, 10, 1⟩, ⟨50, 10, 1⟩], false⟩ 5 (by decide) (by decide)
     (by decide)⟩

/-- C17 as stated fails: the empty region `[0, 2^63)` has one gap, of size
`2^63`, yet `FindAnyGap` in Largest mode with minimum size 1 reports failure,
because the size of the gap is compared as an `int64`. -/
theorem findAnyGap_largest_fails_large_region :
    (NewRegion 0 9223372036854775808 false).WellFormed ∧
    gaps 0 9223372036854775808 (NewRegion 0 9223372036854775808 false).entries
      = [(0, 9223372036854775808)] ∧
    (NewRegion 0 9223372036854775808 false).FindAnyGap RegionFindGapModeLargest 1
      = .ok (false, 0, 0) := by
  refine ⟨by decide, rfl, rfl⟩

end Relocation

namespace elf

/-! ### Reader: the invalid-magic error -/

theorem seek_notMagic (s : Stream) (off : Int) : s.seek off ≠ .error Fault.invalidMagic := by
  unfold Stream.seek
  split_ifs <;> intro h <;> cases h

theorem read_notMagic (s : Stream) (n : Nat) : s.read n ≠ .error Fault.invalidMagic := by
  unfold Stream.read
  split_ifs <;> intro h <;> cases h

theorem readFull_notMagic (s : Stream) (n : Nat) : s.readFull n ≠ .error Fault.invalidMagic := by
  unfold Stream.readFull
  split_ifs <;> intro h <;> cases h

theorem readString_notMagic (s : Stream) : readString s ≠ .error Fault.invalidMagic := by
  unfold readString
  split <;> intro h <;> cases h

theorem readPayload_notMagic (s : Stream) (offset size : Nat) :
    readPayload s offset size ≠ .error Fault.invalidMagic := by
  unfold readPayload
  repeat' split
  all_goals
    intro h
    first
    | cases h; done
    | (injection h with h; subst h; simp_all [seek_notMagic, read_notMagic])

theorem readProgramHeader_notMagic (e : Elf) (s : Stream) :
    e.readProgramHeader s ≠ .error Fault.invalidMagic := by
  unfold Elf.readProgramHeader
  intro h
  repeat' (first | split at h | simp only [] at h)
  all_goals
    first
    | cases h; done
    | (injection h with h; subst h; simp_all [readFull_notMagic, readPayload_notMagic])

theorem readProgramHeaders_notMagic (e : Elf) : ∀ (n : Nat) (s : Stream),
    e.readProgramHeaders n s ≠ .error Fault.invalidMagic
  | 0, s => by
    intro h; rw [Elf.readProgramHeaders] at h; cases h
  | n + 1, s => by
    have ih := readProgramHeaders_notMagic e n
    intro h
    rw [Elf.readProgramHeaders] at h
    repeat' (first | split at h | simp only [] at h)
    all_goals
      first
      | cases h; done
      | (injection h with h; subst h; simp_all [readProgramHeader_notMagic])

theorem readProgramData_notMagic : ∀ (l : List ProgramHeader) (s : Stream),
    readProgramData l s ≠ .error Fault.invalidMagic
  | [], s => by
    intro h; rw [readProgramData] at h; cases h
  | hdr :: rest, s => by
    have ih := readProgramData_notMagic rest
    intro h
    rw [readProgramData] at h
    repeat' (first | split at h | simp only [] at h)
    all_goals
      first
      | cases h; done
      | (injection h with h; subst h; simp_all [read_notMagic])

theorem readSectionHeader_notMagic (e : Elf) (s : Stream) :
    e.readSectionHeader s ≠ .error Fault.invalidMagic := by
  unfold Elf.readSectionHeader
  intro h
  repeat' (first | split at h | simp only [] at h)
  all_goals
    first
    | cases h; done
    | (injection h with h; subst h; simp_all [readFull_notMagic, readPayload_notMagic])

theorem readSectionHeaders_notMagic (e : Elf) : ∀ (n i : Nat) (acc : Elf) (m : Mem) (s : Stream),
    e.readSectionHeaders n i acc m s ≠ .error Fault.invalidMagic
  | 0, i, acc, m, s => by
    intro h; rw [Elf.readSectionHeaders] at h; cases h
  | n + 1, i, acc, m, s => by
    have ih := readSectionHeaders_notMagic e n
    intro h
    rw [Elf.readSectionHeaders] at h
    repeat' (first | split at h | simp only [] at h)
    all_goals
      first
      | cases h; done
      | (injection h with h; subst h; simp_all [readSectionHeader_notMagic])
      | exact ih _ _ _ _ h

theorem resolveLinks_notMagic (e : Elf) : ∀ (todo : List Nat) (m : Mem),
    e.resolveLinks todo m ≠ .error Fault.invalidMagic
  | [], m => by
    intro h; rw [Elf.resolveLinks] at h; cases h
  | p :: todo, m => by
    have ih := resolveLinks_notMagic e todo
    intro h
    rw [Elf.resolveLinks] at h
    repeat' (first | split at h | simp only [] at h)
    all_goals
      first
      | cases h; done
      | exact ih _ h
      | (injection h with h; subst h; rename_i hq
         repeat' (first | split at hq | simp only [] at hq)
         all_goals cases hq)

theorem readStringAt_notMagic (e : Elf) (m : Mem) (s : Stream) (idx offset : Nat) :
    e.readStringAt m s idx offset ≠ .error Fault.invalidMagic := by
  unfold Elf.readStringAt
  intro h
  repeat' (first | split at h | simp only [] at h)
  all_goals
    first
    | cases h; done
    | exact readString_notMagic _ h
    | (injection h with h; subst h; simp_all [seek_notMagic])

theorem readSectionNames_notMagic (e : Elf) : ∀ (todo : List Nat) (m : Mem) (s : Stream),
    e.readSectionNames todo m s ≠ .error Fault.invalidMagic
  | [], m, s => by
    intro h; rw [Elf.readSectionNames] at h; cases h
  | p :: todo, m, s => by
    have ih := readSectionNames_notMagic e todo
    intro h
    rw [Elf.readSectionNames] at h
    repeat' (first | split at h | simp only [] at h)
    all_goals
      first
      | cases h; done
      | exact ih _ _ h
      | (injection h with h; subst h; simp_all [readStringAt_notMagic])

theorem readSymbol_notMagic (e : Elf) (m : Mem) (s : Stream) (parent : SectionHeader) :
    e.readSymbol m s parent ≠ .error Fault.invalidMagic := by
  unfold Elf.readSymbol
  intro h
  repeat' (first | split at h | simp only [] at h)
  all_goals
    first
    | cases h; done
    | (injection h with h; subst h;
       simp_all [readFull_notMagic, readStringAt_notMagic, seek_notMagic]; done)
    | (injection h with h; subst h; rename_i hq
       repeat' (first | split at hq | simp only [] at hq)
       all_goals cases hq)

theorem readSymbols_notMagic (e : Elf) (symtab : SectionHeader) :
    ∀ (n : Nat) (acc : Elf) (m : Mem) (s : Stream),
    e.readSymbols symtab n acc m s ≠ .error Fault.invalidMagic
  | 0, acc, m, s => by
    intro h; rw [Elf.readSymbols] at h; cases h
  | n + 1, acc, m, s => by
    have ih := readSymbols_notMagic e symtab n
    intro h
    rw [Elf.readSymbols] at h
    repeat' (first | split at h | simp only [] at h)
    all_goals
      first
      | cases h; done
      | exact ih _ _ _ h
      | (injection h with h; subst h; simp_all [readSymbol_notMagic])

theorem readRelocation_notMagic (e : Elf) (s : Stream) (sec t : Nat) :
    e.readRelocation s sec t ≠ .error Fault.invalidMagic := by
  unfold Elf.readRelocation
  intro h
  repeat' (first | split at h | simp only [] at h)
  all_goals
    first
    | cases h; done
    | (injection h with h; subst h; simp_all [readFull_notMagic])

theorem readRelocations_notMagic (e : Elf) (sec t : Nat) :
    ∀ (n : Nat) (rels : List (Nat × List Relocation)) (s : Stream),
    e.readRelocations sec t n rels s ≠ .error Fault.invalidMagic
  | 0, rels, s => by
    intro h; rw [Elf.readRelocations] at h; cases h
  | n + 1, rels, s => by
    have ih := readRelocations_notMagic e sec t n
    intro h
    rw [Elf.readRelocations] at h
    repeat' (first | split at h | simp only [] at h)
    all_goals
      first
      | cases h; done
      | exact ih _ _ h
      | (injection h with h; subst h; simp_all [readRelocation_notMagic])

theorem readRelocationSections_notMagic (e : Elf) (m : Mem) :
    ∀ (todo : List Nat) (rels : List (Nat × List Relocation)) (s : Stream),
    e.readRelocationSections m todo rels s ≠ .error Fault.invalidMagic
  | [], rels, s => by
    intro h; rw [Elf.readRelocationSections] at h; cases h
  | p :: todo, rels, s => by
    have ih := readRelocationSections_notMagic e m todo
    intro h
    rw [Elf.readRelocationSections] at h
    repeat' (first | split at h | simp only [] at h)
    all_goals
      first
      | cases h; done
      | exact ih _ _ h
      | (injection h with h; subst h; simp_all [readRelocations_notMagic])

theorem readRelocationPart_notMagic (e : Elf) (m : Mem) (r : Stream) :
    e.readRelocationPart m r ≠ .error Fault.invalidMagic := by
  unfold Elf.readRelocationPart
  intro h
  repeat' (first | split at h | simp only [] at h)
  all_goals
    first
    | cases h; done
    | (injection h with h; subst h; simp_all [readRelocationSections_notMagic])

theorem readSymbolPart_notMagic (e : Elf) (m : Mem) (r : Stream) :
    e.readSymbolPart m r ≠ .error Fault.invalidMagic := by
  unfold Elf.readSymbolPart
  intro h
  repeat' (first | split at h | simp only [] at h)
  all_goals
    first
    | cases h; done
    | exact readRelocationPart_notMagic _ _ _ h
    | (injection h with h; subst h; rename_i hq
       repeat' (first | split at hq | simp only [] at hq)
       all_goals first
         | exact readSymbols_notMagic _ _ _ _ _ _ hq
         | cases hq)

theorem readLinkPart_notMagic (e : Elf) (m : Mem) (r : Stream) :
    e.readLinkPart m r ≠ .error Fault.invalidMagic := by
  unfold Elf.readLinkPart
  intro h
  repeat' (first | split at h | simp only [] at h)
  all_goals
    first
    | cases h; done
    | exact readSymbolPart_notMagic _ _ _ h
    | (injection h with h; subst h; simp_all [resolveLinks_notMagic]; done)
    | (injection h with h; subst h; rename_i hq
       exact readSectionNames_notMagic _ _ _ _ hq)

theorem readSectionPart_notMagic (e : Elf) (m : Mem) (r : Stream) :
    e.readSectionPart m r ≠ .error Fault.invalidMagic := by
  unfold Elf.readSectionPart
  intro h
  repeat' (first | split at h | simp only [] at h)
  all_goals
    first
    | cases h; done
    | exact readLinkPart_notMagic _ _ _ h
    | (injection h with h; subst h; simp_all [readSectionHeaders_notMagic])

theorem getD_take_pad (l : List Nat) (n k i : Nat) (hi : i < n) :
    (l.take n ++ List.replicate k 0).getD i 0 = l.getD i 0 := by
  simp only [List.getD_eq_getElem?_getD]
  by_cases h : i < l.length
  · have hl : i < (l.take n).length := by rw [List.length_take]; omega
    rw [List.getElem?_append_left hl, List.getElem?_take_of_lt hi]
  · have hl : (l.take n).length ≤ i := by rw [List.length_take]; omega
    have hn : l[i]? = none := List.getElem?_eq_none (by omega)
    rw [List.getElem?_append_right hl, hn, List.getElem?_replicate]
    split <;> rfl

theorem magic_test (l : List Nat) :
    (l.getD 0 0 ≠ 0x7F ∨ l.getD 1 0 ≠ 0x45 ∨ l.getD 2 0 ≠ 0x4C ∨ l.getD 3 0 ≠ 0x46) ↔
      ¬ elfMagic <+: l := by
  unfold elfMagic
  obtain _ | ⟨a, _ | ⟨b, _ | ⟨c, _ | ⟨d, rest⟩⟩⟩⟩ := l <;>
    (simp [List.cons_prefix_cons]; try tauto)

/-- When `readElfHeader` returns the invalid-magic error: some byte is left to
read and the bytes at the position do not start with the magic number. -/
theorem readElfHeader_magic (e : Elf) (s : Stream) :
    e.readElfHeader s = .error Fault.invalidMagic ↔
      s.pos < s.data.length ∧ ¬ elfMagic <+: s.data.drop s.pos := by
  by_cases hp : s.pos < s.data.length
  · by_cases hm : elfMagic <+: s.data.drop s.pos
    · have hm2 := hm
      rw [← not_not (a := elfMagic <+: _), ← magic_test] at hm2
      constructor
      · intro h
        exfalso
        unfold Elf.readElfHeader Stream.read at h
        simp only [ge_iff_le, not_le.mpr hp, if_false] at h
        rw [getD_take_pad _ _ _ _ (by decide), getD_take_pad _ _ _ _ (by decide),
          getD_take_pad _ _ _ _ (by decide), getD_take_pad _ _ _ _ (by decide),
          if_neg hm2] at h
        repeat' (first | split at h | simp only [] at h)
        all_goals
          first
          | cases h; done
          | (injection h with h; subst h; rename_i hq
             repeat' (first | split at hq | simp only [] at hq)
             all_goals first
               | cases hq; done
               | (injection hq with hq; subst hq; simp_all [readFull_notMagic]))
      · rintro ⟨_, h⟩
        exact absurd hm h
    · have hm2 := (magic_test _).mpr hm
      refine ⟨fun _ => ⟨hp, hm⟩, fun _ => ?_⟩
      unfold Elf.readElfHeader Stream.read
      simp only [ge_iff_le, not_le.mpr hp, if_false]
      rw [getD_take_pad _ _ _ _ (by decide), getD_take_pad _ _ _ _ (by decide),
        getD_take_pad _ _ _ _ (by decide), getD_take_pad _ _ _ _ (by decide),
        if_pos hm2]
  · constructor
    · intro h
      unfold Elf.readElfHeader Stream.read at h
      simp only [ge_iff_le, not_lt.mp hp, if_true] at h
      cases h
    · rintro ⟨h, _⟩
      exact absurd h hp

/-- The streams on which `ReadELF` returns the invalid-magic error: some byte is
left to read and the bytes at the position do not start with the magic
number. -/
theorem ReadELF_magic (s : Stream) :
    ReadELF s = .error Fault.invalidMagic ↔
      s.pos < s.data.length ∧ ¬ elfMagic <+: s.data.drop s.pos := by
  rw [← readElfHeader_magic default s]
  constructor
  · intro h
    unfold ReadELF at h
    repeat' (first | split at h | simp only [] at h)
    all_goals
      first
      | cases h; done
      | exact absurd h (readSectionPart_notMagic _ _ _)
      | (injection h with h; subst h;
         simp_all [readProgramHeaders_notMagic, readProgramData_notMagic])
  · intro h
    unfold ReadELF
    simp only [h]

/-- C18: on a byte stream of at least 16 bytes whose first four bytes are not
`7F 45 4C 46`, `ReadELF` returns the invalid-magic error (so no image); on a
byte stream whose first four bytes are `7F 45 4C 46` it never returns that
error. -/
theorem readELF_invalid_magic (data : List Nat) :
    (16 ≤ data.length → data.take 4 ≠ [0x7F, 0x45, 0x4C, 0x46] →
      ReadELF ⟨data, 0⟩ = .error Fault.invalidMagic) ∧
    (data.take 4 = [0x7F, 0x45, 0x4C, 0x46] →
      ReadELF ⟨data, 0⟩ ≠ .error Fault.invalidMagic) := by
  have key : elfMagic <+: data ↔ data.take 4 = [0x7F, 0x45, 0x4C, 0x46] := by
    rw [List.prefix_iff_eq_take]
    exact eq_comm
  constructor
  · intro hl hm
    rw [ReadELF_magic]
    refine ⟨by simp; omega, ?_⟩
    simpa [key] using hm
  · intro hm h
    rw [ReadELF_magic] at h
    exact h.2 (by simpa [key] using hm)

/-- C18 on sixteen zero bytes and on a file that is only the magic number. -/
theorem readELF_invalid_magic_witness :
    ReadELF ⟨List.replicate 16 0, 0⟩ = .error Fault.invalidMagic ∧
    ReadELF ⟨[0x7F, 0x45, 0x4C, 0x46], 0⟩ ≠ .error Fault.invalidMagic ∧
    ReadELF ⟨[0x7F, 0x45, 0x4C, 0x46], 0⟩ = .error Fault.invalidClass :=
  ⟨(readELF_invalid_magic (List.replicate 16 0)).1 (by decide) (by decide),
   (readELF_invalid_magic [0x7F, 0x45, 0x4C, 0x46]).2 rfl, rfl⟩

end elf

namespace elf

/-! ### Writer: the section-count ceiling -/

theorem fillSectionNames_addAll : ∀ (secs : List Nat) (t : StringTable) (m : Mem),
    (fillSectionNames secs t m).1 = (t.addAll (secs.map fun p => (m.sec p).Name)).2
  | [], _, _ => rfl
  | sh :: rest, t, m => by
    rw [fillSectionNames, fillSectionNames_addAll rest]
    simp only [List.map_cons, StringTable.addAll]
    congr 2
    apply List.map_congr_left
    intro p _
    rw [Mem.sec_setSec]
    split_ifs with hc
    · rw [hc.1]
    · rfl

theorem stringsSize_le (ss : List (List Nat)) :
    stringsSize ss ≤ (ss.map fun s => s.length + 1).sum := by
  unfold stringsSize
  exact ((List.dedup_sublist ss).map _).sum_le_sum (fun _ _ => Nat.zero_le _)

theorem addAll_WF (ss : List (List Nat)) (hb : stringsSize ss < 2 ^ 32) :
    (newStringTable.addAll ss).2.WF :=
  (addAll_spec ss newStringTable [] holding_new (by simpa using hb)).1.1

/-- The function `Write` returns a file when the image has at most 65,500
sections and no symbols and the section names take less than `2^32` bytes. -/
theorem Write_of_names (e : Elf) (m : Mem) (hlen : e.Sections.length ≤ 65500)
    (hsym : e.Symbols = [])
    (hn : stringsSize ((e.writeRels m).sections.map fun p => ((e.writeRels m).mem.sec p).Name)
      < 2 ^ 32) :
    ∃ r, e.Write m = .ok r ∧ r.sections = (e.writeRels m).sections := by
  have h1 : (e.writeSynthesize m).sectionStringTable.ToData
      = .ok (tableBytes (e.writeNames m).1.strings) := by
    apply ToData_of_WF (t := (e.writeNames m).1)
    unfold Elf.writeNames
    simp only
    rw [fillSectionNames_addAll]
    exact addAll_WF _ hn
  have h2 : (e.writeSynthesize m).stringTable.ToData = .ok [] := by
    have : (e.writeSynthesize m).stringTable = newStringTable := by
      show (e.writeSyms m).table = newStringTable
      unfold Elf.writeSyms
      simp only [writeTables_symbols, hsym, sortSymbols, List.insertionSort, Elf.fillSymbols]
    rw [this]
    rfl
  unfold Elf.Write
  rw [if_neg (by omega)]
  simp only [h1, h2]
  exact ⟨_, rfl, rfl⟩

theorem manySections_keys (n : Nat) :
    ∀ en ∈ (manySections n).1.Relocations, en.1 < (manySections n).2.secs.length := by
  intro en hen
  simp [manySections] at hen
  cases hen

theorem manySections_length (n : Nat) : (manySections n).2.secs.length = n := by
  simp [manySections]

theorem manySections_sections (n : Nat) :
    ((manySections n).1.writeRels (manySections n).2).sections
      = List.range n ++ [n, n + 1, n + 2] := by
  rw [(writeRels_spec _ _ (manySections_keys n)).1, manySections_length]
  have hr : (manySections n).1.Relocations = [] := rfl
  have hs : (manySections n).1.Sections = List.range n := rfl
  rw [hr, hs]
  simp

theorem manySections_name (n : Nat) :
    ∀ p ∈ ((manySections n).1.writeRels (manySections n).2).sections,
      (((manySections n).1.writeRels (manySections n).2).mem.sec p).Name.length ≤ 9 := by
  intro p hp
  rw [manySections_sections] at hp
  have hlt : p < (manySections n).2.secs.length + 3 := by
    rw [manySections_length]
    simp only [List.mem_append, List.mem_range, List.mem_cons, List.mem_singleton,
      List.not_mem_nil, or_false] at hp
    omega
  rw [writeRels_sec_lt _ _ (manySections_keys n) hlt]
  simp only [List.mem_append, List.mem_range, List.mem_cons, List.mem_singleton,
    List.not_mem_nil, or_false] at hp
  rcases hp with hp | hp | hp | hp
  · rw [writeTables_sec_lt _ _ (by rw [manySections_length]; exact hp)]
    have : (manySections n).2.sec p = default := by
      simp [manySections, Mem.sec, List.getD_eq_getElem?_getD, List.getElem?_replicate, hp]
    rw [this]
    decide
  · have h := writeTables_shstrtab (manySections n).1 (manySections n).2
    rw [manySections_length] at h
    rw [hp, h]
    decide
  · have h := writeTables_strtab (manySections n).1 (manySections n).2
    rw [manySections_length] at h
    rw [hp, h]
    decide
  · have h := writeTables_symtab (manySections n).1 (manySections n).2
    rw [manySections_length] at h
    rw [hp, h]
    show nameSymtab.length ≤ 9
    decide

/-- The function `Write` returns a file of `n + 3` section headers for the
image of `n ≤ 65500` unnamed sections. -/
theorem Write_manySections (n : Nat) (hn : n ≤ 65500) :
    ∃ r, (manySections n).1.Write (manySections n).2 = .ok r ∧ r.sections.length = n + 3 ∧
      r.elf.secHdrCount = n + 3 := by
  have hb : stringsSize (((manySections n).1.writeRels (manySections n).2).sections.map fun p =>
      (((manySections n).1.writeRels (manySections n).2).mem.sec p).Name) < 2 ^ 32 := by
    refine lt_of_le_of_lt (stringsSize_le _) ?_
    rw [List.map_map]
    have hle := List.sum_le_card_nsmul
      (((manySections n).1.writeRels (manySections n).2).sections.map
        ((fun s : List Nat => s.length + 1) ∘ fun p =>
          (((manySections n).1.writeRels (manySections n).2).mem.sec p).Name)) 10
      (by
        intro x hx
        rw [List.mem_map] at hx
        obtain ⟨p, hp, rfl⟩ := hx
        have := manySections_name n p hp
        simp only [Function.comp_apply]
        omega)
    rw [List.length_map, manySections_sections] at hle
    simp only [List.length_append, List.length_range, List.length_cons, List.length_nil,
      smul_eq_mul] at hle
    rw [manySections_sections]
    omega
  obtain ⟨r, hw, hs⟩ := Write_of_names (manySections n).1 (manySections n).2
    (by simp [manySections]; exact hn) rfl hb
  refine ⟨r, hw, ?_, ?_⟩
  · rw [hs, manySections_sections]; simp
  · obtain ⟨-, a, b, -, -, -, -, -, -, -, -, -, -, -, hc, -⟩ := Write_normal hw
    rw [hc, manySections_sections]
    simp only [List.length_append, List.length_range, List.length_cons, List.length_nil]
    omega

theorem manySections_count (n : Nat) :
    (manySections n).1.Sections.length = n ∧ (manySections n).1.Relocations.length = 0 :=
  ⟨List.length_range n, rfl⟩

/-- C19 (as stated, refuted): the image of 65,498 unnamed sections has no
relocations, so `Write` emits 65,498 + 3 = 65,501 sections, more than 65,500;
yet `Write` returns a file, with 65,501 section headers. -/
theorem write_accepts_65501_sections :
    (manySections 65498).1.Sections.length + 3 + (manySections 65498).1.Relocations.length
      = 65501 ∧
    ∃ r, (manySections 65498).1.Write (manySections 65498).2 = .ok r ∧
      r.sections.length = 65501 ∧ r.elf.secHdrCount = 65501 := by
  constructor
  · rw [(manySections_count _).1, (manySections_count _).2]
  · exact Write_manySections 65498 (by norm_num)

/-- C19 (amended): `Write` fails, producing no file, whenever the image's own
section count exceeds 65,500; the sections that `Write` adds (`.shstrtab`,
`.strtab`, `.symtab` and the relocation sections) are not counted. -/
theorem write_section_ceiling (e : Elf) (m : Mem) (h : 65500 < e.Sections.length) :
    e.Write m = .error Fault.panic := by
  unfold Elf.Write
  rw [if_pos h]

/-- C19 (amended) on the image of 65,501 unnamed sections. -/
theorem write_section_ceiling_witness :
    65500 < (manySections 65501).1.Sections.length ∧
    (manySections 65501).1.Write (manySections 65501).2 = .error Fault.panic :=
  ⟨by rw [(manySections_count _).1]; norm_num,
   write_section_ceiling _ _ (by rw [(manySections_count _).1]; norm_num)⟩

end elf

namespace elf

/-! ### Reader: the section list returned -/

theorem seek_data {s s2 : Stream} {off : Int} (h : s.seek off = .ok s2) : s2.data = s.data := by
  unfold Stream.seek at h
  split at h
  · cases h
  · injection h with h; subst h; rfl

theorem seek_pos {s s2 : Stream} {off : Int} (h : s.seek off = .ok s2) : s2.pos = off.toNat := by
  unfold Stream.seek at h
  split at h
  · cases h
  · injection h with h; subst h; rfl

theorem seekIgnore_data (s : Stream) (off : Int) : (s.seekIgnore off).data = s.data := by
  unfold Stream.seekIgnore
  split <;> rfl

theorem seekIgnore_pos (s : Stream) {off : Int} (h : 0 ≤ off) :
    (s.seekIgnore off).pos = off.toNat := by
  unfold Stream.seekIgnore
  rw [if_neg (by omega)]

theorem read_data {s s2 : Stream} {n : Nat} {bs : List Nat} (h : s.read n = .ok (bs, s2)) :
    s2.data = s.data := by
  unfold Stream.read at h
  split at h
  · cases h
  · injection h with h; injection h with h1 h2; subst h2; rfl

theorem readFull_data {s s2 : Stream} {n : Nat} {bs : List Nat}
    (h : s.readFull n = .ok (bs, s2)) : s2.data = s.data ∧ s2.pos = s.pos + n := by
  unfold Stream.readFull at h
  split at h
  · injection h with h; injection h with h1 h2; subst h2; exact ⟨rfl, rfl⟩
  · cases h

theorem readPayload_data {s s2 : Stream} {offset size : Nat} {bs : List Nat}
    (h : readPayload s offset size = .ok (bs, s2)) : s2.data = s.data ∧ s2.pos = s.pos := by
  unfold readPayload at h
  simp only at h
  split at h
  · cases h
  · rename_i s3 h3
    split at h
    · cases h
    · rename_i d4 s4 h4
      split at h
      · cases h
      · rename_i s5 h5
        injection h with h; injection h with h1 h2; subst h2
        refine ⟨?_, ?_⟩
        · rw [seek_data h5, read_data h4, seek_data h3]
        · rw [seek_pos h5]; simp

theorem readSectionHeader_data {e : Elf} {s s2 : Stream} {hdr : SectionHeader}
    (h : e.readSectionHeader s = .ok (hdr, s2)) :
    s2.data = s.data ∧ s2.pos = s.pos + e.sizeSectionHeader := by
  unfold Elf.readSectionHeader at h
  simp only at h
  split at h
  · cases h
  · rename_i res s3 h3
    have h3d : s3.data = s.data ∧ s3.pos = s.pos + e.sizeSectionHeader := by
      split at h3
      · cases h3
      · rename_i bs s4 h4
        split at h3
        · injection h3 with h3; injection h3 with h5 h6; subst h6
          exact readFull_data h4
        · cases h3
    split at h
    · split at h
      · cases h
      · rename_i d5 s5 h5
        injection h with h; injection h with h6 h7; subst h7
        obtain ⟨a, b⟩ := readPayload_data h5
        exact ⟨a.trans h3d.1, b.trans h3d.2⟩
    · injection h with h; injection h with h6 h7; subst h7
      exact h3d

theorem readSectionHeader_congr (e : Elf) (phs : List ProgramHeader) (s : Stream) :
    ({ e with ProgramHeaders := phs } : Elf).readSectionHeader s = e.readSectionHeader s := rfl

theorem readProgramHeader_data {e : Elf} {s s2 : Stream} {hdr : ProgramHeader}
    (h : e.readProgramHeader s = .ok (hdr, s2)) : s2.data = s.data := by
  unfold Elf.readProgramHeader at h
  simp only at h
  split at h
  · cases h
  · rename_i res s3 h3
    have h3d : s3.data = s.data := by
      split at h3
      · split at h3
        · cases h3
        · rename_i bs s4 h4
          split at h3
          · injection h3 with h3; injection h3 with h5 h6; subst h6
            exact (readFull_data h4).1
          · cases h3
      · split at h3
        · cases h3
        · rename_i bs s4 h4
          split at h3
          · injection h3 with h3; injection h3 with h5 h6; subst h6
            exact (readFull_data h4).1
          · cases h3
    split at h
    · split at h
      · cases h
      · rename_i d5 s5 h5
        injection h with h; injection h with h6 h7; subst h7
        exact (readPayload_data h5).1.trans h3d
    · injection h with h; injection h with h6 h7; subst h7
      exact h3d

theorem readProgramHeaders_data (e : Elf) : ∀ (n : Nat) (s s2 : Stream) (l : List ProgramHeader),
    e.readProgramHeaders n s = .ok (l, s2) → s2.data = s.data
  | 0, s, s2, l, h => by
    rw [Elf.readProgramHeaders] at h
    injection h with h; injection h with h1 h2; subst h2; rfl
  | n + 1, s, s2, l, h => by
    rw [Elf.readProgramHeaders] at h
    split at h
    · cases h
    · rename_i hdr s3 h3
      split at h
      · cases h
      · rename_i l4 s4 h4
        injection h with h; injection h with h1 h2; subst h2
        exact (readProgramHeaders_data e n _ _ _ h4).trans (readProgramHeader_data h3)

theorem readProgramData_data : ∀ (l : List ProgramHeader) (s s2 : Stream)
    (l2 : List ProgramHeader), readProgramData l s = .ok (l2, s2) → s2.data = s.data
  | [], s, s2, l2, h => by
    rw [readProgramData] at h
    injection h with h; injection h with h1 h2; subst h2; rfl
  | hdr :: rest, s, s2, l2, h => by
    rw [readProgramData] at h
    split at h
    · split at h
      · cases h
      · rename_i d3 s3 h3
        split at h
        · cases h
        · rename_i l4 s4 h4
          injection h with h; injection h with h1 h2; subst h2
          rw [readProgramData_data rest _ _ _ h4, read_data h3, seekIgnore_data]
    · split at h
      · cases h
      · rename_i l4 s4 h4
        injection h with h; injection h with h1 h2; subst h2
        exact readProgramData_data rest _ _ _ h4

theorem readElfHeader_data {e E : Elf} {s s2 : Stream}
    (h : e.readElfHeader s = .ok (E, s2)) : s2.data = s.data := by
  unfold Elf.readElfHeader at h
  split at h
  · cases h
  · rename_i ident s1 h1
    split at h
    · cases h
    · simp only at h
      split at h
      · cases h
      · rename_i E3 s3 h3
        have h3d : s3.data = s1.data := by
          split at h3
          · split at h3
            · cases h3
            · rename_i bs s4 h4
              split at h3
              · injection h3 with h3; injection h3 with h5 h6; subst h6
                exact (readFull_data h4).1
              · cases h3
          · split at h3
            · split at h3
              · cases h3
              · rename_i bs s4 h4
                split at h3
                · injection h3 with h3; injection h3 with h5 h6; subst h6
                  exact (readFull_data h4).1
                · cases h3
            · cases h3
        split at h
        · cases h
        · injection h with h; injection h with h6 h7; subst h7
          exact h3d.trans (read_data h1)

/-- What a successful run of the section-header loop of `ReadELF` leaves: the
headers read one after the other from the position of the stream, appended to
the memory, and pointers to them appended to `Sections` in that order. -/
theorem readSectionHeaders_inv (e : Elf) : ∀ (n i : Nat) (acc : Elf) (m : Mem) (s : Stream)
    (acc2 : Elf) (m2 : Mem) (s2 : Stream),
    e.readSectionHeaders n i acc m s = .ok (acc2, m2, s2) →
    acc2.Sections = acc.Sections ++ (List.range n).map (m.secs.length + ·) ∧
    m2.secs.length = m.secs.length + n ∧
    (∀ p, p < m.secs.length → m2.sec p = m.sec p) ∧
    (∀ j, j < n → ∃ s3, e.readSectionHeader ⟨s.data, s.pos + j * e.sizeSectionHeader⟩
      = .ok (m2.sec (m.secs.length + j), s3))
  | 0, i, acc, m, s, acc2, m2, s2, h => by
    rw [Elf.readSectionHeaders] at h
    injection h with h; injection h with h1 h2; injection h2 with h2 h3
    subst h1; subst h2
    exact ⟨by simp, rfl, fun _ _ => rfl, fun j hj => absurd hj (Nat.not_lt_zero j)⟩
  | n + 1, i, acc, m, s, acc2, m2, s2, h => by
    rw [Elf.readSectionHeaders] at h
    split at h
    · cases h
    · rename_i hdr s1 h1
      simp only at h
      obtain ⟨sd, sp⟩ := readSectionHeader_data h1
      obtain ⟨a1, a2, a3, a4⟩ := readSectionHeaders_inv e n (i + 1) _ _ _ _ _ _ h
      simp only [List.length_append, List.length_singleton] at a1 a2 a3 a4
      have a1b : acc2.Sections = (acc.Sections ++ [m.secs.length])
          ++ (List.range n).map (m.secs.length + 1 + ·) := by
        rw [a1]
        split_ifs <;> rfl
      refine ⟨?_, by omega, ?_, ?_⟩
      · rw [a1b, List.range_succ_eq_map, List.map_cons, List.map_map, List.append_assoc]
        simp only [List.singleton_append, Nat.add_zero, List.cons.injEq, true_and]
        congr 2
        apply List.map_congr_left
        intro j _
        simp only [Function.comp_apply]
        omega
      · intro p hp
        rw [a3 p (by omega)]
        exact Mem.sec_append_lt m [hdr] hp
      · intro j hj
        rcases j with _ | j
        · refine ⟨s1, ?_⟩
          have hm : m2.sec (m.secs.length + 0) = hdr := by
            rw [Nat.add_zero, a3 _ (by omega)]
            exact Mem.sec_append_ge m [hdr] 0
          rw [hm]
          simpa using h1
        · obtain ⟨s3, h3⟩ := a4 j (by omega)
          refine ⟨s3, ?_⟩
          have e1 : m.secs.length + 1 + j = m.secs.length + (j + 1) := by omega
          have e2 : s1.pos + j * e.sizeSectionHeader = s.pos + (j + 1) * e.sizeSectionHeader := by
            rw [sp, Nat.succ_mul]; omega
          rw [e1, sd, e2] at h3
          exact h3

theorem resolveLinks_inv (e : Elf) : ∀ (todo : List Nat) (m m2 : Mem),
    e.resolveLinks todo m = .ok m2 →
    m2.secs.length = m.secs.length ∧ ∀ x, (m2.sec x).raw = (m.sec x).raw
  | [], m, m2, h => by
    rw [Elf.resolveLinks] at h
    injection h with h; subst h
    exact ⟨rfl, fun _ => rfl⟩
  | p :: todo, m, m2, h => by
    rw [Elf.resolveLinks] at h
    simp only at h
    split at h
    · cases h
    · rename_i ma ha
      have hma : ma.secs.length = m.secs.length ∧ ∀ x, (ma.sec x).raw = (m.sec x).raw := by
        split at ha
        · split at ha
          · cases ha
          · injection ha with ha; subst ha
            exact ⟨Mem.secs_length_setSec _ _ _, Mem.raw_setSec _ _ _ (fun _ => rfl)⟩
        · injection ha with ha; subst ha
          exact ⟨rfl, fun _ => rfl⟩
      split at h
      · cases h
      · rename_i mb hb
        have hmb : mb.secs.length = ma.secs.length ∧ ∀ x, (mb.sec x).raw = (ma.sec x).raw := by
          split at hb
          · split at hb
            · cases hb
            · injection hb with hb; subst hb
              exact ⟨Mem.secs_length_setSec _ _ _, Mem.raw_setSec _ _ _ (fun _ => rfl)⟩
          · injection hb with hb; subst hb
            exact ⟨rfl, fun _ => rfl⟩
        obtain ⟨c1, c2⟩ := resolveLinks_inv e todo _ _ h
        exact ⟨c1.trans (hmb.1.trans hma.1),
          fun x => (c2 x).trans ((hmb.2 x).trans (hma.2 x))⟩

theorem readSectionNames_inv (e : Elf) : ∀ (todo : List Nat) (m : Mem) (s : Stream)
    (m2 : Mem) (s2 : Stream),
    e.readSectionNames todo m s = .ok (m2, s2) →
    m2.secs.length = m.secs.length ∧ ∀ x, (m2.sec x).raw = (m.sec x).raw
  | [], m, s, m2, s2, h => by
    rw [Elf.readSectionNames] at h
    injection h with h; injection h with h1 h2; subst h1
    exact ⟨rfl, fun _ => rfl⟩
  | p :: todo, m, s, m2, s2, h => by
    rw [Elf.readSectionNames] at h
    split at h
    · cases h
    · obtain ⟨c1, c2⟩ := readSectionNames_inv e todo _ _ _ _ h
      refine ⟨c1.trans (Mem.secs_length_setSec _ _ _), fun x => ?_⟩
      rw [c2 x]
      refine Mem.raw_setSec _ _ _ ?_ x
      intro y
      rfl

theorem readSymbols_inv (e : Elf) (symtab : SectionHeader) : ∀ (n : Nat) (acc : Elf) (m : Mem)
    (s : Stream) (acc2 : Elf) (m2 : Mem) (s2 : Stream),
    e.readSymbols symtab n acc m s = .ok (acc2, m2, s2) →
    acc2.Sections = acc.Sections ∧ m2.secs = m.secs
  | 0, acc, m, s, acc2, m2, s2, h => by
    rw [Elf.readSymbols] at h
    injection h with h; injection h with h1 h2; injection h2 with h2 h3
    subst h1; subst h2
    exact ⟨rfl, rfl⟩
  | n + 1, acc, m, s, acc2, m2, s2, h => by
    rw [Elf.readSymbols] at h
    split at h
    · cases h
    · have c := readSymbols_inv e symtab n _ _ _ _ _ _ h
      exact c

theorem keptType_eq (t : Nat) :
    (!(t == SHT_REL || t == SHT_RELA || t == SHT_SYMTAB || t == SHT_STRTAB
        || t == SHT_SYMTAB_SHNDX)) = keptType t := by
  unfold keptType
  simp only [List.mem_cons, List.mem_singleton, List.not_mem_nil, or_false]
  by_cases h1 : t = SHT_REL <;> by_cases h2 : t = SHT_RELA <;> by_cases h3 : t = SHT_SYMTAB <;>
    by_cases h4 : t = SHT_STRTAB <;> by_cases h5 : t = SHT_SYMTAB_SHNDX <;>
    simp [h1, h2, h3, h4, h5]

theorem readRelocationPart_inv {e e2 : Elf} {m m2 : Mem} {r : Stream}
    (h : e.readRelocationPart m r = .ok (e2, m2)) :
    m2 = m ∧ e2.Sections = e.Sections.filter fun p => keptType (m.sec p).Type_ := by
  unfold Elf.readRelocationPart at h
  split at h
  · cases h
  · injection h with h; injection h with h1 h2
    subst h1; subst h2
    refine ⟨rfl, ?_⟩
    simp only [keptType_eq]

theorem readSymbolPart_inv {e e2 : Elf} {m m2 : Mem} {r : Stream}
    (h : e.readSymbolPart m r = .ok (e2, m2)) :
    m2.secs = m.secs ∧ e2.Sections = e.Sections.filter fun p => keptType (m.sec p).Type_ := by
  unfold Elf.readSymbolPart at h
  simp only at h
  split at h
  · cases h
  · rename_i ea ma ra ha
    have hk : ea.Sections = e.Sections ∧ ma.secs = m.secs := by
      split at ha
      · split at ha
        · cases ha
        · split at ha
          · cases ha
          · exact readSymbols_inv _ _ _ _ _ _ _ _ _ ha
      · injection ha with ha; injection ha with h1 h2; injection h2 with h2 h3
        subst h1; subst h2
        exact ⟨rfl, rfl⟩
    obtain ⟨c1, c2⟩ := readRelocationPart_inv h
    subst c1
    refine ⟨hk.2, ?_⟩
    rw [c2, hk.1]
    apply List.filter_congr
    intro p _
    rw [Mem.sec_congr hk.2]

theorem readLinkPart_inv {e e2 : Elf} {m m2 : Mem} {r : Stream}
    (h : e.readLinkPart m r = .ok (e2, m2)) :
    m2.secs.length = m.secs.length ∧ (∀ x, (m2.sec x).raw = (m.sec x).raw) ∧
    e2.Sections = e.Sections.filter fun p => keptType (m.sec p).Type_ := by
  unfold Elf.readLinkPart at h
  split at h
  · cases h
  · rename_i ma ha
    obtain ⟨a1, a2⟩ := resolveLinks_inv e _ _ _ ha
    simp only at h
    split at h
    · cases h
    · rename_i mb rb hb
      have hmb : mb.secs.length = ma.secs.length ∧ ∀ x, (mb.sec x).raw = (ma.sec x).raw := by
        split at hb
        · exact readSectionNames_inv e _ _ _ _ _ hb
        · injection hb with hb; injection hb with h1 h2; subst h1
          exact ⟨rfl, fun _ => rfl⟩
      obtain ⟨c1, c2⟩ := readSymbolPart_inv h
      refine ⟨?_, ?_, ?_⟩
      · rw [c1, hmb.1, a1]
      · intro x
        rw [Mem.sec_congr c1, hmb.2, a2]
      · rw [c2]
        apply List.filter_congr
        intro p _
        rw [(raw_fields ((hmb.2 p).trans (a2 p))).2.1]

theorem readElfHeader_sections {e E : Elf} {s s2 : Stream}
    (h : e.readElfHeader s = .ok (E, s2)) : E.Sections = e.Sections := by
  unfold Elf.readElfHeader at h
  split at h
  · cases h
  · rename_i ident s1 h1
    split at h
    · cases h
    · simp only at h
      split at h
      · cases h
      · rename_i E3 s3 h3
        have h3d : E3.Sections = e.Sections := by
          split at h3
          · split at h3
            · cases h3
            · rename_i bs s4 h4
              split at h3
              · injection h3 with h3; injection h3 with h5 h6; subst h5
                rfl
              · cases h3
          · split at h3
            · split at h3
              · cases h3
              · rename_i bs s4 h4
                split at h3
                · injection h3 with h3; injection h3 with h5 h6; subst h5
                  rfl
                · cases h3
            · cases h3
        split at h
        · cases h
        · injection h with h; injection h with h6 h7; subst h6
          exact h3d

theorem readSectionPart_inv {e e2 : Elf} {m2 : Mem} {r : Stream} (hs : e.Sections = [])
    (h : e.readSectionPart { secs := [], syms := [] } r = .ok (e2, m2)) :
    m2.secs.length = e.secHdrCount ∧
    (∀ j, j < e.secHdrCount → ∃ hdr s2,
      e.readSectionHeader ⟨r.data, (r.seekIgnore (wrapS 64 e.secHdrOffset)).pos
        + j * e.sizeSectionHeader⟩ = .ok (hdr, s2) ∧ (m2.sec j).raw = hdr.raw) ∧
    e2.Sections = (List.range e.secHdrCount).filter fun j => keptType (m2.sec j).Type_ := by
  unfold Elf.readSectionPart at h
  split at h
  · cases h
  · rename_i e1 m1 r1 h1
    obtain ⟨a1, a2, -, a4⟩ := readSectionHeaders_inv e _ _ _ _ _ _ _ _ h1
    obtain ⟨b1, b2, b3⟩ := readLinkPart_inv h
    simp only [List.length_nil, Nat.zero_add, List.nil_append] at a1 a2 a4
    rw [seekIgnore_data] at a4
    have hmap : (List.range e.secHdrCount).map (fun x => 0 + x) = List.range e.secHdrCount := by
      simp
    refine ⟨b1.trans a2, ?_, ?_⟩
    · intro j hj
      obtain ⟨s3, h3⟩ := a4 j hj
      exact ⟨_, s3, h3, b2 j⟩
    · rw [b3, a1]
      simp only [List.map_id_fun', List.map_id_fun, id_eq, hs, List.nil_append]
      apply List.filter_congr
      intro p _
      rw [(raw_fields (b2 p)).2.1]

/-- C20: when `ReadELF` succeeds, with `N` the section header count of the
file header and `base` the position of the stream when the section header loop
starts (the section header offset of the file header when that is below
`2^63`), the memory holds exactly the `N` section headers that
`readSectionHeader` decodes at `base`, `base + size`, `base + 2 * size`, ...,
in that order (the pointer `j` is the `j`-th header of the file), and the
section list returned is the list of these pointers in increasing order
without those of a header of type `SHT_REL`, `SHT_RELA`, `SHT_SYMTAB`,
`SHT_STRTAB` or `SHT_SYMTAB_SHNDX` and with all the others. -/
theorem readELF_section_list (s : Stream) (e : Elf) (m : Mem)
    (h : ReadELF s = .ok (e, m)) :
    ∃ (E : Elf) (s1 : Stream) (base : Nat),
      (default : Elf).readElfHeader s = .ok (E, s1) ∧
      (E.secHdrOffset < 2 ^ 63 → base = E.secHdrOffset) ∧
      m.secs.length = E.secHdrCount ∧
      (∀ j, j < E.secHdrCount → ∃ hdr s2,
        E.readSectionHeader ⟨s.data, base + j * E.sizeSectionHeader⟩ = .ok (hdr, s2) ∧
        (m.sec j).raw = hdr.raw) ∧
      e.Sections = (List.range E.secHdrCount).filter fun j =>
        decide ((m.sec j).Type_ ∉
          [SHT_REL, SHT_RELA, SHT_SYMTAB, SHT_STRTAB, SHT_SYMTAB_SHNDX]) := by
  unfold ReadELF at h
  simp only at h
  split at h
  · cases h
  · rename_i E s1 h1
    split at h
    · cases h
    · rename_i phs s2 h2
      split at h
      · cases h
      · rename_i phs3 s3 h3
        obtain ⟨a1, a2, a3⟩ := readSectionPart_inv
          (e := { E with ProgramHeaders := phs3 }) (readElfHeader_sections h1) h
        have hd : s3.data = s.data := by
          rw [readProgramData_data _ _ _ _ h3, readProgramHeaders_data _ _ _ _ _ h2,
            seekIgnore_data, readElfHeader_data h1]
        refine ⟨E, s1, (s3.seekIgnore (wrapS 64 E.secHdrOffset)).pos, h1, ?_, a1, ?_, a3⟩
        · intro hlt
          rw [wrapS_of_lt hlt, seekIgnore_pos _ (Int.natCast_nonneg _), Int.toNat_natCast]
        · intro j hj
          obtain ⟨hdr, s4, h4, h5⟩ := a2 j hj
          rw [hd] at h4
          exact ⟨hdr, s4, h4, h5⟩

/-- C20 on the file `Write` makes of `exampleText`: its six section headers
are a null section, `.text`, `.shstrtab`, `.strtab`, `.symtab` and
`.rela.text`, and `ReadELF` returns the first two. -/
theorem readELF_section_list_witness :
    ReadELF ⟨(exampleText.1.written exampleText.2).bytes, 0⟩
      = .ok ((reread (exampleText.1.written exampleText.2).bytes).1,
             (reread (exampleText.1.written exampleText.2).bytes).2) ∧
    (reread (exampleText.1.written exampleText.2).bytes).2.secs.map (fun hdr => hdr.Type_)
      = [SHT_NULL, SHT_PROGBITS, SHT_STRTAB, SHT_STRTAB, SHT_SYMTAB, SHT_RELA] ∧
    (reread (exampleText.1.written exampleText.2).bytes).1.Sections = [0, 1] ∧
    ∃ (E : Elf) (s1 : Stream) (base : Nat),
      (default : Elf).readElfHeader ⟨(exampleText.1.written exampleText.2).bytes, 0⟩
        = .ok (E, s1) ∧
      (E.secHdrOffset < 2 ^ 63 → base = E.secHdrOffset) ∧
      (reread (exampleText.1.written exampleText.2).bytes).2.secs.length = E.secHdrCount ∧
      (∀ j, j < E.secHdrCount → ∃ hdr s2,
        E.readSectionHeader ⟨(exampleText.1.written exampleText.2).bytes,
          base + j * E.sizeSectionHeader⟩ = .ok (hdr, s2) ∧
        ((reread (exampleText.1.written exampleText.2).bytes).2.sec j).raw = hdr.raw) ∧
      (reread (exampleText.1.written exampleText.2).bytes).1.Sections
        = (List.range E.secHdrCount).filter fun j =>
          decide (((reread (exampleText.1.written exampleText.2).bytes).2.sec j).Type_ ∉
            [SHT_REL, SHT_RELA, SHT_SYMTAB, SHT_STRTAB, SHT_SYMTAB_SHNDX]) :=
  ⟨rfl, rfl, rfl, readELF_section_list _ _ _ rfl⟩

end elf

namespace Relocation

/-! ### Region allocator: the retry loop, offset ranges and the invariant of `Place` -/

theorem placeLoop_empty_stuck (simulate : Bool) (fuel : Nat) : ∀ s : Nat,
    placeLoop (NewRegion 1 9 false) ⟨0, 8, 4⟩ 1 10 simulate fuel s = .error Halt.fuel := by
  induction fuel with
  | zero => intro s; rfl
  | succ n ih =>
    intro s
    have h := ih 1
    rw [placeLoop]
    exact h

/-- C24 fails on the code.  The empty ascending region `[1, 10)` has one gap,
`[1, 10)`; an entry of size 8 and alignment 4 fits at no offset of it (the
multiples of 4 from 1 on are 4 and 8, and `4 + 8 > 10`).  `findGap` reports the
gap `[1, 10)` whatever the start index, `calcEntryOffset` rejects it, and the
retry loop of `Place` asks again: whatever the number of iterations allowed,
`Place` with no offset range is still running when they are used up, and it
never returns failure. -/
theorem place_retry_loop_never_ends :
    (NewRegion 1 9 false).WellFormed ∧
    gaps 1 10 (NewRegion 1 9 false).entries = [(1, 10)] ∧
    (∀ x, ¬ Fits 1 10 (NewRegion 1 9 false).entries 8 4 x) ∧
    (∀ s, (NewRegion 1 9 false).findGap 1 10 RegionFindGapModeFirst 8 s
      = .ok (true, 1, 10, 0)) ∧
    calcEntryOffset 1 10 8 false 4 = (false, 0) ∧
    (∀ fuel simulate, (NewRegion 1 9 false).Place fuel ⟨0, 8, 4⟩ none simulate
      = .error Halt.fuel) := by
  refine ⟨by decide, rfl, ?_, fun s => rfl, rfl, ?_⟩
  · intro x hx
    obtain ⟨h1, h2, h3, -⟩ := hx
    omega
  · intro fuel simulate
    exact placeLoop_empty_stuck simulate fuel 0

/-- C25 fails on the code.  In the descending region `[0, 100)` holding one
entry at `[50, 60)`, `Place(e, [20, 24], false)` for an entry of size 5 and
alignment 1 succeeds and gives `e` the offset 45: the placed interval
`[45, 50)` ends above `max + 1 = 25`.  `Place` passes `offsetMin = 20` and
`offsetMax = 25` to `findGap`, whose first gap, from `offsetMin` to the first
entry, is `[20, 50)`: it is not cut at `offsetMax`. -/
theorem place_range_exceeded :
    (⟨0, 100, [⟨50, 10, 1⟩], true⟩ : Region).WellFormed ∧
    (⟨0, 100, [⟨50, 10, 1⟩], true⟩ : Region).findGap 20 25 RegionFindGapModeFirst 5 0
      = .ok (true, 20, 50, 0) ∧
    calcEntryOffset 20 50 5 true 1 = (true, 45) ∧
    (∀ fuel, (⟨0, 100, [⟨50, 10, 1⟩], true⟩ : Region).Place (fuel + 1) ⟨0, 5, 1⟩
        (some [20, 24]) false
      = .ok ⟨true, 0, ⟨0, 100, [⟨45, 5, 1⟩, ⟨50, 10, 1⟩], true⟩, ⟨45, 5, 1⟩⟩) ∧
    ¬ (45 + 5 ≤ 24 + 1) := by
  refine ⟨by decide, rfl, rfl, fun fuel => rfl, by decide⟩

theorem gap_int {a b : Nat} (ha : a < M64)
    (h1 : (a : Int) - b < H64) (h2 : (b : Int) - a < H64) :
    toInt64 (sub64 a b) = (a : Int) - b ∧ add64 b (ofInt64 ((a : Int) - b)) = a :=
  ⟨toInt64_sub64 (by omega) h1, add64_ofInt64 ha⟩

theorem FreeAt.succ {lo lo2 hi : Nat} {c : Entry} {rest : List Entry} {k gs ge : Nat}
    (h : FreeAt lo2 hi rest k gs ge) (hlo : lo ≤ gs) (hc : c.offset + c.size ≤ gs) :
    FreeAt lo hi (c :: rest) (k + 1) gs ge := by
  obtain ⟨h1, _, h3, h4, h5⟩ := h
  refine ⟨by simp; omega, hlo, h3, ?_, ?_⟩
  · intro a ha
    simp only [List.take_succ_cons, List.mem_cons] at ha
    rcases ha with rfl | ha
    · exact hc
    · exact h4 a ha
  · intro a ha
    simp only [List.drop_succ_cons] at ha
    exact h5 a ha

theorem FreeAt.zero {lo hi : Nat} {es : List Entry} {gs ge : Nat}
    (hlo : lo ≤ gs) (hhi : ge ≤ hi) (h : ∀ a ∈ es, ge ≤ a.offset) :
    FreeAt lo hi es 0 gs ge :=
  ⟨Nat.zero_le _, hlo, hhi, by simp, by simpa using h⟩

/-- What the loop of `findGap` returns in First mode, for any search window
`[lo, hi]` inside the region: a free interval that holds `size` bytes, found
from index `i` on, or the candidate it was started with. -/
theorem findGapLoop_free {r : Region} {size s lo hi : Nat}
    (hhi : r.offset + r.size < M64) (hn : r.size < H64)
    (hl2 : lo ≤ r.offset + r.size)
    (hh1 : r.offset ≤ hi) (hh2 : hi ≤ r.offset + r.size) (gs ge j : Nat) :
    ∀ (rest : List Entry) (i : Nat) (prev : Entry) (gS : Nat) (gZ : Int) (gI : Nat),
      r.offset ≤ prev.offset →
      Packed (prev.offset + prev.size) (r.offset + r.size) rest →
      findGapLoop r lo hi RegionFindGapModeFirst (size : Int) s rest i prev gS gZ gI
        = (true, gs, ge, j) →
      (i ≤ j ∧ prev.offset + prev.size ≤ gs ∧ gs + size ≤ ge ∧
        FreeAt (prev.offset + prev.size) (r.offset + r.size) rest (j - i) gs ge) ∨
      (j = gI ∧ gs = gS ∧ ge = add64 gS (ofInt64 gZ) ∧ (size : Int) ≤ gZ) := by
  intro rest
  induction rest with
  | nil =>
    intro i prev gS gZ gI hlo hp h
    have hp : prev.offset + prev.size ≤ r.offset + r.size := hp
    have e1 : add64 prev.offset prev.size = prev.offset + prev.size := add64_eq (by omega)
    have e2 : add64 r.offset r.size = r.offset + r.size := add64_eq hhi
    have hmin : min hi (r.offset + r.size) = hi := by omega
    obtain ⟨ha1, ha2⟩ := gap_int (a := hi) (b := max lo (prev.offset + prev.size))
      (by omega) (by simp only [H64] at *; omega) (by simp only [H64] at *; omega)
    simp only [findGapLoop, e1, e2, hmin, ha1, ha2, newBestGap_first, findGapEnd,
      decide_eq_true_eq] at h
    by_cases hq : (size : Int) ≤ (hi : Int) - (max lo (prev.offset + prev.size) : Nat)
    · rw [if_pos hq, if_neg (not_lt.2 hq)] at h
      simp only [ite_self, Prod.mk.injEq, true_and] at h
      obtain ⟨rfl, rfl, rfl⟩ := h
      left
      refine ⟨le_refl _, by omega, by omega, ?_⟩
      rw [Nat.sub_self]
      exact FreeAt.zero (by omega) hh2 (by simp)
    · rw [if_neg hq] at h
      by_cases hz : gZ < (size : Int)
      · rw [if_pos hz] at h; simp at h
      · rw [if_neg hz] at h
        simp only [Prod.mk.injEq, true_and] at h
        obtain ⟨rfl, rfl, rfl⟩ := h
        right
        exact ⟨rfl, rfl, rfl, not_lt.1 hz⟩
  | cons c rest ih =>
    intro i prev gS gZ gI hlo hp h
    obtain ⟨hp1, hp2, hp3⟩ := hp
    have hcle := Packed.le hp3
    have hmem := Packed.mem hp3
    have e1 : add64 prev.offset prev.size = prev.offset + prev.size := add64_eq (by omega)
    have e2 : add64 r.offset r.size = r.offset + r.size := add64_eq hhi
    have hmin : min (min hi (r.offset + r.size)) c.offset = min hi c.offset := by omega
    obtain ⟨ha1, ha2⟩ := gap_int (a := min hi c.offset)
      (b := max lo (prev.offset + prev.size))
      (by omega) (by simp only [H64] at *; omega) (by simp only [H64] at *; omega)
    simp only [findGapLoop, e1, e2, hmin, ha1, ha2, newBestGap_first, decide_eq_true_eq] at h
    have hfree0 : (size : Int) ≤ ((min hi c.offset : Nat) : Int)
          - (max lo (prev.offset + prev.size) : Nat) →
        (i ≤ i ∧ prev.offset + prev.size ≤ max lo (prev.offset + prev.size) ∧
          max lo (prev.offset + prev.size) + size ≤ min hi c.offset ∧
          FreeAt (prev.offset + prev.size) (r.offset + r.size) (c :: rest) (i - i)
            (max lo (prev.offset + prev.size)) (min hi c.offset)) := by
      intro hq
      refine ⟨le_refl _, by omega, by omega, ?_⟩
      rw [Nat.sub_self]
      refine FreeAt.zero (by omega) (by omega) ?_
      intro a ha
      rcases List.mem_cons.1 ha with rfl | ha
      · omega
      · have := hmem a ha
        omega
    have hstep : ∀ gS2 gZ2 gI2,
        ((i + 1 ≤ j ∧ c.offset + c.size ≤ gs ∧ gs + size ≤ ge ∧
          FreeAt (c.offset + c.size) (r.offset + r.size) rest (j - (i + 1)) gs ge) ∨
        (j = gI2 ∧ gs = gS2 ∧ ge = add64 gS2 (ofInt64 gZ2) ∧ (size : Int) ≤ gZ2)) →
        ((i ≤ j ∧ prev.offset + prev.size ≤ gs ∧ gs + size ≤ ge ∧
          FreeAt (prev.offset + prev.size) (r.offset + r.size) (c :: rest) (j - i) gs ge) ∨
        (j = gI2 ∧ gs = gS2 ∧ ge = add64 gS2 (ofInt64 gZ2) ∧ (size : Int) ≤ gZ2)) := by
      intro gS2 gZ2 gI2 hh
      rcases hh with ⟨hj, hcs, hfit, hfr⟩ | hst
      · left
        refine ⟨by omega, by omega, hfit, ?_⟩
        have : j - i = (j - (i + 1)) + 1 := by omega
        rw [this]
        exact hfr.succ (by omega) hcs
      · right; exact hst
    by_cases hq : (size : Int) ≤ ((min hi c.offset : Nat) : Int)
        - (max lo (prev.offset + prev.size) : Nat)
    · rw [if_pos hq] at h
      by_cases hs : s ≤ i
      · rw [if_pos ⟨trivial, hs⟩] at h
        simp only [Prod.mk.injEq, true_and] at h
        obtain ⟨rfl, rfl, rfl⟩ := h
        left
        exact hfree0 hq
      · rw [if_neg (fun hh => hs hh.2)] at h
        rcases hstep _ _ _ (ih (i + 1) c _ _ i (by omega) hp3 h) with hl | ⟨rfl, rfl, rfl, _⟩
        · left; exact hl
        · left
          rw [ha2]
          exact hfree0 hq
    · rw [if_neg hq] at h
      exact hstep _ _ _ (ih (i + 1) c gS gZ gI (by omega) hp3 h)

/-- What `findGap` returns in First mode, for any search window `[lo, hi]`
inside the region and any start index: an interval that is free at the index
returned and holds `size` bytes. -/
theorem findGap_free {r : Region} {size s lo hi gs ge j : Nat}
    (hp : Packed r.offset (r.offset + r.size) r.entries)
    (hhi : r.offset + r.size < M64) (hn : r.size < H64)
    (hl1 : r.offset ≤ lo) (hl2 : lo ≤ r.offset + r.size)
    (hh1 : r.offset ≤ hi) (hh2 : hi ≤ r.offset + r.size)
    (h : r.findGap lo hi RegionFindGapModeFirst (size : Int) s = .ok (true, gs, ge, j)) :
    gs + size ≤ ge ∧ FreeAt r.offset (r.offset + r.size) r.entries j gs ge := by
  unfold Region.findGap at h
  cases hes : r.entries with
  | nil =>
    rw [hes] at h
    obtain ⟨ha1, -⟩ := gap_int (a := hi) (b := lo) (by omega)
      (by simp only [H64] at *; omega) (by simp only [H64] at *; omega)
    simp only [ha1] at h
    split_ifs at h with hq
    · simp only [Except.ok.injEq, Prod.mk.injEq, true_and] at h
      obtain ⟨rfl, rfl, rfl⟩ := h
      exact ⟨by omega, FreeAt.zero hl1 hh2 (by simp)⟩
    · simp at h
  | cons first rest =>
    rw [hes] at h hp
    obtain ⟨hp1, hp2, hp3⟩ := hp
    have hfle := Packed.le hp3
    have hmem := Packed.mem hp3
    obtain ⟨ha1, ha2⟩ := gap_int (a := first.offset) (b := lo) (by omega)
      (by simp only [H64] at *; omega) (by simp only [H64] at *; omega)
    have hmax : max lo r.offset = lo := by omega
    simp only [ha1, hmax, ha2] at h
    rw [if_neg (by simp)] at h
    have hfirst : (size : Int) ≤ (first.offset : Int) - lo →
        lo + size ≤ first.offset ∧
        FreeAt r.offset (r.offset + r.size) (first :: rest) 0 lo first.offset := by
      intro hq
      refine ⟨by omega, FreeAt.zero hl1 (by omega) ?_⟩
      intro a ha
      rcases List.mem_cons.1 ha with rfl | ha
      · exact le_refl _
      · have := hmem a ha
        omega
    by_cases h2 : True ∧ (first.offset : Int) - lo ≥ (size : Int) ∧ 0 ≥ s
    · rw [if_pos h2] at h
      simp only [Except.ok.injEq, Prod.mk.injEq, true_and] at h
      obtain ⟨rfl, rfl, rfl⟩ := h
      exact hfirst h2.2.1
    · rw [if_neg h2] at h
      simp only [Except.ok.injEq] at h
      rcases findGapLoop_free hhi hn hl2 hh1 hh2 gs ge j rest 1 first _ _ 0 hp1 hp3 h
        with ⟨hj, hg, hfit, hfr⟩ | ⟨rfl, rfl, rfl, hz⟩
      · refine ⟨hfit, ?_⟩
        have : j = (j - 1) + 1 := by omega
        rw [this]
        exact hfr.succ (by omega) hg
      · rw [ha2]
        exact hfirst hz

/-- An offset `calcEntryOffset` returns lies in the interval it was given,
leaves room for the entry, and is a multiple of the alignment when the
alignment is above 1. -/
theorem calc_fits {gs ge len align x : Nat} {descending : Bool}
    (hq : gs + len ≤ ge) (hs : ge < M64) (hal : descending = false → ge + align ≤ M64)
    (h : calcEntryOffset gs ge len descending align = (true, x)) :
    gs ≤ x ∧ x + len ≤ ge ∧ (1 < align → x % align = 0) := by
  cases descending with
  | false =>
    obtain ⟨hc, -⟩ := @calc_ascending gs ge len align hq hs (hal rfl)
    obtain ⟨⟨h1, h2, h3⟩, -⟩ := hc x h
    refine ⟨h2, h3, ?_⟩
    intro ha
    rcases h1 with h1 | h1
    · omega
    · exact h1
  | true =>
    unfold calcEntryOffset at h
    simp only [if_true] at h
    have e1 : sub64 ge len = ge - len := sub64_eq (by omega) hs
    rw [e1] at h
    by_cases ha : align > 1
    · have hmod : (ge - len) % align ≤ ge - len := Nat.mod_le _ _
      have e2 : sub64 (ge - len) ((ge - len) % align) = ge - len - (ge - len) % align :=
        sub64_eq hmod (by omega)
      simp only [if_pos ha, e2] at h
      split_ifs at h with hge
      · simp only [Prod.mk.injEq, true_and] at h
        subst h
        refine ⟨hge, by omega, fun _ => ?_⟩
        have h1 := Nat.div_add_mod (ge - len) align
        have : ge - len - (ge - len) % align = align * ((ge - len) / align) := by omega
        rw [this]; exact Nat.mul_mod_right _ _
      · simp at h
    · simp only [if_neg ha] at h
      split_ifs at h with hge
      · simp only [Prod.mk.injEq, true_and] at h
        subst h
        exact ⟨hge, by omega, fun hh => absurd hh ha⟩
      · simp at h

/-- Putting an entry into an interval that is free at index `j` keeps the
region well formed. -/
theorem wellFormed_insert {r : Region} {j gs ge : Nat} {p : Entry} (hwf : r.WellFormed)
    (hfree : FreeAt r.offset (r.offset + r.size) r.entries j gs ge)
    (hx1 : gs ≤ p.offset) (hx2 : p.offset + p.size ≤ ge) :
    ({ r with entries := slicesInsert r.entries j p } : Region).WellFormed := by
  obtain ⟨hs, hd, hin⟩ := hwf
  obtain ⟨-, f2, f3, f4, f5⟩ := hfree
  have hsplit : r.entries = r.entries.take j ++ r.entries.drop j :=
    (List.take_append_drop j r.entries).symm
  rw [hsplit, List.pairwise_append] at hs hd
  obtain ⟨s1, s2, s3⟩ := hs
  obtain ⟨d1, d2, d3⟩ := hd
  unfold Region.WellFormed slicesInsert
  simp only
  refine ⟨?_, ?_, ?_⟩
  · rw [List.pairwise_append, List.pairwise_cons]
    refine ⟨s1, ⟨?_, s2⟩, ?_⟩
    · intro b hb
      have := f5 b hb
      omega
    · intro a ha b hb
      rcases List.mem_cons.1 hb with rfl | hb
      · have := f4 a ha
        omega
      · exact s3 a ha b hb
  · rw [List.pairwise_append, List.pairwise_cons]
    refine ⟨d1, ⟨?_, d2⟩, ?_⟩
    · intro b hb
      have := f5 b hb
      left; omega
    · intro a ha b hb
      rcases List.mem_cons.1 hb with rfl | hb
      · have := f4 a ha
        left; omega
      · exact d3 a ha b hb
  · intro a ha
    rcases List.mem_append.1 ha with ha | ha
    · exact hin a (List.mem_of_mem_take ha)
    · rcases List.mem_cons.1 ha with rfl | ha
      · omega
      · exact hin a (List.mem_of_mem_drop ha)

theorem placeLoop_invariant {r : Region} {e : Entry} {lo hi : Nat}
    (hp : Packed r.offset (r.offset + r.size) r.entries)
    (hhi : r.offset + r.size < M64) (hn : r.size < H64) (hes : e.size < H64)
    (hal : r.descending = false → r.offset + r.size + e.align ≤ M64)
    (hl1 : r.offset ≤ lo) (hl2 : lo ≤ r.offset + r.size)
    (hh1 : r.offset ≤ hi) (hh2 : hi ≤ r.offset + r.size) :
    ∀ (fuel s : Nat) (res : PlaceResult),
      placeLoop r e lo hi false fuel s = .ok res → res.ok = true →
      ∃ j gs ge, FreeAt r.offset (r.offset + r.size) r.entries j gs ge ∧
        gs ≤ res.entry.offset ∧ res.entry.offset + e.size ≤ ge ∧
        (1 < e.align → res.entry.offset % e.align = 0) ∧
        res.entry = { e with offset := res.entry.offset } ∧
        res.region = { r with entries := slicesInsert r.entries j res.entry } := by
  intro fuel
  induction fuel with
  | zero => intro s res h; simp [placeLoop] at h
  | succ fuel ih =>
    intro s res h hok
    rw [placeLoop, toInt64_eq hes] at h
    cases hfg : r.findGap lo hi RegionFindGapModeFirst (e.size : Int) s with
    | error err => rw [hfg] at h; simp at h
    | ok v =>
      obtain ⟨b, gs, ge, j⟩ := v
      rw [hfg] at h
      cases b with
      | false =>
        simp only [Except.ok.injEq] at h
        subst h; simp at hok
      | true =>
        obtain ⟨hq, hfree⟩ := findGap_free hp hhi hn hl1 hl2 hh1 hh2 hfg
        have hge : ge ≤ r.offset + r.size := hfree.2.2.1
        simp only at h
        cases hcalc : calcEntryOffset gs ge e.size r.descending e.align with
        | mk cok off =>
          rw [hcalc] at h
          cases cok with
          | true =>
            simp only [Bool.false_eq_true, if_false, Except.ok.injEq] at h
            subst h
            obtain ⟨c1, c2, c3⟩ := calc_fits hq (by omega)
              (fun hd => by have := hal hd; omega) hcalc
            exact ⟨j, gs, ge, hfree, c1, c2, c3, rfl, rfl⟩
          | false =>
            simp only at h
            exact ih (j + 1) res h hok

theorem place_window {r : Region} {e : Entry} {rg : Option (List Nat)} {fuel : Nat}
    {res : PlaceResult} (hhi : r.offset + r.size < M64) (hrg : RangeOk e.size rg)
    (h : r.Place fuel e rg false = .ok res) (hok : res.ok = true) :
    ∃ lo hi, r.offset ≤ lo ∧ lo ≤ r.offset + r.size ∧ r.offset ≤ hi ∧ hi ≤ r.offset + r.size ∧
      placeLoop r e lo hi false fuel 0 = .ok res := by
  have e0 : add64 r.offset r.size = r.offset + r.size := add64_eq hhi
  have hfalse : ∀ {lo hi : Nat},
      (if r.size ≥ sub64 hi lo then placeLoop r e lo hi false fuel 0
        else .ok { ok := false, ret := 0, region := r, entry := e }) = .ok res →
      r.size ≥ sub64 hi lo ∧ placeLoop r e lo hi false fuel 0 = .ok res := by
    intro lo hi hh
    split_ifs at hh with hc
    · exact ⟨hc, hh⟩
    · simp only [Except.ok.injEq] at hh
      subst hh; simp at hok
  unfold Region.Place at h
  rw [e0] at h
  rcases rg with _ | rg
  · obtain ⟨-, hl⟩ := hfalse h
    exact ⟨_, _, le_refl _, by omega, by omega, le_refl _, hl⟩
  · rcases rg with _ | ⟨x, _ | ⟨y, _ | ⟨z, t⟩⟩⟩
    · simp at h
    · have hx : x + e.size < M64 := hrg
      have e1 : add64 x e.size = x + e.size := add64_eq hx
      simp only [e1] at h
      obtain ⟨hc, hl⟩ := hfalse h
      refine ⟨_, _, le_max_left _ _, ?_, ?_, min_le_left _ _, hl⟩
      · unfold sub64 at hc
        simp only [M64] at *
        omega
      · unfold sub64 at hc
        simp only [M64] at *
        omega
    · obtain ⟨hxy, hy⟩ : x ≤ y ∧ y + 1 < M64 := hrg
      have e1 : add64 y 1 = y + 1 := add64_eq hy
      simp only [e1] at h
      obtain ⟨hc, hl⟩ := hfalse h
      refine ⟨_, _, le_max_left _ _, ?_, ?_, min_le_left _ _, hl⟩
      · unfold sub64 at hc
        simp only [M64] at *
        omega
      · unfold sub64 at hc
        simp only [M64] at *
        omega
    · simp at h

/-- The invariant of `Place` on the values of the entries: let the entries
of a region `[o, o+n)` with `n < 2^63` and `o + n < 2^64` be sorted by offset,
pairwise disjoint, inside the region and of size at least 1, let the entry `e`
have a size below `2^63`, let `o + n + alignment ≤ 2^64` when the region is
ascending, and let the offset range be nil, `[x]` with `x + size < 2^64`, or
`[min, max]` with `min ≤ max` and `max + 1 < 2^64`.  Then after a successful
`Place(e, range, false)` the entry list is the old list with the value of `e`
at its new offset inserted at some index, and the entries are again sorted by
offset, pairwise disjoint and inside the region (and of size at least 1 when
`e` is), with the new offset a multiple of the alignment when that is above 1. -/
theorem place_invariant (fuel : Nat) (r : Region) (e : Entry) (rg : Option (List Nat))
    (res : PlaceResult)
    (hwf : r.WellFormed) (hsz : ∀ a ∈ r.entries, 1 ≤ a.size)
    (hn : r.size < H64) (hhi : r.offset + r.size < M64) (hes : e.size < H64)
    (hal : r.descending = false → r.offset + r.size + e.align ≤ M64)
    (hrg : RangeOk e.size rg)
    (h : r.Place fuel e rg false = .ok res) (hok : res.ok = true) :
    ∃ j, j ≤ r.entries.length ∧
      res.entry = { e with offset := res.entry.offset } ∧
      res.region = { r with entries := slicesInsert r.entries j res.entry } ∧
      res.region.WellFormed ∧
      (1 ≤ e.size → ∀ a ∈ res.region.entries, 1 ≤ a.size) ∧
      (1 < e.align → res.entry.offset % e.align = 0) := by
  obtain ⟨lo, hi, hl1, hl2, hh1, hh2, hl⟩ := place_window hhi hrg h hok
  obtain ⟨j, gs, ge, hfree, c1, c2, c3, hent, hreg⟩ :=
    placeLoop_invariant (hwf.packed hsz) hhi hn hes hal hl1 hl2 hh1 hh2 fuel 0 res hl hok
  have hsize : res.entry.size = e.size := by rw [hent]
  refine ⟨j, hfree.1, hent, hreg, ?_, ?_, c3⟩
  · rw [hreg]
    exact wellFormed_insert hwf hfree c1 (by rw [hsize]; exact c2)
  · intro h1 a ha
    rw [hreg] at ha
    simp only [slicesInsert, List.mem_append, List.mem_cons] at ha
    rcases ha with ha | rfl | ha
    · exact hsz a (List.mem_of_mem_take ha)
    · rw [hsize]; exact h1
    · exact hsz a (List.mem_of_mem_drop ha)

end Relocation

namespace elf

/-! ### Section garbage collector: the relocations of a dropped section -/

/-- C28 fails on the code.  In `exampleGcData` the only key of the relocation
map, `.data`, is in the section list.  `GarbageCollectSections` with `.text`
as the only root ends and keeps `.text` alone (nothing reaches `.data`), but it
leaves the relocation map as it was: its key `.data` is no longer in the
section list.  The `Write` that follows succeeds and emits the relocation
section `.rel.data` with `Info = 0xFFFFFFFF`, the index `-1` that
`slices.Index` gives for the absent target. -/
theorem gc_keeps_relocations_of_dropped_section :
    (∀ en ∈ exampleGcData.1.Relocations, en.1 ∈ exampleGcData.1.Sections) ∧
    (∀ fuel, exampleGcData.1.GarbageCollectSections exampleGcData.2 (fun _ l => l) (fuel + 2)
        (some [0])
      = .ok (exampleGcDataCollected, some [0])) ∧
    exampleGcDataCollected.Sections = [0] ∧
    exampleGcDataCollected.Relocations.map Prod.fst = [1] ∧
    ¬ (∀ en ∈ exampleGcDataCollected.Relocations, en.1 ∈ exampleGcDataCollected.Sections) ∧
    ∃ r, exampleGcDataCollected.Write exampleGcData.2 = .ok r ∧
      r.sections = [0, 2, 3, 4, 5] ∧
      (r.mem.sec 5).Name = nameRel ++ (exampleGcData.2.sec 1).Name ∧
      (r.mem.sec 5).Type_ = SHT_REL ∧
      (r.mem.sec 5).Info = 0xFFFFFFFF := by
  refine ⟨by decide, fun fuel => rfl, rfl, rfl, by decide,
    exampleGcDataCollected.written exampleGcData.2, rfl, rfl, rfl, rfl, rfl⟩

end elf

namespace elf

/-! ### Relocation records: the info field -/

theorem wrapU_32_of_64 (z : Int) : wrapU 32 z = wrapU 64 z % 2 ^ 32 := by
  unfold wrapU
  norm_num
  omega

theorem relInfo_32 (e : Elf) (rel : Relocation) (hc : e.Class ≠ ELFCLASS64)
    (ht : rel.Type_ < 2 ^ 8) : e.relInfo rel = packInfo32 rel.symbolIndex rel.Type_ := by
  unfold Elf.relInfo packInfo32
  rw [if_neg hc, wrapU_32_of_64]
  have hm : rel.Type_ &&& 0xFF = rel.Type_ := by
    rw [show (0xFF : Nat) = 2 ^ 8 - 1 from rfl, Nat.and_pow_two_sub_one_eq_mod,
      Nat.mod_eq_of_lt ht]
  have h1 : ((wrapU 64 rel.symbolIndex % 2 ^ 32) <<< 8) % 2 ^ 32
      = (wrapU 64 rel.symbolIndex % 2 ^ 24) <<< 8 := by
    simp only [Nat.shiftLeft_eq]; omega
  rw [hm, h1, shl_or _ _ _ ht, shl_or _ _ _ ht]
  omega

theorem relInfo_64 (e : Elf) (rel : Relocation) (hc : e.Class = ELFCLASS64)
    (ht : rel.Type_ < 2 ^ 32) : e.relInfo rel = packInfo64 rel.symbolIndex rel.Type_ := by
  unfold Elf.relInfo packInfo64
  rw [if_pos hc]
  have hm : rel.Type_ &&& 0xFFFFFFFF = rel.Type_ := by
    rw [show (0xFFFFFFFF : Nat) = 2 ^ 32 - 1 from rfl, Nat.and_pow_two_sub_one_eq_mod,
      Nat.mod_eq_of_lt ht]
  have h1 : (wrapU 64 rel.symbolIndex <<< 32) % 2 ^ 64
      = (wrapU 64 rel.symbolIndex % 2 ^ 32) <<< 32 := by
    simp only [Nat.shiftLeft_eq]; omega
  rw [hm, h1, shl_or _ _ _ ht, shl_or _ _ _ ht]
  omega

theorem packInfo32_lt (i : Int) (t : Nat) : packInfo32 i t < 2 ^ 32 :=
  Nat.mod_lt _ (by norm_num)

theorem packInfo64_lt (i : Int) (t : Nat) : packInfo64 i t < 2 ^ 64 :=
  Nat.mod_lt _ (by norm_num)

theorem putFields_two (be : Bool) (a b : Nat × Nat) (fs : List (Nat × Nat)) :
    putFields be (a :: b :: fs) = putFields be [a, b] ++ putFields be fs := by
  simp [putFields]

/-- The record `writeRelocation` writes, as offset word, info word and the
rest. -/
theorem writeRelocation_fields (e : Elf) (t : Nat) (rel : Relocation) :
    ∃ rest, e.writeRelocation t rel
      = putFields e.bigEndian [(e.addrBits / 8, rel.Offset), (e.addrBits / 8, e.relInfo rel)]
        ++ rest := by
  unfold Elf.writeRelocation Elf.relInfo Elf.addrBits
  by_cases hc : e.Class = ELFCLASS64
  · simp only [if_pos hc]
    split_ifs
    · exact ⟨_, putFields_two _ _ _ _⟩
    · exact ⟨[], (List.append_nil _).symm⟩
  · simp only [if_neg hc]
    split_ifs
    · exact ⟨_, putFields_two _ _ _ _⟩
    · exact ⟨[], (List.append_nil _).symm⟩

/-- C21 (amended): for every relocation (with a type code below `2^32`, as
every Go `uint32` is) and both byte orders, the record `writeRelocation`
writes starts with the offset word and the info word, and the info word is

* in class 64, `(symbol_index << 32) | (type & 0xFFFFFFFF)` as a 64-bit value;
* in class 32 (every class other than 64), provided the type code is below
  `2^8`, `(symbol_index << 8) | (type & 0xFF)` as a 32-bit value. -/
theorem write_relocation_info (e : Elf) (t : Nat) (rel : Relocation)
    (ht : rel.Type_ < 2 ^ 32) (h32 : e.Class ≠ ELFCLASS64 → rel.Type_ < 2 ^ 8) :
    (e.Class = ELFCLASS64 →
      getFields e.bigEndian [8, 8] (e.writeRelocation t rel)
        = [rel.Offset % 2 ^ 64, packInfo64 rel.symbolIndex rel.Type_]) ∧
    (e.Class ≠ ELFCLASS64 →
      getFields e.bigEndian [4, 4] (e.writeRelocation t rel)
        = [rel.Offset % 2 ^ 32, packInfo32 rel.symbolIndex rel.Type_]) := by
  obtain ⟨rest, hr⟩ := writeRelocation_fields e t rel
  constructor
  · intro hc
    have hb : e.addrBits / 8 = 8 := by unfold Elf.addrBits; rw [if_pos hc]
    rw [hb] at hr
    have h := getFields_putFields e.bigEndian [(8, rel.Offset), (8, e.relInfo rel)] rest
    rw [hr]
    simp only [List.map_cons, List.map_nil] at h
    rw [h, relInfo_64 e rel hc ht]
    have := packInfo64_lt rel.symbolIndex rel.Type_
    norm_num
    omega
  · intro hc
    have hb : e.addrBits / 8 = 4 := by unfold Elf.addrBits; rw [if_neg hc]
    rw [hb] at hr
    have h := getFields_putFields e.bigEndian [(4, rel.Offset), (4, e.relInfo rel)] rest
    rw [hr]
    simp only [List.map_cons, List.map_nil] at h
    rw [h, relInfo_32 e rel hc (h32 hc)]
    have := packInfo32_lt rel.symbolIndex rel.Type_
    norm_num
    omega

theorem write_relocation_info_witness :
    getFields exampleClass32.bigEndian [4, 4] (exampleClass32.writeRelocation SHT_REL
      exampleRelocation) = [16, 5 * 256 + 2] ∧
    ((exampleClass32.Class = ELFCLASS64 →
      getFields exampleClass32.bigEndian [8, 8]
          (exampleClass32.writeRelocation SHT_REL exampleRelocation)
        = [exampleRelocation.Offset % 2 ^ 64,
           packInfo64 exampleRelocation.symbolIndex exampleRelocation.Type_]) ∧
    (exampleClass32.Class ≠ ELFCLASS64 →
      getFields exampleClass32.bigEndian [4, 4]
          (exampleClass32.writeRelocation SHT_REL exampleRelocation)
        = [exampleRelocation.Offset % 2 ^ 32,
           packInfo32 exampleRelocation.symbolIndex exampleRelocation.Type_])) :=
  ⟨by decide,
   write_relocation_info exampleClass32 SHT_REL exampleRelocation (by decide)
     (fun _ => by decide)⟩

/-- C21 as stated fails in class 32: for a relocation against symbol 0 whose
type code is 256, `writeRelocation` writes the info word 256 (the type code is
not masked and runs into the bits of the symbol index), where
`(symbol_index << 8) | (type & 0xFF)` is 0. -/
theorem write_relocation_info_unmasked :
    getFields exampleClass32.bigEndian [4, 4]
      (exampleClass32.writeRelocation SHT_REL
        { (default : Relocation) with symbolIndex := 0, Type_ := 256, Offset := 16 })
      = [16, 256] ∧
    packInfo32 0 256 = 0 := by
  refine ⟨by decide, by decide⟩

end elf

namespace elf

/-! ### Symbol records: the info byte and the layout -/

theorem wrapU_8_of_64 (z : Int) : wrapU 8 z = wrapU 64 z % 2 ^ 8 := by
  unfold wrapU
  norm_num
  omega

theorem wrapU_of_range {z : Int} {bits : Nat} (h0 : 0 ≤ z) (h1 : z < 2 ^ bits) :
    ((wrapU bits z : Nat) : Int) = z := by
  unfold wrapU
  have : z % ((2 ^ bits : Nat) : Int) = z := Int.emod_eq_of_lt h0 (by push_cast; exact h1)
  rw [this, Int.toNat_of_nonneg h0]

theorem symbol_info_packed (y : Symbol) (h0 : 0 ≤ y.Type_) (h1 : y.Type_ ≤ 15) :
    y.info = packSymbolInfo y.Binding y.Type_ := by
  unfold Symbol.info packSymbolInfo
  rw [wrapU_8_of_64, wrapU_8_of_64]
  have ht : ((wrapU 64 y.Type_ : Nat) : Int) = y.Type_ :=
    wrapU_of_range h0 (by norm_num; omega)
  have ht2 : wrapU 64 y.Type_ < 2 ^ 4 := by
    have : ((wrapU 64 y.Type_ : Nat) : Int) < 16 := by rw [ht]; omega
    norm_num
    exact_mod_cast this
  have hm : wrapU 64 y.Type_ &&& 0x0F = wrapU 64 y.Type_ := by
    rw [show (0x0F : Nat) = 2 ^ 4 - 1 from rfl, Nat.and_pow_two_sub_one_eq_mod,
      Nat.mod_eq_of_lt ht2]
  have hm2 : wrapU 64 y.Type_ % 2 ^ 8 = wrapU 64 y.Type_ := Nat.mod_eq_of_lt (by omega)
  have h1 : ((wrapU 64 y.Binding % 2 ^ 8) <<< 4) % 256
      = (wrapU 64 y.Binding % 2 ^ 4) <<< 4 := by
    simp only [Nat.shiftLeft_eq]; omega
  rw [hm, hm2, h1, Nat.lor_comm, shl_or _ _ _ ht2, shl_or _ _ _ ht2]
  omega

theorem writeSymbol_info_field (e : Elf) (y : Symbol) :
    (e.Class = ELFCLASS64 →
      getFields e.bigEndian [4, 1, 1, 2, 8, 8] (e.writeSymbol y)
        = [y.nameOffset % 2 ^ 32, y.info % 2 ^ 8, y.Other % 2 ^ 8, y.SectionIndex % 2 ^ 16,
           y.Value % 2 ^ 64, y.Size % 2 ^ 64]) ∧
    (e.Class ≠ ELFCLASS64 →
      getFields e.bigEndian [4, 4, 4, 1, 1, 2] (e.writeSymbol y)
        = [y.nameOffset % 2 ^ 32, y.Value % 2 ^ 32, y.Size % 2 ^ 32, y.info % 2 ^ 8,
           y.Other % 2 ^ 8, y.SectionIndex % 2 ^ 16]) := by
  constructor
  · intro hc
    have h := getFields_putFields e.bigEndian
      [(4, y.nameOffset), (1, y.info), (1, y.Other), (2, y.SectionIndex), (8, y.Value),
       (8, y.Size)] []
    simp only [List.append_nil, List.map_cons, List.map_nil] at h
    unfold Elf.writeSymbol
    rw [if_pos hc]
    exact h
  · intro hc
    have h := getFields_putFields e.bigEndian
      [(4, y.nameOffset), (4, y.Value), (4, y.Size), (1, y.info), (1, y.Other),
       (2, y.SectionIndex)] []
    simp only [List.append_nil, List.map_cons, List.map_nil] at h
    unfold Elf.writeSymbol
    rw [if_neg hc]
    exact h

theorem packSymbolInfo_lt (b t : Int) : packSymbolInfo b t < 2 ^ 8 :=
  Nat.mod_lt _ (by norm_num)

theorem getUint_singleton (be : Bool) (b : Nat) : getUint be [b] = b := by
  cases be <;> simp [getUint, leValue]

theorem readFull_byte {s s2 : Stream} {n k : Nat} {bs : List Nat}
    (h : s.readFull n = .ok (bs, s2)) (hk : k < n) :
    ∃ b, s.data[s.pos + k]? = some b ∧ (bs.drop k).take 1 = [b] := by
  unfold Stream.readFull at h
  split at h
  · rename_i hle
    injection h with h; injection h with h1 h2
    subst h1
    have hlt : s.pos + k < s.data.length := by omega
    refine ⟨s.data[s.pos + k], List.getElem?_eq_getElem hlt, ?_⟩
    rw [List.drop_take, List.drop_drop, List.take_take]
    have hmin : min 1 (n - k) = 1 := by omega
    rw [hmin, List.take_one_drop_eq_of_lt_length hlt]
    rfl
  · cases h

/-- What `readSymbol` makes of the info byte of the record it reads: the byte
stands at offset 4 of the record in class 64 and at offset 12 otherwise. -/
theorem readSymbol_info (e : Elf) (m : Mem) (s s2 : Stream) (parent : SectionHeader)
    (y : Symbol) (h : e.readSymbol m s parent = .ok (y, s2)) :
    ∃ info, s.data[s.pos + (if e.Class = ELFCLASS64 then 4 else 12)]? = some info ∧
      y.Type_ = ((info &&& 0xF : Nat) : Int) ∧ y.Binding = ((info >>> 4 : Nat) : Int) := by
  unfold Elf.readSymbol at h
  simp only at h
  split at h
  · cases h
  · rename_i rec s1 hrec
    have hr : ∃ info, s.data[s.pos + (if e.Class = ELFCLASS64 then 4 else 12)]? = some info ∧
        rec.Type_ = ((info &&& 0xF : Nat) : Int) ∧ rec.Binding = ((info >>> 4 : Nat) : Int) := by
      split at hrec
      · rename_i hc
        split at hrec
        · cases hrec
        · rename_i bs s3 hfull
          obtain ⟨b, hb1, hb2⟩ := readFull_byte (k := 4) hfull (by decide)
          split at hrec
          · rename_i nm info other shndx value size hget
            injection hrec with hrec; injection hrec with h1 h2
            subst h1
            simp only [getFields, List.cons.injEq] at hget
            obtain ⟨-, hinfo, -⟩ := hget
            rw [hb2, getUint_singleton] at hinfo
            subst hinfo
            rw [if_pos hc]
            exact ⟨b, hb1, rfl, rfl⟩
          · cases hrec
      · rename_i hc
        split at hrec
        · cases hrec
        · rename_i bs s3 hfull
          obtain ⟨b, hb1, hb2⟩ := readFull_byte (k := 12) hfull (by decide)
          split at hrec
          · rename_i nm value size info other shndx hget
            injection hrec with hrec; injection hrec with h1 h2
            subst h1
            simp only [getFields, List.cons.injEq, List.drop_drop] at hget
            obtain ⟨-, -, -, hinfo, -⟩ := hget
            rw [hb2, getUint_singleton] at hinfo
            subst hinfo
            rw [if_neg hc]
            exact ⟨b, hb1, rfl, rfl⟩
          · cases hrec
    obtain ⟨info, hi1, hi2, hi3⟩ := hr
    refine ⟨info, hi1, ?_⟩
    split at h
    · cases h
    · split at h
      · cases h
      · split at h
        · cases h
        · rename_i res hres
          split at h
          · cases h
          · injection h with h; injection h with h1 h2
            subst h1
            split at hres
            · split at hres
              · cases hres
              · injection hres with hres; subst hres
                exact ⟨hi2, hi3⟩
            · injection hres with hres; subst hres
              exact ⟨hi2, hi3⟩

theorem putUint_one (be : Bool) (v : Nat) : putUint be 1 v = [v % 256] := by
  cases be <;> simp [putUint, leBytes]

theorem writeSymbol_info_byte (e : Elf) (y : Symbol) :
    (e.writeSymbol y)[if e.Class = ELFCLASS64 then 4 else 12]? = some (y.info % 256) := by
  unfold Elf.writeSymbol Symbol.info
  by_cases hc : e.Class = ELFCLASS64
  · simp only [if_pos hc, putFields, putUint_one]
    rw [List.getElem?_append_right (by rw [putUint_length])]
    simp [putUint_length]
  · simp only [if_neg hc, putFields, putUint_one]
    rw [List.getElem?_append_right (by rw [putUint_length]; decide)]
    rw [List.getElem?_append_right (by rw [putUint_length, putUint_length]; decide)]
    rw [List.getElem?_append_right (by simp only [putUint_length]; decide)]
    simp [putUint_length]

/-- C22 (amended): for every symbol whose type is in `0 .. 15`, in both
classes and both byte orders, the info byte `writeSymbol` writes (the byte at
offset 4 of the record in class 64, at offset 12 in class 32) is
`(binding << 4) | (type & 0x0F)` reduced to 8 bits; and whenever `readSymbol`
returns a symbol, its type is `info & 0x0F` and its binding is `info >> 4`,
with `info` the byte at that offset of the record read. -/
theorem symbol_info_byte (e : Elf) (y : Symbol) (h0 : 0 ≤ y.Type_) (h1 : y.Type_ ≤ 15) :
    (e.writeSymbol y)[if e.Class = ELFCLASS64 then 4 else 12]?
      = some (packSymbolInfo y.Binding y.Type_) ∧
    ∀ (m : Mem) (s s2 : Stream) (parent : SectionHeader) (z : Symbol),
      e.readSymbol m s parent = .ok (z, s2) →
      ∃ info, s.data[s.pos + (if e.Class = ELFCLASS64 then 4 else 12)]? = some info ∧
        z.Type_ = ((info &&& 0x0F : Nat) : Int) ∧ z.Binding = ((info >>> 4 : Nat) : Int) := by
  refine ⟨?_, fun m s s2 parent z h => readSymbol_info e m s s2 parent z h⟩
  rw [writeSymbol_info_byte, symbol_info_packed y h0 h1]
  have := packSymbolInfo_lt y.Binding y.Type_
  congr 1
  omega

theorem symbol_info_byte_witness :
    exampleSymbol.Type_ = 2 ∧ exampleSymbol.Binding = STB_GLOBAL ∧
    (exampleText.1.writeSymbol exampleSymbol)[4]? = some 0x12 ∧
    ((exampleText.1.writeSymbol exampleSymbol)[if exampleText.1.Class = ELFCLASS64 then 4
        else 12]?
      = some (packSymbolInfo exampleSymbol.Binding exampleSymbol.Type_) ∧
    ∀ (m : Mem) (s s2 : Stream) (parent : SectionHeader) (z : Symbol),
      exampleText.1.readSymbol m s parent = .ok (z, s2) →
      ∃ info, s.data[s.pos + (if exampleText.1.Class = ELFCLASS64 then 4 else 12)]?
          = some info ∧
        z.Type_ = ((info &&& 0x0F : Nat) : Int) ∧ z.Binding = ((info >>> 4 : Nat) : Int)) :=
  ⟨rfl, rfl, by decide, symbol_info_byte exampleText.1 exampleSymbol (by decide) (by decide)⟩

/-- C22 as stated fails: for a local symbol of type 16, `writeSymbol` writes
the info byte `0x10` (the type is reduced to 8 bits, not to 4, and runs into
the binding), where `(binding << 4) | (type & 0x0F)` is 0. -/
theorem symbol_info_type_unmasked :
    (exampleText.1.writeSymbol
      { (default : Symbol) with Type_ := 16, Binding := STB_LOCAL })[4]? = some 0x10 ∧
    (exampleClass32.writeSymbol
      { (default : Symbol) with Type_ := 16, Binding := STB_LOCAL })[12]? = some 0x10 ∧
    packSymbolInfo STB_LOCAL 16 = 0 := by
  refine ⟨by decide, by decide, by decide⟩

theorem leBytes_eq_map : ∀ (w v : Nat),
    leBytes w v = (List.range w).map fun i => v / 256 ^ i % 256
  | 0, _ => rfl
  | w + 1, v => by
    rw [leBytes, leBytes_eq_map w, List.range_succ_eq_map, List.map_cons, List.map_map]
    simp only [pow_zero, Nat.div_one, List.cons.injEq, true_and]
    apply List.map_congr_left
    intro i _
    simp only [Function.comp_apply, Nat.succ_eq_add_one]
    rw [Nat.div_div_eq_div_mul, pow_succ, Nat.mul_comm]

theorem putUint_eq_fieldBytes (be : Bool) (w v : Nat) : putUint be w v = fieldBytes be w v := by
  unfold putUint fieldBytes
  cases be
  · simp only [Bool.false_eq_true, if_false]
    exact leBytes_eq_map w v
  · simp only [if_true]
    rw [leBytes_eq_map]
    apply List.ext_getElem
    · simp
    · intro i h1 h2
      simp only [List.length_reverse, List.length_map, List.length_range] at h1
      simp [List.getElem_reverse]

theorem fieldBytes_length (be : Bool) (w v : Nat) : (fieldBytes be w v).length = w := by
  simp [fieldBytes]

theorem fieldBytes_mod (be : Bool) (w v : Nat) :
    fieldBytes be w (v % 256 ^ w) = fieldBytes be w v := by
  unfold fieldBytes
  apply List.map_congr_left
  intro i hi
  rw [List.mem_range] at hi
  have key : ∀ k, k < w → v % 256 ^ w / 256 ^ k % 256 = v / 256 ^ k % 256 := by
    intro k hk
    obtain ⟨d, rfl⟩ : ∃ d, w = k + 1 + d := ⟨w - (k + 1), by omega⟩
    rw [pow_add, pow_succ, Nat.mul_assoc, Nat.mod_mul_right_div_self, Nat.mod_mod_of_dvd _
      (Dvd.intro _ rfl)]
  split_ifs
  · exact key _ (by omega)
  · exact key _ hi

theorem fieldBytes_one (be : Bool) (v : Nat) : fieldBytes be 1 v = [v % 256] := by
  rw [← putUint_eq_fieldBytes, putUint_one]

/-- C30: for both byte orders and every symbol, `writeSymbol` emits in class
32 exactly 16 bytes: name (4 bytes), value (4), size (4), info (1), other (1),
section index (2), with value and size reduced modulo `2^32`; and in class 64
exactly 24 bytes: name (4), info (1), other (1), section index (2), value (8),
size (8).  Every field of more than one byte is encoded in the byte order of
the image (`fieldBytes`). -/
theorem writeSymbol_layout (e : Elf) (y : Symbol) :
    (e.Class = ELFCLASS32 →
      e.writeSymbol y
        = fieldBytes e.bigEndian 4 y.nameOffset ++ fieldBytes e.bigEndian 4 (y.Value % 2 ^ 32)
          ++ fieldBytes e.bigEndian 4 (y.Size % 2 ^ 32) ++ [y.info % 256] ++ [y.Other % 256]
          ++ fieldBytes e.bigEndian 2 y.SectionIndex ∧
      (e.writeSymbol y).length = 16) ∧
    (e.Class = ELFCLASS64 →
      e.writeSymbol y
        = fieldBytes e.bigEndian 4 y.nameOffset ++ [y.info % 256] ++ [y.Other % 256]
          ++ fieldBytes e.bigEndian 2 y.SectionIndex ++ fieldBytes e.bigEndian 8 y.Value
          ++ fieldBytes e.bigEndian 8 y.Size ∧
      (e.writeSymbol y).length = 24) := by
  constructor
  · intro hc
    have hne : ¬ e.Class = ELFCLASS64 := by rw [hc]; decide
    have hlen := writeSymbol_length e y
    unfold Elf.sizeSymbol at hlen
    rw [if_neg hne] at hlen
    refine ⟨?_, hlen⟩
    have hv := fieldBytes_mod e.bigEndian 4 y.Value
    have hs := fieldBytes_mod e.bigEndian 4 y.Size
    rw [show (256 : Nat) ^ 4 = 2 ^ 32 from by norm_num] at hv hs
    rw [hv, hs]
    unfold Elf.writeSymbol Symbol.info
    simp only [if_neg hne, putFields, putUint_eq_fieldBytes, fieldBytes_one, List.append_nil,
      List.append_assoc]
  · intro hc
    have hlen := writeSymbol_length e y
    unfold Elf.sizeSymbol at hlen
    rw [if_pos hc] at hlen
    refine ⟨?_, hlen⟩
    unfold Elf.writeSymbol Symbol.info
    simp only [if_pos hc, putFields, putUint_eq_fieldBytes, fieldBytes_one, List.append_nil,
      List.append_assoc]

theorem writeSymbol_layout_witness :
    exampleClass32.writeSymbol { exampleSymbol with nameOffset := 1, Value := 0x0A0B0C0D }
      = [1, 0, 0, 0, 0x0D, 0x0C, 0x0B, 0x0A, 8, 0, 0, 0, 0x12, 0, 0, 0] ∧
    ({ exampleClass32 with Endian := ELFDATA2MSB } : Elf).writeSymbol
        { exampleSymbol with nameOffset := 1, Value := 0x0A0B0C0D }
      = [0, 0, 0, 1, 0x0A, 0x0B, 0x0C, 0x0D, 0, 0, 0, 8, 0x12, 0, 0, 0] ∧
    exampleText.1.writeSymbol { exampleSymbol with nameOffset := 1, Value := 0x0A0B0C0D }
      = [1, 0, 0, 0, 0x12, 0, 0, 0, 0x0D, 0x0C, 0x0B, 0x0A, 0, 0, 0, 0, 8, 0, 0, 0, 0, 0, 0, 0] ∧
    (exampleClass32.writeSymbol exampleSymbol
        = fieldBytes exampleClass32.bigEndian 4 exampleSymbol.nameOffset
          ++ fieldBytes exampleClass32.bigEndian 4 (exampleSymbol.Value % 2 ^ 32)
          ++ fieldBytes exampleClass32.bigEndian 4 (exampleSymbol.Size % 2 ^ 32)
          ++ [exampleSymbol.info % 256] ++ [exampleSymbol.Other % 256]
          ++ fieldBytes exampleClass32.bigEndian 2 exampleSymbol.SectionIndex ∧
      (exampleClass32.writeSymbol exampleSymbol).length = 16) ∧
    (exampleText.1.writeSymbol exampleSymbol
        = fieldBytes exampleText.1.bigEndian 4 exampleSymbol.nameOffset
          ++ [exampleSymbol.info % 256] ++ [exampleSymbol.Other % 256]
          ++ fieldBytes exampleText.1.bigEndian 2 exampleSymbol.SectionIndex
          ++ fieldBytes exampleText.1.bigEndian 8 exampleSymbol.Value
          ++ fieldBytes exampleText.1.bigEndian 8 exampleSymbol.Size ∧
      (exampleText.1.writeSymbol exampleSymbol).length = 24) :=
  ⟨by decide, by decide, by decide,
   (writeSymbol_layout exampleClass32 exampleSymbol).1 rfl,
   (writeSymbol_layout exampleText.1 exampleSymbol).2 rfl⟩

end elf

namespace elf

/-! ### ELF header: write and read back -/

theorem readElfHeader_decode (e0 E : Elf) (b : List Nat)
    (hrec : Holds b 0 E.writeElfHeader)
    (hclass : E.Class = ELFCLASS32 ∨ E.Class = ELFCLASS64) (hend : E.Endian < 256)
    (hstr : E.secHdrStrIdx % 2 ^ 16 ≠ SHN_XINDEX) :
    e0.readElfHeader ⟨b, 0⟩ = .ok (e0.decodeHeader E, ⟨b, E.sizeElfHeader⟩) := by
  have hE : E.Endian % 256 = E.Endian := Nat.mod_eq_of_lt hend
  unfold Elf.writeElfHeader at hrec
  unfold Elf.readElfHeader Elf.sizeElfHeader Elf.decodeHeader Elf.addrBits
  rcases hclass with hc | hc
  · have hne : ¬ E.Class = ELFCLASS64 := by rw [hc]; decide
    simp only [if_neg hne, if_pos hc] at hrec ⊢
    have h16 := read_of_holds (s := ⟨b, 0⟩) (n := 16) hrec.left rfl (by omega)
    have h36 := readFull_of_holds (s := ⟨b, 0 + 16⟩) (n := 36) hrec.right
      (by rw [putFields_length]; rfl) (by omega)
    rw [h16]
    simp only [List.getD_cons_zero, List.getD_cons_succ, ne_eq, not_true_eq_false, or_self,
      if_false, hc, hE]
    simp only [show ¬ (ELFCLASS32 % 256 = ELFCLASS64) by decide,
      show ¬ (ELFCLASS32 = ELFCLASS64) by decide,
      show ELFCLASS32 % 256 = ELFCLASS32 by decide, if_false, if_true, h36]
    simp only [Elf.bigEndian, putFields, getFields_step, getFields_nil, pow256_2, pow256_4,
      if_neg hstr]
  · have hne : ¬ ELFCLASS64 = ELFCLASS32 := by decide
    simp only [if_pos hc] at hrec ⊢
    have h16 := read_of_holds (s := ⟨b, 0⟩) (n := 16) hrec.left rfl (by omega)
    have h48 := readFull_of_holds (s := ⟨b, 0 + 16⟩) (n := 48) hrec.right
      (by rw [putFields_length]; rfl) (by omega)
    rw [h16]
    simp only [List.getD_cons_zero, List.getD_cons_succ, ne_eq, not_true_eq_false, or_self,
      if_false, hc, hE]
    simp only [show ELFCLASS64 % 256 = ELFCLASS64 by decide, if_true, h48]
    simp only [Elf.bigEndian, putFields, getFields_step, getFields_nil, pow256_2, pow256_4,
      pow256_8, if_neg hstr]

/-- C29: for an image `E` whose header fields are within their Go types, of
either byte order, with a section-header string-table index other than
`0xFFFF`: `readElfHeader`, applied to the bytes `writeElfHeader` produces for
`E` (whatever follows them), returns, leaves the stream after the header, and

* in class 64 restores every header field of `E` exactly (class, endianness,
  header version, ABI, ABI version, type, machine, version, entry, flags, the
  two table offsets, the header size, the two entry sizes, the two counts and
  the string-table index); `writeElfHeader` emits 64 bytes, which is
  `sizeElfHeader`;
* in class 32 restores the same fields, except that ABI and ABI version come
  back as 0 and that entry and the two table offsets come back modulo `2^32`;
  `writeElfHeader` emits 52 bytes, which is `sizeElfHeader`.

The other fields of the image `e0` the header is read into stay as they
were. -/
theorem header_round_trip (e0 E : Elf) (rest : List Nat) (hr : E.headerInRange)
    (hx : E.secHdrStrIdx ≠ SHN_XINDEX) :
    (E.Class = ELFCLASS64 →
      E.writeElfHeader.length = 64 ∧ E.sizeElfHeader = 64 ∧
      e0.readElfHeader ⟨E.writeElfHeader ++ rest, 0⟩
        = .ok (e0.withHeaderOf E, ⟨E.writeElfHeader ++ rest, 64⟩)) ∧
    (E.Class = ELFCLASS32 →
      E.writeElfHeader.length = 52 ∧ E.sizeElfHeader = 52 ∧
      e0.readElfHeader ⟨E.writeElfHeader ++ rest, 0⟩
        = .ok ({ e0.withHeaderOf E with
                 ABI := 0, ABIVersion := 0, Entry := E.Entry % 2 ^ 32,
                 progHdrOffset := E.progHdrOffset % 2 ^ 32,
                 secHdrOffset := E.secHdrOffset % 2 ^ 32 },
               ⟨E.writeElfHeader ++ rest, 52⟩)) := by
  obtain ⟨r1, r2, r3, r4, r5, r6, r7, r8, r9, r10, r11, r12, r13, r14, r15, r16, r17, r18⟩ := hr
  have hh : Holds (E.writeElfHeader ++ rest) 0 E.writeElfHeader := List.prefix_append _ _
  have hs : E.secHdrStrIdx % 2 ^ 16 ≠ SHN_XINDEX := by rw [Nat.mod_eq_of_lt r18]; exact hx
  have m1 : E.Class % 256 = E.Class := Nat.mod_eq_of_lt r1
  have m2 : E.Endian % 256 = E.Endian := Nat.mod_eq_of_lt r2
  have m3 : E.HeaderVersion % 256 = E.HeaderVersion := Nat.mod_eq_of_lt r3
  have m4 : E.ABI % 256 = E.ABI := Nat.mod_eq_of_lt r4
  have m5 : E.ABIVersion % 256 = E.ABIVersion := Nat.mod_eq_of_lt r5
  constructor
  · intro hc
    have hsz : E.sizeElfHeader = 64 := by unfold Elf.sizeElfHeader; rw [if_pos hc]
    refine ⟨by rw [writeElfHeader_length E (Or.inr hc), hsz], hsz, ?_⟩
    rw [readElfHeader_decode e0 E _ hh (Or.inr hc) r2 hs, hsz]
    unfold Elf.decodeHeader Elf.withHeaderOf Elf.addrBits
    simp only [if_pos hc]
    simp only [m1, m2, m3, m4, m5, Nat.mod_eq_of_lt r6, Nat.mod_eq_of_lt r7,
      Nat.mod_eq_of_lt r8, Nat.mod_eq_of_lt r9, Nat.mod_eq_of_lt r10, Nat.mod_eq_of_lt r11,
      Nat.mod_eq_of_lt r12, Nat.mod_eq_of_lt r13, Nat.mod_eq_of_lt r14, Nat.mod_eq_of_lt r15,
      Nat.mod_eq_of_lt r16, Nat.mod_eq_of_lt r17, Nat.mod_eq_of_lt r18]
  · intro hc
    have hne : ¬ E.Class = ELFCLASS64 := by rw [hc]; decide
    have hsz : E.sizeElfHeader = 52 := by unfold Elf.sizeElfHeader; rw [if_neg hne]
    refine ⟨by rw [writeElfHeader_length E (Or.inl hc), hsz], hsz, ?_⟩
    rw [readElfHeader_decode e0 E _ hh (Or.inl hc) r2 hs, hsz]
    unfold Elf.decodeHeader Elf.withHeaderOf Elf.addrBits
    simp only [if_neg hne]
    simp only [m1, m2, m3, Nat.mod_eq_of_lt r6, Nat.mod_eq_of_lt r7,
      Nat.mod_eq_of_lt r8, Nat.mod_eq_of_lt r12, Nat.mod_eq_of_lt r13, Nat.mod_eq_of_lt r14,
      Nat.mod_eq_of_lt r15, Nat.mod_eq_of_lt r16, Nat.mod_eq_of_lt r17, Nat.mod_eq_of_lt r18]

theorem header_round_trip_witness :
    exampleHeader.headerInRange ∧ exampleHeader.secHdrStrIdx ≠ SHN_XINDEX ∧
    (exampleHeader.writeElfHeader.length = 64 ∧ exampleHeader.sizeElfHeader = 64 ∧
      (default : Elf).readElfHeader ⟨exampleHeader.writeElfHeader ++ [1, 2, 3], 0⟩
        = .ok ((default : Elf).withHeaderOf exampleHeader,
               ⟨exampleHeader.writeElfHeader ++ [1, 2, 3], 64⟩)) ∧
    (({ exampleHeader with Class := ELFCLASS32 } : Elf).writeElfHeader.length = 52 ∧
      ({ exampleHeader with Class := ELFCLASS32 } : Elf).sizeElfHeader = 52 ∧
      (default : Elf).readElfHeader
          ⟨({ exampleHeader with Class := ELFCLASS32 } : Elf).writeElfHeader ++ [], 0⟩
        = .ok ({ (default : Elf).withHeaderOf { exampleHeader with Class := ELFCLASS32 } with
                 ABI := 0, ABIVersion := 0, Entry := 0x100000010 % 2 ^ 32,
                 progHdrOffset := 64 % 2 ^ 32, secHdrOffset := 0x123456789 % 2 ^ 32 },
               ⟨({ exampleHeader with Class := ELFCLASS32 } : Elf).writeElfHeader ++ [], 52⟩)) :=
  ⟨by decide, by decide,
   (header_round_trip default exampleHeader [1, 2, 3] (by decide) (by decide)).1 rfl,
   (header_round_trip default { exampleHeader with Class := ELFCLASS32 } [] (by decide)
     (by decide)).2 rfl⟩

end elf

namespace elf

/-! ### Writer: the first record of the symbol table -/

theorem sortSymbols_sorted (m : Mem) (syms : List Nat)
    (hb : ∀ p ∈ syms, 0 ≤ (m.sym p).Binding ∧ (m.sym p).Binding < 2 ^ 63) :
    (sortSymbols m syms).Pairwise (fun p q => symbolCompare (m.sym p) (m.sym q) ≤ 0) := by
  apply pairwise_insertionSort
  · intro a ha b hb2
    rw [symbolCompare_le_iff (hb a ha) (hb b hb2), symbolCompare_le_iff (hb b hb2) (hb a ha)]
    rcases lt_trichotomy (m.sym a).Binding (m.sym b).Binding with h | h | h
    · exact Or.inl (Or.inl h)
    · rcases lexLe_total (m.sym a).Name (m.sym b).Name with h2 | h2
      · exact Or.inl (Or.inr ⟨h, h2⟩)
      · exact Or.inr (Or.inr ⟨h.symm, h2⟩)
    · exact Or.inr (Or.inl h)
  · intro a ha b hb2 c hc
    rw [symbolCompare_le_iff (hb a ha) (hb b hb2), symbolCompare_le_iff (hb b hb2) (hb c hc),
      symbolCompare_le_iff (hb a ha) (hb c hc)]
    rintro (h1 | ⟨h1, h1n⟩) (h2 | ⟨h2, h2n⟩)
    · exact Or.inl (by omega)
    · exact Or.inl (by omega)
    · exact Or.inl (by omega)
    · exact Or.inr ⟨by omega, lexLe_trans h1n h2n⟩

/-- The symbol `Write` sorts to the front is a null symbol when the image has
one and every unnamed local symbol of the image is one. -/
theorem sortSymbols_head_null (m : Mem) (syms : List Nat)
    (hb : ∀ p ∈ syms, 0 ≤ (m.sym p).Binding ∧ (m.sym p).Binding < 2 ^ 63)
    (hn : ∃ q ∈ syms, (m.sym q).isNull)
    (hu : ∀ q ∈ syms, (m.sym q).Binding = STB_LOCAL → (m.sym q).Name = [] → (m.sym q).isNull) :
    ∃ q0 rest, sortSymbols m syms = q0 :: rest ∧ q0 ∈ syms ∧ (m.sym q0).isNull := by
  obtain ⟨qn, hqn, hnull⟩ := hn
  have hsorted := sortSymbols_sorted m syms hb
  have hmem := (mem_sortSymbols m syms qn).2 hqn
  cases hs : sortSymbols m syms with
  | nil => rw [hs] at hmem; simp at hmem
  | cons q0 rest =>
    rw [hs] at hmem hsorted
    have hq0 : q0 ∈ syms := (mem_sortSymbols m syms q0).1 (by rw [hs]; exact List.mem_cons_self _ _)
    refine ⟨q0, rest, rfl, hq0, ?_⟩
    rcases List.mem_cons.1 hmem with rfl | hrest
    · exact hnull
    · have hle := (List.pairwise_cons.1 hsorted).1 qn hrest
      rw [symbolCompare_le_iff (hb q0 hq0) (hb qn hqn)] at hle
      obtain ⟨hname, -, -, hbind, -⟩ := hnull
      have h0 := (hb q0 hq0).1
      rw [hbind, hname] at hle
      simp only [STB_LOCAL] at hle
      rcases hle with h | ⟨h1, h2⟩
      · omega
      · refine hu q0 hq0 h1 ?_
        rcases h2 with h2 | h2
        · exact h2
        · generalize (m.sym q0).Name = nm at h2
          cases h2

/-- The symbol-table buffer of `Write` starts with the record of the symbol
sorted to the front; when that symbol has no name its name offset is 0, the
offset the string table keeps for the empty string. -/
theorem writeSyms_first (e : Elf) (m : Mem) (q0 : Nat) (rest : List Nat)
    (hs : sortSymbols m e.Symbols = q0 :: rest)
    (hl : ∀ q ∈ e.Symbols, q < m.syms.length) (hname : (m.sym q0).Name = []) :
    (∃ tail, (e.writeSyms m).buffer
      = (e.writeTables m).1.writeSymbol (symStep (e.writeRels m).sections 0 (m.sym q0))
        ++ tail) ∧
    (e.writeSyms m).table.strings.lookup [] = some 0 := by
  have hsy : (e.writeNames m).2.syms = m.syms := writeNames_syms e m
  have hlive : ∀ q ∈ q0 :: rest, q < (e.writeNames m).2.syms.length := by
    intro q hq
    rw [hsy]
    exact hl q ((mem_sortSymbols m e.Symbols q).1 (by rw [hs]; exact hq))
  obtain ⟨st1, h0, h1, -, h3, h4⟩ := fillSymbols_cons (e.writeTables m).1
    (e.writeRels m).sections (m.secs.length + 2) q0 rest 0
    { table := newStringTable, mem := (e.writeNames m).2, globalBindingSet := false,
      buffer := [] } (hlive q0 (List.mem_cons_self _ _))
  obtain ⟨-, -, t3, t4⟩ := fillSymbols_table (e.writeTables m).1 (e.writeRels m).sections
    (m.secs.length + 2) rest (0 + 1) st1
    (fun q hq => by rw [h3]; exact hlive q (List.mem_cons_of_mem _ hq))
  have hw : e.writeSyms m = (e.writeTables m).1.fillSymbols (e.writeRels m).sections
      (m.secs.length + 2) rest (0 + 1) st1 := by
    rw [← h0]
    unfold Elf.writeSyms
    simp only
    rw [writeTables_symbols, hs]
  have hq : (e.writeNames m).2.sym q0 = m.sym q0 := Mem.sym_congr hsy q0
  simp only [hq, hname] at h1 h4
  have hadd : newStringTable.Add [] = (0, { strings := [([], 0)], pos := 1 }) := by decide
  rw [hadd] at h1 h4
  simp only [List.nil_append] at h4
  constructor
  · rw [hw, t4, h4]
    exact ⟨_, rfl⟩
  · rw [hw]
    apply t3
    rw [h1]
    rfl

/-- The payload of `.symtab` after `Write` is the symbol-table buffer. -/
theorem Write_symtab_buffer {e : Elf} {m : Mem} {r : WriteResult} (hw : e.Write m = .ok r)
    (hk : ∀ en ∈ e.Relocations, en.1 < m.secs.length) :
    (r.mem.sec (m.secs.length + 2)).Data = (e.writeSyms m).buffer := by
  have hc := Write_sec_core hw (p := m.secs.length + 2) (by omega) (by omega)
  have hd : (r.mem.sec (m.secs.length + 2)).Data
      = ((e.writeSynthesize m).mem.sec (m.secs.length + 2)).Data := by
    simp only [SectionHeader.core, Prod.mk.injEq] at hc
    exact hc.2.2.2.2.2.2.2.2.2.2
  rw [hd]
  have hlen : (e.writeSyms m).mem.secs.length = m.secs.length + 3 + e.Relocations.length := by
    rw [writeSyms_secs_length, writeNames_secs_length, writeRels_secs_length e m hk]
  unfold Elf.writeSynthesize
  simp only
  rw [Mem.sec_setSec, if_pos ⟨rfl, by omega⟩]

/-- The section `Write` creates as `.symtab`. -/
theorem Write_symtab_kind {e : Elf} {m : Mem} {r : WriteResult} (hw : e.Write m = .ok r)
    (hk : ∀ en ∈ e.Relocations, en.1 < m.secs.length) :
    (r.mem.sec (m.secs.length + 2)).Name = nameSymtab ∧
    (r.mem.sec (m.secs.length + 2)).Type_ = SHT_SYMTAB ∧
    r.sections[e.Sections.length + 2]? = some (m.secs.length + 2) := by
  have hc := Write_sec_core hw (p := m.secs.length + 2) (by omega) (by omega)
  obtain ⟨o, inf, hf⟩ := writeFilled_symtab e m [] [] hk
  unfold Elf.writeFilled at hf
  rw [Mem.sec_setSec_ne _ _ (by omega), Mem.sec_setSec_ne _ _ (by omega)] at hf
  rw [hf] at hc
  simp only [SectionHeader.core, Prod.mk.injEq] at hc
  obtain ⟨-, a, b, -, -, -, hs, -⟩ := Write_normal hw
  refine ⟨hc.1, hc.2.1, ?_⟩
  rw [hs, (writeRels_spec e m hk).1, List.append_assoc,
    List.getElem?_append_right (by omega)]
  simp

/-- C23 (amended): for every image on which `Write` succeeds, whose symbol
list holds a null symbol, in which every symbol with local binding and no name
is a null symbol and no binding is negative (and whose pointers refer to
records in memory), the payload of `.symtab` starts with the record of a null
symbol: name offset 0, the offset the string table `.strtab` keeps for the
empty string, value 0, size 0, local binding, no type and section index 0. -/
theorem write_null_symbol_first (e : Elf) (m : Mem) (r : WriteResult)
    (hw : e.Write m = .ok r)
    (hk : ∀ en ∈ e.Relocations, en.1 < m.secs.length)
    (hl : ∀ q ∈ e.Symbols, q < m.syms.length)
    (hb : ∀ q ∈ e.Symbols, 0 ≤ (m.sym q).Binding ∧ (m.sym q).Binding < 2 ^ 63)
    (hn : ∃ q ∈ e.Symbols, (m.sym q).isNull)
    (hu : ∀ q ∈ e.Symbols, (m.sym q).Binding = STB_LOCAL → (m.sym q).Name = [] →
      (m.sym q).isNull) :
    (r.mem.sec (m.secs.length + 2)).Name = nameSymtab ∧
    (r.mem.sec (m.secs.length + 2)).Type_ = SHT_SYMTAB ∧
    r.sections[e.Sections.length + 2]? = some (m.secs.length + 2) ∧
    ∃ y tail, (r.mem.sec (m.secs.length + 2)).Data = r.elf.writeSymbol y ++ tail ∧
      y.nameOffset = 0 ∧ (e.writeSyms m).table.strings.lookup [] = some 0 ∧
      y.Value = 0 ∧ y.Size = 0 ∧ y.Binding = STB_LOCAL ∧ y.Type_ = 0 ∧ y.SectionIndex = 0 := by
  obtain ⟨k1, k2, k3⟩ := Write_symtab_kind hw hk
  obtain ⟨q0, rest, hs, -, hnull⟩ := sortSymbols_head_null m e.Symbols hb hn hu
  obtain ⟨n1, n2, n3, n4, n5, n6, n7⟩ := hnull
  obtain ⟨⟨tail, hbuf⟩, hlook⟩ := writeSyms_first e m q0 rest hs hl n1
  obtain ⟨c1, c2⟩ := Write_class hw
  obtain ⟨t1, t2⟩ := writeTables_class e m
  have hcongr : (e.writeTables m).1.writeSymbol = r.elf.writeSymbol :=
    writeSymbol_congr (t1.trans c1.symm) (t2.trans c2.symm)
  refine ⟨k1, k2, k3, symStep (e.writeRels m).sections 0 (m.sym q0), tail, ?_, rfl, hlook,
    n2, n3, n4, n5, ?_⟩
  · rw [Write_symtab_buffer hw hk, hbuf, hcongr]
  · unfold symStep
    simp only [n6, n7]

theorem write_null_symbol_first_witness :
    exampleText.1.Write exampleText.2 = .ok (exampleText.1.written exampleText.2) ∧
    ((exampleText.1.written exampleText.2).mem.sec 4).Data.take 24 = List.replicate 24 0 ∧
    (((exampleText.1.written exampleText.2).mem.sec (exampleText.2.secs.length + 2)).Name
      = nameSymtab ∧
    ((exampleText.1.written exampleText.2).mem.sec (exampleText.2.secs.length + 2)).Type_
      = SHT_SYMTAB ∧
    (exampleText.1.written exampleText.2).sections[exampleText.1.Sections.length + 2]?
      = some (exampleText.2.secs.length + 2) ∧
    ∃ y tail,
      ((exampleText.1.written exampleText.2).mem.sec (exampleText.2.secs.length + 2)).Data
        = (exampleText.1.written exampleText.2).elf.writeSymbol y ++ tail ∧
      y.nameOffset = 0 ∧
      (exampleText.1.writeSyms exampleText.2).table.strings.lookup [] = some 0 ∧
      y.Value = 0 ∧ y.Size = 0 ∧ y.Binding = STB_LOCAL ∧ y.Type_ = 0 ∧ y.SectionIndex = 0) :=
  ⟨rfl, by decide,
   write_null_symbol_first exampleText.1 exampleText.2 (exampleText.1.written exampleText.2)
     rfl (by decide) (by decide) (by decide) (by decide) (by decide)⟩

/-- C23 as stated fails.  For the image `exampleNoNullSymbol`, `Write`
succeeds and record 0 of `.symtab` is the record of `main`: info byte `0x12`
(global binding, type function), section index `0xFFF1`, value 16, size 8.
For the image `exampleSectionSymbol`, which has a null symbol, `Write`
succeeds and record 0 of `.symtab` is the record of the section symbol of
`.text`: info byte `0x03` and section index 1; the null symbol is record 1. -/
theorem write_symbol_zero_not_null :
    (∃ r, exampleNoNullSymbol.1.Write exampleNoNullSymbol.2 = .ok r ∧
      r.sections = [0, 1, 2] ∧ (r.mem.sec 2).Name = nameSymtab ∧
      (r.mem.sec 2).Data
        = [0, 0, 0, 0, 0x12, 0, 0xF1, 0xFF, 16, 0, 0, 0, 0, 0, 0, 0, 8, 0, 0, 0, 0, 0, 0, 0]) ∧
    (∃ r, exampleSectionSymbol.1.Write exampleSectionSymbol.2 = .ok r ∧
      (∃ q ∈ exampleSectionSymbol.1.Symbols, (exampleSectionSymbol.2.sym q).isNull) ∧
      r.sections = [0, 1, 2, 3, 4] ∧ (r.mem.sec 4).Name = nameSymtab ∧
      (r.mem.sec 4).Data
        = [0, 0, 0, 0, 0x03, 0, 1, 0, 0, 0, 0, 0, 0, 0, 0, 0, 0, 0, 0, 0, 0, 0, 0, 0]
          ++ List.replicate 24 0) :=
  ⟨⟨exampleNoNullSymbol.1.written exampleNoNullSymbol.2, rfl, rfl, rfl, by decide⟩,
   ⟨exampleSectionSymbol.1.written exampleSectionSymbol.2, rfl, by decide, rfl, rfl,
    by decide⟩⟩

end elf

namespace elf

/-! ### Writer: the layout of the file -/

end elf

namespace Relocation

/-! ### Region allocator: `Full` on an empty region -/

theorem full_empty_descending (o n : Nat) : (NewRegion o n true).Full = true := by
  simp [Region.Full, Region.UsedStart, NewRegion]

/-- C31 fails on the code.  Every empty descending region is reported full,
whatever its offset and size: `Full` compares `UsedStart()` with the offset of
the region, and `UsedStart()` of an empty region is that offset.  The empty
ascending region `[7, 8)` of size 1 is reported full as well: `UsedEnd()` of an
empty region is its offset, 7, which is `offset + size - 1`.  The empty
ascending region `[0, 100)` is not reported full. -/
theorem empty_region_reported_full :
    (∀ o n, (NewRegion o n true).Empty = true ∧ (NewRegion o n true).Full = true) ∧
    ((NewRegion 0 100 true).Empty = true ∧ (NewRegion 0 100 true).UsedStart = 0 ∧
      (NewRegion 0 100 true).Full = true) ∧
    ((NewRegion 7 1 false).Empty = true ∧ (NewRegion 7 1 false).UsedEnd = 7 ∧
      (NewRegion 7 1 false).Full = true) ∧
    (NewRegion 0 100 false).Full = false :=
  ⟨fun o n => ⟨rfl, full_empty_descending o n⟩, ⟨rfl, rfl, rfl⟩, ⟨rfl, rfl, by decide⟩,
   by decide⟩

end Relocation

namespace elf

/-! ### Reader: panics on malformed files -/

/-- C32 fails on the code.  Each of the three files below begins with a valid
identification and a complete 52-byte header of class 32 whose section-header
string-table index is 0, and `ReadELF` neither returns an error nor an image:
it panics.

* `exampleBadLink`: the only section header has `Link = 1`, and
  `e.Sections[hdr.Link]` is evaluated with one section in the list.  The same
  file with `Link = 0` is read without error.
* `exampleZeroEntrySize`: the symbol table at index 1 has entry size 0, and
  `symtab.Size / symtab.EntrySize` divides by zero.
* `exampleBadSymbolIndex`: the relocation record names symbol 5, and
  `e.Symbols[result.symbolIndex]` is evaluated with no symbol in the list. -/
theorem readELF_panics :
    ((∃ e s, (default : Elf).readElfHeader ⟨exampleBadLink, 0⟩ = .ok (e, s) ∧ s.pos = 52 ∧
        e.secHdrCount = 1 ∧ e.secHdrStrIdx = 0 ∧ e.secHdrStrIdx ≠ SHN_XINDEX) ∧
      exampleBadLink.length = 52 + 40 ∧
      ReadELF ⟨exampleBadLink, 0⟩ = .error Fault.panic ∧
      ∃ r, ReadELF ⟨headerBytes32 1 ++ sectionBytes32 SHT_NULL 0 0 0 0 0, 0⟩ = .ok r) ∧
    ((∃ e s, (default : Elf).readElfHeader ⟨exampleZeroEntrySize, 0⟩ = .ok (e, s) ∧
        s.pos = 52 ∧ e.secHdrCount = 2 ∧ e.secHdrStrIdx = 0 ∧ e.secHdrStrIdx ≠ SHN_XINDEX) ∧
      exampleZeroEntrySize.length = 52 + 2 * 40 ∧
      ReadELF ⟨exampleZeroEntrySize, 0⟩ = .error Fault.panic) ∧
    ((∃ e s, (default : Elf).readElfHeader ⟨exampleBadSymbolIndex, 0⟩ = .ok (e, s) ∧
        s.pos = 52 ∧ e.secHdrCount = 2 ∧ e.secHdrStrIdx = 0 ∧ e.secHdrStrIdx ≠ SHN_XINDEX) ∧
      exampleBadSymbolIndex.length = 52 + 2 * 40 + 8 ∧
      ReadELF ⟨exampleBadSymbolIndex, 0⟩ = .error Fault.panic) :=
  ⟨⟨⟨_, _, rfl, rfl, rfl, rfl, by decide⟩, rfl, rfl, ⟨_, rfl⟩⟩,
   ⟨⟨_, _, rfl, rfl, rfl, rfl, by decide⟩, rfl, rfl⟩,
   ⟨⟨_, _, rfl, rfl, rfl, rfl, by decide⟩, rfl, rfl⟩⟩

end elf

namespace elf

/-! ### Relocation sections: record layout -/

theorem writeRelocation_record (e : Elf) (t : Nat) (rel : Relocation) :
    e.writeRelocation t rel
      = relocationRecord e.bigEndian (e.addrBits / 8) (t == SHT_RELA) rel.Offset (e.relInfo rel)
          (wrapU e.addrBits rel.Addend) := by
  unfold Elf.writeRelocation relocationRecord Elf.relInfo Elf.addrBits
  by_cases hc : e.Class = ELFCLASS64
  · by_cases ht : t = SHT_RELA
    · simp [hc, ht, putFields, putUint_eq_fieldBytes]
    · simp [hc, ht, putFields, putUint_eq_fieldBytes]
  · by_cases ht : t = SHT_RELA
    · simp [hc, ht, putFields, putUint_eq_fieldBytes]
    · simp [hc, ht, putFields, putUint_eq_fieldBytes]

theorem refresh_record (e : Elf) (syms : List Nat) (t : Nat) (rel : Relocation) :
    e.writeRelocation t
        (match rel.Symbol with
          | some q => { rel with symbolIndex := slicesIndex syms q }
          | none => rel)
      = relocationRecord e.bigEndian (e.addrBits / 8) (t == SHT_RELA) rel.Offset
          (e.relInfo { rel with symbolIndex := symbolIndexOf syms rel })
          (wrapU e.addrBits rel.Addend) := by
  rw [writeRelocation_record]
  unfold symbolIndexOf Elf.relInfo
  cases rel.Symbol <;> rfl

theorem refresh_records (e : Elf) (syms : List Nat) (t : Nat) (rels : List Relocation) :
    (refreshRelocations syms rels).flatMap (e.writeRelocation t)
      = rels.flatMap fun rel =>
          relocationRecord e.bigEndian (e.addrBits / 8) (t == SHT_RELA) rel.Offset
            (e.relInfo { rel with symbolIndex := symbolIndexOf syms rel })
            (wrapU e.addrBits rel.Addend) := by
  induction rels with
  | nil => rfl
  | cons rel rels ih =>
    unfold refreshRelocations at ih ⊢
    rw [List.map_cons, List.flatMap_cons, List.flatMap_cons, ih]
    exact congrArg (· ++ _) (refresh_record e syms t rel)

theorem relKind_rela (rels : List Relocation) :
    ((if rels.any (fun rel => rel.Addend ≠ 0) then SHT_RELA else SHT_REL) == SHT_RELA)
      = rels.any fun x => x.Addend ≠ 0 := by
  cases h : rels.any (fun rel => decide (rel.Addend ≠ 0))
  · simp [SHT_RELA, SHT_REL]
  · simp

/-- C9 (amended): for every key of the relocation map that is a section of the
image (the keys being pointers to section headers, and whatever the other
keys are), `Write` emits one relocation section: the `i`-th entry of the map gives
the `i`-th section after `.symtab`, whose payload is one record per relocation
in list order (`relocationRecord`: offset word, info word with the index of
the symbol in the emitted symbol table, and in a RELA section the addend
word), with `Info` the target's index in the emitted section list and `Link`
the index of `.symtab`; its type is RELA, its name `.rela` + target name and
its entry size the RELA record size if some relocation of the list has a
nonzero addend, and otherwise REL, `.rel` + target name and the REL record
size, its records having no addend word. -/
theorem write_relocation_sections (e : Elf) (m : Mem) (r : WriteResult)
    (hlive : ∀ entry ∈ e.Relocations, entry.1 < m.secs.length)
    (hw : e.Write m = .ok r) :
    r.sections = e.Sections ++ [m.secs.length, m.secs.length + 1, m.secs.length + 2]
        ++ (List.range e.Relocations.length).map (m.secs.length + 3 + ·) ∧
    ∀ i entry, e.Relocations[i]? = some entry → entry.1 ∈ e.Sections →
      (r.mem.sec (m.secs.length + 3 + i)).Type_
        = (if entry.2.any (fun rel => rel.Addend ≠ 0) then SHT_RELA else SHT_REL) ∧
      (r.mem.sec (m.secs.length + 3 + i)).Name
        = (if entry.2.any (fun rel => rel.Addend ≠ 0) then nameRela else nameRel)
          ++ (m.sec entry.1).Name ∧
      (r.mem.sec (m.secs.length + 3 + i)).EntrySize
        = e.sizeRelocation (r.mem.sec (m.secs.length + 3 + i)).Type_ ∧
      r.sections.indexOf entry.1 = (r.mem.sec (m.secs.length + 3 + i)).Info ∧
      r.sections[(r.mem.sec (m.secs.length + 3 + i)).Info]? = some entry.1 ∧
      r.sections[(r.mem.sec (m.secs.length + 3 + i)).Link]? = some (m.secs.length + 2) ∧
      (r.mem.sec (m.secs.length + 2)).Name = nameSymtab ∧
      (r.mem.sec (m.secs.length + 3 + i)).Data
        = (refreshRelocations r.elf.Symbols entry.2).flatMap
            (e.writeRelocation (r.mem.sec (m.secs.length + 3 + i)).Type_) ∧
      (∀ rel, (e.writeRelocation (r.mem.sec (m.secs.length + 3 + i)).Type_ rel).length
        = (r.mem.sec (m.secs.length + 3 + i)).EntrySize) ∧
      (r.mem.sec (m.secs.length + 3 + i)).Data
        = entry.2.flatMap (fun rel =>
            relocationRecord e.bigEndian (e.addrBits / 8)
              (entry.2.any fun x => x.Addend ≠ 0) rel.Offset
              (e.relInfo { rel with symbolIndex := symbolIndexOf r.elf.Symbols rel })
              (wrapU e.addrBits rel.Addend)) ∧
      (r.mem.sec (m.secs.length + 3 + i)).Data.length
        = entry.2.length * (r.mem.sec (m.secs.length + 3 + i)).EntrySize := by
  have hlen := (Write_ok hw).1
  have hk : ∀ en ∈ e.Relocations, en.1 < m.secs.length := hlive
  have hsec : r.sections = (e.writeSynthesize m).sections := by
    obtain ⟨_, a, b, _, _, _, _, h3, _⟩ := Write_ok hw
    exact h3
  have hsecs : r.sections = e.Sections ++ [m.secs.length, m.secs.length + 1, m.secs.length + 2]
      ++ (List.range e.Relocations.length).map (m.secs.length + 3 + ·) := by
    rw [hsec, writeSynthesize_sections, (writeRels_spec e m hk).1]
  refine ⟨hsecs, fun i entry hi hmem => ?_⟩
  -- the symbol table section keeps its name
  have hsymtab : (r.mem.sec (m.secs.length + 2)).Name = nameSymtab := by
    have h1 := Write_sec_core hw (p := m.secs.length + 2) (by omega) (by omega)
    have h2 : ((e.writeSynthesize m).mem.sec (m.secs.length + 2)).Name = nameSymtab := by
      have h3 := fillSymbols_sec_upto_info (e.writeTables m).1 (e.writeRels m).sections
        (m.secs.length + 2) (m.secs.length + 2) (e.writeTables m).1.Symbols 0
        ⟨newStringTable, (e.writeNames m).2, false, []⟩
      have h4 := writeNames_core e m (m.secs.length + 2)
      rw [writeRels_sec_lt e m hk (by omega), writeTables_symtab] at h4
      have h5 : ((e.writeSyms m).mem.sec (m.secs.length + 2)).Name = nameSymtab := by
        have := congrArg SectionHeader.Name h3
        simp only at this
        unfold Elf.writeSyms
        rw [this]
        have := congrArg (fun c => c.1) h4
        simpa [SectionHeader.core] using this
      unfold Elf.writeSynthesize
      simp only
      rw [Mem.sec_setSec]
      split_ifs <;> exact h5
    have := congrArg (fun c => c.1) h1
    simp only [SectionHeader.core] at this
    rw [this, h2]
  -- the relocation section
  have hcore : (r.mem.sec (m.secs.length + 3 + i)).core
      = ((e.writeTables m).1.relSection (e.Sections.length + 2) (e.writeTables m).2.2
          (e.writeTables m).2.1 entry).core := by
    rw [Write_sec_core hw (by omega) (by omega), writeSynthesize_sec_ne e m (by omega),
      writeNames_core, writeRels_sec_rel e m hk hi]
  obtain ⟨f1, f2, f3, f4, f5, f6⟩ := relSection_fields (e.writeTables m).1
    (e.Sections.length + 2) (e.writeTables m).2.2 (e.writeTables m).2.1 entry
  simp only [SectionHeader.core, Prod.mk.injEq] at hcore
  obtain ⟨cName, cType, -, -, cLink, -, cInfo, -, -, cEntry, cData⟩ := hcore
  have hidx : e.Sections.indexOf entry.1 < e.Sections.length := List.indexOf_lt_length.2 hmem
  have hInfo : (r.mem.sec (m.secs.length + 3 + i)).Info = e.Sections.indexOf entry.1 := by
    rw [cInfo, f4, writeTables_sections, slicesIndex_of_mem (List.mem_append_left _ hmem),
      wrapU_natCast, List.indexOf_append_of_mem hmem]
    exact Nat.mod_eq_of_lt (by omega)
  have hLink : (r.mem.sec (m.secs.length + 3 + i)).Link = e.Sections.length + 2 := by
    rw [cLink, f5]
    exact Nat.mod_eq_of_lt (by omega)
  have hsizeC : ∀ t, (e.writeTables m).1.sizeRelocation t = e.sizeRelocation t := fun t => rfl
  have hwrC : ∀ t rel, (e.writeTables m).1.writeRelocation t rel = e.writeRelocation t rel :=
    fun t rel => writeRelocation_congr rfl rfl t rel
  have hData : (r.mem.sec (m.secs.length + 3 + i)).Data
      = (refreshRelocations r.elf.Symbols entry.2).flatMap
          (e.writeRelocation (r.mem.sec (m.secs.length + 3 + i)).Type_) := by
    rw [cData, cType, f6, Write_symbols hw, writeTables_symbols]
    rfl
  have hLen : ∀ rel, (e.writeRelocation (r.mem.sec (m.secs.length + 3 + i)).Type_ rel).length
      = (r.mem.sec (m.secs.length + 3 + i)).EntrySize := by
    intro rel
    rw [writeRelocation_length, cEntry, cType, f3, hsizeC]
  refine ⟨?_, ?_, ?_, ?_, ?_, ?_, hsymtab, hData, hLen, ?_, ?_⟩
  · rw [cType, f2]
  · rw [cName, f1, writeTables_sec_lt e m (hk entry (List.getElem?_mem hi))]
  · rw [cEntry, cType, f3, hsizeC]
  · rw [hInfo, hsecs, List.append_assoc, List.indexOf_append_of_mem hmem]
  · rw [hInfo, hsecs, List.append_assoc, List.getElem?_append_left hidx]
    exact List.getElem?_eq_some.2 ⟨hidx, List.indexOf_get hidx⟩
  · rw [hLink, hsecs, List.getElem?_append_left (by simp), List.getElem?_append_right (by omega)]
    simp
  · rw [hData, cType, f2, refresh_records, relKind_rela]
  · rw [hData, flatMap_length_const _ _ hLen]
    unfold refreshRelocations
    rw [List.length_map]

theorem write_relocation_sections_witness :
    (∀ entry ∈ exampleText.1.Relocations, entry.1 < exampleText.2.secs.length) ∧
    (∀ entry ∈ exampleText.1.Relocations, entry.1 ∈ exampleText.1.Sections) ∧
    exampleText.1.Write exampleText.2 = .ok (exampleText.1.written exampleText.2) ∧
    -- the relocation list of `.text` has a nonzero addend: `.rela.text`
    (exampleText.1.Relocations.map Prod.fst = [1] ∧
      (exampleText.1.written exampleText.2).sections = [0, 1, 2, 3, 4, 5] ∧
      (exampleText.1.written exampleText.2).elf.Symbols = [1, 0] ∧
      ((exampleText.1.written exampleText.2).mem.sec 4).Name = nameSymtab ∧
      ((exampleText.1.written exampleText.2).mem.sec 5).Type_ = SHT_RELA ∧
      ((exampleText.1.written exampleText.2).mem.sec 5).Name
        = [46, 114, 101, 108, 97, 46, 116, 101, 120, 116] ∧
      ((exampleText.1.written exampleText.2).mem.sec 5).EntrySize = 24 ∧
      ((exampleText.1.written exampleText.2).mem.sec 5).Info = 1 ∧
      ((exampleText.1.written exampleText.2).mem.sec 5).Link = 4 ∧
      ((exampleText.1.written exampleText.2).mem.sec 5).Data
        = [4, 0, 0, 0, 0, 0, 0, 0] ++ [1, 0, 0, 0, 1, 0, 0, 0] ++ [0, 0, 0, 0, 0, 0, 0, 0]
          ++ [0, 0, 0, 0, 0, 0, 0, 0] ++ [2, 0, 0, 0, 1, 0, 0, 0] ++ [4, 0, 0, 0, 0, 0, 0, 0]) ∧
    -- the relocation list of `.data` in `exampleGcData` has no addend: `.rel.data`
    (exampleGcData.1.Relocations.map Prod.fst = [1] ∧
      (exampleGcData.1.written exampleGcData.2).sections = [0, 1, 2, 3, 4, 5] ∧
      ((exampleGcData.1.written exampleGcData.2).mem.sec 5).Type_ = SHT_REL ∧
      ((exampleGcData.1.written exampleGcData.2).mem.sec 5).Name
        = [46, 114, 101, 108, 46, 100, 97, 116, 97] ∧
      ((exampleGcData.1.written exampleGcData.2).mem.sec 5).EntrySize = 16 ∧
      ((exampleGcData.1.written exampleGcData.2).mem.sec 5).Info = 1 ∧
      ((exampleGcData.1.written exampleGcData.2).mem.sec 5).Link = 4 ∧
      ((exampleGcData.1.written exampleGcData.2).mem.sec 5).Data
        = [0, 0, 0, 0, 0, 0, 0, 0] ++ [1, 0, 0, 0, 1, 0, 0, 0]) ∧
    (exampleText.1.written exampleText.2).sections
      = exampleText.1.Sections
        ++ [exampleText.2.secs.length, exampleText.2.secs.length + 1,
            exampleText.2.secs.length + 2]
        ++ (List.range exampleText.1.Relocations.length).map
            (exampleText.2.secs.length + 3 + ·) ∧
    ∀ i entry, exampleText.1.Relocations[i]? = some entry → entry.1 ∈ exampleText.1.Sections →
      ((exampleText.1.written exampleText.2).mem.sec (exampleText.2.secs.length + 3 + i)).Type_
        = (if entry.2.any (fun rel => rel.Addend ≠ 0) then SHT_RELA else SHT_REL) ∧
      ((exampleText.1.written exampleText.2).mem.sec (exampleText.2.secs.length + 3 + i)).Name
        = (if entry.2.any (fun rel => rel.Addend ≠ 0) then nameRela else nameRel)
          ++ (exampleText.2.sec entry.1).Name ∧
      ((exampleText.1.written exampleText.2).mem.sec
          (exampleText.2.secs.length + 3 + i)).EntrySize
        = exampleText.1.sizeRelocation
            ((exampleText.1.written exampleText.2).mem.sec
              (exampleText.2.secs.length + 3 + i)).Type_ ∧
      (exampleText.1.written exampleText.2).sections.indexOf entry.1
        = ((exampleText.1.written exampleText.2).mem.sec
            (exampleText.2.secs.length + 3 + i)).Info ∧
      (exampleText.1.written exampleText.2).sections[
          ((exampleText.1.written exampleText.2).mem.sec
            (exampleText.2.secs.length + 3 + i)).Info]? = some entry.1 ∧
      (exampleText.1.written exampleText.2).sections[
          ((exampleText.1.written exampleText.2).mem.sec
            (exampleText.2.secs.length + 3 + i)).Link]?
        = some (exampleText.2.secs.length + 2) ∧
      ((exampleText.1.written exampleText.2).mem.sec (exampleText.2.secs.length + 2)).Name
        = nameSymtab ∧
      ((exampleText.1.written exampleText.2).mem.sec (exampleText.2.secs.length + 3 + i)).Data
        = (refreshRelocations (exampleText.1.written exampleText.2).elf.Symbols entry.2).flatMap
            (exampleText.1.writeRelocation
              ((exampleText.1.written exampleText.2).mem.sec
                (exampleText.2.secs.length + 3 + i)).Type_) ∧
      (∀ rel, (exampleText.1.writeRelocation
          ((exampleText.1.written exampleText.2).mem.sec
            (exampleText.2.secs.length + 3 + i)).Type_ rel).length
        = ((exampleText.1.written exampleText.2).mem.sec
            (exampleText.2.secs.length + 3 + i)).EntrySize) ∧
      ((exampleText.1.written exampleText.2).mem.sec (exampleText.2.secs.length + 3 + i)).Data
        = entry.2.flatMap (fun rel =>
            relocationRecord exampleText.1.bigEndian (exampleText.1.addrBits / 8)
              (entry.2.any fun x => x.Addend ≠ 0) rel.Offset
              (exampleText.1.relInfo
                { rel with
                  symbolIndex :=
                    symbolIndexOf (exampleText.1.written exampleText.2).elf.Symbols rel })
              (wrapU exampleText.1.addrBits rel.Addend)) ∧
      ((exampleText.1.written exampleText.2).mem.sec
          (exampleText.2.secs.length + 3 + i)).Data.length
        = entry.2.length * ((exampleText.1.written exampleText.2).mem.sec
            (exampleText.2.secs.length + 3 + i)).EntrySize :=
  ⟨by decide, by decide, rfl,
   ⟨rfl, by decide, by decide, by decide, by decide, by decide, by decide, by decide,
    by decide, by decide⟩,
   ⟨rfl, by decide, by decide, by decide, by decide, by decide, by decide, by decide⟩,
   write_relocation_sections exampleText.1 exampleText.2 (exampleText.1.written exampleText.2)
    (by decide) rfl⟩

/-- C9 as stated fails for a key of the relocation map that is not a section
of the image.  In `exampleAbsentTarget` the relocation map has the key `.data`
and the section list holds `.text` only.  `Write` succeeds and emits five
sections, the last of them `.rel.data` with `Info = 0xFFFFFFFF`: not the index
of the target in the emitted section list, which has no entry for it. -/
theorem write_relocation_section_absent_target :
    exampleAbsentTarget.1.Relocations.map Prod.fst = [1] ∧
    exampleAbsentTarget.1.Sections = [0] ∧
    (∀ p ∈ exampleAbsentTarget.1.Sections, p < exampleAbsentTarget.2.secs.length) ∧
    (∀ entry ∈ exampleAbsentTarget.1.Relocations,
      entry.1 < exampleAbsentTarget.2.secs.length) ∧
    ∃ r, exampleAbsentTarget.1.Write exampleAbsentTarget.2 = .ok r ∧
      r.sections = [0, 2, 3, 4, 5] ∧ 1 ∉ r.sections ∧
      (r.mem.sec 5).Type_ = SHT_REL ∧
      (r.mem.sec 5).Name = [46, 114, 101, 108, 46, 100, 97, 116, 97] ∧
      (r.mem.sec 5).Info = 0xFFFFFFFF ∧
      r.sections[(r.mem.sec 5).Info]? = none :=
  ⟨rfl, rfl, by decide, by decide, exampleAbsentTarget.1.written exampleAbsentTarget.2, rfl,
   by decide, by decide, by decide, by decide, by decide, by decide⟩

end elf

namespace Relocation

/-! ### Regions of pointers: aliasing -/

theorem Heap.get_setOffset (h : Heap) (p x q : Nat) :
    (h.setOffset p x).get q
      = if q = p ∧ p < h.objs.length then { h.get p with offset := x } else h.get q := by
  unfold Heap.setOffset Heap.get
  simp only [List.getD_eq_getElem?_getD, List.getElem?_set]
  by_cases hq : p = q
  · subst hq
    by_cases hl : p < h.objs.length
    · simp [hl]
    · simp [hl, List.getElem?_eq_none (Nat.le_of_not_lt hl)]
  · have : ¬ (q = p ∧ p < h.objs.length) := fun hh => hq hh.1.symm
    simp [hq, this]

theorem Heap.get_setOffset_ne (h : Heap) {p q : Nat} (x : Nat) (hq : q ≠ p) :
    (h.setOffset p x).get q = h.get q := by
  rw [Heap.get_setOffset, if_neg (fun hh => hq hh.1)]

theorem Heap.get_setOffset_self (h : Heap) {p : Nat} (x : Nat) (hp : p < h.objs.length) :
    (h.setOffset p x).get p = { h.get p with offset := x } := by
  rw [Heap.get_setOffset, if_pos ⟨rfl, hp⟩]

theorem Heap.length_setOffset (h : Heap) (p x : Nat) :
    (h.setOffset p x).objs.length = h.objs.length := by
  unfold Heap.setOffset; simp

theorem map_slicesInsert {α β : Type} (f : α → β) (l : List α) (j : Nat) (v : α) :
    (slicesInsert l j v).map f = slicesInsert (l.map f) j (f v) := by
  unfold slicesInsert
  rw [List.map_append, List.map_cons, List.map_take, List.map_drop]

/-- For an object that is not yet in the region, the region of pointers after
the insertion, read through the pointers, is the region of values with the
placed value inserted. -/
theorem view_insert_fresh (h : Heap) (r : PtrRegion) {p : Nat} (j x : Nat)
    (hfresh : p ∉ r.entries) (hlive : p < h.objs.length) :
    ({ r with entries := slicesInsert r.entries j p } : PtrRegion).view (h.setOffset p x)
      = { r.view h with
          entries := slicesInsert (r.view h).entries j { h.get p with offset := x } } := by
  unfold PtrRegion.view
  simp only [Region.mk.injEq, true_and, and_true]
  rw [map_slicesInsert, Heap.get_setOffset_self h x hlive]
  congr 1
  apply List.map_congr_left
  intro q hq
  exact Heap.get_setOffset_ne h x (fun hqp => hfresh (hqp ▸ hq))

/-- The retry loop on a region of pointers, step by step against the loop on
the values: both find the same gap and the same offset; where the loop on the
values stores the placed value, the loop on the pointers writes the offset
through the pointer and stores the pointer. -/
theorem ptrPlaceLoop_sim (h : Heap) (r : PtrRegion) (p lo hi : Nat) (simulate : Bool) :
    ∀ (fuel s : Nat),
      (∀ err, placeLoop (r.view h) (h.get p) lo hi simulate fuel s = .error err →
        ptrPlaceLoop h r p lo hi simulate fuel s = .error err) ∧
      (∀ res, placeLoop (r.view h) (h.get p) lo hi simulate fuel s = .ok res →
        ∃ out, ptrPlaceLoop h r p lo hi simulate fuel s = .ok out ∧
          out.ok = res.ok ∧ out.ret = res.ret ∧
          ((res.ok = false ∨ simulate = true) →
            out.region = r ∧ out.heap = h ∧ res.region = r.view h ∧ res.entry = h.get p) ∧
          (res.ok = true → simulate = false →
            ∃ j x, res.entry = { h.get p with offset := x } ∧
              res.region
                = { r.view h with entries := slicesInsert (r.view h).entries j res.entry } ∧
              out.region = { r with entries := slicesInsert r.entries j p } ∧
              out.heap = h.setOffset p x)) := by
  intro fuel
  induction fuel with
  | zero =>
    intro s
    refine ⟨fun err he => ?_, fun res he => ?_⟩
    · simpa [placeLoop, ptrPlaceLoop] using he
    · simp [placeLoop] at he
  | succ fuel ih =>
    intro s
    rw [placeLoop, ptrPlaceLoop]
    cases hfg : (r.view h).findGap lo hi RegionFindGapModeFirst (toInt64 (h.get p).size) s with
    | error e =>
      simp only
      exact ⟨fun err he => (by cases he; rfl), fun res he => (by cases he)⟩
    | ok v =>
      obtain ⟨b, gs, ge, j⟩ := v
      cases b with
      | false =>
        simp only
        refine ⟨fun err he => (by cases he), fun res he => ?_⟩
        simp only [Except.ok.injEq] at he
        subst he
        exact ⟨_, rfl, rfl, rfl, fun _ => ⟨rfl, rfl, rfl, rfl⟩, fun hh => (by cases hh)⟩
      | true =>
        simp only
        have hd : (r.view h).descending = r.descending := rfl
        rw [hd]
        cases hcalc : calcEntryOffset gs ge (h.get p).size r.descending (h.get p).align with
        | mk cok off =>
          cases cok with
          | false =>
            simp only
            exact ih (j + 1)
          | true =>
            simp only
            cases simulate with
            | true =>
              simp only [if_true]
              refine ⟨fun err he => (by cases he), fun res he => ?_⟩
              simp only [Except.ok.injEq] at he
              subst he
              exact ⟨_, rfl, rfl, rfl, fun _ => ⟨rfl, rfl, rfl, rfl⟩, fun _ hh => (by cases hh)⟩
            | false =>
              simp only [Bool.false_eq_true, if_false]
              refine ⟨fun err he => (by cases he), fun res he => ?_⟩
              simp only [Except.ok.injEq] at he
              subst he
              refine ⟨_, rfl, rfl, rfl, fun hh => ?_, fun _ _ => ⟨j, off, rfl, rfl, rfl, rfl⟩⟩
              rcases hh with hh | hh <;> cases hh

/-- `Place` on a region of pointers against `Place` on the values. -/
theorem ptrPlace_sim (fuel : Nat) (h : Heap) (r : PtrRegion) (p : Nat)
    (rg : Option (List Nat)) (simulate : Bool) :
    (∀ err, (r.view h).Place fuel (h.get p) rg simulate = .error err →
      r.Place fuel h p rg simulate = .error err) ∧
    (∀ res, (r.view h).Place fuel (h.get p) rg simulate = .ok res →
      ∃ out, r.Place fuel h p rg simulate = .ok out ∧
        out.ok = res.ok ∧ out.ret = res.ret ∧
        ((res.ok = false ∨ simulate = true) →
          out.region = r ∧ out.heap = h ∧ res.region = r.view h ∧ res.entry = h.get p) ∧
        (res.ok = true → simulate = false →
          ∃ j x, res.entry = { h.get p with offset := x } ∧
            res.region
              = { r.view h with entries := slicesInsert (r.view h).entries j res.entry } ∧
            out.region = { r with entries := slicesInsert r.entries j p } ∧
            out.heap = h.setOffset p x)) := by
  have hloop := ptrPlaceLoop_sim h r p
  have hfail : ∀ (c : Prop) [Decidable c] (lo hi : Nat),
      (∀ err, (if c then placeLoop (r.view h) (h.get p) lo hi simulate fuel 0
          else .ok { ok := false, ret := 0, region := r.view h, entry := h.get p }) = .error err →
        (if c then ptrPlaceLoop h r p lo hi simulate fuel 0
          else .ok { ok := false, ret := 0, region := r, heap := h }) = .error err) ∧
      (∀ res, (if c then placeLoop (r.view h) (h.get p) lo hi simulate fuel 0
          else .ok { ok := false, ret := 0, region := r.view h, entry := h.get p }) = .ok res →
        ∃ out, (if c then ptrPlaceLoop h r p lo hi simulate fuel 0
            else .ok { ok := false, ret := 0, region := r, heap := h }) = .ok out ∧
          out.ok = res.ok ∧ out.ret = res.ret ∧
          ((res.ok = false ∨ simulate = true) →
            out.region = r ∧ out.heap = h ∧ res.region = r.view h ∧ res.entry = h.get p) ∧
          (res.ok = true → simulate = false →
            ∃ j x, res.entry = { h.get p with offset := x } ∧
              res.region
                = { r.view h with entries := slicesInsert (r.view h).entries j res.entry } ∧
              out.region = { r with entries := slicesInsert r.entries j p } ∧
              out.heap = h.setOffset p x)) := by
    intro c _ lo hi
    by_cases hc : c
    · simp only [if_pos hc]
      exact hloop lo hi simulate fuel 0
    · simp only [if_neg hc]
      refine ⟨fun err he => (by cases he), fun res he => ?_⟩
      simp only [Except.ok.injEq] at he
      subst he
      exact ⟨_, rfl, rfl, rfl, fun _ => ⟨rfl, rfl, rfl, rfl⟩, fun hh => (by cases hh)⟩
  unfold Region.Place PtrRegion.Place
  have ho : (r.view h).offset = r.offset := rfl
  have hs : (r.view h).size = r.size := rfl
  simp only [ho, hs]
  rcases rg with _ | rg
  · exact hfail _ _ _
  · rcases rg with _ | ⟨x, _ | ⟨y, _ | ⟨z, t⟩⟩⟩
    · exact ⟨fun err he => (by cases he; rfl), fun res he => (by cases he)⟩
    · exact hfail _ _ _
    · exact hfail _ _ _
    · exact ⟨fun err he => (by cases he; rfl), fun res he => (by cases he)⟩

theorem slicesInsert_min {α : Type} (l : List α) (j : Nat) (v : α) :
    slicesInsert l j v = slicesInsert l (min j l.length) v := by
  unfold slicesInsert
  by_cases hj : j ≤ l.length
  · rw [Nat.min_eq_left hj]
  · have hl : l.length ≤ j := Nat.le_of_not_le hj
    rw [Nat.min_eq_right hl, List.take_of_length_le hl, List.drop_of_length_le hl,
      List.take_length, List.drop_length]

/-- What a successful `Place` with `simulate = false` does to a region of
pointers, in terms of `Place` on the values: the object gets the offset that
`Place` on the values computes, and its pointer is inserted. -/
theorem ptrPlace_ok {fuel : Nat} {h : Heap} {r : PtrRegion} {p : Nat}
    {rg : Option (List Nat)} {out : PtrPlaceResult}
    (hpl : r.Place fuel h p rg false = .ok out) (hok : out.ok = true) :
    ∃ res j x, (r.view h).Place fuel (h.get p) rg false = .ok res ∧ res.ok = true ∧
      j ≤ r.entries.length ∧ res.entry = { h.get p with offset := x } ∧
      res.region = { r.view h with entries := slicesInsert (r.view h).entries j res.entry } ∧
      out.region = { r with entries := slicesInsert r.entries j p } ∧
      out.heap = h.setOffset p x := by
  obtain ⟨s1, s2⟩ := ptrPlace_sim fuel h r p rg false
  cases hbv : (r.view h).Place fuel (h.get p) rg false with
  | error err => rw [s1 err hbv] at hpl; cases hpl
  | ok res =>
    obtain ⟨out2, ho, hk, -, -, hins⟩ := s2 res hbv
    rw [ho] at hpl
    injection hpl with hpl
    subst hpl
    have hrk : res.ok = true := by rw [← hk]; exact hok
    obtain ⟨j, x, e1, e2, e3, e4⟩ := hins hrk rfl
    have hlen : (r.view h).entries.length = r.entries.length := by
      unfold PtrRegion.view; simp
    refine ⟨res, min j r.entries.length, x, rfl, hrk, Nat.min_le_right _ _, e1, ?_, ?_, e4⟩
    · rw [e2, slicesInsert_min, hlen]
    · rw [e3, slicesInsert_min]

/-- C26 (amended): let the entries of a region `[o, o+n)` with `n < 2^63` and
`o + n < 2^64` be sorted by offset, pairwise disjoint, inside the region and of
size at least 1, let `e` be an object that is not yet an entry of the region,
of a size below `2^63`, let `o + n + alignment ≤ 2^64` when the region is
ascending, and let the offset range be nil, `[x]` with `x + size < 2^64`, or
`[min, max]` with `min ≤ max` and `max + 1 < 2^64`.  Then after a successful
`Place(e, range, false)`, in either direction, the entry list is the old list
with the pointer to `e` inserted at some index, `e` has a new offset and no
other object has changed, the region is otherwise unchanged, the entries are
again sorted by offset, pairwise disjoint and inside the region (and of size
at least 1 when `e` is), and the new offset of `e` is a multiple of its
alignment when the alignment is above 1. -/
theorem ptrPlace_invariant (fuel : Nat) (h : Heap) (r : PtrRegion) (p : Nat)
    (rg : Option (List Nat)) (out : PtrPlaceResult)
    (hfresh : p ∉ r.entries) (hlive : p < h.objs.length)
    (hwf : (r.view h).WellFormed) (hsz : ∀ q ∈ r.entries, 1 ≤ (h.get q).size)
    (hn : r.size < H64) (hhi : r.offset + r.size < M64) (hes : (h.get p).size < H64)
    (hal : r.descending = false → r.offset + r.size + (h.get p).align ≤ M64)
    (hrg : RangeOk (h.get p).size rg)
    (hpl : r.Place fuel h p rg false = .ok out) (hok : out.ok = true) :
    ∃ j x, j ≤ r.entries.length ∧
      out.region = { r with entries := slicesInsert r.entries j p } ∧
      out.heap = h.setOffset p x ∧
      out.heap.get p = { h.get p with offset := x } ∧
      (∀ q, q ≠ p → out.heap.get q = h.get q) ∧
      (out.region.view out.heap).WellFormed ∧
      (1 ≤ (h.get p).size → ∀ q ∈ out.region.entries, 1 ≤ (out.heap.get q).size) ∧
      (1 < (h.get p).align → x % (h.get p).align = 0) := by
  obtain ⟨res, j, x, hbv, hrk, hj, e1, e2, e3, e4⟩ := ptrPlace_ok hpl hok
  have hsz2 : ∀ a ∈ (r.view h).entries, 1 ≤ a.size := by
    intro a ha
    obtain ⟨q, hq, rfl⟩ := List.mem_map.1 ha
    exact hsz q hq
  obtain ⟨-, -, -, -, hwf2, hsz3, hal3⟩ :=
    place_invariant fuel (r.view h) (h.get p) rg res hwf hsz2 hn hhi hes hal hrg hbv hrk
  have hview : out.region.view out.heap = res.region := by
    rw [e3, e4, view_insert_fresh h r j x hfresh hlive, e2, e1]
  have hx : res.entry.offset = x := by rw [e1]
  refine ⟨j, x, hj, e3, e4, ?_, ?_, ?_, ?_, ?_⟩
  · rw [e4]; exact Heap.get_setOffset_self h x hlive
  · intro q hq
    rw [e4]; exact Heap.get_setOffset_ne h x hq
  · rw [hview]; exact hwf2
  · intro h1 q hq
    have : out.heap.get q ∈ (out.region.view out.heap).entries :=
      List.mem_map.2 ⟨q, hq, rfl⟩
    rw [hview] at this
    exact hsz3 h1 _ this
  · intro h1
    rw [← hx]; exact hal3 h1

theorem slicesInsert_perm {α : Type} (l : List α) (j : Nat) (v : α) :
    (slicesInsert l j v).Perm (v :: l) := by
  unfold slicesInsert
  have h1 : (l.take j ++ v :: l.drop j).Perm (v :: (l.take j ++ l.drop j)) :=
    List.perm_middle
  rwa [List.take_append_drop] at h1

theorem mem_slicesInsert {α : Type} {l : List α} {j : Nat} {v a : α} :
    a ∈ slicesInsert l j v ↔ a = v ∨ a ∈ l := by
  rw [(slicesInsert_perm l j v).mem_iff, List.mem_cons]

theorem map_get_setOffset (h : Heap) (p x : Nat) (ps : List Nat) (hp : p ∉ ps) :
    ps.map (h.setOffset p x).get = ps.map h.get := by
  apply List.map_congr_left
  intro q hq
  exact Heap.get_setOffset_ne h x (fun hh => hp (hh ▸ hq))

/-- Placing distinct objects that are not yet in the region, through their
pointers, does what placing their values does: same success, the final entry
list shows the same values, and each object ends with the offset its own
placement gave it. -/
theorem ptrPlaceAll_sim (fuel : Nat) :
    ∀ (ps : List Nat) (h : Heap) (r : PtrRegion), ps.Nodup → (∀ p ∈ ps, p ∉ r.entries) →
      (∀ p ∈ ps, p < h.objs.length) →
      ∀ (r2v : Region) (placed : List Entry),
        placeAll fuel (r.view h) (ps.map h.get) = some (r2v, placed) →
        ∃ r2 h2, ptrPlaceAll fuel h r ps = some (r2, h2) ∧ r2.view h2 = r2v ∧
          ps.map h2.get = placed ∧ (∀ q, q ∉ ps → h2.get q = h.get q) ∧
          r2.entries.Perm (ps.reverse ++ r.entries)
  | [], h, r, _, _, _, r2v, placed, hpl => by
    simp only [List.map_nil, placeAll, Option.some.injEq, Prod.mk.injEq] at hpl
    obtain ⟨rfl, rfl⟩ := hpl
    exact ⟨r, h, rfl, rfl, rfl, fun _ _ => rfl, by simp⟩
  | p :: ps, h, r, hnd, hfresh, hlive, r2v, placed, hpl => by
    obtain ⟨hp, hnd2⟩ := List.nodup_cons.1 hnd
    have hpr : p ∉ r.entries := hfresh p (List.mem_cons_self _ _)
    have hpl0 : p < h.objs.length := hlive p (List.mem_cons_self _ _)
    simp only [List.map_cons, placeAll] at hpl
    obtain ⟨-, s2⟩ := ptrPlace_sim fuel h r p none false
    cases hbv : (r.view h).Place fuel (h.get p) none false with
    | error err => rw [hbv] at hpl; simp at hpl
    | ok res =>
      rw [hbv] at hpl
      simp only at hpl
      by_cases hrk : res.ok = true
      · rw [if_pos hrk] at hpl
        obtain ⟨out, ho, hk, -, -, hins⟩ := s2 res hbv
        obtain ⟨j, x, e1, e2, e3, e4⟩ := hins hrk rfl
        have hview : out.region.view out.heap = res.region := by
          rw [e3, e4, view_insert_fresh h r j x hpr hpl0, e2, e1]
        have hmap : ps.map out.heap.get = ps.map h.get := by
          rw [e4]; exact map_get_setOffset h p x ps hp
        cases hrest : placeAll fuel res.region (ps.map h.get) with
        | none => rw [hrest] at hpl; simp at hpl
        | some pr =>
          obtain ⟨r3, placed2⟩ := pr
          rw [hrest] at hpl
          simp only [Option.some.injEq, Prod.mk.injEq] at hpl
          obtain ⟨rfl, rfl⟩ := hpl
          have hfresh2 : ∀ q ∈ ps, q ∉ out.region.entries := by
            intro q hq hmem
            rw [e3] at hmem
            rcases mem_slicesInsert.1 hmem with rfl | hm
            · exact hp hq
            · exact hfresh q (List.mem_cons_of_mem _ hq) hm
          have hlive2 : ∀ q ∈ ps, q < out.heap.objs.length := by
            intro q hq
            rw [e4, Heap.length_setOffset]
            exact hlive q (List.mem_cons_of_mem _ hq)
          obtain ⟨r2, h2, i1, i2, i3, i4, i5⟩ :=
            ptrPlaceAll_sim fuel ps out.heap out.region hnd2 hfresh2 hlive2 r3 placed2
              (by rw [hview, hmap]; exact hrest)
          have hok : out.ok = true := by rw [hk]; exact hrk
          refine ⟨r2, h2, ?_, i2, ?_, ?_, ?_⟩
          · simp only [ptrPlaceAll, ho, hok, if_true]
            exact i1
          · simp only [List.map_cons, i3, List.cons.injEq, and_true]
            rw [i4 p hp, e4, Heap.get_setOffset_self h x hpl0, e1]
          · intro q hq
            have hq1 : q ≠ p := fun hh => hq (hh ▸ List.mem_cons_self _ _)
            have hq2 : q ∉ ps := fun hh => hq (List.mem_cons_of_mem _ hh)
            rw [i4 q hq2, e4]
            exact Heap.get_setOffset_ne h x hq1
          · refine i5.trans ?_
            rw [e3]
            simp only [List.reverse_cons, List.append_assoc, List.singleton_append]
            exact List.Perm.append_left _ (slicesInsert_perm _ _ _)
      · rw [if_neg hrk] at hpl
        cases hpl

theorem view_new (o n : Nat) (d : Bool) (h : Heap) :
    (NewPtrRegion o n d).view h = NewRegion o n d := rfl

/-- C4 (amended): in an empty ascending region `[o, o+n)` with `n < 2^63` and
`o + n < 2^64`, placing in order distinct objects (no object is listed twice)
of alignment at most 1 and size at least 1 whose sizes sum to at most `n`
succeeds every time, and when all are placed the `k`-th object has the offset
`o` plus the sizes of the objects placed before it; the region holds exactly
these objects and no other object has changed. -/
theorem ptrPlaceAll_ascending_offsets (fuel o n : Nat) (h : Heap) (ps : List Nat)
    (hf : 1 ≤ fuel) (hn : n < H64) (hhi : o + n < M64) (hnd : ps.Nodup)
    (hlive : ∀ p ∈ ps, p < h.objs.length) (hal : ∀ p ∈ ps, (h.get p).align ≤ 1)
    (hsz : ∀ p ∈ ps, 1 ≤ (h.get p).size) (hsum : totalSize (ps.map h.get) ≤ n) :
    ∃ r2 h2, ptrPlaceAll fuel h (NewPtrRegion o n false) ps = some (r2, h2) ∧
      r2.entries.Perm ps ∧
      (∀ (k p : Nat), ps[k]? = some p →
        h2.get p = { h.get p with offset := o + totalSize ((ps.take k).map h.get) }) ∧
      (∀ q, q ∉ ps → h2.get q = h.get q) := by
  obtain ⟨r2v, placed, hpl, -, hoff⟩ :=
    placeAll_ascending_offsets fuel o n (ps.map h.get) hf hn hhi
      (fun e he => by obtain ⟨p, hp, rfl⟩ := List.mem_map.1 he; exact hal p hp)
      (fun e he => by obtain ⟨p, hp, rfl⟩ := List.mem_map.1 he; exact hsz p hp) hsum
  obtain ⟨r2, h2, i1, -, i3, i4, i5⟩ :=
    ptrPlaceAll_sim fuel ps h (NewPtrRegion o n false) hnd (fun _ _ hm => by cases hm) hlive
      r2v placed (by rw [view_new]; exact hpl)
  refine ⟨r2, h2, i1, ?_, ?_, i4⟩
  · have : r2.entries.Perm ps.reverse := by simpa [NewPtrRegion] using i5
    exact this.trans (List.reverse_perm ps)
  · intro k p hk
    have h1 := hoff k (h.get p) (by rw [List.getElem?_map, hk]; rfl)
    rw [← i3, List.getElem?_map, hk] at h1
    simp only [Option.map_some', Option.some.injEq] at h1
    rw [h1, List.map_take]

theorem ptrPlaceAll_ascending_offsets_witness :
    ptrPlaceAll 1 examplePair (NewPtrRegion 0 1000 false) [0, 1]
      = some (⟨0, 1000, [0, 1], false⟩, ⟨[⟨0, 64, 1⟩, ⟨64, 32, 1⟩]⟩) ∧
    ∃ r2 h2, ptrPlaceAll 1 examplePair (NewPtrRegion 0 1000 false) [0, 1] = some (r2, h2) ∧
      r2.entries.Perm [0, 1] ∧
      (∀ (k p : Nat), [0, 1][k]? = some p →
        h2.get p = { examplePair.get p with
          offset := 0 + totalSize (([0, 1].take k).map examplePair.get) }) ∧
      (∀ q, q ∉ [0, 1] → h2.get q = examplePair.get q) :=
  ⟨rfl, ptrPlaceAll_ascending_offsets 1 0 1000 examplePair [0, 1] (by decide) (by decide)
    (by decide) (by decide) (by decide) (by decide) (by decide) (by decide)⟩

/-- C4 as stated fails, in two ways.  (1) In the empty ascending region
`[0, 2^63)` an object of size 1 and alignment 1 is not placed, whatever the
fuel: the size of the only gap is negative as an `int64`.  (2) In the empty
ascending region `[0, 100)`, placing `e, e, e3` (an object `e` of size 10
listed twice, then `e3` of size 5; the sizes sum to 25) succeeds three times
and leaves `e` at offset 10 and `e3` at offset 0, where the claim gives the
offsets 0, 10 and 20: the second `Place` moves the object that the region
already holds, and the gap `[0, 10)` it leaves takes `e3`. -/
theorem ptrPlaceAll_ascending_breaks :
    (totalSize ([0].map (⟨[⟨0, 1, 1⟩]⟩ : Heap).get) ≤ 9223372036854775808 ∧
      ∀ fuel, ptrPlaceAll fuel ⟨[⟨0, 1, 1⟩]⟩ (NewPtrRegion 0 9223372036854775808 false) [0]
        = none) ∧
    (totalSize ([0, 0, 1].map exampleAliasHeap.get) = 25 ∧
      (∀ fuel, ptrPlaceAll (fuel + 2) exampleAliasHeap (NewPtrRegion 0 100 false) [0, 0, 1]
        = some (⟨0, 100, [1, 0, 0], false⟩, ⟨[⟨10, 10, 1⟩, ⟨0, 5, 1⟩]⟩)) ∧
      0 + totalSize (([0, 0, 1].take 0).map exampleAliasHeap.get) = 0 ∧
      0 + totalSize (([0, 0, 1].take 1).map exampleAliasHeap.get) = 10 ∧
      0 + totalSize (([0, 0, 1].take 2).map exampleAliasHeap.get) = 20) := by
  refine ⟨⟨by decide, fun fuel => ?_⟩, by decide, fun fuel => rfl, by decide, by decide,
    by decide⟩
  cases fuel <;> rfl

/-- C5 (amended): in an empty descending region `[o, o+n)` with `n < 2^63`
and `o + n < 2^64`, placing in order distinct objects (no object is listed
twice) of alignment at most 1 and size at least 1 whose sizes sum to at most
`n` succeeds every time, and when all are placed the `k`-th object has the
offset `o + n` minus the sizes of the first `k` objects; the region holds
exactly these objects and no other object has changed. -/
theorem ptrPlaceAll_descending_offsets (fuel o n : Nat) (h : Heap) (ps : List Nat)
    (hf : 1 ≤ fuel) (hn : n < H64) (hhi : o + n < M64) (hnd : ps.Nodup)
    (hlive : ∀ p ∈ ps, p < h.objs.length) (hal : ∀ p ∈ ps, (h.get p).align ≤ 1)
    (hsz : ∀ p ∈ ps, 1 ≤ (h.get p).size) (hsum : totalSize (ps.map h.get) ≤ n) :
    ∃ r2 h2, ptrPlaceAll fuel h (NewPtrRegion o n true) ps = some (r2, h2) ∧
      r2.entries.Perm ps ∧
      (∀ (k p : Nat), ps[k]? = some p →
        h2.get p
          = { h.get p with offset := o + n - totalSize ((ps.take (k + 1)).map h.get) }) ∧
      (∀ q, q ∉ ps → h2.get q = h.get q) := by
  obtain ⟨r2v, placed, hpl, -, hoff⟩ :=
    placeAll_descending_offsets fuel o n (ps.map h.get) hf hn hhi
      (fun e he => by obtain ⟨p, hp, rfl⟩ := List.mem_map.1 he; exact hal p hp)
      (fun e he => by obtain ⟨p, hp, rfl⟩ := List.mem_map.1 he; exact hsz p hp) hsum
  obtain ⟨r2, h2, i1, -, i3, i4, i5⟩ :=
    ptrPlaceAll_sim fuel ps h (NewPtrRegion o n true) hnd (fun _ _ hm => by cases hm) hlive
      r2v placed (by rw [view_new]; exact hpl)
  refine ⟨r2, h2, i1, ?_, ?_, i4⟩
  · have : r2.entries.Perm ps.reverse := by simpa [NewPtrRegion] using i5
    exact this.trans (List.reverse_perm ps)
  · intro k p hk
    have h1 := hoff k (h.get p) (by rw [List.getElem?_map, hk]; rfl)
    rw [← i3, List.getElem?_map, hk] at h1
    simp only [Option.map_some', Option.some.injEq] at h1
    rw [h1, List.map_take]

theorem ptrPlaceAll_descending_offsets_witness :
    ptrPlaceAll 1 examplePair (NewPtrRegion 0 1000 true) [0, 1]
      = some (⟨0, 1000, [1, 0], true⟩, ⟨[⟨936, 64, 1⟩, ⟨904, 32, 1⟩]⟩) ∧
    ∃ r2 h2, ptrPlaceAll 1 examplePair (NewPtrRegion 0 1000 true) [0, 1] = some (r2, h2) ∧
      r2.entries.Perm [0, 1] ∧
      (∀ (k p : Nat), [0, 1][k]? = some p →
        h2.get p = { examplePair.get p with
          offset := 0 + 1000 - totalSize (([0, 1].take (k + 1)).map examplePair.get) }) ∧
      (∀ q, q ∉ [0, 1] → h2.get q = examplePair.get q) :=
  ⟨rfl, ptrPlaceAll_descending_offsets 1 0 1000 examplePair [0, 1] (by decide) (by decide)
    (by decide) (by decide) (by decide) (by decide) (by decide) (by decide)⟩

/-- C5 as stated fails, in two ways.  (1) In the empty descending region
`[0, 2^63)` an object of size 1 and alignment 1 is not placed, whatever the
fuel: the size of the only gap is negative as an `int64`.  (2) In the empty
descending region `[0, 100)`, placing `e, e` (one object of size 10 listed
twice; the sizes sum to 20) succeeds twice and leaves the region with the two
entries `e, e`, both at offset 80, where the claim gives the offsets 90 and
80: the second `Place` moves the object that the region already holds. -/
theorem ptrPlaceAll_descending_breaks :
    (totalSize ([0].map (⟨[⟨0, 1, 1⟩]⟩ : Heap).get) ≤ 9223372036854775808 ∧
      ∀ fuel, ptrPlaceAll fuel ⟨[⟨0, 1, 1⟩]⟩ (NewPtrRegion 0 9223372036854775808 true) [0]
        = none) ∧
    (totalSize ([0, 0].map exampleAliasHeap.get) = 20 ∧
      (∀ fuel, ptrPlaceAll (fuel + 2) exampleAliasHeap (NewPtrRegion 0 100 true) [0, 0]
        = some (⟨0, 100, [0, 0], true⟩, ⟨[⟨80, 10, 1⟩, ⟨0, 5, 1⟩]⟩)) ∧
      0 + 100 - totalSize (([0, 0].take 1).map exampleAliasHeap.get) = 90 ∧
      0 + 100 - totalSize (([0, 0].take 2).map exampleAliasHeap.get) = 80) := by
  refine ⟨⟨by decide, fun fuel => ?_⟩, by decide, fun fuel => rfl, by decide, by decide⟩
  cases fuel <;> rfl

theorem ptrPlace_invariant_witness :
    examplePtrRegion.Place 2 exampleHeap 2 (some [12, 40]) false
      = .ok ⟨true, 0, ⟨0, 100, [0, 2, 1], false⟩,
          ⟨[⟨10, 5, 1⟩, ⟨50, 10, 1⟩, ⟨16, 8, 4⟩]⟩⟩ ∧
    ((⟨0, 100, [0, 2, 1], false⟩ : PtrRegion).view
        ⟨[⟨10, 5, 1⟩, ⟨50, 10, 1⟩, ⟨16, 8, 4⟩]⟩).entries
      = [⟨10, 5, 1⟩, ⟨16, 8, 4⟩, ⟨50, 10, 1⟩] ∧
    ∃ j x, j ≤ examplePtrRegion.entries.length ∧
      (⟨0, 100, [0, 2, 1], false⟩ : PtrRegion)
        = { examplePtrRegion with entries := slicesInsert examplePtrRegion.entries j 2 } ∧
      (⟨[⟨10, 5, 1⟩, ⟨50, 10, 1⟩, ⟨16, 8, 4⟩]⟩ : Heap) = exampleHeap.setOffset 2 x ∧
      (⟨[⟨10, 5, 1⟩, ⟨50, 10, 1⟩, ⟨16, 8, 4⟩]⟩ : Heap).get 2
        = { exampleHeap.get 2 with offset := x } ∧
      (∀ q, q ≠ 2 →
        (⟨[⟨10, 5, 1⟩, ⟨50, 10, 1⟩, ⟨16, 8, 4⟩]⟩ : Heap).get q = exampleHeap.get q) ∧
      ((⟨0, 100, [0, 2, 1], false⟩ : PtrRegion).view
        ⟨[⟨10, 5, 1⟩, ⟨50, 10, 1⟩, ⟨16, 8, 4⟩]⟩).WellFormed ∧
      (1 ≤ (exampleHeap.get 2).size → ∀ q ∈ (⟨0, 100, [0, 2, 1], false⟩ : PtrRegion).entries,
        1 ≤ ((⟨[⟨10, 5, 1⟩, ⟨50, 10, 1⟩, ⟨16, 8, 4⟩]⟩ : Heap).get q).size) ∧
      (1 < (exampleHeap.get 2).align → x % (exampleHeap.get 2).align = 0) :=
  ⟨rfl, rfl,
   ptrPlace_invariant 2 exampleHeap examplePtrRegion 2 (some [12, 40])
     ⟨true, 0, ⟨0, 100, [0, 2, 1], false⟩, ⟨[⟨10, 5, 1⟩, ⟨50, 10, 1⟩, ⟨16, 8, 4⟩]⟩⟩
     (by decide) (by decide) (by decide) (by decide) (by decide) (by decide) (by decide)
     (by decide) ⟨by decide, by decide⟩ rfl rfl⟩

/-- C26 as stated fails, in four ways.  (1) The region `[0, 100)` with the
entries `[5, 8)` and an entry of size 0 at offset 5 is sorted by offset,
pairwise disjoint and inside the region; `Place` of a new object of size 10
and alignment 1 with no offset range succeeds and puts it at offset 5, after
the entry of size 0: `[5, 15)` overlaps `[5, 8)`.  (2) In the empty ascending
region `[2^64 - 32, 2^64 - 2)`, `Place` of an object of size 4 and alignment
64 with no offset range succeeds and puts it at offset 0, outside the region:
rounding the gap start up to the alignment wraps around.  (3) In the empty
ascending region `[100, 200)`, `Place` of an object of size 5 and alignment
64 with the offset range `[2^64 - 10, 50]` succeeds and puts it at offset 0,
outside the region.  (4) In the ascending region `[0, 100)` whose only entry
is the object `e` of size 10 at offset 0, `Place` of `e` itself with no
offset range succeeds: the region then holds the two entries `e, e`, both at
offset 10, which are not disjoint, and the entry that stood at offset 0 has
moved.  In none of the four does an offset plus a size pass `2^64`. -/
theorem ptrPlace_breaks_invariant :
    (((⟨0, 100, [0, 1], false⟩ : PtrRegion).view exampleZeroSizeHeap).WellFormed ∧
      2 ∉ (⟨0, 100, [0, 1], false⟩ : PtrRegion).entries ∧
      (⟨0, 100, [0, 1], false⟩ : PtrRegion).Place 2 exampleZeroSizeHeap 2 none false
        = .ok ⟨true, 0, ⟨0, 100, [0, 1, 2], false⟩, ⟨[⟨5, 3, 1⟩, ⟨5, 0, 1⟩, ⟨5, 10, 1⟩]⟩⟩ ∧
      ¬ ((⟨0, 100, [0, 1, 2], false⟩ : PtrRegion).view
          ⟨[⟨5, 3, 1⟩, ⟨5, 0, 1⟩, ⟨5, 10, 1⟩]⟩).WellFormed) ∧
    (((NewPtrRegion (2 ^ 64 - 32) 30 false).view ⟨[⟨0, 4, 64⟩]⟩).WellFormed ∧
      (NewPtrRegion (2 ^ 64 - 32) 30 false).offset + (NewPtrRegion (2 ^ 64 - 32) 30 false).size
        < 2 ^ 64 ∧
      (NewPtrRegion (2 ^ 64 - 32) 30 false).Place 2 ⟨[⟨0, 4, 64⟩]⟩ 0 none false
        = .ok ⟨true, 2 ^ 64 - 32, ⟨2 ^ 64 - 32, 30, [0], false⟩, ⟨[⟨0, 4, 64⟩]⟩⟩ ∧
      ¬ ((⟨2 ^ 64 - 32, 30, [0], false⟩ : PtrRegion).view ⟨[⟨0, 4, 64⟩]⟩).WellFormed) ∧
    (((NewPtrRegion 100 100 false).view ⟨[⟨0, 5, 64⟩]⟩).WellFormed ∧
      (NewPtrRegion 100 100 false).Place 2 ⟨[⟨0, 5, 64⟩]⟩ 0 (some [2 ^ 64 - 10, 50]) false
        = .ok ⟨true, 100, ⟨100, 100, [0], false⟩, ⟨[⟨0, 5, 64⟩]⟩⟩ ∧
      ¬ ((⟨100, 100, [0], false⟩ : PtrRegion).view ⟨[⟨0, 5, 64⟩]⟩).WellFormed) ∧
    (((⟨0, 100, [0], false⟩ : PtrRegion).view exampleAliasHeap).WellFormed ∧
      ((⟨0, 100, [0], false⟩ : PtrRegion).view exampleAliasHeap).entries = [⟨0, 10, 1⟩] ∧
      0 ∈ (⟨0, 100, [0], false⟩ : PtrRegion).entries ∧
      (⟨0, 100, [0], false⟩ : PtrRegion).Place 2 exampleAliasHeap 0 none false
        = .ok ⟨true, 0, ⟨0, 100, [0, 0], false⟩, ⟨[⟨10, 10, 1⟩, ⟨0, 5, 1⟩]⟩⟩ ∧
      ((⟨0, 100, [0, 0], false⟩ : PtrRegion).view ⟨[⟨10, 10, 1⟩, ⟨0, 5, 1⟩]⟩).entries
        = [⟨10, 10, 1⟩, ⟨10, 10, 1⟩] ∧
      ¬ ((⟨0, 100, [0, 0], false⟩ : PtrRegion).view
          ⟨[⟨10, 10, 1⟩, ⟨0, 5, 1⟩]⟩).WellFormed) :=
  ⟨⟨by decide, by decide, rfl, by decide⟩, ⟨by decide, by decide, rfl, by decide⟩,
   ⟨by decide, rfl, by decide⟩, ⟨by decide, rfl, by decide, rfl, rfl, by decide⟩⟩

end Relocation
